import Mathlib

/-!
# Cipher matchers and dictionary of `playfair_p`

A shallow embedding of the cipher-constraint machines ("matchers") found in
`simple.h`, `chaotic.h` and `playfair.h`, with the key-square search of
`playfair.h`, and of the word registry and the prefix tree of `dict.h`,
together with theorems about them.

Modelling conventions

* `char` values are 7-bit (`Fin 128`): every matcher indexes 128-entry arrays
  with `char_to_size(ch)`, so other characters are outside the arrays.
* `std::array<_, 128>` is a total function on `Chr`; an element assignment is
  `Function.update`.
* `size_t` counters are natural numbers with explicit wrap-around modulo
  `SIZE_MOD = 2 ^ 64`; `uint32_t` values wrap modulo `U32_MOD = 2 ^ 32`.
* A member function that mutates `*this` and returns `bool` becomes a function
  returning `Bool × State`.
* A callback passed to the key-square search is a function of the matrix and
  of the state of the rest of the program, returning its verdict, the matrix
  and the state.
* `calc_score`, computed in floating point, is a parameter of the functions
  that call it.
-/

/-- Characters are 7-bit: the matchers index 128-entry arrays by `char_to_size`. -/
abbrev Chr := Fin 128

/-- A `std::string` over 7-bit characters. -/
abbrev Str := List Chr

/-- Width of `size_t` arithmetic: counters wrap modulo this value. -/
def SIZE_MOD : Nat := 2 ^ 64

/-- Indexing `s[i]` of a `std::string`; `s[s.size()]` is the terminating NUL. -/
def Str.at (s : Str) (i : Nat) : Chr := s.getD i 0

/-- The last character, `s.back()`, of a `std::string`. -/
def Str.back (s : Str) : Chr := s.getD (s.length - 1) 0

/-! ## `simple.h` -/

namespace simple

/-- The class template `Reference<_Symbol>`: a bound symbol and a use counter. -/
structure Reference (σ : Type) where
  symbol : σ
  counter : Nat
deriving DecidableEq, Repr

namespace Reference
variable {σ : Type} [DecidableEq σ]

/-- Embedding of `Reference::is_compatible`. -/
def is_compatible (r : Reference σ) (ch : σ) : Bool :=
  decide (r.counter = 0) || decide (ch = r.symbol)

/-- Embedding of `Reference::inc`: bind the symbol, `_counter++`. -/
def inc (r : Reference σ) (ch : σ) : Reference σ :=
  { symbol := ch, counter := (r.counter + 1) % SIZE_MOD }

/-- Embedding of `Reference::dec`: `_counter--`, the symbol stays. -/
def dec (r : Reference σ) : Reference σ :=
  { symbol := r.symbol, counter := (r.counter + SIZE_MOD - 1) % SIZE_MOD }

/-- Embedding of `Reference::is_null`. -/
def is_null (r : Reference σ) : Bool := decide (r.counter = 0)

end Reference

/-- The class `Simple`: the arrays `_sub` and `_inv`. -/
structure Simple where
  sub : Chr → Reference Chr
  inv : Chr → Reference Chr

/-- The constructor `Simple()`: value-initialised arrays. -/
def Simple.init : Simple :=
  { sub := fun _ => ⟨0, 0⟩, inv := fun _ => ⟨0, 0⟩ }

/-- Embedding of `Simple::push`. -/
def Simple.push (s : Simple) (clear cipher : Str) (ch : Chr) : Bool × Simple :=
  let w := cipher.at clear.length
  let a := (s.sub ch).is_compatible w
  let b := (s.inv w).is_compatible ch
  if a && b then
    (true, { sub := Function.update s.sub ch ((s.sub ch).inc w),
             inv := Function.update s.inv w ((s.inv w).inc ch) })
  else
    (false, s)

/-- Embedding of `Simple::pop`. -/
def Simple.pop (s : Simple) (clear cipher : Str) (ch : Chr) : Simple :=
  let w := cipher.at clear.length
  { sub := Function.update s.sub ch (s.sub ch).dec,
    inv := Function.update s.inv w (s.inv w).dec }

/-- Push the characters of `rest` one after the other, each accepted character
being appended to `clear`; the result is the position of the first rejected
push, or `none` when every push is accepted. -/
def Simple.firstRejected (cipher : Str) : Simple → Str → Str → Option Nat
  | _, _, [] => none
  | s, clear, ch :: rest =>
    if (s.push clear cipher ch).1 then
      Simple.firstRejected cipher (s.push clear cipher ch).2 (clear ++ [ch]) rest
    else
      some clear.length

/-- Embedding of `Bigram::Symbol_Type`. -/
abbrev Symbol_Type := Chr × Chr

/-- The class `Bigram`: the two-dimensional arrays `_sub` and `_inv`. -/
structure Bigram where
  sub : Chr → Chr → Reference Symbol_Type
  inv : Chr → Chr → Reference Symbol_Type

/-- The constructor `Bigram()`. -/
def Bigram.init : Bigram :=
  { sub := fun _ _ => ⟨(0, 0), 0⟩, inv := fun _ _ => ⟨(0, 0), 0⟩ }

/-- Assignment to `t[i][j]` of a two-dimensional array. -/
def update2 {α : Type} (t : Chr → Chr → α) (i j : Chr) (v : α) : Chr → Chr → α :=
  Function.update t i (Function.update (t i) j v)

/-- Embedding of `Bigram::push`. -/
def Bigram.push (s : Bigram) (clear cipher : Str) (ch : Chr) : Bool × Bigram :=
  if clear.length % 2 = 0 then
    (true, s)
  else
    let w1 := cipher.at (clear.length - 1)
    let w2 := cipher.at clear.length
    let a := (s.sub clear.back ch).is_compatible (w1, w2)
    let b := (s.inv w1 w2).is_compatible (clear.back, ch)
    if a && b then
      (true, { sub := update2 s.sub clear.back ch ((s.sub clear.back ch).inc (w1, w2)),
               inv := update2 s.inv w1 w2 ((s.inv w1 w2).inc (clear.back, ch)) })
    else
      (false, s)

/-- Embedding of `Bigram::pop`. -/
def Bigram.pop (s : Bigram) (clear cipher : Str) (ch : Chr) : Bigram :=
  if clear.length % 2 = 1 then
    let w1 := cipher.at (clear.length - 1)
    let w2 := cipher.at clear.length
    { sub := update2 s.sub clear.back ch (s.sub clear.back ch).dec,
      inv := update2 s.inv w1 w2 (s.inv w1 w2).dec }
  else
    s

/-- The class `Pelling`: `_count` and the vectors `_sub`, `_inv` of 128-entry
arrays. -/
structure Pelling where
  count : Nat
  sub : List (Chr → Reference Chr)
  inv : List (Chr → Reference Chr)

/-- The constructor `Pelling(count)`: `count` value-initialised arrays on each
side. -/
def Pelling.init (count : Nat) : Pelling :=
  { count := count,
    sub := List.replicate count (fun _ => ⟨0, 0⟩),
    inv := List.replicate count (fun _ => ⟨0, 0⟩) }

/-- Element `v[i]` of a vector of arrays. -/
def tableAt (v : List (Chr → Reference Chr)) (i : Nat) : Chr → Reference Chr :=
  v.getD i (fun _ => ⟨0, 0⟩)

/-- Embedding of `Pelling::push`. -/
def Pelling.push (s : Pelling) (clear cipher : Str) (ch : Chr) : Bool × Pelling :=
  let i := clear.length % s.count
  let sub := tableAt s.sub i
  let inv := tableAt s.inv i
  let w := cipher.at clear.length
  let a := (sub ch).is_compatible w
  let b := (inv w).is_compatible ch
  if a && b then
    (true, { s with
             sub := s.sub.set i (Function.update sub ch ((sub ch).inc w)),
             inv := s.inv.set i (Function.update inv w ((inv w).inc ch)) })
  else
    (false, s)

/-- Embedding of `Pelling::pop`. -/
def Pelling.pop (s : Pelling) (clear cipher : Str) (ch : Chr) : Pelling :=
  let i := clear.length % s.count
  let sub := tableAt s.sub i
  let inv := tableAt s.inv i
  let w := cipher.at clear.length
  { s with
    sub := s.sub.set i (Function.update sub ch (sub ch).dec),
    inv := s.inv.set i (Function.update inv w (inv w).dec) }

/-- One call made on a matcher by the search. -/
inductive Call where
  | push (clear cipher : Str) (ch : Chr)
  | pop (clear cipher : Str) (ch : Chr)

/-- Run a sequence of calls on a `Pelling` matcher, collecting the results of
the pushes. -/
def Pelling.run : Pelling → List Call → List Bool × Pelling
  | s, [] => ([], s)
  | s, Call.push clear cipher ch :: rest =>
    let r := s.push clear cipher ch
    let t := Pelling.run r.2 rest
    (r.1 :: t.1, t.2)
  | s, Call.pop clear cipher ch :: rest =>
    Pelling.run (s.pop clear cipher ch) rest

/-- The description "k independent Simple matchers keyed by position mod k":
a call at clear length `n` is served by the matcher number `n % k`, the others
are left alone. -/
def bankRun (k : Nat) : List Simple → List Call → List Bool × List Simple
  | bank, [] => ([], bank)
  | bank, Call.push clear cipher ch :: rest =>
    let i := clear.length % k
    let r := (bank.getD i Simple.init).push clear cipher ch
    let t := bankRun k (bank.set i r.2) rest
    (r.1 :: t.1, t.2)
  | bank, Call.pop clear cipher ch :: rest =>
    let i := clear.length % k
    bankRun k (bank.set i ((bank.getD i Simple.init).pop clear cipher ch)) rest

/-- The `Simple` matchers a `Pelling` state stands for: table `i` of `_sub`
paired with table `i` of `_inv`. -/
def Pelling.bank (s : Pelling) : List Simple :=
  List.zipWith Simple.mk s.sub s.inv

end simple

/-! ## `chaotic.h` -/

namespace chaotic

/-- Embedding of `Matrix::EMPTY`. -/
def EMPTY : Chr := 32

/-- The class `Matrix::Reference`. -/
structure Reference where
  symbol : Chr
  counter : Nat
deriving DecidableEq, Repr

namespace Reference

/-- Embedding of `Reference::is_compatible`. -/
def is_compatible (r : Reference) (ch : Chr) : Bool :=
  decide (r.counter = 0) || decide (ch = r.symbol)

/-- Assignment through `symbol()`. -/
def setSymbol (r : Reference) (ch : Chr) : Reference :=
  { r with symbol := ch }

/-- Embedding of `Reference::inc`. -/
def inc (r : Reference) : Reference :=
  { r with counter := (r.counter + 1) % SIZE_MOD }

/-- Embedding of `Reference::dec`. -/
def dec (r : Reference) : Reference :=
  { r with counter := (r.counter + SIZE_MOD - 1) % SIZE_MOD }

/-- Embedding of `Reference::is_null`. -/
def is_null (r : Reference) : Bool := decide (r.counter = 0)

end Reference

/-- The class `Matrix`: the arrays `_next` and `_prev`. -/
structure Matrix where
  next : Chr → Reference
  prev : Chr → Reference

namespace Matrix

/-- The constructor `Matrix()`: every entry is `Reference()`. -/
def init : Matrix :=
  { next := fun _ => ⟨EMPTY, 0⟩, prev := fun _ => ⟨EMPTY, 0⟩ }

/-- Embedding of `std::swap(t[a], t[b])`. -/
def exchange (t : Chr → Reference) (a b : Chr) : Chr → Reference :=
  Function.update (Function.update t a (t b)) b (t a)

/-- Embedding of `Matrix::can_add`. -/
def can_add (m : Matrix) (clear cipher : Chr) : Bool :=
  let a := (m.next clear).is_compatible cipher
  let b := (m.prev cipher).is_compatible clear
  a && b

/-- The first four statements of `Matrix::swap`: the two `std::swap` calls and
the assignments `_prev[a].symbol() = b`, `_next[b].symbol() = a`. -/
def swapEntries (m : Matrix) (a b : Chr) : Matrix :=
  let prev1 := exchange m.prev a b
  let next1 := exchange m.next a b
  { next := Function.update next1 b ((next1 b).setSymbol a),
    prev := Function.update prev1 a ((prev1 a).setSymbol b) }

/-- The statement `if (!_prev[b].is_null()) { ... }` of `Matrix::swap`. -/
def relinkPrev (m : Matrix) (b : Chr) : Matrix :=
  if !(m.prev b).is_null then
    { next := Function.update m.next (m.prev b).symbol
        ((m.next (m.prev b).symbol).setSymbol b),
      prev := m.prev }
  else m

/-- The statement `if (!_next[a].is_null()) { ... }` of `Matrix::swap`. -/
def relinkNext (m : Matrix) (a : Chr) : Matrix :=
  if !(m.next a).is_null then
    { next := m.next,
      prev := Function.update m.prev (m.next a).symbol
        ((m.prev (m.next a).symbol).setSymbol a) }
  else m

/-- Embedding of `Matrix::swap`: its statements in order. -/
def swap (m : Matrix) (a b : Chr) : Matrix :=
  ((m.swapEntries a b).relinkPrev b).relinkNext a

/-- Embedding of `Matrix::inc_refs`. -/
def inc_refs (m : Matrix) (prev next : Chr) : Matrix :=
  { next := Function.update m.next prev (m.next prev).inc,
    prev := Function.update m.prev next (m.prev next).inc }

/-- Embedding of `Matrix::dec_refs`. -/
def dec_refs (m : Matrix) (prev next : Chr) : Matrix :=
  { next := Function.update m.next prev (m.next prev).dec,
    prev := Function.update m.prev next (m.prev next).dec }

/-- Embedding of `Matrix::add`. -/
def add (m : Matrix) (clear cipher : Chr) : Matrix :=
  (m.swap clear cipher).inc_refs cipher clear

/-- Embedding of `Matrix::remove`. -/
def remove (m : Matrix) (clear cipher : Chr) : Matrix :=
  (m.dec_refs cipher clear).swap cipher clear

end Matrix

/-- The class `Chaotic`. -/
structure Chaotic where
  matrix : Matrix

/-- The constructor `Chaotic()`. -/
def Chaotic.init : Chaotic := { matrix := Matrix.init }

/-- Embedding of `Chaotic::push`. -/
def Chaotic.push (s : Chaotic) (clear cipher : Str) (ch : Chr) : Bool × Chaotic :=
  if ch = cipher.at clear.length then
    (false, s)
  else if s.matrix.can_add ch (cipher.at clear.length) then
    (true, { matrix := s.matrix.add ch (cipher.at clear.length) })
  else
    (false, s)

/-- Embedding of `Chaotic::pop`. -/
def Chaotic.pop (s : Chaotic) (clear cipher : Str) (ch : Chr) : Chaotic :=
  { matrix := s.matrix.remove ch (cipher.at clear.length) }

/-- Push the characters of `rest` one after the other, each accepted character
being appended to `clear`; the result is the position of the first rejected
push, or `none` when every push is accepted. -/
def Chaotic.firstRejected (cipher : Str) : Chaotic → Str → Str → Option Nat
  | _, _, [] => none
  | s, clear, ch :: rest =>
    if (s.push clear cipher ch).1 then
      Chaotic.firstRejected cipher (s.push clear cipher ch).2 (clear ++ [ch]) rest
    else
      some clear.length

end chaotic

/-! ## `playfair.h` -/

namespace playfair

/-- The constant `UNSET`. -/
def UNSET : Nat := 255

/-- The constant `MATRIX_SIDE_SIZE`. -/
def MATRIX_SIDE_SIZE : Nat := 5

/-- The constant `MATRIX_SIZE`. -/
def MATRIX_SIZE : Nat := MATRIX_SIDE_SIZE * MATRIX_SIDE_SIZE

/-- Embedding of `Char_Pair`. -/
abbrev Char_Pair := Chr × Chr

/-- Embedding of `cross_equal`. -/
def cross_equal (a b : Char_Pair) : Bool :=
  decide (a.1 = b.2) && decide (a.2 = b.1)

/-- The class `Char_Unit`. -/
structure Char_Unit where
  clear_text : Char_Pair
  cipher_text : Char_Pair
deriving DecidableEq, Repr

namespace Char_Unit

/-- Embedding of `Char_Unit::is_triplet`. -/
def is_triplet (u : Char_Unit) : Bool :=
  decide (u.clear_text.1 = u.cipher_text.2) || decide (u.clear_text.2 = u.cipher_text.1)

/-- Embedding of `Char_Unit::inverse`. -/
def inverse (u : Char_Unit) : Char_Unit :=
  { clear_text := (u.clear_text.2, u.clear_text.1),
    cipher_text := (u.cipher_text.2, u.cipher_text.1) }

/-- Embedding of `Char_Unit::same_line`. -/
def same_line (u that : Char_Unit) : Bool :=
  let b1 := decide (u.cipher_text.1 = u.clear_text.2) &&
    decide (that.cipher_text.1 = that.clear_text.2) &&
    decide (u.cipher_text.2 ≠ u.clear_text.1) && decide (u.cipher_text.2 ≠ u.clear_text.2) &&
    decide (that.clear_text.1 ≠ that.cipher_text.1) &&
    decide (that.clear_text.1 ≠ that.cipher_text.2) &&
    decide (u.cipher_text.2 ≠ that.clear_text.1)
  let b2 := decide (u.cipher_text.1 = that.clear_text.2) &&
    decide (u.cipher_text.1 ≠ u.clear_text.1) && decide (u.cipher_text.1 ≠ u.clear_text.2) &&
    decide (u.cipher_text.2 ≠ u.clear_text.1) && decide (u.cipher_text.2 ≠ u.clear_text.2) &&
    decide (u.cipher_text.2 ≠ u.cipher_text.1) &&
    decide (that.clear_text.1 ≠ that.cipher_text.1) &&
    decide (that.clear_text.1 ≠ that.cipher_text.2) &&
    decide (that.clear_text.1 ≠ that.clear_text.2) &&
    decide (u.cipher_text.2 ≠ that.clear_text.1)
  b1 || b2

/-- Embedding of `Char_Unit::test_same_clear_cipher`. -/
def test_same_clear_cipher (u that : Char_Unit) : Bool :=
  decide (u.cipher_text = that.clear_text) || u.same_line that ||
    u.inverse.same_line that.inverse

/-- Embedding of `Char_Unit::compatible`. -/
def compatible (u that : Char_Unit) : Bool :=
  if u.clear_text = that.clear_text then
    decide (u.cipher_text = that.cipher_text)
  else if u.cipher_text = that.cipher_text then
    false
  else if cross_equal u.clear_text that.clear_text then
    cross_equal u.cipher_text that.cipher_text
  else if cross_equal u.cipher_text that.cipher_text then
    false
  else if u.clear_text = that.cipher_text then
    u.test_same_clear_cipher that
  else if that.clear_text = u.cipher_text then
    that.test_same_clear_cipher u
  else if cross_equal u.clear_text that.cipher_text then
    u.test_same_clear_cipher that.inverse
  else if cross_equal that.clear_text u.cipher_text then
    that.test_same_clear_cipher u.inverse
  else
    true

/-- Embedding of `Char_Unit::same`. -/
def same (u that : Char_Unit) : Bool :=
  (decide (u.clear_text = that.clear_text) && decide (u.cipher_text = that.cipher_text)) ||
    (cross_equal u.clear_text that.clear_text && cross_equal u.cipher_text that.cipher_text)

end Char_Unit

/-- The class `Matrix`: the key square `_val` and its reverse index `_rev`. -/
structure Matrix where
  val : List Chr
  rev : Chr → Nat

/-- Embedding of `Matrix::EMPTY`. -/
def Matrix.EMPTY : Chr := 32

/-- The constructor `Matrix()`: an empty square, every letter unset. -/
def Matrix.init : Matrix :=
  { val := List.replicate MATRIX_SIZE Matrix.EMPTY, rev := fun _ => UNSET }

/-- The data members of the class `Playfair` (the constant `Rules` table
apart). -/
structure Playfair where
  matrix : Matrix
  matrix_creation_point : Nat
  i_clear : Nat
  i_cipher : Nat
  char_freq : Chr → Nat
  char_set : Chr → Bool
  char_unique : Nat
  units_sorted : List Char_Unit
  units : List Char_Unit

/-- The constructor `Playfair(matrix_creation_point)`; `_char_unique`, which
the constructor leaves unset, is taken as 0. -/
def Playfair.init (matrix_creation_point : Nat) : Playfair :=
  { matrix := Matrix.init,
    matrix_creation_point := matrix_creation_point,
    i_clear := 0,
    i_cipher := 0,
    char_freq := fun _ => 0,
    char_set := fun _ => false,
    char_unique := 0,
    units_sorted := [],
    units := [] }

/-- The loop `for (w : _units) if (!w.compatible(u)) return false;` as a
test: every committed unit accepts `u`. -/
def allCompatible (units : List Char_Unit) (u : Char_Unit) : Bool :=
  units.all (fun w => w.compatible u)

/-- Embedding of `Playfair::push`. -/
def Playfair.push (s : Playfair) (clear cipher : Str) (ch : Chr) : Bool × Playfair :=
  if ch = cipher.at clear.length then
    (false, s)
  else if clear.length % 2 = 1 ∧ clear.back = ch then
    (false, s)
  else if clear.length % 2 = 1 then
    let n := clear.length
    let ch1 := clear.at (n - 1)
    let w1 := cipher.at (n - 1)
    let w2 := cipher.at n
    let u : Char_Unit := { clear_text := (ch1, ch), cipher_text := (w1, w2) }
    if cross_equal u.clear_text u.cipher_text then
      (false, s)
    else if allCompatible s.units u then
      (true, { s with units := s.units ++ [u] })
    else
      (false, s)
  else
    (true, s)

/-- Embedding of `Playfair::pop`. -/
def Playfair.pop (s : Playfair) (clear : Str) (_cipher : Str) (_ch : Chr) : Playfair :=
  if clear.length % 2 = 1 then
    { s with units := s.units.dropLast }
  else
    s

end playfair

/-! ## Predicates used by the theorems -/

namespace simple

/-- Positions `k` and `j` agree: the plaintext characters coincide exactly when
the ciphertext characters do. -/
def agree (p c : Str) (k j : Nat) : Prop :=
  p.at k = p.at j ↔ c.at k = c.at j

/-- What the tables hold after the first `n` positions were committed. -/
structure Committed (p c : Str) (s : Simple) (n : Nat) : Prop where
  sub_le : ∀ a, (s.sub a).counter ≤ n
  inv_le : ∀ b, (s.inv b).counter ≤ n
  sub_zero : ∀ a, (s.sub a).counter = 0 ↔ ∀ j, j < n → p.at j ≠ a
  inv_zero : ∀ b, (s.inv b).counter = 0 ↔ ∀ j, j < n → c.at j ≠ b
  sub_sym : ∀ j, j < n → (s.sub (p.at j)).symbol = c.at j
  inv_sym : ∀ j, j < n → (s.inv (c.at j)).symbol = p.at j

/-- A `Pelling` state whose two vectors have `_count` arrays each. -/
def Pelling.wf (s : Pelling) (k : Nat) : Prop :=
  s.count = k ∧ s.sub.length = k ∧ s.inv.length = k

end simple

namespace chaotic

/-- The states reachable from the fresh matcher by accepted pushes and their
matching pops. The list holds the arguments of the accepted pushes that are not
popped yet, the most recent first; its length is the depth of the search, which
a `size_t` can hold. -/
inductive Chaotic.Reach : Chaotic → List (Str × Str × Chr) → Prop
  | init : Chaotic.Reach Chaotic.init []
  | push {s : Chaotic} {st : List (Str × Str × Chr)} (clear cipher : Str) (ch : Chr) :
      Chaotic.Reach s st → st.length + 1 < SIZE_MOD → (s.push clear cipher ch).1 = true →
      Chaotic.Reach (s.push clear cipher ch).2 ((clear, cipher, ch) :: st)
  | pop {s : Chaotic} {st : List (Str × Str × Chr)} (clear cipher : Str) (ch : Chr) :
      Chaotic.Reach s ((clear, cipher, ch) :: st) → Chaotic.Reach (s.pop clear cipher ch) st

/-- The pair (plaintext character, ciphertext character) a call is about. -/
def callPair (a : Str × Str × Chr) : Chr × Chr := (a.2.2, a.2.1.at a.1.length)

namespace Matrix

/-- Bound entries of `_next` and `_prev` point at each other. -/
def Linked (m : Matrix) : Prop :=
  (∀ a, (m.next a).counter ≠ 0 →
    (m.prev (m.next a).symbol).counter ≠ 0 ∧ (m.prev (m.next a).symbol).symbol = a) ∧
  (∀ a, (m.prev a).counter ≠ 0 →
    (m.next (m.prev a).symbol).counter ≠ 0 ∧ (m.next (m.prev a).symbol).symbol = a)

/-- Equality of two entries up to the symbol of an entry whose counter is zero. -/
def similar (r r' : Reference) : Prop :=
  r.counter = r'.counter ∧ (r'.counter ≠ 0 → r.symbol = r'.symbol)

/-- Equality of two matrices up to the symbols of entries whose counter is zero. -/
def Similar (m m' : Matrix) : Prop :=
  ∀ x, similar (m.next x) (m'.next x) ∧ similar (m.prev x) (m'.prev x)

/-- No counter exceeds `n`. -/
def Bounded (m : Matrix) (n : Nat) : Prop :=
  ∀ x, (m.next x).counter ≤ n ∧ (m.prev x).counter ≤ n

/-- The state of a matrix under a stack of accepted and not yet removed pairs,
the most recent first: entries are linked, counters are bounded by the depth
of the stack, and removing the pairs in turn keeps this true. -/
def Stacked : Matrix → List (Chr × Chr) → Prop
  | m, [] => m.Linked ∧ m.Bounded 0
  | m, p :: rest =>
    m.Linked ∧ m.Bounded (rest.length + 1) ∧ p.1 ≠ p.2 ∧ Stacked (m.remove p.1 p.2) rest

end Matrix

end chaotic


/-! ## `dict.h`: the word registry -/

namespace dict

/-- Width of `word_id` and `hits_t` arithmetic (`uint32_t`). -/
def U32_MOD : Nat := 2 ^ 32

/-- The constant `NONE`. -/
def NONE : Nat := 0

/-- The constant `PROPER`. -/
def PROPER : Nat := 1

/-- The constant `COMMA`. -/
def COMMA : Nat := 2

/-- The constant `NUMERIC`. -/
def NUMERIC : Nat := 3

/-- The string "*". -/
def strStar : Str := [42]

/-- The string "<proper>". -/
def strProper : Str := [60, 112, 114, 111, 112, 101, 114, 62]

/-- The string "$". -/
def strComma : Str := [36]

/-- The string "{numeric}". -/
def strNumeric : Str := [123, 110, 117, 109, 101, 114, 105, 99, 125]

/-- Embedding of `is_numeric`: the string starts with a digit. -/
def is_numeric (s : Str) : Bool :=
  match s with
  | [] => false
  | c :: _ => decide (48 ≤ c.val) && decide (c.val ≤ 57)

/-- The class `Word_Id_Map::Bimap`: the vector `_id_to_word` and the map
`_word_to_id`. -/
structure Bimap where
  id_to_word : List Str
  word_to_id : Str → Option Nat

namespace Bimap

/-- The constructor `Bimap()`. -/
def init : Bimap := { id_to_word := [], word_to_id := fun _ => none }

/-- Embedding of `Bimap::size`. -/
def size (b : Bimap) : Nat := b.id_to_word.length

/-- Embedding of `Bimap::word_by_id`; `none` stands for an index outside the
vector. -/
def word_by_id (b : Bimap) (id : Nat) : Option Str := b.id_to_word[id]?

/-- Embedding of `Bimap::add`. -/
def add (b : Bimap) (s : Str) : Nat × Bimap :=
  match b.word_to_id s with
  | none =>
    let n := b.id_to_word.length % U32_MOD
    (n, { id_to_word := b.id_to_word ++ [s],
          word_to_id := Function.update b.word_to_id s (some n) })
  | some n => (n, b)

end Bimap

/-- The class `Word_Id_Map`. -/
structure Word_Id_Map where
  nproper : List Str
  proper : List Str
  numeric : List Str
  bimap_nproper : Bimap
  bimap_proper : Bimap
  bimap_numeric : Bimap
  proper_start : Nat
  numeric_start : Nat

namespace Word_Id_Map

/-- The constructor `Word_Id_Map()`: the four sentinel words take the ids
`NONE`, `PROPER`, `COMMA`, `NUMERIC`. -/
def init : Word_Id_Map :=
  { nproper := [], proper := [], numeric := [],
    bimap_nproper :=
      ((((Bimap.init.add strStar).2.add strProper).2.add strComma).2.add strNumeric).2,
    bimap_proper := Bimap.init,
    bimap_numeric := Bimap.init,
    proper_start := 500000,
    numeric_start := 900000 }

/-- Assignment of the three word sets through `nproper()`, `proper()` and
`numeric()`. -/
def setWords (m : Word_Id_Map) (nproper proper numeric : List Str) : Word_Id_Map :=
  { m with nproper := nproper, proper := proper, numeric := numeric }

/-- Embedding of `Word_Id_Map::add_proper`. -/
def add_proper (m : Word_Id_Map) (s : Str) : Nat × Word_Id_Map :=
  ((m.proper_start + (m.bimap_proper.add s).1) % U32_MOD,
    { m with bimap_proper := (m.bimap_proper.add s).2 })

/-- Embedding of `Word_Id_Map::add_numeric`. -/
def add_numeric (m : Word_Id_Map) (s : Str) : Nat × Word_Id_Map :=
  ((m.numeric_start + (m.bimap_numeric.add s).1) % U32_MOD,
    { m with bimap_numeric := (m.bimap_numeric.add s).2 })

/-- Embedding of `Word_Id_Map::add`. -/
def add (m : Word_Id_Map) (s : Str) : Nat × Word_Id_Map :=
  if s = strComma then
    (COMMA, m)
  else if is_numeric s then
    (NUMERIC, m)
  else if s ∈ m.numeric then
    ((m.numeric_start + (m.bimap_numeric.add s).1) % U32_MOD,
      { m with bimap_numeric := (m.bimap_numeric.add s).2 })
  else if s ∈ m.proper then
    ((m.proper_start + (m.bimap_proper.add s).1) % U32_MOD,
      { m with bimap_proper := (m.bimap_proper.add s).2 })
  else if s ∉ m.nproper then
    (NONE, m)
  else
    ((m.bimap_nproper.add s).1, { m with bimap_nproper := (m.bimap_nproper.add s).2 })

/-- Embedding of `Word_Id_Map::category`. -/
def category (m : Word_Id_Map) (id : Nat) : Nat :=
  if id ≥ m.numeric_start then NUMERIC
  else if id ≥ m.proper_start then PROPER
  else id

/-- Embedding of `Word_Id_Map::word_by_id`; `none` stands for an index outside
the vector of the bucket. -/
def word_by_id (m : Word_Id_Map) (id : Nat) : Option Str :=
  if id = NONE then
    some strStar
  else if id ≥ m.numeric_start then
    (m.bimap_numeric.word_by_id (id - m.numeric_start)).map (fun w => [123] ++ w ++ [125])
  else if id ≥ m.proper_start then
    (m.bimap_proper.word_by_id (id - m.proper_start)).map (fun w => [60] ++ w ++ [62])
  else
    m.bimap_nproper.word_by_id id

end Word_Id_Map

end dict

namespace dict

/-- Every id recorded in `_word_to_id` indexes its word in `_id_to_word`. -/
def Bimap.Sound (b : Bimap) : Prop :=
  ∀ s n, b.word_to_id s = some n → b.id_to_word[n]? = some s

/-- The state of a registry built by the constructor and by `add`, `add_proper`
and `add_numeric`: the bucket offsets are those of the constructor, the three
bimaps are sound and the sentinel words keep the ids `NONE`, `COMMA` and
`NUMERIC`. -/
structure Word_Id_Map.Inv (m : Word_Id_Map) : Prop where
  proper_start : m.proper_start = 500000
  numeric_start : m.numeric_start = 900000
  nproper : m.bimap_nproper.Sound
  proper : m.bimap_proper.Sound
  numeric : m.bimap_numeric.Sound
  star : m.bimap_nproper.id_to_word[0]? = some strStar
  comma : m.bimap_nproper.id_to_word[2]? = some strComma
  numericWord : m.bimap_nproper.id_to_word[3]? = some strNumeric

end dict

/-! ## `playfair.h`: the key square, the `Rules` table and the placement search -/

namespace playfair

/-- Embedding of `Matrix::val(n)`: the character in cell `n`. -/
def Matrix.valAt (m : Matrix) (n : Nat) : Chr := Str.at m.val n

/-- Embedding of `Matrix::add`. -/
def Matrix.add (m : Matrix) (n : Nat) (ch : Chr) : Matrix :=
  { val := m.val.set n ch, rev := Function.update m.rev ch n }

/-- Embedding of `Matrix::remove`. -/
def Matrix.remove (m : Matrix) (n : Nat) (ch : Chr) : Matrix :=
  { val := m.val.set n Matrix.EMPTY, rev := Function.update m.rev ch UNSET }

/-- `Position_List`. -/
abbrev Position_List := List Nat

/-- Embedding of `find_position`. -/
def find_position (positions : Position_List) (pos : Nat) : Bool :=
  decide (pos ∈ positions)

/-- Assignment to `t[i][j]` of a two-dimensional table indexed by cells. -/
def setCell {α : Type} (t : Nat → Nat → α) (i j : Nat) (v : α) : Nat → Nat → α :=
  Function.update t i (Function.update (t i) j v)

/-- Embedding of `push_back` on `t[i]` of a table of position lists. -/
def pushCell (t : Nat → Position_List) (i : Nat) (v : Nat) : Nat → Position_List :=
  Function.update t i (t i ++ [v])

/-- The cells `(na, nb)` that the loop body of the constructor `Rules()`
computes for the cells `a` and `b`: same column, one row down; same row, one
column to the right; otherwise the columns are exchanged. -/
def encrypt (a b : Nat) : Nat × Nat :=
  let ax := a % MATRIX_SIDE_SIZE
  let ay := a / MATRIX_SIDE_SIZE
  let bx := b % MATRIX_SIDE_SIZE
  let by' := b / MATRIX_SIDE_SIZE
  if ax = bx then
    (((ay + 1) % MATRIX_SIDE_SIZE) * MATRIX_SIDE_SIZE + ax,
      ((by' + 1) % MATRIX_SIDE_SIZE) * MATRIX_SIDE_SIZE + bx)
  else if ay = by' then
    (ay * MATRIX_SIDE_SIZE + (ax + 1) % MATRIX_SIDE_SIZE,
      by' * MATRIX_SIDE_SIZE + (bx + 1) % MATRIX_SIDE_SIZE)
  else
    (ay * MATRIX_SIDE_SIZE + bx, by' * MATRIX_SIDE_SIZE + ax)

/-- The class `Rules`: its tables, indexed by cells. -/
structure Rules where
  change : Nat → Nat → Nat × Nat
  rchange : Nat → Nat → Nat × Nat
  self_list : Nat → Position_List
  rself_list : Nat → Position_List
  opp_list : Nat → Position_List
  ropp_list : Nat → Position_List
  none_list : Position_List
  both_list : Nat → Nat → Position_List
  rboth_list : Nat → Nat → Position_List

namespace Rules

/-- The tables before the constructor body runs: zero pairs and empty lists. -/
def blank : Rules :=
  { change := fun _ _ => (0, 0), rchange := fun _ _ => (0, 0),
    self_list := fun _ => [], rself_list := fun _ => [],
    opp_list := fun _ => [], ropp_list := fun _ => [],
    none_list := [],
    both_list := fun _ _ => [], rboth_list := fun _ _ => [] }

/-- The body of the double loop of the constructor `Rules()` for the cells `a`
and `b`. -/
def record (r : Rules) (a b : Nat) : Rules :=
  if a ≠ b then
    let n := encrypt a b
    { change := setCell r.change a b (n.1, n.2),
      rchange := setCell r.rchange n.1 n.2 (a, b),
      both_list := setCell r.both_list a b [n.1],
      rboth_list := setCell r.rboth_list n.1 n.2 [a],
      self_list := pushCell r.self_list a n.1,
      rself_list := pushCell r.rself_list n.1 a,
      opp_list := pushCell r.opp_list b n.1,
      ropp_list := pushCell r.ropp_list n.1 b,
      none_list := r.none_list }
  else r

/-- Embedding of `Rules::make_unique`: `std::sort` followed by `std::unique`. -/
def make_unique (l : Position_List) : Position_List :=
  (l.insertionSort (· ≤ ·)).eraseReps

/-- The double loop of the constructor `Rules()`. -/
def fill (r : Rules) : Rules :=
  (List.range MATRIX_SIZE).foldl
    (fun r a => (List.range MATRIX_SIZE).foldl (fun r b => r.record a b) r) r

/-- The constructor `Rules()`. -/
def init : Rules :=
  let r := fill { blank with none_list := List.range MATRIX_SIZE }
  { r with
    self_list := fun a => make_unique (r.self_list a),
    rself_list := fun a => make_unique (r.rself_list a),
    opp_list := fun a => make_unique (r.opp_list a),
    ropp_list := fun a => make_unique (r.ropp_list a) }

/-- Embedding of `Rules::get_rpositions`. -/
def get_rpositions (r : Rules) (ch1 ch2 : Chr) (m : Matrix) : Position_List :=
  let p1 := m.rev ch1
  let p2 := m.rev ch2
  let b1 := decide (p1 ≠ UNSET)
  let b2 := decide (p2 ≠ UNSET)
  if b1 && b2 then r.rboth_list p1 p2
  else if b1 then r.rself_list p1
  else if b2 then r.ropp_list p2
  else r.none_list

end Rules

/-- The inverse of `encrypt`: same column, one row up; same row, one column to
the left; otherwise the columns are exchanged. -/
def decrypt (a b : Nat) : Nat × Nat :=
  let ax := a % MATRIX_SIDE_SIZE
  let ay := a / MATRIX_SIDE_SIZE
  let bx := b % MATRIX_SIDE_SIZE
  let by' := b / MATRIX_SIDE_SIZE
  if ax = bx then
    (((ay + 4) % MATRIX_SIDE_SIZE) * MATRIX_SIDE_SIZE + ax,
      ((by' + 4) % MATRIX_SIDE_SIZE) * MATRIX_SIDE_SIZE + bx)
  else if ay = by' then
    (ay * MATRIX_SIDE_SIZE + (ax + 4) % MATRIX_SIDE_SIZE,
      by' * MATRIX_SIDE_SIZE + (bx + 4) % MATRIX_SIDE_SIZE)
  else
    (ay * MATRIX_SIDE_SIZE + bx, by' * MATRIX_SIDE_SIZE + ax)

/-- What the tables `_change` and `_rchange` hold once the loop body has run
for the pairs of cells in `M`. -/
def Rules.Filled (r : Rules) (M : Nat → Nat → Prop) : Prop :=
  (∀ a b, M a b → a < 25 ∧ b < 25) ∧
  (∀ a b, M a b → a ≠ b →
    r.change a b = encrypt a b ∧ r.rchange (encrypt a b).1 (encrypt a b).2 = (a, b))

end playfair

namespace playfair

/-- The states of the `Playfair` matcher reachable from a constructed matcher
by pushes and pops. -/
inductive Playfair.Reach : Playfair → Prop
  | init (matrix_creation_point : Nat) : Playfair.Reach (Playfair.init matrix_creation_point)
  | push {s : Playfair} (clear cipher : Str) (ch : Chr) :
      Playfair.Reach s → Playfair.Reach (s.push clear cipher ch).2
  | pop {s : Playfair} (clear cipher : Str) (ch : Chr) :
      Playfair.Reach s → Playfair.Reach (s.pop clear cipher ch)

/-- The unit that `Playfair::push` builds when `clear` has odd length. -/
def pushedUnit (clear cipher : Str) (ch : Chr) : Char_Unit :=
  { clear_text := (clear.at (clear.length - 1), ch),
    cipher_text := (cipher.at (clear.length - 1), cipher.at clear.length) }

/-- Every two committed units are compatible. -/
def Playfair.PairwiseCompatible (units : List Char_Unit) : Prop :=
  ∀ u ∈ units, ∀ v ∈ units, u.compatible v = true

end playfair

namespace playfair

/-- A continuation of the placement search: it is invoked on the matrix, may
act on the rest of the program state `σ`, and returns its verdict together
with the matrix and the state it leaves behind. -/
abbrev Cont (σ : Type) := Matrix → σ → Bool × Matrix × σ

/-- Embedding of `Playfair::set_cipher`. -/
def set_cipher {σ : Type} (rules : Rules) (unit : Char_Unit) (f : Cont σ)
    (m : Matrix) (s : σ) : Bool × Matrix × σ :=
  let p1 := m.rev unit.clear_text.1
  let p2 := m.rev unit.clear_text.2
  let p := rules.change p1 p2
  let e1 := decide (m.valAt p.1 = Matrix.EMPTY) && decide (m.rev unit.cipher_text.1 = UNSET)
  let e2 := decide (m.valAt p.2 = Matrix.EMPTY) && decide (m.rev unit.cipher_text.2 = UNSET)
  if e1 || decide (m.valAt p.1 = unit.cipher_text.1) then
    if e2 || decide (m.valAt p.2 = unit.cipher_text.2) then
      let m1 := if e1 then m.add p.1 unit.cipher_text.1 else m
      let m2 := if e2 then m1.add p.2 unit.cipher_text.2 else m1
      let r := f m2 s
      let m3 := if e1 then r.2.1.remove p.1 unit.cipher_text.1 else r.2.1
      let m4 := if e2 then m3.remove p.2 unit.cipher_text.2 else m3
      (r.1, m4, r.2.2)
    else (false, m, s)
  else (false, m, s)

/-- The loop `for (size_t p : positions)` of `Playfair::set_clear`. -/
def set_clear_loop {σ : Type} (ch : Chr) (f : Cont σ) :
    Position_List → Matrix → σ → Bool × Matrix × σ
  | [], m, s => (false, m, s)
  | p :: ps, m, s =>
    if m.valAt p = Matrix.EMPTY then
      let r := f (m.add p ch) s
      let m1 := r.2.1.remove p ch
      if r.1 then (true, m1, r.2.2)
      else set_clear_loop ch f ps m1 r.2.2
    else set_clear_loop ch f ps m s

/-- Embedding of `Playfair::set_clear`. -/
def set_clear {σ : Type} (rules : Rules) (unit : Char_Unit) (even : Bool) (f : Cont σ)
    (m : Matrix) (s : σ) : Bool × Matrix × σ :=
  let positions :=
    if even then rules.get_rpositions unit.cipher_text.1 unit.cipher_text.2 m
    else rules.get_rpositions unit.cipher_text.2 unit.cipher_text.1 m
  let ch := if even then unit.clear_text.1 else unit.clear_text.2
  if m.rev ch = UNSET then
    set_clear_loop ch f positions m s
  else if find_position positions (m.rev ch) then
    f m s
  else (false, m, s)

/-- Embedding of `Playfair::_process_set`; the list holds the units from index
`i_unit` on. -/
def _process_set {σ : Type} (rules : Rules) (f : Cont σ) :
    List Char_Unit → Matrix → σ → Bool × Matrix × σ
  | [], m, s => f m s
  | u :: rest, m, s =>
    set_clear rules u true
      (fun m s => set_clear rules u false
        (fun m s => set_cipher rules u
          (fun m s => _process_set rules f rest m s) m s) m s) m s

/-- The first plaintext letter of `_units[0]`. -/
def firstLetter (units : List Char_Unit) : Chr :=
  match units with
  | [] => 0
  | u :: _ => u.clear_text.1

/-- Embedding of `Playfair::process_set`. -/
def process_set {σ : Type} (rules : Rules) (units : List Char_Unit) (f : Cont σ)
    (m : Matrix) (s : σ) : Bool × Matrix × σ :=
  let r := _process_set rules f units (m.add 0 (firstLetter units)) s
  (r.1, r.2.1.remove 0 (firstLetter units), r.2.2)

/-- The matrix encrypts the unit: its four letters are placed, each in the cell
that holds it, and `change` sends the cells of the plaintext letters to the
cells of the ciphertext letters. -/
def Encrypts (rules : Rules) (m : Matrix) (u : Char_Unit) : Prop :=
  (m.rev u.clear_text.1 ≠ UNSET ∧ m.valAt (m.rev u.clear_text.1) = u.clear_text.1) ∧
  (m.rev u.clear_text.2 ≠ UNSET ∧ m.valAt (m.rev u.clear_text.2) = u.clear_text.2) ∧
  (m.rev u.cipher_text.1 ≠ UNSET ∧ m.valAt (m.rev u.cipher_text.1) = u.cipher_text.1) ∧
  (m.rev u.cipher_text.2 ≠ UNSET ∧ m.valAt (m.rev u.cipher_text.2) = u.cipher_text.2) ∧
  rules.change (m.rev u.clear_text.1) (m.rev u.clear_text.2)
    = (m.rev u.cipher_text.1, m.rev u.cipher_text.2)

instance (rules : Rules) (m : Matrix) (u : Char_Unit) : Decidable (Encrypts rules m u) := by
  unfold Encrypts; infer_instance

/-- A continuation that leaves the matrix as it found it, records the matrix
it was invoked on and answers with `verdict`, which sees the matrix and the
matrices recorded before. -/
def recorder (verdict : Matrix → List Matrix → Bool) : Cont (List Matrix) :=
  fun m s => (verdict m s, m, m :: s)

/-- Two units whose ciphertext pairs end in the blank. -/
def blankUnits : List Char_Unit :=
  [{ clear_text := (97, 98), cipher_text := (98, 32) },
   { clear_text := (99, 100), cipher_text := (100, 32) }]

end playfair

namespace playfair

/-- The square and its reverse index agree: a placed letter sits in the cell the
index names, a filled cell is indexed by its letter, the square has 25 cells
and the blank is never placed. -/
structure Matrix.Consistent (m : Matrix) : Prop where
  rev_val : ∀ ch, m.rev ch ≠ UNSET → m.rev ch < 25 ∧ m.valAt (m.rev ch) = ch
  val_rev : ∀ p, p < 25 → m.valAt p ≠ Matrix.EMPTY → m.rev (m.valAt p) = p
  size : m.val.length = 25
  blank : m.rev Matrix.EMPTY = UNSET

/-- Every letter placed in `m` has the same cell in `m2`. -/
def Matrix.Extends (m m2 : Matrix) : Prop :=
  ∀ ch, m.rev ch ≠ UNSET → m2.rev ch = m.rev ch

/-- The two letters of each pair of the unit differ and none is the blank. -/
def Char_Unit.Proper (u : Char_Unit) : Prop :=
  u.clear_text.1 ≠ u.clear_text.2 ∧ u.cipher_text.1 ≠ u.cipher_text.2 ∧
  u.clear_text.1 ≠ Matrix.EMPTY ∧ u.clear_text.2 ≠ Matrix.EMPTY ∧
  u.cipher_text.1 ≠ Matrix.EMPTY ∧ u.cipher_text.2 ≠ Matrix.EMPTY

instance (u : Char_Unit) : Decidable u.Proper := by
  unfold Char_Unit.Proper; infer_instance

/-- The continuation `g`, invoked on a matrix that satisfies `P` in a state
that satisfies `I`, leaves the matrix as it found it and a state that
satisfies `I`. -/
def Safe {σ : Type} (I : σ → Prop) (P : Matrix → Prop) (g : Cont σ) : Prop :=
  ∀ m s, P m → I s → (g m s).2.1 = m ∧ I (g m s).2.2

/-- The matrix is consistent and encrypts the units placed so far. -/
def Placed (rules : Rules) (done : List Char_Unit) (m : Matrix) : Prop :=
  m.Consistent ∧ ∀ u ∈ done, Encrypts rules m u

/-- What `set_cipher` needs of the table `_change`: distinct cells of the
square go to distinct cells of the square. -/
def Rules.Closed (rules : Rules) : Prop :=
  ∀ a b, a < 25 → b < 25 → a ≠ b →
    (rules.change a b).1 < 25 ∧ (rules.change a b).2 < 25 ∧
    (rules.change a b).1 ≠ (rules.change a b).2

end playfair

namespace dict

/-- Embedding of `INF_SCORE`, the largest `small_score_t`. -/
def INF_SCORE : Int := 32767

/-- Embedding of `Prefix_Tree::Score_Values`. -/
structure Score_Values where
  score : Int
  min_score : Int
deriving DecidableEq, Repr

/-- Embedding of the class `Prefix_Tree`. The array `_next_char`, of which the
code visits the first `_size` nodes, is the list `next_char`, and `_size` is
its length. The anonymous union of `_hits` and `_primary` is the field `store`;
its type says which member is in use: `Nat` for `_hits` while the tree is
built, `Score_Values` for `_primary` once it is scored. -/
inductive Prefix_Tree (α : Type) where
  | mk (word : Nat) (symbol : Chr) (store : α) (next_char : List (Prefix_Tree α))

namespace Prefix_Tree
variable {α : Type}

/-- Embedding of `Prefix_Tree::EMPTY`. -/
def EMPTY : Chr := 32

/-- The number of values of the bit-field `_word : 20`. -/
def WORD_MOD : Nat := 2 ^ 20

/-- The number of values of the bit-field `_size : 5`. -/
def SIZE_FIELD_MOD : Nat := 2 ^ 5

/-- Embedding of `Prefix_Tree::word`. -/
def word : Prefix_Tree α → Nat
  | mk w _ _ _ => w

/-- Embedding of `Prefix_Tree::symbol`. -/
def symbol : Prefix_Tree α → Chr
  | mk _ s _ _ => s

/-- The union of `_hits` and `_primary`. -/
def store : Prefix_Tree α → α
  | mk _ _ v _ => v

/-- The nodes `_next_char[0]` to `_next_char[_size - 1]`. -/
def next_char : Prefix_Tree α → List (Prefix_Tree α)
  | mk _ _ _ nc => nc

/-- Embedding of `Prefix_Tree::hits`. -/
def hits (t : Prefix_Tree Nat) : Nat := t.store

/-- Embedding of `Prefix_Tree::score`. -/
def score (t : Prefix_Tree Score_Values) : Int := t.store.score

/-- Embedding of `Prefix_Tree::min_score`. -/
def min_score (t : Prefix_Tree Score_Values) : Int := t.store.min_score

/-- Embedding of `Prefix_Tree::is_word`. -/
def is_word (t : Prefix_Tree α) : Bool := decide (t.word ≠ NONE)

/-- The constructor `Prefix_Tree(char symbol)`; a `Chr` has no bit for the mask
`(1 << 7) - 1` to clear. -/
def new (symbol : Chr) : Prefix_Tree Nat := mk NONE symbol 0 []

/-- The constructor `Prefix_Tree()`. -/
def init : Prefix_Tree Nat := new EMPTY

/-- Embedding of `Prefix_Tree::find_sub_tree`. -/
def find_sub_tree (t : Prefix_Tree α) (ch : Chr) : Option (Prefix_Tree α) :=
  t.next_char.find? (fun c => decide (c.symbol = ch))

/-- Embedding of `Prefix_Tree::find`; `none` is the null pointer. -/
def find : Prefix_Tree α → Str → Option (Prefix_Tree α)
  | t, [] => some t
  | t, ch :: s =>
    match t.next_char.find? (fun c => decide (c.symbol = ch)) with
    | some c => find c s
    | none => none

/-- The first loop of `Prefix_Tree::add_hits`: the first node with the symbol
`ch` is replaced by what `g` makes of it; `none` when no node has the symbol. -/
def add_hits_loop (g : Prefix_Tree Nat → Prefix_Tree Nat) (ch : Chr) :
    List (Prefix_Tree Nat) → Option (List (Prefix_Tree Nat))
  | [] => none
  | c :: rest =>
    if c.symbol = ch then some (g c :: rest)
    else (add_hits_loop g ch rest).map (fun r => c :: r)

/-- Embedding of `Prefix_Tree::add_hits`. When no node has the symbol, the new
array holds the old nodes and the new one, and `_size++` is taken in the five
bits of the field, so that the code visits the first `(_size + 1) mod 32`
nodes from then on. -/
def add_hits : Prefix_Tree Nat → Str → Nat → Nat → Prefix_Tree Nat
  | mk _ sym hits nc, [], id, h => mk (id % WORD_MOD) sym ((hits + h) % U32_MOD) nc
  | mk w sym hits nc, ch :: s, id, h =>
    match add_hits_loop (fun c => add_hits c s id h) ch nc with
    | some nc2 => mk w sym hits nc2
    | none =>
      mk w sym hits
        ((nc ++ [add_hits (new ch) s id h]).take ((nc.length + 1) % SIZE_FIELD_MOD))

/-- Embedding of `Prefix_Tree::sort_chars`: `std::sort` by `_symbol`. Nodes with
equal symbols, whose order `std::sort` leaves open, keep their order. -/
def sort_chars (l : List (Prefix_Tree α)) : List (Prefix_Tree α) :=
  l.insertionSort (fun a b => a.symbol ≤ b.symbol)

mutual
/-- Embedding of `Prefix_Tree::calc_scores(l, max_hits)` as it acts on the
tree; the totals it returns do not enter the tree and are left out, and with
them the depth `l`. The function `calc_score`, computed in floating point, is
a parameter. -/
def calc_scores (calc_score : Nat → Nat → Int) (max_hits : Nat) :
    Prefix_Tree Nat → Prefix_Tree Score_Values
  | mk w sym hits nc =>
    let score := if w ≠ NONE then calc_score hits max_hits else INF_SCORE
    let kids := calc_scores_loop calc_score max_hits nc
    mk w sym ⟨score, kids.foldl (fun m c => min m c.store.min_score) score⟩ (sort_chars kids)
/-- The recursive calls of the loop of `calc_scores`. -/
def calc_scores_loop (calc_score : Nat → Nat → Int) (max_hits : Nat) :
    List (Prefix_Tree Nat) → List (Prefix_Tree Score_Values)
  | [] => []
  | c :: rest => calc_scores calc_score max_hits c :: calc_scores_loop calc_score max_hits rest
end

mutual
/-- Scoring without the call of `sort_chars`: `calc_scores` with the nodes
left in the order in which they were added. -/
def calc_scores_unsorted (calc_score : Nat → Nat → Int) (max_hits : Nat) :
    Prefix_Tree Nat → Prefix_Tree Score_Values
  | mk w sym hits nc =>
    let score := if w ≠ NONE then calc_score hits max_hits else INF_SCORE
    let kids := calc_scores_unsorted_loop calc_score max_hits nc
    mk w sym ⟨score, kids.foldl (fun m c => min m c.store.min_score) score⟩ kids
/-- The recursive calls of the loop of `calc_scores_unsorted`. -/
def calc_scores_unsorted_loop (calc_score : Nat → Nat → Int) (max_hits : Nat) :
    List (Prefix_Tree Nat) → List (Prefix_Tree Score_Values)
  | [] => []
  | c :: rest =>
    calc_scores_unsorted calc_score max_hits c ::
      calc_scores_unsorted_loop calc_score max_hits rest
end

mutual
/-- The nodes of the tree: the node itself and the nodes below it. -/
def nodes : Prefix_Tree α → List (Prefix_Tree α)
  | mk w sym v nc => mk w sym v nc :: nodes_list nc
/-- The nodes of the trees of a list. -/
def nodes_list : List (Prefix_Tree α) → List (Prefix_Tree α)
  | [] => []
  | c :: rest => nodes c ++ nodes_list rest
end

/-- The hits recorded for the path `s`, zero when the tree has no such path. -/
def hits_at (t : Prefix_Tree Nat) (s : Str) : Nat :=
  match t.find s with
  | some n => n.hits
  | none => 0

/-- No node of the tree has 31 nodes or more below it, so that one more still
fits the field `_size`. -/
def Narrow (t : Prefix_Tree α) : Prop :=
  ∀ n ∈ nodes t, n.next_char.length < 31

/-- The nodes below each node of the tree have distinct symbols. -/
def Distinct (t : Prefix_Tree α) : Prop :=
  ∀ n ∈ nodes t, (n.next_char.map symbol).Nodup

/-- What `calc_scores` leaves at a node `n`: `_min_score` is a lower bound of
the scores of the words at and below `n`, it is `INF_SCORE` or the score of
one of them, no score exceeds `INF_SCORE`, and a node that is no word has the
score `INF_SCORE`. -/
def MinScored (n : Prefix_Tree Score_Values) : Prop :=
  (∀ x ∈ nodes n, x.is_word = true → n.min_score ≤ x.score) ∧
  (n.min_score = INF_SCORE ∨ ∃ x ∈ nodes n, x.is_word = true ∧ x.score = n.min_score) ∧
  (∀ x ∈ nodes n, x.score ≤ INF_SCORE) ∧
  (n.is_word = false → n.score = INF_SCORE)

/-- The trees built by `add_hits` from the empty root. -/
inductive Built : Prefix_Tree Nat → Prop where
  | init : Built init
  | add_hits (t : Prefix_Tree Nat) (s : Str) (id h : Nat) :
    Built t → Built (t.add_hits s id h)

/-- The tree built from the root by adding one hit for each word of the list,
the word at index `i` under the id `i + 1`. -/
def ofWords (words : List Str) : Prefix_Tree Nat :=
  (List.range words.length).foldl (fun t i => t.add_hits (words.getD i []) (i + 1) 1) init

/-- The 31 one-letter words of the letters with the codes 97 to 127. -/
def wideWords : List Str :=
  (List.range 31).map (fun i => [Fin.ofNat (97 + i)])

instance (t : Prefix_Tree α) : Decidable t.Narrow := by
  unfold Narrow; infer_instance

end Prefix_Tree

end dict


namespace main_cpp

/-- The value of the integer `x` as an `int64_t` (`score_t`), two's complement. -/
def wrap64 (x : Int) : Int := (x + 2 ^ 63) % 2 ^ 64 - 2 ^ 63

/-- The integer `x` is a value of `int64_t`. -/
def InRange64 (x : Int) : Prop := -(2 ^ 63) ≤ x ∧ x < 2 ^ 63

instance (x : Int) : Decidable (InRange64 x) := by
  unfold InRange64; infer_instance

/-- The members of `Result` read by `Search::acceptable`. -/
structure Limits where
  low_score_area : Nat
  low_score_limit : Int
  high_score_limit : Int
deriving DecidableEq, Repr

/-- The members of `Search` read by `Search::acceptable`: the limits of
`_result`, the plaintext `_clear` and the three running scores. -/
structure Search where
  result : Limits
  clear : Str
  score : Int
  score_category : Int
  score_other : Int
deriving DecidableEq, Repr

/-- Embedding of `Search::acceptable`. The sums and products are those of
`score_t`, the casts `static_cast<score_t>` of a `size_t` are `wrap64`; the
difference of the two sizes is taken where the first is the larger one; the
result is the `bool` converted to `score_t`. -/
def Search.acceptable (s : Search) (word_score : Int) : Int :=
  let current := wrap64 (wrap64 (s.score + s.score_category) + max s.score_other word_score)
  let base := wrap64 (s.result.low_score_limit * wrap64 (s.result.low_score_area : Int))
  if s.clear.length ≤ s.result.low_score_area then
    if current ≤ base then 1 else 0
  else
    let tail := wrap64 (s.result.high_score_limit *
      wrap64 ((s.clear.length - s.result.low_score_area : Nat) : Int))
    if current ≤ wrap64 (base + tail) then 1 else 0

/-- The alphabet `_letters` of `Queue`: "taioswcbphfmdrelngyukvqxz". -/
def Queue.letters : Str :=
  [116, 97, 105, 111, 115, 119, 99, 98, 112, 104, 102, 109, 100, 114, 101, 108, 110, 103, 121,
   117, 107, 118, 113, 120, 122]

/-- Embedding of `Queue::add`, acting on `_list`. -/
def Queue.add : Nat → Str → List Str → List Str
  | 0, s, list => list ++ [s]
  | n + 1, s, list => Queue.letters.foldl (fun l ch => Queue.add n (s ++ [ch]) l) list

/-- Embedding of the class `Queue`: the position `_pos` and the vector `_list`;
`_letters` is the constant `Queue.letters`. -/
structure Queue where
  pos : Nat
  list : List Str
deriving DecidableEq, Repr

/-- The constructor `Queue(depth, result)`. -/
def Queue.init (depth : Nat) : Queue :=
  { pos := 0, list := Queue.add depth [] [] }

/-- Embedding of `Queue::pop`: the string returned and the queue afterwards.
The call of `print_state`, which writes a progress line, is left out, and
with it the argument `n`. -/
def Queue.pop (q : Queue) : Str × Queue :=
  if q.pos < q.list.length then
    (q.list.getD q.pos [], { q with pos := (q.pos + 1) % SIZE_MOD })
  else ([], q)

/-- The queue after `k` calls of `pop`. -/
def Queue.pops : Nat → Queue → Queue
  | 0, q => q
  | k + 1, q => Queue.pops k q.pop.2

/-- The place of a character in the alphabet of the queue. -/
def Queue.rank (c : Chr) : Nat := Queue.letters.indexOf c

/-- All sequences of `n` characters of the alphabet of the queue, the first
character varying slowest. -/
def Queue.sequences : Nat → List Str
  | 0 => [[]]
  | n + 1 => Queue.letters.flatMap (fun ch => (Queue.sequences n).map (fun w => ch :: w))

end main_cpp

namespace main_cpp

/-- Embedding of `MAX_CURRENT_PRINT`. -/
def MAX_CURRENT_PRINT : Nat := 20

/-- Embedding of `MAX_FINAL_PRINT`. -/
def MAX_FINAL_PRINT : Nat := 5000

/-- Embedding of the class `Word`. -/
structure Word where
  id : Nat
  score : Int
  category : Int
  other : Int
deriving DecidableEq, Repr

/-- Embedding of `Word::operator<`. -/
def Word.lt (a b : Word) : Bool :=
  if a.id < b.id then true
  else if a.id > b.id then false
  else if a.score < b.score then true
  else if a.score > b.score then false
  else if a.category < b.category then true
  else if a.category > b.category then false
  else decide (a.other < b.other)

/-- Embedding of `Word_List`. -/
abbrev Word_List := List Word

/-- The comparison `operator<` of two vectors of words, which is
`std::lexicographical_compare` with `Word::operator<`; it orders the sets of
`Result_List`. -/
def Word_List.lt : Word_List → Word_List → Bool
  | [], [] => false
  | [], _ :: _ => true
  | _ :: _, [] => false
  | a :: l1, b :: l2 =>
    if a.lt b then true
    else if b.lt a then false
    else Word_List.lt l1 l2

/-- A `std::set<Word_List>`: its elements in the order of iteration. -/
abbrev Word_List_Set := List Word_List

/-- Embedding of `std::set<Word_List>::insert`: the set afterwards and the flag
`second` of the result, which says whether the element was inserted. Two
elements are taken for equal if neither is less than the other. -/
def Word_List_Set.insert (x : Word_List) : Word_List_Set → Word_List_Set × Bool
  | [] => ([x], true)
  | y :: ys =>
    if Word_List.lt x y then (x :: y :: ys, true)
    else if Word_List.lt y x then
      ((y :: (Word_List_Set.insert x ys).1), (Word_List_Set.insert x ys).2)
    else (y :: ys, false)

/-- Embedding of `Result::Result_List`, a `std::map` from scores to sets: its
entries in the order of iteration. -/
abbrev Result_List := List (Int × Word_List_Set)

/-- The set stored under the score `score`, empty when the map has no such
key. -/
def Result_List.bucket (score : Int) : Result_List → Word_List_Set
  | [] => []
  | (k, b) :: rest => if k = score then b else Result_List.bucket score rest

/-- Embedding of `list[score].insert(words)`: `operator[]` finds the entry of
the key or creates one with an empty set at its place in the order of the
keys, and the vector of words is inserted in that set. -/
def Result_List.insert (score : Int) (words : Word_List) : Result_List → Result_List × Bool
  | [] => ([(score, (Word_List_Set.insert words []).1)], (Word_List_Set.insert words []).2)
  | (k, b) :: rest =>
    if score < k then
      ((score, (Word_List_Set.insert words []).1) :: (k, b) :: rest,
        (Word_List_Set.insert words []).2)
    else if k < score then
      ((k, b) :: (Result_List.insert score words rest).1, (Result_List.insert score words rest).2)
    else ((k, (Word_List_Set.insert words b).1) :: rest, (Word_List_Set.insert words b).2)

/-- Embedding of `Result::last_printed`. -/
def last_printed (list : Result_List) (final : Bool) : Int :=
  let max_print := if final then MAX_FINAL_PRINT else MAX_CURRENT_PRINT
  (list.foldl (fun (st : Nat × Int) bs =>
    if st.1 < max_print then ((st.1 + bs.2.length) % SIZE_MOD, bs.1) else st) (0, 0)).2

/-- Embedding of `Result::add_to_list` as it acts on the list; what it writes to
the standard output is left out. -/
def add_to_list (list : Result_List) (score : Int) (words : Word_List) : Result_List :=
  (Result_List.insert score words list).1

/-- The first loop of `Result::print_result_list`: the counters `printed` and
`total`. -/
def count_printed (max_print : Nat) (list : Result_List) : Nat × Nat :=
  list.foldl (fun (st : Nat × Nat) bs =>
    ((if st.1 < max_print then (st.1 + bs.2.length) % SIZE_MOD else st.1),
      (st.2 + bs.2.length) % SIZE_MOD)) (0, 0)

/-- The last loop of `Result::print_result_list`: the entries written, each with
its score, in the order in which they are written; `p` counts the entries of
the sets passed so far. -/
def print_entries (printed : Nat) : Nat → Result_List → List (Int × Word_List)
  | _, [] => []
  | p, bs :: rest =>
    if p < printed then
      bs.2.map (fun wl => (bs.1, wl)) ++
        print_entries printed ((p + bs.2.length) % SIZE_MOD) rest
    else []

/-- Embedding of `Result::print_result_list`: the number `printed` written in
the heading, the number `total`, and the entries written below the heading. -/
def print_result_list (list : Result_List) (final : Bool) :
    Nat × Nat × List (Int × Word_List) :=
  let max_print := if final then MAX_FINAL_PRINT else MAX_CURRENT_PRINT
  let c := count_printed max_print list
  (c.1, c.2, print_entries c.1 0 list)

/-- The map invariant of a `Result_List`: the keys increase strictly and every
set increases strictly in the order of its elements. -/
def Result_List.Ordered (l : Result_List) : Prop :=
  l.Pairwise (fun a b => a.1 < b.1) ∧
  ∀ kb ∈ l, kb.2.Pairwise (fun x y => Word_List.lt x y = true)

/-- The number of elements of the sets of the first `k` entries. -/
def Result_List.count (l : Result_List) (k : Nat) : Nat :=
  ((l.take k).map (fun bs => bs.2.length)).sum

/-- A list with one score and the `n` one-word sequences of the words with the
ids `0` to `n - 1`. -/
def crowded (n : Nat) : Result_List :=
  (List.range n).foldl (fun l i => add_to_list l 0 [⟨i, 0, 0, 0⟩]) []

end main_cpp

namespace dict

/-- Embedding of `Word_Id_List`: the words of an n-gram, oldest first, each with
its id. -/
abbrev Word_Id_List := List (Str × Nat)

/-- Embedding of the class `Word_Ngram_Tree`. The map `*_next`, an
`unordered_map` from word ids to trees, is the list of its entries, and the
null pointer is `none`; the prefix tree is unscored, as it is while n-grams
are added. -/
inductive Word_Ngram_Tree where
  | mk (next : Option (List (Nat × Word_Ngram_Tree))) (tree : Prefix_Tree Nat)
      (total proper_hits numeric_hits comma_hits : Nat)
      (proper_score numeric_score comma_score other : Int)

namespace Word_Ngram_Tree

/-- The member `_next`. -/
def next : Word_Ngram_Tree → Option (List (Nat × Word_Ngram_Tree))
  | mk nx _ _ _ _ _ _ _ _ _ => nx

/-- Embedding of `Word_Ngram_Tree::tree`. -/
def tree : Word_Ngram_Tree → Prefix_Tree Nat
  | mk _ tr _ _ _ _ _ _ _ _ => tr

/-- Embedding of `Word_Ngram_Tree::total`. -/
def total : Word_Ngram_Tree → Nat
  | mk _ _ tot _ _ _ _ _ _ _ => tot

/-- Embedding of `Word_Ngram_Tree::proper_hits`. -/
def proper_hits : Word_Ngram_Tree → Nat
  | mk _ _ _ ph _ _ _ _ _ _ => ph

/-- Embedding of `Word_Ngram_Tree::numeric_hits`. -/
def numeric_hits : Word_Ngram_Tree → Nat
  | mk _ _ _ _ nh _ _ _ _ _ => nh

/-- Embedding of `Word_Ngram_Tree::comma_hits`. -/
def comma_hits : Word_Ngram_Tree → Nat
  | mk _ _ _ _ _ ch _ _ _ _ => ch

/-- The four scores `_proper_score`, `_numeric_score`, `_comma_score` and
`_other`. -/
def scores : Word_Ngram_Tree → Int × Int × Int × Int
  | mk _ _ _ _ _ _ ps ns cs ot => (ps, ns, cs, ot)

/-- The constructor `Word_Ngram_Tree()`. -/
def init : Word_Ngram_Tree := mk none Prefix_Tree.init 0 0 0 0 0 0 0 0

/-- Assignment to `_next`. -/
def set_next (nx : Option (List (Nat × Word_Ngram_Tree))) : Word_Ngram_Tree → Word_Ngram_Tree
  | mk _ tr tot ph nh ch ps ns cs ot => mk nx tr tot ph nh ch ps ns cs ot

/-- Embedding of `unordered_map::find`: the tree stored under the id. -/
def map_find (id : Nat) (entries : List (Nat × Word_Ngram_Tree)) : Option Word_Ngram_Tree :=
  (entries.find? (fun e => decide (e.1 = id))).map Prod.snd

/-- The call `(*_next)[id].g()` of a member function `g` that changes the tree:
`operator[]` finds the entry of the id or creates one with the tree
`Word_Ngram_Tree()`. -/
def map_update (g : Word_Ngram_Tree → Word_Ngram_Tree) (id : Nat) :
    List (Nat × Word_Ngram_Tree) → List (Nat × Word_Ngram_Tree)
  | [] => [(id, g init)]
  | e :: rest =>
    if e.1 = id then (e.1, g e.2) :: rest
    else e :: map_update g id rest

/-- The branch `n == 0` of `Word_Ngram_Tree::_add`: the newest word is counted
in this node. -/
def route (m : Word_Id_Map) (words : Word_Id_List) (h : Nat) (tail_original : Bool) :
    Word_Ngram_Tree → Word_Ngram_Tree
  | mk nx tr tot ph nh ch ps ns cs ot =>
    let back := words.getLastD ([], NONE)
    if back.2 ≠ NONE then
      let id := if tail_original then back.2 else m.category back.2
      if id = PROPER then
        mk nx tr ((tot + h) % SIZE_MOD) ((ph + h) % U32_MOD) nh ch ps ns cs ot
      else if id = NUMERIC then
        mk nx tr ((tot + h) % SIZE_MOD) ph ((nh + h) % U32_MOD) ch ps ns cs ot
      else if id = COMMA then
        mk nx tr ((tot + h) % SIZE_MOD) ph nh ((ch + h) % U32_MOD) ps ns cs ot
      else
        mk nx (tr.add_hits back.1 id h) ((tot + h) % SIZE_MOD) ph nh ch ps ns cs ot
    else mk nx tr tot ph nh ch ps ns cs ot

/-- Embedding of `Word_Ngram_Tree::_add`; `words[n - 1]` is read with `NONE` for
an index outside the vector. -/
def _add (m : Word_Id_Map) (words : Word_Id_List) (h : Nat) (tail_original : Bool) :
    Nat → Word_Ngram_Tree → Word_Ngram_Tree
  | 0, t => route m words h tail_original t
  | n + 1, t =>
    if (words.getD n ([], NONE)).2 ≠ NONE then
      let id := m.category (words.getD n ([], NONE)).2
      t.set_next (some (map_update (_add m words h tail_original n) id (t.next.getD [])))
    else t

/-- Embedding of `Word_Ngram_Tree::add`. -/
def add (t : Word_Ngram_Tree) (m : Word_Id_Map) (words : Word_Id_List) (h : Nat)
    (tail_original : Bool) : Word_Ngram_Tree :=
  if words.length = 0 then t
  else _add m words h tail_original (words.length - 1) t

/-- Embedding of `Word_Ngram_Tree::_find`. -/
def _find (t : Word_Ngram_Tree) (id : Nat) : Option Word_Ngram_Tree :=
  match t.next with
  | none => none
  | some entries => map_find id entries

/-- Embedding of the variadic `Word_Ngram_Tree::find`: the ids are the
arguments in their order; `none` is the null pointer. -/
def find : Word_Ngram_Tree → List Nat → Option Word_Ngram_Tree
  | t, [] => some t
  | t, id :: ids =>
    match t._find id with
    | some w => find w ids
    | none => none

/-- The members of the node other than `_next`. -/
def own (t : Word_Ngram_Tree) :
    Prefix_Tree Nat × Nat × Nat × Nat × Nat × Int × Int × Int × Int :=
  (t.tree, t.total, t.proper_hits, t.numeric_hits, t.comma_hits, t.scores)

/-- The context of the newest word of an n-gram as `_add` walks it: the
categories of the words before the last, newest first. -/
def context (m : Word_Id_Map) (words : Word_Id_List) : List Nat :=
  (words.dropLast.map (fun w => m.category w.2)).reverse

/-- The contexts of `t` lead in `t2` to nodes with the same members, and a
context that leads nowhere in `t` leads nowhere in `t2` or to a node with the
members of `Word_Ngram_Tree()`. -/
def Pads (t t2 : Word_Ngram_Tree) : Prop :=
  ∀ ctx : List Nat,
    (∀ n, t.find ctx = some n → ∃ n2, t2.find ctx = some n2 ∧ n2.own = n.own) ∧
    (t.find ctx = none → ∀ n2, t2.find ctx = some n2 → n2.own = init.own)

end Word_Ngram_Tree

end dict

namespace playfair

/-- Embedding of `Playfair::as_char_unit`; a character past the end of a string
is read as NUL. -/
def as_char_unit (clear cipher : Str) (n : Nat) : Char_Unit :=
  { clear_text := (clear.at (2 * n), clear.at (2 * n + 1)),
    cipher_text := (cipher.at (2 * n), cipher.at (2 * n + 1)) }

namespace Playfair

/-- Embedding of `Playfair::clear_char_info`: the entries of 'a' to 'z' are
reset. -/
def clear_char_info (s : Playfair) : Playfair :=
  { s with
    char_unique := 0,
    char_freq := fun ch => if 97 ≤ ch.val ∧ ch.val ≤ 122 then 0 else s.char_freq ch,
    char_set := fun ch => if 97 ≤ ch.val ∧ ch.val ≤ 122 then false else s.char_set ch }

/-- Embedding of `char_freq(ch)++`. -/
def freq_inc (s : Playfair) (ch : Chr) : Playfair :=
  { s with char_freq := Function.update s.char_freq ch ((s.char_freq ch + 1) % SIZE_MOD) }

/-- Embedding of `char_freq(ch)--`. -/
def freq_dec (s : Playfair) (ch : Chr) : Playfair :=
  { s with
    char_freq := Function.update s.char_freq ch ((s.char_freq ch + SIZE_MOD - 1) % SIZE_MOD) }

/-- Embedding of `Playfair::set_char_set`. -/
def set_char_set (s : Playfair) (ch : Chr) : Playfair :=
  if s.char_set ch then s
  else { s with
         char_set := Function.update s.char_set ch true,
         char_unique := (s.char_unique + 1) % SIZE_MOD }

/-- The first loop of `Playfair::set_clear_set`: the units of `_units` that are
not the same as a unit taken before are appended to `_units_sorted`, and their
four letters are counted. -/
def collect_units : Playfair → List Char_Unit → Playfair
  | s, [] => s
  | s, u :: rest =>
    if s.units_sorted.any (fun w => w.same u) then collect_units s rest
    else
      collect_units
        ((((({ s with units_sorted := s.units_sorted ++ [u] } : Playfair).freq_inc
          u.clear_text.1).freq_inc u.clear_text.2).freq_inc u.cipher_text.1).freq_inc
          u.cipher_text.2) rest

/-- The lambda `unit_freq` of `Playfair::set_clear_set`. -/
def unit_freq (s : Playfair) (u : Char_Unit) : Nat :=
  ((s.char_freq u.clear_text.1 + s.char_freq u.clear_text.2) % SIZE_MOD +
    (s.char_freq u.cipher_text.1 + s.char_freq u.cipher_text.2) % SIZE_MOD) % SIZE_MOD

/-- The lambda `sort_units` of `Playfair::set_clear_set`: `std::sort` by
decreasing `unit_freq`. Units with equal frequency, whose order `std::sort`
leaves open, keep their order. -/
def sort_units (s : Playfair) (l : List Char_Unit) : List Char_Unit :=
  l.insertionSort (fun a b => s.unit_freq a ≥ s.unit_freq b)

/-- The changes of the character tables in the lambda `move_first` of
`Playfair::set_clear_set`, for the unit that has become `*cur`. -/
def mark_unit (s : Playfair) (u : Char_Unit) : Playfair :=
  ((((((((s.freq_dec u.clear_text.1).freq_dec u.clear_text.2).freq_dec
    u.cipher_text.1).freq_dec u.cipher_text.2).set_char_set u.clear_text.1).set_char_set
    u.clear_text.2).set_char_set u.cipher_text.1).set_char_set u.cipher_text.2)

/-- The tests of the modes 0 to 4 of `Playfair::set_clear_set` on the unit
`*it`. -/
def qualifies (s : Playfair) (mode : Nat) (u : Char_Unit) : Bool :=
  if mode = 0 then
    let clear := s.char_set u.clear_text.1 && s.char_set u.clear_text.2
    let cipher := s.char_set u.cipher_text.1 && s.char_set u.cipher_text.2
    if clear || cipher then true
    else if u.is_triplet then
      let c1 := s.char_set u.clear_text.1 && s.char_set u.cipher_text.2 &&
        decide (u.clear_text.1 ≠ u.cipher_text.2)
      let c2 := s.char_set u.clear_text.2 && s.char_set u.cipher_text.1 &&
        decide (u.clear_text.2 ≠ u.cipher_text.1)
      c1 || c2
    else false
  else if mode = 1 then
    let clear := s.char_set u.clear_text.1 || s.char_set u.clear_text.2
    let cipher := s.char_set u.cipher_text.1 || s.char_set u.cipher_text.2
    u.is_triplet && (clear || cipher)
  else if mode = 2 then
    let clear := s.char_set u.clear_text.1 || s.char_set u.clear_text.2
    let cipher := s.char_set u.cipher_text.1 || s.char_set u.cipher_text.2
    clear && cipher
  else if mode = 3 then
    let c1 := s.char_set u.cipher_text.1 || s.char_set u.clear_text.2
    let c2 := s.char_set u.clear_text.1 || s.char_set u.cipher_text.2
    c1 || c2
  else if mode = 4 then u.is_triplet
  else false

/-- The passes of the loop `while (cur != end)` of `Playfair::set_clear_set`
that move no unit: from the mode `mode` on, the index (counted from `cur`) of
the first unit that the first successful mode finds; the mode 5 takes `*cur`.
The modes run from 0 to 5, so six passes suffice. -/
def find_move (s : Playfair) (rest : List Char_Unit) : Nat → Nat → Option Nat
  | 0, _ => none
  | fuel + 1, mode =>
    if 5 ≤ mode then some 0
    else
      match rest.findIdx? (s.qualifies mode) with
      | some j => some j
      | none => find_move s rest fuel (mode + 1)

/-- Embedding of `std::swap(*cur, *it)` on the part of the vector from `cur` on. -/
def swap_first : List Char_Unit → Nat → List Char_Unit
  | [], _ => []
  | x :: xs, 0 => x :: xs
  | x :: xs, j + 1 =>
    match xs[j]? with
    | some y => y :: xs.set j x
    | none => x :: xs

/-- The loop `while (cur != end)` of `Playfair::set_clear_set`: `done` holds the
units before `cur`, `rest` those from `cur` on; each round moves one unit to
`cur`, so the first argument counts the units of `rest`. -/
def order_loop : Nat → Nat → Playfair → List Char_Unit → List Char_Unit →
    Playfair × List Char_Unit
  | 0, _, s, done, rest => (s, done ++ rest)
  | k + 1, mode, s, done, rest =>
    match find_move s rest 6 mode with
    | none => (s, done ++ rest)
    | some j =>
      match swap_first rest j with
      | [] => (s, done)
      | y :: tail =>
        order_loop k 0 (s.mark_unit y) (done ++ [y]) ((s.mark_unit y).sort_units tail)

/-- The part of `Playfair::set_clear_set` before the first `process_set`: the
character tables are reset, and `_units_sorted` is filled and ordered. -/
def prepare_units (s : Playfair) : Playfair :=
  let s1 := collect_units { s.clear_char_info with units_sorted := [] } s.units
  let r := order_loop s1.units_sorted.length 4 s1 [] (s1.sort_units s1.units_sorted)
  { r.1 with units_sorted := r.2 }

end Playfair

/-- A callback of the matcher that returns a `bool`: it acts on the matcher and
on the state of the rest of the program. -/
abbrev Test (σ : Type) := Playfair → σ → Bool × Playfair × σ

/-- The callback `next` of `test`: it acts on the matcher and on the state of
the rest of the program. -/
abbrev Next (σ : Type) := Playfair → σ → Playfair × σ

/-- A callback of the matcher as a continuation of the placement search, which
passes the matrix on its own. -/
def lift {σ : Type} (f : Test σ) : Cont (Playfair × σ) :=
  fun m ps =>
    let r := f { ps.1 with matrix := m } ps.2
    (r.1, r.2.1.matrix, (r.2.1, r.2.2))

/-- A call of a function of the placement search by the matcher: the matrix of
the matcher is passed to it and taken back from it. -/
def run {σ : Type} (g : Matrix → Playfair × σ → Bool × Matrix × (Playfair × σ))
    (s : Playfair) (x : σ) : Bool × Playfair × σ :=
  let r := g s.matrix (s, x)
  (r.1, { r.2.2.1 with matrix := r.2.1 }, r.2.2.2)

/-- The callback that `Playfair::set_clear_set` passes to its first
`process_set`: with a plaintext of odd length the last plaintext letter must
find a place, too. -/
def last_letter {τ : Type} (rules : Rules) (clear cipher : Str) : Cont τ :=
  fun m t =>
    if clear.length % 2 = 0 then (true, m, t)
    else
      set_clear rules (as_char_unit clear cipher (clear.length / 2)) true
        (fun m t => (true, m, t)) m t

/-- Embedding of `Playfair::set_clear_set`. -/
def set_clear_set {σ : Type} (rules : Rules) (clear cipher : Str) (f : Test σ) (n : Next σ)
    (s : Playfair) (x : σ) : Playfair × σ :=
  let s1 := s.prepare_units
  let ok := run (process_set rules s1.units_sorted (last_letter rules clear cipher)) s1 x
  if ok.1 = false then (ok.2.1, ok.2.2)
  else if clear.length < ok.2.1.matrix_creation_point then n ok.2.1 ok.2.2
  else
    let s2 := { ok.2.1 with
                i_cipher := ok.2.1.units.length % SIZE_MOD,
                i_clear := (ok.2.1.units.length * 2) % SIZE_MOD }
    let r := run (process_set rules s2.units_sorted (lift f)) s2 ok.2.2
    ({ r.2.1 with i_cipher := 0, i_clear := 0 }, r.2.2)

/-- Embedding of `Playfair::test`. The recursion through the callbacks is cut
off after `fuel` nested calls. -/
def test {σ : Type} (rules : Rules) : Nat → Str → Str → Next σ → Playfair → σ → Playfair × σ
  | 0, _, _, _, s, x => (s, x)
  | fuel + 1, clear, cipher, next, s, x =>
    if (s.i_cipher + 1) % SIZE_MOD * 2 % SIZE_MOD ≤ s.i_clear then
      let u := as_char_unit clear cipher s.i_cipher
      let r := run (set_cipher rules u
          (lift (fun p y => (false, test rules fuel clear cipher next p y))))
        { s with i_cipher := (s.i_cipher + 1) % SIZE_MOD } x
      ({ r.2.1 with i_cipher := (r.2.1.i_cipher + SIZE_MOD - 1) % SIZE_MOD }, r.2.2)
    else if s.i_clear = 0 ∧
        (16 ≤ clear.length ∨ (6 ≤ clear.length ∧ clear.length % 2 = 0)) then
      set_clear_set rules clear cipher
        (fun p y => (false, test rules fuel clear cipher next p y)) next s x
    else if 0 < s.i_clear ∧ s.i_clear < clear.length then
      let u := as_char_unit clear cipher s.i_cipher
      let even := decide (s.i_clear % 2 = 0)
      let r := run (set_clear rules u even
          (lift (fun p y => (false, test rules fuel clear cipher next p y))))
        { s with i_clear := (s.i_clear + 1) % SIZE_MOD } x
      ({ r.2.1 with i_clear := (r.2.1.i_clear + SIZE_MOD - 1) % SIZE_MOD }, r.2.2)
    else next s x

/-- The callback `next` that counts its calls and leaves the matcher as it is. -/
def tally : Next Nat := fun s n => (s, n + 1)

/-- The matcher after the characters of `rest` have been pushed one after the
other, each appended to `clear`; `none` if a push is rejected. -/
def Playfair.feed (cipher : Str) : Playfair → Str → Str → Option Playfair
  | s, _, [] => some s
  | s, clear, ch :: rest =>
    if (s.push clear cipher ch).1 then
      Playfair.feed cipher (s.push clear cipher ch).2 (clear ++ [ch]) rest
    else none

/-- Some consistent square encrypts every unit of the list. -/
def Solvable (units : List Char_Unit) : Prop :=
  ∃ m : Matrix, m.Consistent ∧ ∀ u ∈ units, Encrypts Rules.init m u

end playfair

namespace playfair

/-- What the reverse position lists hold once the loop body of the constructor
`Rules()` has run for the pairs of cells in `M`. -/
def Rules.Listed (r : Rules) (M : Nat → Nat → Prop) : Prop :=
  (∀ a b, M a b → a < 25 ∧ b < 25) ∧
  (∀ a b, M a b → a ≠ b →
    a ∈ r.rself_list (encrypt a b).1 ∧ b ∈ r.ropp_list (encrypt a b).1 ∧
    r.rboth_list (encrypt a b).1 (encrypt a b).2 = [a]) ∧
  r.none_list = List.range MATRIX_SIZE

/-- The cell `i` rows below and `j` columns to the right of the cell `p`,
cyclically. -/
def shift (i j p : Nat) : Nat :=
  ((p / MATRIX_SIDE_SIZE + i) % MATRIX_SIDE_SIZE) * MATRIX_SIDE_SIZE +
    (p % MATRIX_SIDE_SIZE + j) % MATRIX_SIDE_SIZE

/-- An assignment of cells to letters (`UNSET` for none): the cells are cells
of the square and no two letters share a cell. -/
def Layout (ρ : Chr → Nat) : Prop :=
  ∀ c, ρ c ≠ UNSET → ρ c < 25 ∧ ∀ d, ρ d = ρ c → d = c

/-- The assignment gives the four letters of the unit cells, and Playfair
encryption sends the cells of the plaintext letters to the cells of the
ciphertext letters. -/
def Lays (ρ : Chr → Nat) (u : Char_Unit) : Prop :=
  ρ u.clear_text.1 ≠ UNSET ∧ ρ u.clear_text.2 ≠ UNSET ∧
  ρ u.cipher_text.1 ≠ UNSET ∧ ρ u.cipher_text.2 ≠ UNSET ∧
  encrypt (ρ u.clear_text.1) (ρ u.clear_text.2) = (ρ u.cipher_text.1, ρ u.cipher_text.2)

/-- The matrix is consistent and each letter placed in it sits in the cell the
assignment gives it. -/
def Inside (m : Matrix) (ρ : Chr → Nat) : Prop :=
  m.Consistent ∧ ∀ ch, m.rev ch ≠ UNSET → m.rev ch = ρ ch

/-- The continuation `g`, invoked on a matrix inside the assignment `ρ` that
satisfies `P`, answers `true`. -/
def HitsOn {σ : Type} (ρ : Chr → Nat) (P : Matrix → Prop) (g : Cont σ) : Prop :=
  ∀ m s, Inside m ρ → P m → (g m s).1 = true

/-- The continuation `f` with a flag added to the state, which is raised when
`f` answers `true`. -/
def flagged {σ : Type} (f : Cont σ) : Cont (σ × Bool) :=
  fun m sb => ((f m sb.1).1, (f m sb.1).2.1, ((f m sb.1).2.2, sb.2 || (f m sb.1).1))

/-- The continuation `g2` on states with a flag does what `g` does, never
lowers the flag and leaves it raised when the answer is `true`. -/
def Tracks {σ : Type} (g : Cont σ) (g2 : Cont (σ × Bool)) : Prop :=
  ∀ m s b, (g2 m (s, b)).1 = (g m s).1 ∧ (g2 m (s, b)).2.1 = (g m s).2.1 ∧
    (g2 m (s, b)).2.2.1 = (g m s).2.2 ∧
    (b = true → (g2 m (s, b)).2.2.2 = true) ∧
    ((g m s).1 = true → (g2 m (s, b)).2.2.2 = true)

end playfair

namespace playfair

/-- The plaintext "ababab". -/
def evenClear : Str := [97, 98, 97, 98, 97, 98]

/-- The ciphertext "cdcdcd". -/
def evenCipher : Str := [99, 100, 99, 100, 99, 100]

/-- The ciphertext "xxxxxx", whose pairs are doubled letters. -/
def doubledCipher : Str := [120, 120, 120, 120, 120, 120]

/-- The plaintext "ababababababababb" of 17 letters. -/
def oddClear : Str := [97, 98, 97, 98, 97, 98, 97, 98, 97, 98, 97, 98, 97, 98, 97, 98, 98]

/-- The ciphertext "cdcdcdcdcdcdcdcdcd" of 18 letters. -/
def oddCipher : Str :=
  [99, 100, 99, 100, 99, 100, 99, 100, 99, 100, 99, 100, 99, 100, 99, 100, 99, 100]

/-- The unit "ab" to "cd". -/
def abcd : Char_Unit := { clear_text := (97, 98), cipher_text := (99, 100) }

/-- The unit "ab" to "xx". -/
def abxx : Char_Unit := { clear_text := (97, 98), cipher_text := (120, 120) }

/-- A square with 'a' in the cell 0, 'c' in the cell 1, 'd' in the cell 5 and
'b' in the cell 6. -/
def abcdSquare : Matrix :=
  (((Matrix.init.add 0 97).add 1 99).add 5 100).add 6 98

/-- What is looked at after a call of `test` with the counting callback, at
depth 1, on the matcher that the pushes of `clear` have built: `_i_clear`,
`_i_cipher`, the committed units and the creation point before the call, and
the number of calls of `next`. -/
def probe (clear cipher : Str) : Option (Nat × Nat × List Char_Unit × Nat × Nat) :=
  (Playfair.feed cipher (Playfair.init 20) [] clear).map
    (fun s => (s.i_clear, s.i_cipher, s.units, s.matrix_creation_point,
      (test Rules.init 1 clear cipher tally s 0).2))

end playfair

namespace playfair

/-- The unit that pairs the plaintext letters in the cells `a` and `b` of a key
square with their encryption under `Rules::change`; `key` gives the letter of
each cell. -/
def squareUnit (key : Nat → Chr) (a b : Nat) : Char_Unit :=
  { clear_text := (key a, key b),
    cipher_text := (key (Rules.init.change a b).1, key (Rules.init.change a b).2) }

/-- The unit of the cells `a` and `b` with the cells themselves as letters. -/
def cellUnit (a b : Nat) : Char_Unit :=
  { clear_text := (Fin.ofNat a, Fin.ofNat b),
    cipher_text := (Fin.ofNat (encrypt a b).1, Fin.ofNat (encrypt a b).2) }

/-- The unit with its four letters renamed by `g`. -/
def Char_Unit.map (g : Chr → Chr) (u : Char_Unit) : Char_Unit :=
  { clear_text := (g u.clear_text.1, g u.clear_text.2),
    cipher_text := (g u.cipher_text.1, g u.cipher_text.2) }

end playfair

namespace playfair

/-- The cells that the letters of the square `M` take when the square is moved
`dy` rows down and `dx` columns to the right, cyclically (`UNSET` for a letter
that is not in the square). -/
def Matrix.shifted (M : Matrix) (dy dx : Nat) : Chr → Nat :=
  fun c => if M.rev c = UNSET then UNSET else shift dy dx (M.rev c)

end playfair

namespace playfair

/-- The unit "a " to "bc", whose second plaintext letter is the blank. -/
def blankClear : Char_Unit := { clear_text := (97, 32), cipher_text := (98, 99) }

end playfair

namespace simple

/-- Two `Reference` entries that no call of `is_compatible` tells apart: the
counters are equal, and so are the symbols unless the counter is 0. -/
def Reference.Alike {σ : Type} (r q : Reference σ) : Prop :=
  r.counter = q.counter ∧ (q.counter ≠ 0 → r.symbol = q.symbol)

/-- Two `Simple` matchers whose entries are alike. -/
def Simple.Alike (s t : Simple) : Prop :=
  ∀ x, (s.sub x).Alike (t.sub x) ∧ (s.inv x).Alike (t.inv x)

/-- Two `Bigram` matchers whose entries are alike. -/
def Bigram.Alike (s t : Bigram) : Prop :=
  ∀ x y, (s.sub x y).Alike (t.sub x y) ∧ (s.inv x y).Alike (t.inv x y)

/-- Two `Pelling` matchers with the same number of tables whose entries are
alike. -/
def Pelling.Alike (s t : Pelling) : Prop :=
  s.count = t.count ∧ s.sub.length = t.sub.length ∧ s.inv.length = t.inv.length ∧
  ∀ i x, (tableAt s.sub i x).Alike (tableAt t.sub i x) ∧
    (tableAt s.inv i x).Alike (tableAt t.inv i x)

/-- The results of a sequence of pushes `(clear, cipher, ch)` on a `Simple`
matcher. -/
def Simple.results : Simple → List (Str × Str × Chr) → List Bool
  | _, [] => []
  | s, c :: rest => (s.push c.1 c.2.1 c.2.2).1 :: Simple.results (s.push c.1 c.2.1 c.2.2).2 rest

/-- The results of a sequence of pushes on a `Bigram` matcher. -/
def Bigram.results : Bigram → List (Str × Str × Chr) → List Bool
  | _, [] => []
  | s, c :: rest => (s.push c.1 c.2.1 c.2.2).1 :: Bigram.results (s.push c.1 c.2.1 c.2.2).2 rest

/-- The results of a sequence of pushes on a `Pelling` matcher. -/
def Pelling.results : Pelling → List (Str × Str × Chr) → List Bool
  | _, [] => []
  | s, c :: rest =>
    (s.push c.1 c.2.1 c.2.2).1 :: Pelling.results (s.push c.1 c.2.1 c.2.2).2 rest

end simple

namespace dict

/-- Embedding of `Word_Ngram_Tree::proper_score`. -/
def Word_Ngram_Tree.proper_score (t : Word_Ngram_Tree) : Int := t.scores.1

/-- Embedding of `Word_Ngram_Tree::numeric_score`. -/
def Word_Ngram_Tree.numeric_score (t : Word_Ngram_Tree) : Int := t.scores.2.1

/-- Embedding of `Word_Ngram_Tree::comma_score`. -/
def Word_Ngram_Tree.comma_score (t : Word_Ngram_Tree) : Int := t.scores.2.2.1

end dict

namespace main_cpp

open dict

/-- The class `Search::Best_Scores`: for each category the flag and the
score. -/
structure Best_Scores where
  proper : Bool × Int
  numeric : Bool × Int
  comma : Bool × Int
deriving DecidableEq, Repr

/-- The constructor `Best_Scores(t)`. -/
def Best_Scores.init (t : Word_Ngram_Tree) : Best_Scores :=
  { proper := (decide (0 < t.proper_hits), t.proper_score),
    numeric := (decide (0 < t.numeric_hits), t.numeric_score),
    comma := (decide (0 < t.comma_hits), t.comma_score) }

/-- The constructor `Best_Scores(that, t)`. -/
def Best_Scores.combine (that : Best_Scores) (t : Word_Ngram_Tree) : Best_Scores :=
  { proper := (that.proper.1 || decide (0 < t.proper_hits),
      if that.proper.1 then that.proper.2 else max that.proper.2 t.proper_score),
    numeric := (that.numeric.1 || decide (0 < t.numeric_hits),
      if that.numeric.1 then that.numeric.2 else max that.numeric.2 t.numeric_score),
    comma := (that.comma.1 || decide (0 < t.comma_hits),
      if that.comma.1 then that.comma.2 else max that.comma.2 t.comma_score) }

/-- What the returns of `next_char_tree` build up: `Best_Scores(t)` of the
deepest level visited, combined with each shallower level in turn. -/
def Best_Scores.fold (deepest : Word_Ngram_Tree) (shallower : List Word_Ngram_Tree) :
    Best_Scores :=
  shallower.foldl Best_Scores.combine (Best_Scores.init deepest)

/-- The pair of one category after the levels with the hits and scores
`(h, s) :: rest`, from the deepest level on. -/
def bestPair : Nat × Int → List (Nat × Int) → Bool × Int
  | first, rest =>
    rest.foldl (fun b l => (b.1 || decide (0 < l.1), if b.1 then b.2 else max b.2 l.2))
      (decide (0 < first.1), first.2)

/-- The levels up to and including the first one with hits, all levels if
none has hits. -/
def uptoHit (levels : List (Nat × Int)) : List (Nat × Int) :=
  levels.take (levels.findIdx (fun l => decide (0 < l.1)) + 1)

/-- A context level with the given hits and score of proper names and nothing
else. -/
def properLevel (hits : Nat) (score : Int) : Word_Ngram_Tree :=
  Word_Ngram_Tree.mk none Prefix_Tree.init 0 hits 0 0 score 0 0 0

/-- The class `Search`, as far as `push_clear` and `pop_clear` go: the matcher
and the plaintext `_clear`. -/
structure Clear_State (μ : Type) where
  matcher : μ
  clear : Str

/-- Embedding of `Search::push_clear`; `push` is the function `push` of the
matcher. -/
def push_clear {μ : Type} (push : μ → Str → Str → Chr → Bool × μ) (clear_fixed cipher : Str)
    (s : Clear_State μ) (ch : Chr) : Bool × Clear_State μ :=
  if s.clear.length < clear_fixed.length ∧
      clear_fixed.at s.clear.length ≠ Prefix_Tree.EMPTY ∧
      ch ≠ clear_fixed.at s.clear.length then
    (false, s)
  else
    let r := push s.matcher s.clear cipher ch
    if r.1 then (true, { matcher := r.2, clear := s.clear ++ [ch] })
    else (false, { matcher := r.2, clear := s.clear })

/-- Embedding of `Search::pop_clear`; `pop` is the function `pop` of the
matcher. -/
def pop_clear {μ : Type} (pop : μ → Str → Str → Chr → μ) (cipher : Str)
    (s : Clear_State μ) : Clear_State μ :=
  let ch := s.clear.back
  let clear := s.clear.dropLast
  { matcher := pop s.matcher clear cipher ch, clear := clear }

/-- The loop of the constructor `Task(...)` on `_clear_fixed`: every '_'
becomes `Prefix_Tree::EMPTY`. -/
def Task.clear_fixed (clear_fixed : Str) : Str :=
  clear_fixed.map (fun ch => if ch = 95 then Prefix_Tree.EMPTY else ch)

end main_cpp
/-! # Theorems -/

/-- Incrementing then decrementing a `size_t` gives the value back, wrap-around
included. -/
theorem wrap_inc_dec (n : Nat) (h : n < SIZE_MOD) :
    ((n + 1) % SIZE_MOD + SIZE_MOD - 1) % SIZE_MOD = n := by
  unfold SIZE_MOD at *
  omega

section SimpleMatchers
open simple

/-! ## Theorems: the `Simple` matcher -/

namespace simple

theorem Reference.is_compatible_iff {σ : Type} [DecidableEq σ] (r : Reference σ) (ch : σ) :
    r.is_compatible ch = true ↔ r.counter = 0 ∨ ch = r.symbol := by
  simp [Reference.is_compatible]

theorem Simple.push_fst_iff (s : Simple) (clear cipher : Str) (ch : Chr) :
    (s.push clear cipher ch).1 = true ↔
      ((s.sub ch).counter = 0 ∨ cipher.at clear.length = (s.sub ch).symbol) ∧
      ((s.inv (cipher.at clear.length)).counter = 0 ∨
        ch = (s.inv (cipher.at clear.length)).symbol) := by
  rw [← Reference.is_compatible_iff, ← Reference.is_compatible_iff, ← Bool.and_eq_true]
  show (if _ then _ else _ : Bool × Simple).1 = true ↔ _
  split_ifs with h
  · simp [h]
  · simp [h]

theorem Simple.push_snd_of_true (s : Simple) (clear cipher : Str) (ch : Chr)
    (h : (s.push clear cipher ch).1 = true) :
    (s.push clear cipher ch).2 =
      { sub := Function.update s.sub ch ((s.sub ch).inc (cipher.at clear.length)),
        inv := Function.update s.inv (cipher.at clear.length)
          ((s.inv (cipher.at clear.length)).inc ch) } := by
  revert h
  show (if _ then _ else _ : Bool × Simple).1 = true → (if _ then _ else _ : Bool × Simple).2 = _
  split_ifs with hc
  · intro _; rfl
  · intro h; simp at h

theorem Simple.push_snd_of_false (s : Simple) (clear cipher : Str) (ch : Chr)
    (h : (s.push clear cipher ch).1 = false) :
    (s.push clear cipher ch).2 = s := by
  revert h
  show (if _ then _ else _ : Bool × Simple).1 = false → (if _ then _ else _ : Bool × Simple).2 = _
  split_ifs with hc
  · intro h; simp at h
  · intro _; rfl

end simple

/-- C2: `Simple::push` with `w = cipher[|clear|]` returns false exactly when the
entry of `ch` is bound (counter > 0) to a character other than `w` or the entry
of `w` is bound to a character other than `ch`; when it returns true both
entries are bound (to `w` and to `ch`) and their counters are incremented by
one in `size_t` arithmetic, which is the successor as long as the counter is
below `SIZE_MOD - 1`; every other entry is unchanged. -/
theorem simple_push_contract (s : Simple) (clear cipher : Str) (ch : Chr) :
    ((s.push clear cipher ch).1 = false ↔
      (0 < (s.sub ch).counter ∧ (s.sub ch).symbol ≠ cipher.at clear.length) ∨
      (0 < (s.inv (cipher.at clear.length)).counter ∧
        (s.inv (cipher.at clear.length)).symbol ≠ ch)) ∧
    ((s.push clear cipher ch).1 = true →
      ((s.push clear cipher ch).2.sub ch).symbol = cipher.at clear.length ∧
      ((s.push clear cipher ch).2.inv (cipher.at clear.length)).symbol = ch ∧
      ((s.push clear cipher ch).2.sub ch).counter = ((s.sub ch).counter + 1) % SIZE_MOD ∧
      ((s.push clear cipher ch).2.inv (cipher.at clear.length)).counter =
        ((s.inv (cipher.at clear.length)).counter + 1) % SIZE_MOD ∧
      ((s.sub ch).counter + 1 < SIZE_MOD →
        ((s.push clear cipher ch).2.sub ch).counter = (s.sub ch).counter + 1) ∧
      ((s.inv (cipher.at clear.length)).counter + 1 < SIZE_MOD →
        ((s.push clear cipher ch).2.inv (cipher.at clear.length)).counter =
          (s.inv (cipher.at clear.length)).counter + 1) ∧
      (∀ x, x ≠ ch → (s.push clear cipher ch).2.sub x = s.sub x) ∧
      (∀ y, y ≠ cipher.at clear.length → (s.push clear cipher ch).2.inv y = s.inv y)) := by
  constructor
  · rw [← Bool.not_eq_true, Simple.push_fst_iff]
    constructor
    · intro h
      by_contra hn
      apply h
      constructor
      · by_contra h1
        exact hn (Or.inl ⟨by omega, fun e => h1 (Or.inr e.symm)⟩)
      · by_contra h1
        exact hn (Or.inr ⟨by omega, fun e => h1 (Or.inr e.symm)⟩)
    · rintro (⟨h1, h2⟩ | ⟨h1, h2⟩) ⟨h3, h4⟩
      · rcases h3 with h3 | h3
        · omega
        · exact h2 h3.symm
      · rcases h4 with h4 | h4
        · omega
        · exact h2 h4.symm
  · intro h
    rw [Simple.push_snd_of_true s clear cipher ch h]
    simp only [Function.update_same, Reference.inc, true_and]
    refine ⟨fun hlt => Nat.mod_eq_of_lt hlt, fun hlt => Nat.mod_eq_of_lt hlt, ?_, ?_⟩
    · intro x hx; exact Function.update_noteq hx _ _
    · intro y hy; exact Function.update_noteq hy _ _

/-- Witness for `simple_push_contract`: the first push of 'a' over "b". -/
theorem simple_push_contract_witness :
    ((Simple.init.push [] [98] 97).2.sub 97).symbol = 98 ∧
    ((Simple.init.push [] [98] 97).2.sub 97).counter = 1 :=
  have h := (simple_push_contract Simple.init [] [98] 97).2 (by decide)
  ⟨h.1, h.2.2.2.2.1 (by decide)⟩

namespace simple

theorem Reference.dec_inc {σ : Type} (r : Reference σ) (ch : σ) (h : r.counter < SIZE_MOD) :
    (r.inc ch).dec = { symbol := ch, counter := r.counter } := by
  simp [Reference.inc, Reference.dec, wrap_inc_dec _ h]

theorem Simple.pop_push (s : Simple) (clear cipher : Str) (ch : Chr)
    (hsub : (s.sub ch).counter < SIZE_MOD)
    (hinv : (s.inv (cipher.at clear.length)).counter < SIZE_MOD)
    (hpush : (s.push clear cipher ch).1 = true) :
    (s.push clear cipher ch).2.pop clear cipher ch =
      { sub := Function.update s.sub ch
          { symbol := cipher.at clear.length, counter := (s.sub ch).counter },
        inv := Function.update s.inv (cipher.at clear.length)
          { symbol := ch, counter := (s.inv (cipher.at clear.length)).counter } } := by
  rw [Simple.push_snd_of_true s clear cipher ch hpush]
  simp [Simple.pop, Reference.dec_inc _ _ hsub, Reference.dec_inc _ _ hinv]

end simple

/-- C3, as stated, fails: from the fresh matcher the push of 'a' over the
ciphertext "b" is accepted, and the following pop leaves the entry of 'a' with
symbol 'b' where the fresh matcher has NUL, so the state is not equal to the one
before the push. -/
theorem simple_pop_keeps_symbol :
    ([] : Str).length < ([98] : Str).length ∧
    (Simple.init.push [] [98] 97).1 = true ∧
    (Simple.init.push [] [98] 97).2.pop [] [98] 97 ≠ Simple.init := by
  refine ⟨by decide, by decide, ?_⟩
  intro h
  have h2 : (((Simple.init.push [] [98] 97).2.pop [] [98] 97).sub 97).symbol
      = (Simple.init.sub 97).symbol := by rw [h]
  revert h2
  decide

/-- C3, amended: after an accepted push the matching pop restores every counter
of both tables and every entry other than `_sub[ch]` and `_inv[w]`
(`w = cipher[|clear|]`); these two entries keep the symbols `w` and `ch` bound
by the push, which are the symbols they had before whenever their counter was
non-zero. -/
theorem simple_pop_restores (s : Simple) (clear cipher : Str) (ch : Chr)
    (_hlen : clear.length < cipher.length)
    (hsub : (s.sub ch).counter < SIZE_MOD)
    (hinv : (s.inv (cipher.at clear.length)).counter < SIZE_MOD)
    (hpush : (s.push clear cipher ch).1 = true) :
    (∀ x, (((s.push clear cipher ch).2.pop clear cipher ch).sub x).counter = (s.sub x).counter) ∧
    (∀ y, (((s.push clear cipher ch).2.pop clear cipher ch).inv y).counter = (s.inv y).counter) ∧
    (∀ x, x ≠ ch → ((s.push clear cipher ch).2.pop clear cipher ch).sub x = s.sub x) ∧
    (∀ y, y ≠ cipher.at clear.length →
      ((s.push clear cipher ch).2.pop clear cipher ch).inv y = s.inv y) ∧
    (((s.push clear cipher ch).2.pop clear cipher ch).sub ch).symbol = cipher.at clear.length ∧
    (((s.push clear cipher ch).2.pop clear cipher ch).inv (cipher.at clear.length)).symbol = ch ∧
    (∀ x, (s.sub x).counter ≠ 0 →
      ((s.push clear cipher ch).2.pop clear cipher ch).sub x = s.sub x) ∧
    (∀ y, (s.inv y).counter ≠ 0 →
      ((s.push clear cipher ch).2.pop clear cipher ch).inv y = s.inv y) := by
  have hc := (Simple.push_fst_iff s clear cipher ch).1 hpush
  rw [Simple.pop_push s clear cipher ch hsub hinv hpush]
  refine ⟨?_, ?_, ?_, ?_, ?_, ?_, ?_, ?_⟩
  · intro x
    by_cases hx : x = ch
    · subst hx; simp
    · simp [Function.update_noteq hx]
  · intro y
    by_cases hy : y = cipher.at clear.length
    · subst hy; simp
    · simp [Function.update_noteq hy]
  · intro x hx; simp [Function.update_noteq hx]
  · intro y hy; simp [Function.update_noteq hy]
  · simp
  · simp
  · intro x hx
    by_cases hxc : x = ch
    · subst hxc
      rcases hc.1 with h0 | h0
      · exact absurd h0 hx
      · simp only [Function.update_same]
        rw [h0]
    · simp [Function.update_noteq hxc]
  · intro y hy
    by_cases hyc : y = cipher.at clear.length
    · subst hyc
      rcases hc.2 with h0 | h0
      · exact absurd h0 hy
      · simp only [Function.update_same]
        rw [h0]
    · simp [Function.update_noteq hyc]

/-- Witness for `simple_pop_restores`: push and pop of 'a' over "b" on the fresh
matcher. -/
theorem simple_pop_restores_witness :
    (((Simple.init.push [] [98] 97).2.pop [] [98] 97).sub 97).counter
      = (Simple.init.sub 97).counter ∧
    ((Simple.init.push [] [98] 97).2.pop [] [98] 97).sub 98 = Simple.init.sub 98 :=
  have h := simple_pop_restores Simple.init [] [98] 97 (by decide) (by decide) (by decide)
    (by decide)
  ⟨h.1 97, h.2.2.1 98 (by decide)⟩

namespace simple

theorem Committed.fresh (p c : Str) : Committed p c Simple.init 0 := by
  constructor <;> simp [Simple.init]

theorem Committed.push_iff {p c : Str} {s : Simple} {clear : Str}
    (h : Committed p c s clear.length) :
    (s.push clear c (p.at clear.length)).1 = true ↔
      ∀ j, j < clear.length → agree p c clear.length j := by
  rw [Simple.push_fst_iff]
  constructor
  · rintro ⟨h1, h2⟩ j hj
    constructor
    · intro e
      rcases h1 with h1 | h1
      · exact absurd e.symm ((h.sub_zero _).1 h1 j hj)
      · rw [h1, e, h.sub_sym j hj]
    · intro e
      rcases h2 with h2 | h2
      · exact absurd e.symm ((h.inv_zero _).1 h2 j hj)
      · rw [h2, e, h.inv_sym j hj]
  · intro hag
    constructor
    · by_cases h0 : (s.sub (p.at clear.length)).counter = 0
      · exact Or.inl h0
      · right
        rw [h.sub_zero] at h0
        push_neg at h0
        obtain ⟨j, hj, e⟩ := h0
        rw [(hag j hj).1 e.symm, ← e, h.sub_sym j hj]
    · by_cases h0 : (s.inv (c.at clear.length)).counter = 0
      · exact Or.inl h0
      · right
        rw [h.inv_zero] at h0
        push_neg at h0
        obtain ⟨j, hj, e⟩ := h0
        rw [(hag j hj).2 e.symm, ← e, h.inv_sym j hj]

theorem Committed.push {p c : Str} {s : Simple} {clear : Str}
    (h : Committed p c s clear.length) (hsz : clear.length + 1 < SIZE_MOD)
    (hp : (s.push clear c (p.at clear.length)).1 = true) :
    Committed p c (s.push clear c (p.at clear.length)).2 (clear.length + 1) := by
  have hag := (Committed.push_iff h).1 hp
  rw [Simple.push_snd_of_true s clear c _ hp]
  have hs1 : ((s.sub (p.at clear.length)).counter + 1) % SIZE_MOD
      = (s.sub (p.at clear.length)).counter + 1 :=
    Nat.mod_eq_of_lt (by have := h.sub_le (p.at clear.length); omega)
  have hs2 : ((s.inv (c.at clear.length)).counter + 1) % SIZE_MOD
      = (s.inv (c.at clear.length)).counter + 1 :=
    Nat.mod_eq_of_lt (by have := h.inv_le (c.at clear.length); omega)
  constructor
  · intro a
    by_cases e : a = p.at clear.length
    · subst e
      simp only [Function.update_same, Reference.inc, hs1]
      have := h.sub_le (p.at clear.length); omega
    · simp only [Function.update_noteq e]
      have := h.sub_le a; omega
  · intro b
    by_cases e : b = c.at clear.length
    · subst e
      simp only [Function.update_same, Reference.inc, hs2]
      have := h.inv_le (c.at clear.length); omega
    · simp only [Function.update_noteq e]
      have := h.inv_le b; omega
  · intro a
    by_cases e : a = p.at clear.length
    · subst e
      simp only [Function.update_same, Reference.inc, hs1]
      constructor
      · intro h0; omega
      · intro h0; exact absurd rfl (h0 clear.length (by omega))
    · simp only [Function.update_noteq e]
      rw [h.sub_zero]
      constructor
      · intro h0 j hj
        rcases Nat.lt_succ_iff_lt_or_eq.1 hj with hj | hj
        · exact h0 j hj
        · subst hj; exact fun e2 => e e2.symm
      · intro h0 j hj; exact h0 j (by omega)
  · intro b
    by_cases e : b = c.at clear.length
    · subst e
      simp only [Function.update_same, Reference.inc, hs2]
      constructor
      · intro h0; omega
      · intro h0; exact absurd rfl (h0 clear.length (by omega))
    · simp only [Function.update_noteq e]
      rw [h.inv_zero]
      constructor
      · intro h0 j hj
        rcases Nat.lt_succ_iff_lt_or_eq.1 hj with hj | hj
        · exact h0 j hj
        · subst hj; exact fun e2 => e e2.symm
      · intro h0 j hj; exact h0 j (by omega)
  · intro j hj
    by_cases e : p.at j = p.at clear.length
    · rw [e]
      simp only [Function.update_same, Reference.inc]
      rcases Nat.lt_succ_iff_lt_or_eq.1 hj with hj | hj
      · exact (hag j hj).1 e.symm
      · subst hj; rfl
    · simp only [Function.update_noteq e]
      rcases Nat.lt_succ_iff_lt_or_eq.1 hj with hj | hj
      · exact h.sub_sym j hj
      · subst hj; exact absurd rfl e
  · intro j hj
    by_cases e : c.at j = c.at clear.length
    · rw [e]
      simp only [Function.update_same, Reference.inc]
      rcases Nat.lt_succ_iff_lt_or_eq.1 hj with hj | hj
      · exact (hag j hj).2 e.symm
      · subst hj; rfl
    · simp only [Function.update_noteq e]
      rcases Nat.lt_succ_iff_lt_or_eq.1 hj with hj | hj
      · exact h.inv_sym j hj
      · subst hj; exact absurd rfl e

theorem at_append_cons (clear rest : Str) (ch : Chr) :
    Str.at (clear ++ ch :: rest) clear.length = ch := by
  unfold Str.at
  rw [List.getD_eq_getElem?_getD, List.getElem?_append_right (Nat.le_refl _)]
  simp

theorem firstRejected_aux (p c : Str) (hsz : p.length < SIZE_MOD) :
    ∀ (rest clear : Str) (s : Simple), clear ++ rest = p →
      Committed p c s clear.length →
      (∀ k, k < clear.length → ∀ j, j < k → agree p c k j) →
      (Simple.firstRejected c s clear rest = none ↔
        ∀ k, k < p.length → ∀ j, j < k → agree p c k j) ∧
      (∀ i, Simple.firstRejected c s clear rest = some i ↔
        i < p.length ∧ (∃ j, j < i ∧ ¬ agree p c i j) ∧
          ∀ k, k < i → ∀ j, j < k → agree p c k j) := by
  intro rest
  induction rest with
  | nil =>
    intro clear s hp _ hpre
    simp only [List.append_nil] at hp
    subst hp
    refine ⟨⟨fun _ => hpre, fun _ => rfl⟩, ?_⟩
    intro i
    simp only [Simple.firstRejected]
    refine ⟨fun h => (nomatch h), ?_⟩
    rintro ⟨hi, ⟨j, hj, hna⟩, _⟩
    exact absurd (hpre i hi j hj) hna
  | cons ch rest ih =>
    intro clear s hp hc hpre
    have hch : p.at clear.length = ch := by rw [← hp]; exact at_append_cons clear rest ch
    have hlt : clear.length < p.length := by rw [← hp]; simp
    by_cases hb : (s.push clear c ch).1 = true
    · have hb2 : (s.push clear c (p.at clear.length)).1 = true := by rw [hch]; exact hb
      have hag := (Committed.push_iff hc).1 hb2
      have hc2 := Committed.push hc (by omega) hb2
      rw [hch] at hc2
      have hlen2 : (clear ++ [ch]).length = clear.length + 1 := by simp
      have hpre2 : ∀ k, k < (clear ++ [ch]).length → ∀ j, j < k → agree p c k j := by
        intro k hk j hj
        rw [hlen2] at hk
        rcases Nat.lt_succ_iff_lt_or_eq.1 hk with hk | hk
        · exact hpre k hk j hj
        · subst hk; exact hag j hj
      have := ih (clear ++ [ch]) (s.push clear c ch).2 (by simp [hp])
        (by rw [hlen2]; exact hc2) hpre2
      simpa [Simple.firstRejected, hb] using this
    · have hb2 : ¬ (s.push clear c (p.at clear.length)).1 = true := by rw [hch]; exact hb
      rw [Committed.push_iff hc] at hb2
      push_neg at hb2
      obtain ⟨j, hj, hna⟩ := hb2
      have hfr : Simple.firstRejected c s clear (ch :: rest) = some clear.length := by
        simp [Simple.firstRejected, hb]
      rw [hfr]
      constructor
      · constructor
        · intro h; cases h
        · intro h; exact absurd (h _ hlt j hj) hna
      · intro i
        constructor
        · intro h
          cases h
          exact ⟨hlt, ⟨j, hj, hna⟩, hpre⟩
        · rintro ⟨_, ⟨j2, hj2, hna2⟩, hall⟩
          rcases Nat.lt_trichotomy i clear.length with hlt2 | heq | hgt
          · exact absurd (hpre i hlt2 j2 hj2) hna2
          · rw [heq]
          · exact absurd (hall _ hgt j hj) hna

end simple

/-- C1: for a plaintext `p` and a ciphertext `c` of equal length, pushing
`p[0], p[1], ...` in order on a fresh `Simple` matcher (each accepted character
appended to `clear`) accepts every push exactly when `p[i] = p[j] ↔ c[i] = c[j]`
for all positions; otherwise the first rejected push is at the first position
that conflicts with an earlier one. -/
theorem simple_push_sequence (p c : Str) (_hlen : p.length = c.length)
    (hsz : p.length < SIZE_MOD) :
    (Simple.firstRejected c Simple.init [] p = none ↔
      ∀ i j, i < p.length → j < p.length → (p.at i = p.at j ↔ c.at i = c.at j)) ∧
    (∀ i, Simple.firstRejected c Simple.init [] p = some i ↔
      i < p.length ∧
      (∃ j, j < i ∧ ¬ (p.at i = p.at j ↔ c.at i = c.at j)) ∧
      ∀ k, k < i → ∀ j, j < k → (p.at k = p.at j ↔ c.at k = c.at j)) := by
  have h := firstRejected_aux p c hsz p [] Simple.init rfl (Committed.fresh p c)
    (fun k hk => absurd hk (Nat.not_lt_zero k))
  refine ⟨?_, h.2⟩
  rw [h.1]
  constructor
  · intro hall i j hi hj
    rcases Nat.lt_trichotomy i j with hij | hij | hij
    · have := hall j hj i hij
      unfold agree at this
      constructor
      · intro e; exact (this.1 e.symm).symm
      · intro e; exact (this.2 e.symm).symm
    · subst hij; simp
    · exact hall i hi j hij
  · intro hall k hk j hj
    exact hall k j hk (by omega)

/-- Witness for `simple_push_sequence`: "hello" against "ifmmp" is accepted. -/
theorem simple_push_sequence_witness :
    Simple.firstRejected [105, 102, 109, 109, 112] Simple.init []
      [104, 101, 108, 108, 111] = none ↔
    ∀ i j, i < 5 → j < 5 →
      (Str.at [104, 101, 108, 108, 111] i = Str.at [104, 101, 108, 108, 111] j ↔
        Str.at [105, 102, 109, 109, 112] i = Str.at [105, 102, 109, 109, 112] j) :=
  (simple_push_sequence [104, 101, 108, 108, 111] [105, 102, 109, 109, 112]
    (by decide) (by decide)).1

/-! ## Theorems: the `Bigram` matcher -/

/-- C7, as stated, fails: on the fresh `Bigram` matcher a push with `|clear| = 1`
(odd) commits a pair, the entry `_sub['a']['b']` changes. -/
theorem bigram_odd_push_commits :
    ([97] : Str).length % 2 = 1 ∧
    (Bigram.init.push [97] [120, 121] 98).1 = true ∧
    (Bigram.init.push [97] [120, 121] 98).2.sub 97 98 ≠ Bigram.init.sub 97 98 := by
  decide

/-- C7, amended: a push with `|clear|` even returns true and changes nothing,
so a push changes the pair tables only when `|clear|` is odd, that is when the
pushed character completes a pair. -/
theorem bigram_push_parity (s : Bigram) (clear cipher : Str) (ch : Chr) :
    (clear.length % 2 = 0 → s.push clear cipher ch = (true, s)) ∧
    ((s.push clear cipher ch).2 ≠ s → clear.length % 2 = 1) := by
  have h1 : clear.length % 2 = 0 → s.push clear cipher ch = (true, s) := by
    intro h
    unfold Bigram.push
    rw [if_pos h]
  refine ⟨h1, fun hne => ?_⟩
  by_contra hodd
  have h0 : clear.length % 2 = 0 := by omega
  exact hne (by rw [h1 h0])

/-- Witness for `bigram_push_parity`: a push on the empty plaintext. -/
theorem bigram_push_parity_witness :
    Bigram.init.push [] [120, 121] 97 = (true, Bigram.init) :=
  (bigram_push_parity Bigram.init [] [120, 121] 97).1 (by decide)


/-! ## Theorems: the `Pelling` matcher -/

namespace simple

theorem zipWith_set_set {α β γ : Type} (f : α → β → γ) :
    ∀ (l1 : List α) (l2 : List β) (i : Nat) (a : α) (b : β),
      List.zipWith f (l1.set i a) (l2.set i b) = (List.zipWith f l1 l2).set i (f a b)
  | [], _, _, _, _ => by simp
  | _ :: _, [], _, _, _ => by simp
  | x :: l1, y :: l2, 0, a, b => by simp
  | x :: l1, y :: l2, i + 1, a, b => by simp [zipWith_set_set f l1 l2 i a b]

theorem Pelling.bank_getD :
    ∀ (sub inv : List (Chr → Reference Chr)) (i : Nat), sub.length = inv.length →
      (List.zipWith Simple.mk sub inv).getD i Simple.init =
        { sub := tableAt sub i, inv := tableAt inv i }
  | [], [], i, _ => by simp [tableAt, Simple.init]
  | [], _ :: _, _, h => by simp at h
  | _ :: _, [], _, h => by simp at h
  | x :: sub, y :: inv, 0, _ => by simp [tableAt]
  | x :: sub, y :: inv, i + 1, h => by
    have := Pelling.bank_getD sub inv i (by simpa using h)
    simpa [tableAt] using this

theorem set_getD_self {α : Type} (d : α) :
    ∀ (l : List α) (i : Nat), l.set i (l.getD i d) = l
  | [], _ => by simp
  | x :: l, 0 => by simp
  | x :: l, i + 1 => by simpa using set_getD_self d l i

theorem Pelling.push_sim (s : Pelling) (k : Nat) (h : s.wf k) (clear cipher : Str) (ch : Chr) :
    (s.push clear cipher ch).1 =
      ((s.bank.getD (clear.length % k) Simple.init).push clear cipher ch).1 ∧
    (s.push clear cipher ch).2.bank =
      s.bank.set (clear.length % k)
        ((s.bank.getD (clear.length % k) Simple.init).push clear cipher ch).2 ∧
    (s.push clear cipher ch).2.wf k := by
  obtain ⟨hc, hs, hi⟩ := h
  have hg := Pelling.bank_getD s.sub s.inv (clear.length % k) (by rw [hs, hi])
  unfold Pelling.bank at *
  rw [hg]
  unfold Pelling.push Simple.push
  simp only [hc]
  split_ifs with hcond
  · refine ⟨rfl, ?_, rfl, by simp [hs], by simp [hi]⟩
    exact zipWith_set_set Simple.mk _ _ _ _ _
  · refine ⟨rfl, ?_, hc, hs, hi⟩
    rw [← hg, set_getD_self]

theorem Pelling.pop_sim (s : Pelling) (k : Nat) (h : s.wf k) (clear cipher : Str) (ch : Chr) :
    (s.pop clear cipher ch).bank =
      s.bank.set (clear.length % k)
        ((s.bank.getD (clear.length % k) Simple.init).pop clear cipher ch) ∧
    (s.pop clear cipher ch).wf k := by
  obtain ⟨hc, hs, hi⟩ := h
  have hg := Pelling.bank_getD s.sub s.inv (clear.length % k) (by rw [hs, hi])
  unfold Pelling.bank at *
  rw [hg]
  unfold Pelling.pop Simple.pop
  simp only [hc]
  refine ⟨?_, rfl, by simp [hs], by simp [hi]⟩
  exact zipWith_set_set Simple.mk _ _ _ _ _

theorem Pelling.run_sim (k : Nat) :
    ∀ (calls : List Call) (s : Pelling), s.wf k →
      (s.run calls).1 = (bankRun k s.bank calls).1 ∧
      (s.run calls).2.bank = (bankRun k s.bank calls).2 ∧
      (s.run calls).2.wf k
  | [], s, h => by simp [Pelling.run, bankRun, h]
  | Call.push clear cipher ch :: rest, s, h => by
    obtain ⟨h1, h2, h3⟩ := Pelling.push_sim s k h clear cipher ch
    have ih := Pelling.run_sim k rest (s.push clear cipher ch).2 h3
    simp only [Pelling.run, bankRun]
    rw [← h1, ← h2]
    exact ⟨by rw [ih.1], ih.2⟩
  | Call.pop clear cipher ch :: rest, s, h => by
    obtain ⟨h2, h3⟩ := Pelling.pop_sim s k h clear cipher ch
    have ih := Pelling.run_sim k rest (s.pop clear cipher ch) h3
    simp only [Pelling.run, bankRun]
    rw [← h2]
    exact ih

theorem Pelling.init_bank (k : Nat) :
    (Pelling.init k).bank = List.replicate k Simple.init := by
  simp [Pelling.bank, Pelling.init, Simple.init]

end simple

/-- C6: `Pelling(k)` with `k > 0` behaves as `k` independent `Simple` matchers
keyed by position mod `k`. For every sequence of push and pop calls the results
of the pushes are those obtained by serving each call at clear length `n` with
the `Simple` matcher number `n % k` (the other matchers untouched), and the
pairs of `Pelling` tables are at the end the tables of these `Simple`
matchers. -/
theorem pelling_refines_simple_bank (k : Nat) (_hk : 0 < k) (calls : List Call) :
    ((Pelling.init k).run calls).1 = (bankRun k (List.replicate k Simple.init) calls).1 ∧
    ((Pelling.init k).run calls).2.bank =
      (bankRun k (List.replicate k Simple.init) calls).2 ∧
    ((Pelling.init k).run calls).2.bank.length = k := by
  have hwf : (Pelling.init k).wf k := by simp [Pelling.wf, Pelling.init]
  have h := Pelling.run_sim k calls (Pelling.init k) hwf
  rw [Pelling.init_bank] at h
  refine ⟨h.1, h.2.1, ?_⟩
  obtain ⟨_, h2, h3⟩ := h.2.2
  simp [Pelling.bank, h2, h3]

/-- Witness for `pelling_refines_simple_bank`: `Pelling(2)` on the first two
pushes of "ab" over "bc". -/
theorem pelling_refines_simple_bank_witness :
    ((Pelling.init 2).run [Call.push [] [98, 99] 97, Call.push [97] [98, 99] 98]).1 =
      (bankRun 2 (List.replicate 2 Simple.init)
        [Call.push [] [98, 99] 97, Call.push [97] [98, 99] 98]).1 :=
  (pelling_refines_simple_bank 2 (by decide)
    [Call.push [] [98, 99] 97, Call.push [97] [98, 99] 98]).1

end SimpleMatchers

section PlayfairMatcher
open playfair

/-! ## Theorems: the `Playfair` matcher, `push` and `pop` -/

namespace playfair

theorem Playfair.push_cases (s : Playfair) (clear cipher : Str) (ch : Chr) :
    s.push clear cipher ch = (false, s) ∨
    (clear.length % 2 = 1 ∧
      s.push clear cipher ch = (true, { s with units := s.units ++
        [{ clear_text := (clear.at (clear.length - 1), ch),
           cipher_text := (cipher.at (clear.length - 1), cipher.at clear.length) }] })) ∨
    (clear.length % 2 = 0 ∧ s.push clear cipher ch = (true, s)) := by
  unfold Playfair.push
  dsimp only
  split_ifs with h1 h2 h3 h4 h5
  · exact Or.inl rfl
  · exact Or.inl rfl
  · exact Or.inl rfl
  · exact Or.inr (Or.inl ⟨h3, rfl⟩)
  · exact Or.inl rfl
  · exact Or.inr (Or.inr ⟨by omega, rfl⟩)

end playfair

/-- C5: after an accepted `Playfair::push` the matching `pop` restores the list
of committed units (one unit, built from the last two plaintext and ciphertext
characters, is appended and removed when `|clear|` is odd, nothing changes when
`|clear|` is even); `push` and `pop` leave the key matrix and the indices
`_i_clear`, `_i_cipher` alone in every state. -/
theorem playfair_push_pop_units (s : Playfair) (clear cipher : Str) (ch : Chr) :
    ((s.push clear cipher ch).1 = true →
      ((s.push clear cipher ch).2.pop clear cipher ch).units = s.units ∧
      (clear.length % 2 = 1 → (s.push clear cipher ch).2.units = s.units ++
        [{ clear_text := (clear.at (clear.length - 1), ch),
           cipher_text := (cipher.at (clear.length - 1), cipher.at clear.length) }]) ∧
      (clear.length % 2 = 0 → (s.push clear cipher ch).2.units = s.units)) ∧
    ((s.push clear cipher ch).2.matrix = s.matrix ∧
      (s.push clear cipher ch).2.i_clear = s.i_clear ∧
      (s.push clear cipher ch).2.i_cipher = s.i_cipher) ∧
    ((s.pop clear cipher ch).matrix = s.matrix ∧
      (s.pop clear cipher ch).i_clear = s.i_clear ∧
      (s.pop clear cipher ch).i_cipher = s.i_cipher) := by
  refine ⟨?_, ?_, ?_⟩
  · intro h
    rcases Playfair.push_cases s clear cipher ch with hc | ⟨hodd, hc⟩ | ⟨hev, hc⟩
    · rw [hc] at h; cases h
    · rw [hc]
      refine ⟨?_, fun _ => rfl, fun h0 => by omega⟩
      simp [Playfair.pop, hodd]
    · rw [hc]
      refine ⟨?_, fun h1 => by omega, fun _ => rfl⟩
      simp [Playfair.pop, hev]
  · rcases Playfair.push_cases s clear cipher ch with hc | ⟨_, hc⟩ | ⟨_, hc⟩ <;>
      rw [hc] <;> exact ⟨rfl, rfl, rfl⟩
  · unfold Playfair.pop
    split_ifs <;> exact ⟨rfl, rfl, rfl⟩

/-- Witness for `playfair_push_pop_units`: the push of 'b' after "a" over the
ciphertext "xy" on a fresh matcher, then the pop. -/
theorem playfair_push_pop_units_witness :
    (((Playfair.init 16).push [97] [120, 121] 98).2.pop [97] [120, 121] 98).units
      = (Playfair.init 16).units :=
  ((playfair_push_pop_units (Playfair.init 16) [97] [120, 121] 98).1 (by decide)).1

end PlayfairMatcher

section ChaoticMatcher
open chaotic

/-! ## Theorems: the `Chaotic` matcher on concrete texts -/

/-- C8: `Chaotic::push` returns false and leaves the matcher unchanged whenever
`ch` equals `cipher[|clear|]`, in every state; in particular the push of 'a' at
position 0 of the ciphertext "aacd" is rejected. -/
theorem chaotic_push_rejects_fixed_point (s : Chaotic) (clear cipher : Str) (ch : Chr)
    (h : ch = cipher.at clear.length) :
    s.push clear cipher ch = (false, s) ∧
    (Chaotic.init.push [] [97, 97, 99, 100] 97).1 = false := by
  constructor
  · unfold Chaotic.push
    rw [if_pos h]
  · decide

/-- Witness for `chaotic_push_rejects_fixed_point`: 'a' against "aacd". -/
theorem chaotic_push_rejects_fixed_point_witness :
    Chaotic.init.push [] [97, 97, 99, 100] 97 = (false, Chaotic.init) :=
  (chaotic_push_rejects_fixed_point Chaotic.init [] [97, 97, 99, 100] 97 (by decide)).1

/-- C9, as stated, fails: with the ciphertext "bacd" the pushes of 'a', 'b', 'c',
'd' on a fresh `Chaotic` matcher are not all accepted. -/
theorem chaotic_bacd_not_accepted :
    Chaotic.firstRejected [98, 97, 99, 100] Chaotic.init [] [97, 98, 99, 100] ≠ none := by
  decide

/-- C9, amended: with the ciphertext "bacd" the pushes of 'a' and 'b' are
accepted and the push of 'c' at position 2 is the first one rejected, 'c' being
equal to the ciphertext character of that position. -/
theorem chaotic_bacd_first_rejected :
    (Chaotic.init.push [] [98, 97, 99, 100] 97).1 = true ∧
    ((Chaotic.init.push [] [98, 97, 99, 100] 97).2.push [97] [98, 97, 99, 100] 98).1 = true ∧
    Chaotic.firstRejected [98, 97, 99, 100] Chaotic.init [] [97, 98, 99, 100] = some 2 ∧
    (99 : Chr) = Str.at [98, 97, 99, 100] 2 := by
  decide

namespace chaotic
namespace Matrix

theorem swapEntries_next (m : Matrix) (a b x : Chr) (hab : a ≠ b) :
    (m.swapEntries a b).next x =
      if x = b then ⟨a, (m.next a).counter⟩ else if x = a then m.next b else m.next x := by
  unfold swapEntries exchange
  by_cases h1 : x = b
  · subst h1
    simp [Function.update_apply, Reference.setSymbol]
  · by_cases h2 : x = a
    · subst h2
      simp [Function.update_apply, hab, Reference.setSymbol]
    · simp [Function.update_apply, h1, h2]

theorem swapEntries_prev (m : Matrix) (a b x : Chr) (hab : a ≠ b) :
    (m.swapEntries a b).prev x =
      if x = a then ⟨b, (m.prev b).counter⟩ else if x = b then m.prev a else m.prev x := by
  unfold swapEntries exchange
  by_cases h1 : x = a
  · subst h1
    simp [Function.update_apply, hab, Reference.setSymbol]
  · by_cases h2 : x = b
    · subst h2
      simp [Function.update_apply, h1, Reference.setSymbol]
    · simp [Function.update_apply, h1, h2]

theorem relinkPrev_prev (m : Matrix) (b x : Chr) : (m.relinkPrev b).prev x = m.prev x := by
  unfold relinkPrev; split_ifs <;> rfl

theorem relinkPrev_next (m : Matrix) (b x : Chr) :
    (m.relinkPrev b).next x =
      if (m.prev b).counter ≠ 0 ∧ x = (m.prev b).symbol then ⟨b, (m.next x).counter⟩
      else m.next x := by
  unfold relinkPrev
  by_cases h0 : (m.prev b).counter = 0
  · simp [Reference.is_null, h0]
  · by_cases hx : x = (m.prev b).symbol
    · subst hx; simp [Reference.is_null, h0, Reference.setSymbol]
    · simp [Reference.is_null, h0, Function.update_apply, hx]

theorem relinkNext_next (m : Matrix) (a x : Chr) : (m.relinkNext a).next x = m.next x := by
  unfold relinkNext; split_ifs <;> rfl

theorem relinkNext_prev (m : Matrix) (a x : Chr) :
    (m.relinkNext a).prev x =
      if (m.next a).counter ≠ 0 ∧ x = (m.next a).symbol then ⟨a, (m.prev x).counter⟩
      else m.prev x := by
  unfold relinkNext
  by_cases h0 : (m.next a).counter = 0
  · simp [Reference.is_null, h0]
  · by_cases hx : x = (m.next a).symbol
    · subst hx; simp [Reference.is_null, h0, Reference.setSymbol]
    · simp [Reference.is_null, h0, Function.update_apply, hx]

theorem swap_next (m : Matrix) (a b x : Chr) (hab : a ≠ b) :
    (m.swap a b).next x =
      if (m.prev a).counter ≠ 0 ∧ x = (m.prev a).symbol then
        ⟨b, ((m.swapEntries a b).next x).counter⟩
      else (m.swapEntries a b).next x := by
  unfold swap
  rw [relinkNext_next, relinkPrev_next, swapEntries_prev m a b b hab]
  simp [hab.symm]

theorem swap_prev (m : Matrix) (a b x : Chr) :
    (m.swap a b).prev x =
      if ((m.swap a b).next a).counter ≠ 0 ∧ x = ((m.swap a b).next a).symbol then
        ⟨a, ((m.swapEntries a b).prev x).counter⟩
      else (m.swapEntries a b).prev x := by
  unfold swap
  rw [relinkNext_prev]
  simp only [relinkNext_next, relinkPrev_prev]

theorem add_next (m : Matrix) (c w x : Chr) :
    (m.add c w).next x = if x = w then ((m.swap c w).next w).inc else (m.swap c w).next x := by
  simp [add, inc_refs, Function.update_apply]

theorem add_prev (m : Matrix) (c w x : Chr) :
    (m.add c w).prev x = if x = c then ((m.swap c w).prev c).inc else (m.swap c w).prev x := by
  simp [add, inc_refs, Function.update_apply]

theorem Linked.prev_clear {m : Matrix} (hL : m.Linked) {c w : Chr} (hcw : c ≠ w)
    (hN : (m.next c).counter = 0 ∨ w = (m.next c).symbol) (h : (m.prev c).counter ≠ 0) :
    (m.prev c).symbol ≠ c ∧ (m.next (m.prev c).symbol).counter ≠ 0 ∧
      (m.next (m.prev c).symbol).symbol = c := by
  obtain ⟨h1, h2⟩ := hL.2 c h
  refine ⟨fun e => ?_, h1, h2⟩
  rw [e] at h1 h2
  rcases hN with hN | hN
  · exact h1 hN
  · exact hcw (by rw [hN, h2])

theorem Linked.next_cipher {m : Matrix} (hL : m.Linked) {c w : Chr} (hcw : c ≠ w)
    (hP : (m.prev w).counter = 0 ∨ c = (m.prev w).symbol) (h : (m.next w).counter ≠ 0) :
    (m.next w).symbol ≠ w ∧ (m.prev (m.next w).symbol).counter ≠ 0 ∧
      (m.prev (m.next w).symbol).symbol = w := by
  obtain ⟨h1, h2⟩ := hL.1 w h
  refine ⟨fun e => ?_, h1, h2⟩
  rw [e] at h1 h2
  rcases hP with hP | hP
  · exact h1 hP
  · exact hcw (by rw [hP, h2])

/-- Entry `x` of `_next` after `add`, all cases spelled out. -/
theorem add_next_eq (m : Matrix) (c w x : Chr) (hcw : c ≠ w) (hL : m.Linked)
    (hN : (m.next c).counter = 0 ∨ w = (m.next c).symbol)
    (hP : (m.prev w).counter = 0 ∨ c = (m.prev w).symbol) :
    (m.add c w).next x =
      if x = w then
        ⟨if (m.prev c).counter ≠ 0 ∧ (m.prev c).symbol = w then w else c,
          ((m.next c).counter + 1) % SIZE_MOD⟩
      else if x = c then m.next w
      else if (m.prev c).counter ≠ 0 ∧ x = (m.prev c).symbol then ⟨w, (m.next x).counter⟩
      else m.next x := by
  rw [add_next]
  simp only [swap_next _ _ _ _ hcw, swapEntries_next _ _ _ _ hcw, Reference.inc]
  by_cases hpc : (m.prev c).counter = 0
  · by_cases hxw : x = w <;> simp [hpc, hxw]
  · obtain ⟨h1, h2, h3⟩ := hL.prev_clear hcw hN hpc
    by_cases hxw : x = w
    · subst hxw
      by_cases hpw : x = (m.prev c).symbol
      · simp [hpc, ← hpw]
      · simp [hpc, hpw, Ne.symm hpw]
    · by_cases hxc : x = c
      · subst hxc
        simp [hpc, hxw, Ne.symm h1]
      · simp [hpc, hxw, hxc]

/-- Entry `x` of `_prev` after `add`, all cases spelled out. -/
theorem add_prev_eq (m : Matrix) (c w x : Chr) (hcw : c ≠ w) (hL : m.Linked)
    (hN : (m.next c).counter = 0 ∨ w = (m.next c).symbol)
    (hP : (m.prev w).counter = 0 ∨ c = (m.prev w).symbol) :
    (m.add c w).prev x =
      if x = c then
        ⟨if (m.next w).counter ≠ 0 ∧ (m.next w).symbol = c then c else w,
          ((m.prev w).counter + 1) % SIZE_MOD⟩
      else if x = w then m.prev c
      else if (m.next w).counter ≠ 0 ∧ x = (m.next w).symbol then ⟨c, (m.prev x).counter⟩
      else m.prev x := by
  have hsc : (m.swap c w).next c = m.next w := by
    rw [swap_next _ _ _ _ hcw, swapEntries_next _ _ _ _ hcw]
    by_cases hpc : (m.prev c).counter = 0
    · simp [hpc, hcw]
    · obtain ⟨h1, _, _⟩ := hL.prev_clear hcw hN hpc
      simp [hpc, hcw, Ne.symm h1]
  rw [add_prev]
  simp only [swap_prev, hsc, swapEntries_prev _ _ _ _ hcw, Reference.inc]
  by_cases hnw : (m.next w).counter = 0
  · by_cases hxc : x = c <;> simp [hnw, hxc]
  · obtain ⟨h1, h2, h3⟩ := hL.next_cipher hcw hP hnw
    by_cases hxc : x = c
    · subst hxc
      by_cases hpw : x = (m.next w).symbol
      · simp [hnw, ← hpw]
      · simp [hnw, hpw, Ne.symm hpw]
    · by_cases hxw : x = w
      · subst hxw
        simp [hnw, hxc, Ne.symm h1]
      · simp [hnw, hxw, hxc]

theorem ref_ext {r : Reference} {s : Chr} {n : Nat} (h1 : r.symbol = s) (h2 : r.counter = n) :
    r = ⟨s, n⟩ := by
  cases r; simp_all

theorem remove_next_eq (m : Matrix) (c w x : Chr) (hcw : c ≠ w) :
    (m.remove c w).next x =
      if (m.prev w).counter ≠ 0 ∧ x = (m.prev w).symbol then
        ⟨c, (if x = c then (m.next w).dec.counter
              else if x = w then (m.next c).counter else (m.next x).counter)⟩
      else if x = c then ⟨w, (m.next w).dec.counter⟩
      else if x = w then m.next c else m.next x := by
  unfold remove
  rw [swap_next _ _ _ _ (Ne.symm hcw), swapEntries_next _ _ _ _ (Ne.symm hcw)]
  simp only [dec_refs, Function.update_apply, hcw, Ne.symm hcw, if_false, if_true]
  by_cases hxc : x = c
  · subst hxc; simp [hcw]
  · by_cases hxw : x = w
    · subst hxw; simp [hxc]
    · simp [hxc, hxw]

theorem remove_prev_eq (m : Matrix) (c w x : Chr) (hcw : c ≠ w) :
    (m.remove c w).prev x =
      if ((m.remove c w).next w).counter ≠ 0 ∧ x = ((m.remove c w).next w).symbol then
        ⟨w, (if x = w then (m.prev c).dec.counter
              else if x = c then (m.prev w).counter else (m.prev x).counter)⟩
      else if x = w then ⟨c, (m.prev c).dec.counter⟩
      else if x = c then m.prev w else m.prev x := by
  have h : (m.remove c w).prev x = ((m.dec_refs w c).swap w c).prev x := rfl
  have h2 : (m.remove c w).next w = ((m.dec_refs w c).swap w c).next w := rfl
  rw [h, h2, swap_prev, swapEntries_prev _ _ _ _ (Ne.symm hcw)]
  simp only [dec_refs, Function.update_apply, hcw, Ne.symm hcw, if_false, if_true]
  by_cases hxw : x = w
  · subst hxw; simp [Ne.symm hcw]
  · by_cases hxc : x = c
    · subst hxc; simp [hxw]
    · simp [hxc, hxw]

/-- After an accepted `add` the matching `remove` gives back every entry, the
entries `_next[c]` and `_prev[w]` with the symbols bound by the `add`. -/
theorem remove_add (m : Matrix) (c w : Chr) (hcw : c ≠ w) (hL : m.Linked)
    (hN : (m.next c).counter = 0 ∨ w = (m.next c).symbol)
    (hP : (m.prev w).counter = 0 ∨ c = (m.prev w).symbol)
    (hbn : (m.next c).counter < SIZE_MOD) (hbp : (m.prev w).counter < SIZE_MOD) :
    (∀ x, ((m.add c w).remove c w).next x =
      if x = c then ⟨w, (m.next c).counter⟩ else m.next x) ∧
    (∀ x, ((m.add c w).remove c w).prev x =
      if x = w then ⟨c, (m.prev w).counter⟩ else m.prev x) := by
  have hnext : ∀ x, ((m.add c w).remove c w).next x =
      if x = c then ⟨w, (m.next c).counter⟩ else m.next x := by
    intro x
    rw [remove_next_eq _ _ _ _ hcw]
    simp only [add_next_eq m c w _ hcw hL hN hP, add_prev_eq m c w _ hcw hL hN hP,
      Reference.dec, hcw, Ne.symm hcw, if_true, if_false, wrap_inc_dec _ hbn]
    by_cases hpc : (m.prev c).counter = 0
    · by_cases hxc : x = c
      · simp [hpc, hxc]
      · by_cases hxw : x = w <;> simp [hpc, hxc, hxw]
    · obtain ⟨h1, h2, h3⟩ := hL.prev_clear hcw hN hpc
      by_cases hxc : x = c
      · subst hxc; simp [hpc, Ne.symm h1]
      · by_cases hxp : x = (m.prev c).symbol
        · subst hxp
          simp only [hpc, hxc, ne_eq, not_false_eq_true, and_self, if_true, if_false]
          by_cases hxw : (m.prev c).symbol = w
          · simp [hxw, (ref_ext (by rw [← hxw]; exact h3) rfl : m.next w = ⟨c, (m.next w).counter⟩).symm]
          · simp [hxw, (ref_ext h3 rfl : m.next (m.prev c).symbol = ⟨c, _⟩).symm]
        · by_cases hxw : x = w
          · subst hxw; simp [hpc, hxc, hxp, hcw, Ne.symm hcw]
          · simp [hpc, hxc, hxw, hxp]
  refine ⟨hnext, ?_⟩
  intro x
  rw [remove_prev_eq _ _ _ _ hcw, hnext w]
  simp only [add_prev_eq m c w _ hcw hL hN hP,
    Reference.dec, hcw, Ne.symm hcw, if_true, if_false, wrap_inc_dec _ hbp]
  by_cases hnw : (m.next w).counter = 0
  · by_cases hxw : x = w
    · simp [hnw, hxw]
    · by_cases hxc : x = c <;> simp [hnw, hxc, hxw]
  · obtain ⟨h1, h2, h3⟩ := hL.next_cipher hcw hP hnw
    by_cases hxw : x = w
    · subst hxw; simp [hnw, Ne.symm h1]
    · by_cases hxp : x = (m.next w).symbol
      · subst hxp
        simp only [hnw, hxw, ne_eq, not_false_eq_true, and_self, if_true, if_false]
        by_cases hxc : (m.next w).symbol = c
        · simp [hxc, (ref_ext (by rw [← hxc]; exact h3) rfl : m.prev c = ⟨w, (m.prev c).counter⟩).symm]
        · simp [hxc, (ref_ext h3 rfl : m.prev (m.next w).symbol = ⟨w, _⟩).symm]
      · by_cases hxc : x = c
        · subst hxc; simp [hnw, hxw, hxp, hcw, Ne.symm hcw]
        · simp [hnw, hxc, hxw, hxp]

theorem wrap_succ_ne_zero (n : Nat) (h : n + 1 < SIZE_MOD) : (n + 1) % SIZE_MOD ≠ 0 := by
  rw [Nat.mod_eq_of_lt h]; omega

/-- An accepted `add` keeps bound entries pointing at each other. -/
theorem Linked.after_add {m : Matrix} (hL : m.Linked) (c w : Chr) (hcw : c ≠ w)
    (hN : (m.next c).counter = 0 ∨ w = (m.next c).symbol)
    (hP : (m.prev w).counter = 0 ∨ c = (m.prev w).symbol)
    (hbn : (m.next c).counter + 1 < SIZE_MOD) (hbp : (m.prev w).counter + 1 < SIZE_MOD) :
    (m.add c w).Linked := by
  have hkn := wrap_succ_ne_zero _ hbn
  have hkp := wrap_succ_ne_zero _ hbp
  have hwc : w ≠ c := Ne.symm hcw
  constructor
  · intro a
    by_cases haw : a = w
    · subst haw
      intro _
      by_cases hal : (m.prev c).counter ≠ 0 ∧ (m.prev c).symbol = a
      · have e1 : ((m.add c a).next a).symbol = a := by
          rw [add_next_eq m c a _ hcw hL hN hP]; simp [hal]
        rw [e1, add_prev_eq m c a _ hcw hL hN hP]
        simp [hwc, hal.1, hal.2]
      · have e1 : ((m.add c a).next a).symbol = c := by
          rw [add_next_eq m c a _ hcw hL hN hP]; simp [hal]
        have hna : ¬ ((m.next a).counter ≠ 0 ∧ (m.next a).symbol = c) := by
          rintro ⟨h1, h2⟩
          have := hL.1 a h1
          rw [h2] at this
          exact hal this
        rw [e1, add_prev_eq m c a _ hcw hL hN hP]
        simp [hna, hkp]
    · by_cases hac : a = c
      · subst hac
        have e0 : (m.add a w).next a = m.next w := by
          rw [add_next_eq m a w _ hcw hL hN hP]; simp [haw]
        rw [e0]
        intro hb
        obtain ⟨h1, h2, h3⟩ := hL.next_cipher hcw hP hb
        rw [add_prev_eq m a w _ hcw hL hN hP]
        by_cases hna : (m.next w).symbol = a
        · simp [hna, hb, hkp]
        · simp [hna, hb, h1, h2]
      · by_cases hap : (m.prev c).counter ≠ 0 ∧ a = (m.prev c).symbol
        · have e0 : (m.add c w).next a = ⟨w, (m.next a).counter⟩ := by
            rw [add_next_eq m c w _ hcw hL hN hP]; simp [haw, hac, hap.1, ← hap.2]
          rw [e0]
          intro _
          rw [add_prev_eq m c w _ hcw hL hN hP]
          simp [hwc, hap.1, ← hap.2]
        · have e0 : (m.add c w).next a = m.next a := by
            rw [add_next_eq m c w _ hcw hL hN hP]
            simp only [haw, hac, if_false]
            rw [if_neg hap]
          rw [e0]
          intro hb
          obtain ⟨h2, h3⟩ := hL.1 a hb
          have hbc : (m.next a).symbol ≠ c := by
            intro e; rw [e] at h2 h3; exact hap ⟨h2, h3.symm⟩
          have hbw : (m.next a).symbol ≠ w := by
            intro e; rw [e] at h2 h3
            rcases hP with hP | hP
            · exact h2 hP
            · exact hac (by rw [← h3, ← hP])
          have hbn' : ¬ ((m.next w).counter ≠ 0 ∧ (m.next a).symbol = (m.next w).symbol) := by
            rintro ⟨h4, h5⟩
            obtain ⟨_, _, h6⟩ := hL.next_cipher hcw hP h4
            rw [← h5, h3] at h6
            exact haw h6
          rw [add_prev_eq m c w _ hcw hL hN hP]
          simp only [hbc, hbw, if_false]
          rw [if_neg hbn']
          exact ⟨h2, h3⟩
  · intro a
    by_cases hac : a = c
    · subst hac
      intro _
      by_cases hal : (m.next w).counter ≠ 0 ∧ (m.next w).symbol = a
      · have e1 : ((m.add a w).prev a).symbol = a := by
          rw [add_prev_eq m a w _ hcw hL hN hP]; simp [hal]
        rw [e1, add_next_eq m a w _ hcw hL hN hP]
        simp [hcw, hal.1, hal.2]
      · have e1 : ((m.add a w).prev a).symbol = w := by
          rw [add_prev_eq m a w _ hcw hL hN hP]; simp [hal]
        have hna : ¬ ((m.prev a).counter ≠ 0 ∧ (m.prev a).symbol = w) := by
          rintro ⟨h1, h2⟩
          have := hL.2 a h1
          rw [h2] at this
          exact hal this
        rw [e1, add_next_eq m a w _ hcw hL hN hP]
        simp [hna, hkn]
    · by_cases haw : a = w
      · subst haw
        have e0 : (m.add c a).prev a = m.prev c := by
          rw [add_prev_eq m c a _ hcw hL hN hP]; simp [hac]
        rw [e0]
        intro hb
        obtain ⟨h1, h2, h3⟩ := hL.prev_clear hcw hN hb
        rw [add_next_eq m c a _ hcw hL hN hP]
        by_cases hna : (m.prev c).symbol = a
        · simp [hna, hb, hkn]
        · simp [hna, hb, h1, h2]
      · by_cases hap : (m.next w).counter ≠ 0 ∧ a = (m.next w).symbol
        · have e0 : (m.add c w).prev a = ⟨c, (m.prev a).counter⟩ := by
            rw [add_prev_eq m c w _ hcw hL hN hP]; simp [haw, hac, hap.1, ← hap.2]
          rw [e0]
          intro _
          rw [add_next_eq m c w _ hcw hL hN hP]
          simp [hcw, hap.1, ← hap.2]
        · have e0 : (m.add c w).prev a = m.prev a := by
            rw [add_prev_eq m c w _ hcw hL hN hP]
            simp only [haw, hac, if_false]
            rw [if_neg hap]
          rw [e0]
          intro hb
          obtain ⟨h2, h3⟩ := hL.2 a hb
          have hbw : (m.prev a).symbol ≠ w := by
            intro e; rw [e] at h2 h3; exact hap ⟨h2, h3.symm⟩
          have hbc : (m.prev a).symbol ≠ c := by
            intro e; rw [e] at h2 h3
            rcases hN with hN | hN
            · exact h2 hN
            · exact haw (by rw [← h3, ← hN])
          have hbn' : ¬ ((m.prev c).counter ≠ 0 ∧ (m.prev a).symbol = (m.prev c).symbol) := by
            rintro ⟨h4, h5⟩
            obtain ⟨_, _, h6⟩ := hL.prev_clear hcw hN h4
            rw [← h5, h3] at h6
            exact hac h6
          rw [add_next_eq m c w _ hcw hL hN hP]
          simp only [hbc, hbw, if_false]
          rw [if_neg hbn']
          exact ⟨h2, h3⟩

theorem similar_refl (r : Reference) : similar r r := ⟨rfl, fun _ => rfl⟩

theorem similar_mk {r r' : Reference} (h : similar r r') (s : Chr) :
    similar ⟨s, r.counter⟩ ⟨s, r'.counter⟩ := ⟨h.1, fun _ => rfl⟩

theorem similar_mk_dec {r r' : Reference} (h : similar r r') (s : Chr) :
    similar ⟨s, r.dec.counter⟩ ⟨s, r'.dec.counter⟩ := by
  refine ⟨?_, fun _ => rfl⟩
  simp [Reference.dec, h.1]

theorem similar_cond {r r' : Reference} (h : similar r r') (x : Chr) :
    (r.counter ≠ 0 ∧ x = r.symbol) ↔ (r'.counter ≠ 0 ∧ x = r'.symbol) := by
  constructor
  · rintro ⟨h1, h2⟩
    have h3 : r'.counter ≠ 0 := by rw [← h.1]; exact h1
    exact ⟨h3, by rw [h2, h.2 h3]⟩
  · rintro ⟨h1, h2⟩
    exact ⟨by rw [h.1]; exact h1, by rw [h2, h.2 h1]⟩

/-- Embedding of `remove` maps similar matrices to similar matrices. -/
theorem Similar.remove {m m' : Matrix} (h : m.Similar m') (c w : Chr) (hcw : c ≠ w) :
    (m.remove c w).Similar (m'.remove c w) := by
  have hnext : ∀ x, similar ((m.remove c w).next x) ((m'.remove c w).next x) := by
    intro x
    rw [remove_next_eq _ _ _ _ hcw, remove_next_eq _ _ _ _ hcw]
    by_cases hc : (m'.prev w).counter ≠ 0 ∧ x = (m'.prev w).symbol
    · rw [if_pos hc, if_pos ((similar_cond (h w).2 x).2 hc)]
      refine ⟨?_, fun _ => rfl⟩
      simp only [Reference.dec, (h w).1.1, (h c).1.1, (h x).1.1]
    · rw [if_neg hc, if_neg (fun hc2 => hc ((similar_cond (h w).2 x).1 hc2))]
      by_cases hxc : x = c
      · simp only [hxc, if_true]
        exact similar_mk_dec (h w).1 w
      · by_cases hxw : x = w
        · simp only [hxc, hxw, if_true, if_false, Ne.symm hcw]
          exact (h c).1
        · simp only [hxc, hxw, if_false]
          exact (h x).1
  intro x
  refine ⟨hnext x, ?_⟩
  rw [remove_prev_eq _ _ _ _ hcw, remove_prev_eq _ _ _ _ hcw]
  by_cases hc : ((m'.remove c w).next w).counter ≠ 0 ∧ x = ((m'.remove c w).next w).symbol
  · rw [if_pos hc, if_pos ((similar_cond (hnext w) x).2 hc)]
    refine ⟨?_, fun _ => rfl⟩
    simp only [Reference.dec, (h w).2.1, (h c).2.1, (h x).2.1]
  · rw [if_neg hc, if_neg (fun hc2 => hc ((similar_cond (hnext w) x).1 hc2))]
    by_cases hxw : x = w
    · simp only [hxw, if_true]
      exact similar_mk_dec (h c).2 c
    · by_cases hxc : x = c
      · simp only [hxc, hxw, if_true, if_false, hcw]
        exact (h w).2
      · simp only [hxc, hxw, if_false]
        exact (h x).2

theorem Similar.linked_of {m m' : Matrix} (h : m'.Similar m) (hL : m.Linked) : m'.Linked := by
  constructor
  · intro a ha
    have ha' : (m.next a).counter ≠ 0 := by rw [← (h a).1.1]; exact ha
    obtain ⟨h1, h2⟩ := hL.1 a ha'
    rw [(h a).1.2 ha']
    exact ⟨by rw [(h _).2.1]; exact h1, by rw [(h _).2.2 h1]; exact h2⟩
  · intro a ha
    have ha' : (m.prev a).counter ≠ 0 := by rw [← (h a).2.1]; exact ha
    obtain ⟨h1, h2⟩ := hL.2 a ha'
    rw [(h a).2.2 ha']
    exact ⟨by rw [(h _).1.1]; exact h1, by rw [(h _).1.2 h1]; exact h2⟩

theorem Similar.bounded_of {m m' : Matrix} (h : m'.Similar m) {n : Nat} (hB : m.Bounded n) :
    m'.Bounded n := by
  intro x
  rw [(h x).1.1, (h x).2.1]
  exact hB x

theorem Stacked.similar : ∀ (st : List (Chr × Chr)) {m m' : Matrix},
    m'.Similar m → m.Stacked st → m'.Stacked st
  | [], _, _, h, hs => ⟨h.linked_of hs.1, h.bounded_of hs.2⟩
  | p :: rest, _, _, h, hs =>
    ⟨h.linked_of hs.1, h.bounded_of hs.2.1, hs.2.2.1,
      Stacked.similar rest (h.remove p.1 p.2 hs.2.2.1) hs.2.2.2⟩

theorem Stacked.linked {st : List (Chr × Chr)} {m : Matrix} (h : m.Stacked st) : m.Linked := by
  cases st with
  | nil => exact h.1
  | cons p rest => exact h.1

theorem Stacked.bounded {st : List (Chr × Chr)} {m : Matrix} (h : m.Stacked st) :
    m.Bounded st.length := by
  cases st with
  | nil => exact h.2
  | cons p rest => exact h.2.1

theorem Bounded.succ_after_add {m : Matrix} {n : Nat} (hB : m.Bounded n) (c w : Chr) (hcw : c ≠ w)
    (hL : m.Linked)
    (hN : (m.next c).counter = 0 ∨ w = (m.next c).symbol)
    (hP : (m.prev w).counter = 0 ∨ c = (m.prev w).symbol) :
    (m.add c w).Bounded (n + 1) := by
  intro x
  have hm : ∀ k, k ≤ n → (k + 1) % SIZE_MOD ≤ n + 1 :=
    fun k hk => le_trans (Nat.mod_le _ _) (by omega)
  rw [add_next_eq m c w _ hcw hL hN hP, add_prev_eq m c w _ hcw hL hN hP]
  constructor
  · split_ifs <;> first | exact hm _ (hB _).1 | exact Nat.le_succ_of_le (hB _).1
  · split_ifs <;> first | exact hm _ (hB _).2 | exact Nat.le_succ_of_le (hB _).2

theorem can_add_iff (m : Matrix) (c w : Chr) :
    m.can_add c w = true ↔
      ((m.next c).counter = 0 ∨ w = (m.next c).symbol) ∧
      ((m.prev w).counter = 0 ∨ c = (m.prev w).symbol) := by
  simp [can_add, Reference.is_compatible]

/-- An accepted `add` on a stacked matrix gives a stacked matrix, one deeper. -/
theorem Stacked.push_pair {st : List (Chr × Chr)} {m : Matrix} (h : m.Stacked st)
    (hsz : st.length + 1 < SIZE_MOD) (c w : Chr) (hcw : c ≠ w)
    (hc : m.can_add c w = true) : (m.add c w).Stacked ((c, w) :: st) := by
  obtain ⟨hN, hP⟩ := (can_add_iff m c w).1 hc
  have hL := h.linked
  have hB := h.bounded
  have hbn : (m.next c).counter + 1 < SIZE_MOD := by have := (hB c).1; omega
  have hbp : (m.prev w).counter + 1 < SIZE_MOD := by have := (hB w).2; omega
  refine ⟨hL.after_add c w hcw hN hP hbn hbp, hB.succ_after_add c w hcw hL hN hP, hcw, ?_⟩
  apply Stacked.similar st _ h
  obtain ⟨e1, e2⟩ := remove_add m c w hcw hL hN hP (by omega) (by omega)
  intro x
  rw [e1 x, e2 x]
  constructor
  · by_cases hx : x = c
    · subst hx
      simp only [if_true]
      refine ⟨rfl, fun hne => ?_⟩
      rcases hN with hN | hN
      · exact absurd hN hne
      · exact hN
    · simp only [hx, if_false]; exact similar_refl _
  · by_cases hx : x = w
    · subst hx
      simp only [if_true]
      refine ⟨rfl, fun hne => ?_⟩
      rcases hP with hP | hP
      · exact absurd hP hne
      · exact hP
    · simp only [hx, if_false]; exact similar_refl _

theorem Stacked.of_init : Matrix.init.Stacked [] := by
  refine ⟨⟨fun a h => absurd rfl h, fun a h => absurd rfl h⟩, fun x => ⟨le_refl _, le_refl _⟩⟩

end Matrix
end chaotic

namespace chaotic

theorem Chaotic.push_true_iff (s : Chaotic) (clear cipher : Str) (ch : Chr) :
    (s.push clear cipher ch).1 = true ↔
      ch ≠ cipher.at clear.length ∧ s.matrix.can_add ch (cipher.at clear.length) = true := by
  unfold Chaotic.push
  by_cases h1 : ch = cipher.at clear.length
  · simp [h1]
  · by_cases h2 : s.matrix.can_add ch (cipher.at clear.length) = true
    · simp [h1, h2]
    · simp [h1, h2]

theorem Chaotic.push_matrix_of_true (s : Chaotic) (clear cipher : Str) (ch : Chr)
    (h : (s.push clear cipher ch).1 = true) :
    (s.push clear cipher ch).2.matrix = s.matrix.add ch (cipher.at clear.length) := by
  obtain ⟨h1, h2⟩ := (Chaotic.push_true_iff s clear cipher ch).1 h
  unfold Chaotic.push
  rw [if_neg h1, if_pos h2]

theorem Chaotic.Reach.stacked {s : Chaotic} {st : List (Str × Str × Chr)}
    (h : Chaotic.Reach s st) : s.matrix.Stacked (st.map callPair) ∧ st.length < SIZE_MOD := by
  induction h with
  | init => exact ⟨Matrix.Stacked.of_init, by decide⟩
  | push clear cipher ch _ hsz hp ih =>
    obtain ⟨h1, h2⟩ := (Chaotic.push_true_iff _ clear cipher ch).1 hp
    rw [Chaotic.push_matrix_of_true _ _ _ _ hp]
    refine ⟨?_, by simpa using hsz⟩
    exact Matrix.Stacked.push_pair ih.1 (by simpa using hsz) ch _ h1 h2
  | pop clear cipher ch _ ih =>
    refine ⟨ih.1.2.2.2, ?_⟩
    have := ih.2
    simp only [List.length_cons] at this
    omega

/-- In every reachable state the committed relation of `_next` is injective:
two bound entries with the same symbol are the same entry. -/
theorem Chaotic.Reach.injective {s : Chaotic} {st : List (Str × Str × Chr)}
    (h : Chaotic.Reach s st) (a a' : Chr) (ha : (s.matrix.next a).counter ≠ 0)
    (ha' : (s.matrix.next a').counter ≠ 0)
    (e : (s.matrix.next a).symbol = (s.matrix.next a').symbol) : a = a' := by
  have hL := h.stacked.1.linked
  have h1 := (hL.1 a ha).2
  have h2 := (hL.1 a' ha').2
  rw [e] at h1
  rw [← h1, h2]

end chaotic

/-! ## Theorems: `push` and `pop` of the `Chaotic` matcher -/

/-- C4, as stated, fails: the fresh matcher is reachable, the push of 'a' over
the ciphertext "b" is accepted, and the pop that follows leaves `_next['a']`
with the symbol 'b' where the fresh matcher has `EMPTY`. -/
theorem chaotic_pop_keeps_symbol :
    Chaotic.Reach Chaotic.init [] ∧
    (Chaotic.init.push [] [98] 97).1 = true ∧
    (Chaotic.init.push [] [98] 97).2.pop [] [98] 97 ≠ Chaotic.init := by
  refine ⟨Chaotic.Reach.init, by decide, ?_⟩
  intro h
  have h2 : (((Chaotic.init.push [] [98] 97).2.pop [] [98] 97).matrix.next 97).symbol
      = (Chaotic.init.matrix.next 97).symbol := by rw [h]
  revert h2
  decide

/-- C4, amended: in every state reachable by accepted pushes and their matching
pops, an accepted push followed by its pop restores every counter of `_next`
and `_prev` and every entry other than `_next[ch]` and `_prev[w]`
(`w = cipher[|clear|]`); these two entries end with the symbols `w` and `ch`,
so every entry whose counter was non-zero is restored exactly. -/
theorem chaotic_pop_restores (s : Chaotic) (st : List (Str × Str × Chr))
    (hr : Chaotic.Reach s st) (clear cipher : Str) (ch : Chr)
    (hpush : (s.push clear cipher ch).1 = true) :
    (∀ x, (((s.push clear cipher ch).2.pop clear cipher ch).matrix.next x).counter
      = (s.matrix.next x).counter) ∧
    (∀ y, (((s.push clear cipher ch).2.pop clear cipher ch).matrix.prev y).counter
      = (s.matrix.prev y).counter) ∧
    (∀ x, x ≠ ch →
      ((s.push clear cipher ch).2.pop clear cipher ch).matrix.next x = s.matrix.next x) ∧
    (∀ y, y ≠ cipher.at clear.length →
      ((s.push clear cipher ch).2.pop clear cipher ch).matrix.prev y = s.matrix.prev y) ∧
    (((s.push clear cipher ch).2.pop clear cipher ch).matrix.next ch).symbol
      = cipher.at clear.length ∧
    (((s.push clear cipher ch).2.pop clear cipher ch).matrix.prev (cipher.at clear.length)).symbol
      = ch ∧
    (∀ x, (s.matrix.next x).counter ≠ 0 →
      ((s.push clear cipher ch).2.pop clear cipher ch).matrix.next x = s.matrix.next x) ∧
    (∀ y, (s.matrix.prev y).counter ≠ 0 →
      ((s.push clear cipher ch).2.pop clear cipher ch).matrix.prev y = s.matrix.prev y) := by
  obtain ⟨hst, hlen⟩ := hr.stacked
  obtain ⟨hne, hcan⟩ := (Chaotic.push_true_iff s clear cipher ch).1 hpush
  obtain ⟨hN, hP⟩ := (Matrix.can_add_iff _ _ _).1 hcan
  have hB := hst.bounded
  simp only [List.length_map] at hB
  obtain ⟨e1, e2⟩ := Matrix.remove_add s.matrix ch (cipher.at clear.length) hne hst.linked hN hP
    (lt_of_le_of_lt (hB ch).1 hlen) (lt_of_le_of_lt (hB _).2 hlen)
  have hm : ((s.push clear cipher ch).2.pop clear cipher ch).matrix
      = (s.matrix.add ch (cipher.at clear.length)).remove ch (cipher.at clear.length) := by
    rw [← Chaotic.push_matrix_of_true _ _ _ _ hpush]; rfl
  rw [hm]
  refine ⟨?_, ?_, ?_, ?_, ?_, ?_, ?_, ?_⟩
  · intro x; rw [e1]; split_ifs with hx
    · rw [hx]
    · rfl
  · intro y; rw [e2]; split_ifs with hy
    · rw [hy]
    · rfl
  · intro x hx; rw [e1, if_neg hx]
  · intro y hy; rw [e2, if_neg hy]
  · rw [e1, if_pos rfl]
  · rw [e2, if_pos rfl]
  · intro x hx
    rw [e1]
    split_ifs with hxc
    · subst hxc
      rcases hN with h0 | h0
      · exact absurd h0 hx
      · exact (Matrix.ref_ext h0.symm rfl).symm
    · rfl
  · intro y hy
    rw [e2]
    split_ifs with hyc
    · subst hyc
      rcases hP with h0 | h0
      · exact absurd h0 hy
      · exact (Matrix.ref_ext h0.symm rfl).symm
    · rfl

/-- Witness for `chaotic_pop_restores`: push and pop of 'a' over "b" on the
fresh matcher. -/
theorem chaotic_pop_restores_witness :
    (((Chaotic.init.push [] [98] 97).2.pop [] [98] 97).matrix.next 97).counter
      = (Chaotic.init.matrix.next 97).counter ∧
    ((Chaotic.init.push [] [98] 97).2.pop [] [98] 97).matrix.next 98
      = Chaotic.init.matrix.next 98 :=
  have h := chaotic_pop_restores Chaotic.init [] Chaotic.Reach.init [] [98] 97 (by decide)
  ⟨h.1 97, h.2.2.1 98 (by decide)⟩

/-- C10 on the code: with the ciphertext "bb" the pushes of 'a' and 'a' on the
fresh matcher are both accepted, and in the state they reach (a reachable one)
`_next['a']` has counter 1 and symbol 'a', and `_next['b']` has counter 1 and
symbol 'b': the committed relation has fixed points. -/
theorem chaotic_repeated_pair_fixed_point :
    Chaotic.Reach ((Chaotic.init.push [] [98, 98] 97).2.push [97] [98, 98] 97).2
      [([97], [98, 98], 97), ([], [98, 98], 97)] ∧
    (((Chaotic.init.push [] [98, 98] 97).2.push [97] [98, 98] 97).2.matrix.next 97) = ⟨97, 1⟩ ∧
    (((Chaotic.init.push [] [98, 98] 97).2.push [97] [98, 98] 97).2.matrix.next 98) = ⟨98, 1⟩ := by
  refine ⟨?_, by decide, by decide⟩
  exact Chaotic.Reach.push [97] [98, 98] 97
    (Chaotic.Reach.push [] [98, 98] 97 Chaotic.Reach.init (by decide) (by decide))
    (by decide) (by decide)

end ChaoticMatcher

section WordRegistry
open dict

/-! ## Theorems: the word registry -/

namespace dict

theorem Bimap.add_id_to_word (b : Bimap) (s : Str) (n : Nat) (x : Str)
    (h : b.id_to_word[n]? = some x) : (b.add s).2.id_to_word[n]? = some x := by
  unfold Bimap.add
  cases hw : b.word_to_id s with
  | none =>
    simp only
    rw [List.getElem?_append_left (by
      rcases List.getElem?_eq_some_iff.1 h with ⟨hlt, _⟩
      exact hlt)]
    exact h
  | some k => simpa using h

theorem Bimap.add_word_to_id (b : Bimap) (s : Str) :
    (b.add s).2.word_to_id s = some (b.add s).1 := by
  unfold Bimap.add
  cases hw : b.word_to_id s with
  | none => simp
  | some k => simpa using hw

theorem Bimap.add_twice (b : Bimap) (s : Str) : ((b.add s).2.add s).1 = (b.add s).1 := by
  have h := Bimap.add_word_to_id b s
  generalize (b.add s).2 = b2 at h
  generalize (b.add s).1 = n at h
  unfold Bimap.add
  rw [h]

theorem Bimap.add_other (b : Bimap) (s v : Str) (n : Nat) (h : b.word_to_id s = some n) :
    (b.add v).2.word_to_id s = some n := by
  unfold Bimap.add
  cases hw : b.word_to_id v with
  | none =>
    simp only
    by_cases e : s = v
    · subst e; rw [h] at hw; cases hw
    · rw [Function.update_noteq e]; exact h
  | some k => simpa using h

theorem Bimap.add_of_known (b : Bimap) (s : Str) (n : Nat) (h : b.word_to_id s = some n) :
    (b.add s).1 = n := by
  unfold Bimap.add
  rw [h]

theorem Bimap.add_stable (b : Bimap) (s v : Str) :
    (((b.add s).2.add v).2.add s).1 = (b.add s).1 :=
  Bimap.add_of_known _ _ _ (Bimap.add_other _ _ _ _ (Bimap.add_word_to_id b s))

theorem Bimap.add_sound (b : Bimap) (s : Str) (h : b.Sound) (hsz : b.size < U32_MOD) :
    (b.add s).2.Sound := by
  intro t n ht
  unfold Bimap.add at ht ⊢
  cases hw : b.word_to_id s with
  | none =>
    rw [hw] at ht
    simp only at ht ⊢
    by_cases e : t = s
    · subst e
      rw [Function.update_same] at ht
      cases ht
      have hsz2 : b.id_to_word.length < U32_MOD := hsz
      rw [Nat.mod_eq_of_lt hsz2]
      simp
    · rw [Function.update_noteq e] at ht
      have := h t n ht
      rw [List.getElem?_append_left (List.getElem?_eq_some_iff.1 this).1]
      exact this
  | some k =>
    rw [hw] at ht
    exact h t n ht

theorem Bimap.add_lookup (b : Bimap) (s : Str) (h : b.Sound) (hsz : b.size < U32_MOD) :
    (b.add s).2.id_to_word[(b.add s).1]? = some s :=
  Bimap.add_sound b s h hsz s _ (Bimap.add_word_to_id b s)

theorem Bimap.add_fst_le (b : Bimap) (s : Str) (h : b.Sound) : (b.add s).1 ≤ b.size := by
  unfold Bimap.add
  cases hw : b.word_to_id s with
  | none => exact Nat.mod_le _ _
  | some k => exact le_of_lt (List.getElem?_eq_some_iff.1 (h s k hw)).1

theorem Word_Id_Map.add_cases (m : Word_Id_Map) (s : Str) :
    (s = strComma ∧ m.add s = (COMMA, m)) ∨
    (s ≠ strComma ∧ is_numeric s = true ∧ m.add s = (NUMERIC, m)) ∨
    (s ≠ strComma ∧ is_numeric s = false ∧ s ∈ m.numeric ∧
      m.add s = ((m.numeric_start + (m.bimap_numeric.add s).1) % U32_MOD,
        { m with bimap_numeric := (m.bimap_numeric.add s).2 })) ∨
    (s ≠ strComma ∧ is_numeric s = false ∧ s ∉ m.numeric ∧ s ∈ m.proper ∧
      m.add s = ((m.proper_start + (m.bimap_proper.add s).1) % U32_MOD,
        { m with bimap_proper := (m.bimap_proper.add s).2 })) ∨
    (s ≠ strComma ∧ is_numeric s = false ∧ s ∉ m.numeric ∧ s ∉ m.proper ∧ s ∉ m.nproper ∧
      m.add s = (NONE, m)) ∨
    (s ≠ strComma ∧ is_numeric s = false ∧ s ∉ m.numeric ∧ s ∉ m.proper ∧ s ∈ m.nproper ∧
      m.add s = ((m.bimap_nproper.add s).1,
        { m with bimap_nproper := (m.bimap_nproper.add s).2 })) := by
  unfold Word_Id_Map.add
  by_cases h1 : s = strComma
  · exact Or.inl ⟨h1, by rw [if_pos h1]⟩
  · by_cases h2 : is_numeric s = true
    · exact Or.inr (Or.inl ⟨h1, h2, by rw [if_neg h1, if_pos h2]⟩)
    · have h2' : is_numeric s = false := by simpa using h2
      by_cases h3 : s ∈ m.numeric
      · exact Or.inr (Or.inr (Or.inl ⟨h1, h2', h3, by rw [if_neg h1, if_neg h2, if_pos h3]⟩))
      · by_cases h4 : s ∈ m.proper
        · exact Or.inr (Or.inr (Or.inr (Or.inl ⟨h1, h2', h3, h4, by
            rw [if_neg h1, if_neg h2, if_neg h3, if_pos h4]⟩)))
        · by_cases h5 : s ∈ m.nproper
          · exact Or.inr (Or.inr (Or.inr (Or.inr (Or.inr ⟨h1, h2', h3, h4, h5, by
              rw [if_neg h1, if_neg h2, if_neg h3, if_neg h4, if_neg (not_not.2 h5)]⟩))))
          · exact Or.inr (Or.inr (Or.inr (Or.inr (Or.inl ⟨h1, h2', h3, h4, h5, by
              rw [if_neg h1, if_neg h2, if_neg h3, if_neg h4, if_pos h5]⟩))))

theorem Word_Id_Map.add_sets (m : Word_Id_Map) (s : Str) :
    (m.add s).2.nproper = m.nproper ∧ (m.add s).2.proper = m.proper ∧
    (m.add s).2.numeric = m.numeric ∧ (m.add s).2.proper_start = m.proper_start ∧
    (m.add s).2.numeric_start = m.numeric_start := by
  rcases Word_Id_Map.add_cases m s with ⟨_, h⟩ | ⟨_, _, h⟩ | ⟨_, _, _, h⟩ | ⟨_, _, _, _, h⟩ |
      ⟨_, _, _, _, _, h⟩ | ⟨_, _, _, _, _, h⟩ <;>
    rw [h] <;> exact ⟨rfl, rfl, rfl, rfl, rfl⟩

theorem Word_Id_Map.add_bimaps (m : Word_Id_Map) (v : Str) :
    ((m.add v).2.bimap_numeric = m.bimap_numeric ∨
      (m.add v).2.bimap_numeric = (m.bimap_numeric.add v).2) ∧
    ((m.add v).2.bimap_proper = m.bimap_proper ∨
      (m.add v).2.bimap_proper = (m.bimap_proper.add v).2) ∧
    ((m.add v).2.bimap_nproper = m.bimap_nproper ∨
      (m.add v).2.bimap_nproper = (m.bimap_nproper.add v).2) := by
  rcases Word_Id_Map.add_cases m v with ⟨_, h⟩ | ⟨_, _, h⟩ | ⟨_, _, _, h⟩ | ⟨_, _, _, _, h⟩ |
      ⟨_, _, _, _, _, h⟩ | ⟨_, _, _, _, _, h⟩ <;>
    rw [h] <;> simp

/-- The id returned by `add` depends on the word sets, the offsets and the
lookup of the word in the bimap of its bucket only. -/
theorem Word_Id_Map.add_fst_congr (m1 m2 : Word_Id_Map) (w : Str)
    (h1 : m2.nproper = m1.nproper) (h2 : m2.proper = m1.proper) (h3 : m2.numeric = m1.numeric)
    (h4 : m2.proper_start = m1.proper_start) (h5 : m2.numeric_start = m1.numeric_start)
    (hn : w ≠ strComma → is_numeric w = false → w ∈ m1.numeric →
      (m2.bimap_numeric.add w).1 = (m1.bimap_numeric.add w).1)
    (hp : w ≠ strComma → is_numeric w = false → w ∉ m1.numeric → w ∈ m1.proper →
      (m2.bimap_proper.add w).1 = (m1.bimap_proper.add w).1)
    (hc : w ≠ strComma → is_numeric w = false → w ∉ m1.numeric → w ∉ m1.proper →
      w ∈ m1.nproper → (m2.bimap_nproper.add w).1 = (m1.bimap_nproper.add w).1) :
    (m2.add w).1 = (m1.add w).1 := by
  unfold Word_Id_Map.add
  rw [h1, h2, h3, h4, h5]
  split_ifs with a b c d e
  · rfl
  · rfl
  · simp only [hn a (by simpa using b) c]
  · simp only [hp a (by simpa using b) c d]
  · simp only [hc a (by simpa using b) c d e]
  · rfl

theorem Word_Id_Map.add_bimap_numeric (m : Word_Id_Map) (w : Str) (h1 : w ≠ strComma)
    (h2 : is_numeric w = false) (h3 : w ∈ m.numeric) :
    (m.add w).2.bimap_numeric = (m.bimap_numeric.add w).2 := by
  simp [Word_Id_Map.add, h1, h2, h3]

theorem Word_Id_Map.add_bimap_proper (m : Word_Id_Map) (w : Str) (h1 : w ≠ strComma)
    (h2 : is_numeric w = false) (h3 : w ∉ m.numeric) (h4 : w ∈ m.proper) :
    (m.add w).2.bimap_proper = (m.bimap_proper.add w).2 := by
  simp [Word_Id_Map.add, h1, h2, h3, h4]

theorem Word_Id_Map.add_bimap_nproper (m : Word_Id_Map) (w : Str) (h1 : w ≠ strComma)
    (h2 : is_numeric w = false) (h3 : w ∉ m.numeric) (h4 : w ∉ m.proper) (h5 : w ∈ m.nproper) :
    (m.add w).2.bimap_nproper = (m.bimap_nproper.add w).2 := by
  simp [Word_Id_Map.add, h1, h2, h3, h4, h5]

theorem Bimap.add_after (b b2 : Bimap) (w v : Str)
    (h2 : b2 = (b.add w).2 ∨ b2 = ((b.add w).2.add v).2) : (b2.add w).1 = (b.add w).1 := by
  rcases h2 with h2 | h2
  · rw [h2]; exact Bimap.add_twice b w
  · rw [h2]; exact Bimap.add_stable b w v

end dict

/-- C18: `Word_Id_Map::category(id)` is `NUMERIC` (3) for every id from 900000
on, `PROPER` (1) for every id from 500000 to 899999, and the id itself below
500000, so that `NONE`, `PROPER`, `COMMA`, `NUMERIC` and the ids of common words
map to themselves. The two offsets are those set by the constructor. -/
theorem word_category_ranges (m : Word_Id_Map) (hp : m.proper_start = 500000)
    (hn : m.numeric_start = 900000) (id : Nat) :
    (900000 ≤ id → m.category id = NUMERIC) ∧
    (500000 ≤ id → id < 900000 → m.category id = PROPER) ∧
    (id < 500000 → m.category id = id) ∧
    m.category NONE = NONE ∧ m.category PROPER = PROPER ∧
    m.category COMMA = COMMA ∧ m.category NUMERIC = NUMERIC ∧
    NUMERIC = 3 ∧ PROPER = 1 := by
  unfold Word_Id_Map.category
  rw [hp, hn]
  refine ⟨fun h => by rw [if_pos h], fun h1 h2 => ?_, fun h => ?_,
    by decide, by decide, by decide, by decide, rfl, rfl⟩
  · rw [if_neg (by omega), if_pos h1]
  · rw [if_neg (by omega), if_neg (by omega)]

/-- Witness for `word_category_ranges`: the registry of the constructor and the
ids 900007, 500000 and 17. -/
theorem word_category_ranges_witness :
    Word_Id_Map.init.category 900007 = NUMERIC ∧
    Word_Id_Map.init.category 500000 = PROPER ∧
    Word_Id_Map.init.category 17 = 17 :=
  ⟨(word_category_ranges Word_Id_Map.init rfl rfl 900007).1 (by decide),
   (word_category_ranges Word_Id_Map.init rfl rfl 500000).2.1 (by decide) (by decide),
   (word_category_ranges Word_Id_Map.init rfl rfl 17).2.2.1 (by decide)⟩

/-- C19: `Word_Id_Map::add` is idempotent and ids are stable. For every registry
state and all strings `w`, `v`: `add(w)` twice in a row returns the same id;
`add(w)` returns the same id before and after an intervening `add(v)`; `add`
leaves the three word sets alone; and whenever `word_by_id(id)` reads inside
its vector it gives the same word after a later `add(v)`. -/
theorem word_add_stable (m : Word_Id_Map) (w v : Str) :
    ((m.add w).2.add w).1 = (m.add w).1 ∧
    (((m.add w).2.add v).2.add w).1 = (m.add w).1 ∧
    ((m.add v).2.nproper = m.nproper ∧ (m.add v).2.proper = m.proper ∧
      (m.add v).2.numeric = m.numeric) ∧
    (∀ id x, m.word_by_id id = some x → (m.add v).2.word_by_id id = some x) := by
  refine ⟨?_, ?_, ?_, ?_⟩
  · rcases Word_Id_Map.add_cases m w with ⟨h1, h⟩ | ⟨h1, h2, h⟩ | ⟨h1, h2, h3, h⟩ |
        ⟨h1, h2, h3, h4, h⟩ | ⟨h1, h2, h3, h4, h5, h⟩ | ⟨h1, h2, h3, h4, h5, h⟩
    · rw [h]; simp [h]
    · rw [h]; simp [h]
    · rw [h]
      simp only [Word_Id_Map.add, h1, h2, h3, if_false, if_true, Bool.false_eq_true,
        Bimap.add_twice]
    · rw [h]
      simp only [Word_Id_Map.add, h1, h2, h3, h4, if_false, if_true, Bool.false_eq_true,
        Bimap.add_twice]
    · rw [h]; simp [h]
    · rw [h]
      simp only [Word_Id_Map.add, h1, h2, h3, h4, h5, if_false, if_true, Bool.false_eq_true,
        Bimap.add_twice, not_true_eq_false]
  · have s1 := Word_Id_Map.add_sets m w
    have s2 := Word_Id_Map.add_sets (m.add w).2 v
    have b2 := Word_Id_Map.add_bimaps (m.add w).2 v
    apply Word_Id_Map.add_fst_congr
    · rw [s2.1, s1.1]
    · rw [s2.2.1, s1.2.1]
    · rw [s2.2.2.1, s1.2.2.1]
    · rw [s2.2.2.2.1, s1.2.2.2.1]
    · rw [s2.2.2.2.2, s1.2.2.2.2]
    · intro a b c
      apply Bimap.add_after _ _ w v
      rw [← Word_Id_Map.add_bimap_numeric m w a b c]
      exact b2.1
    · intro a b c d
      apply Bimap.add_after _ _ w v
      rw [← Word_Id_Map.add_bimap_proper m w a b c d]
      exact b2.2.1
    · intro a b c d e
      apply Bimap.add_after _ _ w v
      rw [← Word_Id_Map.add_bimap_nproper m w a b c d e]
      exact b2.2.2
  · have h := Word_Id_Map.add_sets m v
    exact ⟨h.1, h.2.1, h.2.2.1⟩
  · intro id x hx
    have hs := Word_Id_Map.add_sets m v
    have hb := Word_Id_Map.add_bimaps m v
    unfold Word_Id_Map.word_by_id at hx ⊢
    rw [hs.2.2.2.1, hs.2.2.2.2]
    have key : ∀ (b b2 : Bimap) (n : Nat) (y : Str), (b2 = b ∨ b2 = (b.add v).2) →
        b.word_by_id n = some y → b2.word_by_id n = some y := by
      intro b b2 n y hb2 hy
      rcases hb2 with e | e
      · rw [e]; exact hy
      · rw [e]; exact Bimap.add_id_to_word b v n y hy
    split_ifs at hx ⊢ with c1 c2 c3
    · exact hx
    · rcases Option.map_eq_some'.1 hx with ⟨y, hy, e⟩
      rw [key _ _ _ y hb.1 hy]; simpa using e
    · rcases Option.map_eq_some'.1 hx with ⟨y, hy, e⟩
      rw [key _ _ _ y hb.2.1 hy]; simpa using e
    · exact key _ _ _ x hb.2.2 hx

/-- Witness for `word_add_stable`: on the registry with the common word "a",
the id of "a" survives the registration of "b", and the word of id 2 stays. -/
theorem word_add_stable_witness :
    ((((Word_Id_Map.init.setWords [[97], [98]] [] []).add [97]).2.add [98]).2.add [97]).1
      = ((Word_Id_Map.init.setWords [[97], [98]] [] []).add [97]).1 ∧
    ((Word_Id_Map.init.setWords [[97], [98]] [] []).add [98]).2.word_by_id 2 = some strComma :=
  ⟨(word_add_stable (Word_Id_Map.init.setWords [[97], [98]] [] []) [97] [98]).2.1,
   (word_add_stable (Word_Id_Map.init.setWords [[97], [98]] [] []) [97] [98]).2.2.2 2 strComma
     (by decide)⟩

namespace dict

theorem Word_Id_Map.inv_init : Word_Id_Map.init.Inv := by
  refine ⟨rfl, rfl, ?_, ?_, ?_, by decide, by decide, by decide⟩
  · apply Bimap.add_sound _ _ _ (by decide)
    apply Bimap.add_sound _ _ _ (by decide)
    apply Bimap.add_sound _ _ _ (by decide)
    apply Bimap.add_sound _ _ _ (by decide)
    intro s n h; cases h
  · intro s n h; cases h
  · intro s n h; cases h

theorem Word_Id_Map.inv_setWords (m : Word_Id_Map) (h : m.Inv) (a b c : List Str) :
    (m.setWords a b c).Inv :=
  ⟨h.proper_start, h.numeric_start, h.nproper, h.proper, h.numeric, h.star, h.comma,
    h.numericWord⟩

theorem Word_Id_Map.inv_add (m : Word_Id_Map) (h : m.Inv) (w : Str)
    (hc : m.bimap_nproper.size < U32_MOD) (hp : m.bimap_proper.size < U32_MOD)
    (hn : m.bimap_numeric.size < U32_MOD) : (m.add w).2.Inv := by
  rcases Word_Id_Map.add_cases m w with ⟨_, e⟩ | ⟨_, _, e⟩ | ⟨_, _, _, e⟩ | ⟨_, _, _, _, e⟩ |
      ⟨_, _, _, _, _, e⟩ | ⟨_, _, _, _, _, e⟩ <;> rw [e]
  · exact h
  · exact h
  · exact ⟨h.proper_start, h.numeric_start, h.nproper, h.proper,
      Bimap.add_sound _ _ h.numeric hn, h.star, h.comma, h.numericWord⟩
  · exact ⟨h.proper_start, h.numeric_start, h.nproper, Bimap.add_sound _ _ h.proper hp,
      h.numeric, h.star, h.comma, h.numericWord⟩
  · exact h
  · exact ⟨h.proper_start, h.numeric_start, Bimap.add_sound _ _ h.nproper hc, h.proper,
      h.numeric, Bimap.add_id_to_word _ _ _ _ h.star, Bimap.add_id_to_word _ _ _ _ h.comma,
      Bimap.add_id_to_word _ _ _ _ h.numericWord⟩

end dict

/-- C20, as stated, fails: on the registry of the constructor `add("1")` returns
`NUMERIC` and `word_by_id` of it is "{numeric}", which is none of "1", "<1>",
"{1}"; and `add("zz")` of the unknown word "zz" returns `NONE`, whose word is
"*". -/
theorem word_roundtrip_sentinels :
    Word_Id_Map.init.word_by_id (Word_Id_Map.init.add [49]).1 = some strNumeric ∧
    strNumeric ≠ [49] ∧ strNumeric ≠ [60, 49, 62] ∧ strNumeric ≠ [123, 49, 125] ∧
    Word_Id_Map.init.word_by_id (Word_Id_Map.init.add [122, 122]).1 = some strStar ∧
    strStar ≠ [122, 122] := by
  decide

/-- C20, amended: on a registry built by the constructor and by adds that holds
fewer than 500000 common words, fewer than 400000 proper words and fewer than
2^32 - 900000 numeric words, `word_by_id(add(w))` is "$" for "$", "{numeric}"
for a string that starts with a digit, and for any other string `w`: "{w}" when
`w` is in the numeric set, else "<w>" when `w` is in the proper set, else `w`
when `w` is in the set of common words, else "*". -/
theorem word_roundtrip (m : Word_Id_Map) (hI : m.Inv)
    (hc : m.bimap_nproper.size < 500000) (hp : m.bimap_proper.size < 400000)
    (hn : m.bimap_numeric.size < U32_MOD - 900000) (w : Str) :
    (w = strComma → (m.add w).2.word_by_id (m.add w).1 = some strComma) ∧
    (w ≠ strComma → is_numeric w = true →
      (m.add w).2.word_by_id (m.add w).1 = some strNumeric) ∧
    (w ≠ strComma → is_numeric w = false → w ∈ m.numeric →
      (m.add w).2.word_by_id (m.add w).1 = some ([123] ++ w ++ [125])) ∧
    (w ≠ strComma → is_numeric w = false → w ∉ m.numeric → w ∈ m.proper →
      (m.add w).2.word_by_id (m.add w).1 = some ([60] ++ w ++ [62])) ∧
    (w ≠ strComma → is_numeric w = false → w ∉ m.numeric → w ∉ m.proper → w ∈ m.nproper →
      (m.add w).2.word_by_id (m.add w).1 = some w) ∧
    (w ≠ strComma → is_numeric w = false → w ∉ m.numeric → w ∉ m.proper → w ∉ m.nproper →
      (m.add w).2.word_by_id (m.add w).1 = some strStar) := by
  have hps := hI.proper_start
  have hns := hI.numeric_start
  have hU : U32_MOD = 4294967296 := by decide
  refine ⟨?_, ?_, ?_, ?_, ?_, ?_⟩
  · intro h1
    have e : m.add w = (COMMA, m) := by simp [Word_Id_Map.add, h1]
    rw [e]
    simp only [Word_Id_Map.word_by_id, COMMA, NONE, hps, hns]
    rw [if_neg (by decide), if_neg (by decide), if_neg (by decide)]
    exact hI.comma
  · intro h1 h2
    have e : m.add w = (NUMERIC, m) := by simp [Word_Id_Map.add, h1, h2]
    rw [e]
    simp only [Word_Id_Map.word_by_id, NUMERIC, NONE, hps, hns]
    rw [if_neg (by decide), if_neg (by decide), if_neg (by decide)]
    exact hI.numericWord
  · intro h1 h2 h3
    have e : m.add w = ((m.numeric_start + (m.bimap_numeric.add w).1) % U32_MOD,
        { m with bimap_numeric := (m.bimap_numeric.add w).2 }) := by
      simp [Word_Id_Map.add, h1, h2, h3]
    have hle := Bimap.add_fst_le m.bimap_numeric w hI.numeric
    have hlk := Bimap.add_lookup m.bimap_numeric w hI.numeric (by omega)
    rw [e]
    simp only [Word_Id_Map.word_by_id, NONE, hps, hns]
    rw [Nat.mod_eq_of_lt (by omega), if_neg (by omega), if_pos (by omega)]
    simp only [Bimap.word_by_id, Nat.add_sub_cancel_left, hlk, Option.map_some']
  · intro h1 h2 h3 h4
    have e : m.add w = ((m.proper_start + (m.bimap_proper.add w).1) % U32_MOD,
        { m with bimap_proper := (m.bimap_proper.add w).2 }) := by
      simp [Word_Id_Map.add, h1, h2, h3, h4]
    have hle := Bimap.add_fst_le m.bimap_proper w hI.proper
    have hlk := Bimap.add_lookup m.bimap_proper w hI.proper (by omega)
    rw [e]
    simp only [Word_Id_Map.word_by_id, NONE, hps, hns]
    rw [Nat.mod_eq_of_lt (by omega), if_neg (by omega), if_neg (by omega), if_pos (by omega)]
    simp only [Bimap.word_by_id, Nat.add_sub_cancel_left, hlk, Option.map_some']
  · intro h1 h2 h3 h4 h5
    have e : m.add w = ((m.bimap_nproper.add w).1,
        { m with bimap_nproper := (m.bimap_nproper.add w).2 }) := by
      simp [Word_Id_Map.add, h1, h2, h3, h4, h5]
    have hle := Bimap.add_fst_le m.bimap_nproper w hI.nproper
    have hlk := Bimap.add_lookup m.bimap_nproper w hI.nproper (by omega)
    have hst := Bimap.add_id_to_word m.bimap_nproper w 0 strStar hI.star
    rw [e]
    simp only [Word_Id_Map.word_by_id, NONE, hps, hns]
    by_cases h0 : (m.bimap_nproper.add w).1 = 0
    · rw [if_pos h0]
      rw [h0, hst] at hlk
      exact hlk
    · rw [if_neg h0, if_neg (by omega), if_neg (by omega)]
      exact hlk
  · intro h1 h2 h3 h4 h5
    have e : m.add w = (NONE, m) := by simp [Word_Id_Map.add, h1, h2, h3, h4, h5]
    rw [e]
    simp [Word_Id_Map.word_by_id]

/-- Witness for `word_roundtrip`: the common word "a" on a registry whose set of
common words is {"a"}. -/
theorem word_roundtrip_witness :
    ((Word_Id_Map.init.setWords [[97]] [] []).add [97]).2.word_by_id
      ((Word_Id_Map.init.setWords [[97]] [] []).add [97]).1 = some [97] :=
  (word_roundtrip (Word_Id_Map.init.setWords [[97]] [] [])
    (Word_Id_Map.inv_setWords _ Word_Id_Map.inv_init _ _ _)
    (by decide) (by decide) (by decide) [97]).2.2.2.2.1
    (by decide) (by decide) (by decide) (by decide) (by decide)

end WordRegistry

section PlayfairRules
open playfair

/-! ## Theorems: the `Rules` table -/

namespace playfair

set_option maxRecDepth 100000 in
theorem encrypt_facts : ∀ a, a < 25 → ∀ b, b < 25 → a ≠ b →
    (encrypt a b).1 < 25 ∧ (encrypt a b).2 < 25 ∧ (encrypt a b).1 ≠ (encrypt a b).2 ∧
    decrypt (encrypt a b).1 (encrypt a b).2 = (a, b) := by
  decide

set_option maxRecDepth 100000 in
theorem decrypt_facts : ∀ a, a < 25 → ∀ b, b < 25 → a ≠ b →
    (decrypt a b).1 < 25 ∧ (decrypt a b).2 < 25 ∧ (decrypt a b).1 ≠ (decrypt a b).2 ∧
    encrypt (decrypt a b).1 (decrypt a b).2 = (a, b) := by
  decide

set_option maxRecDepth 100000 in
set_option synthInstance.maxSize 2048 in
set_option synthInstance.maxHeartbeats 200000 in
theorem encrypt_geometry : ∀ a, a < 25 → ∀ b, b < 25 → a ≠ b →
    (a % 5 = b % 5 →
      (encrypt a b).1 % 5 = a % 5 ∧ (encrypt a b).1 / 5 = (a / 5 + 1) % 5 ∧
      (encrypt a b).2 % 5 = b % 5 ∧ (encrypt a b).2 / 5 = (b / 5 + 1) % 5) ∧
    (a % 5 ≠ b % 5 → a / 5 = b / 5 →
      (encrypt a b).1 / 5 = a / 5 ∧ (encrypt a b).1 % 5 = (a % 5 + 1) % 5 ∧
      (encrypt a b).2 / 5 = b / 5 ∧ (encrypt a b).2 % 5 = (b % 5 + 1) % 5) ∧
    (a % 5 ≠ b % 5 → a / 5 ≠ b / 5 →
      (encrypt a b).1 / 5 = a / 5 ∧ (encrypt a b).1 % 5 = b % 5 ∧
      (encrypt a b).2 / 5 = b / 5 ∧ (encrypt a b).2 % 5 = a % 5) := by
  decide

theorem setCell_apply {α : Type} (t : Nat → Nat → α) (i j : Nat) (v : α) (x y : Nat) :
    setCell t i j v x y = if x = i ∧ y = j then v else t x y := by
  unfold setCell
  by_cases hx : x = i
  · subst hx
    by_cases hy : y = j
    · subst hy; simp
    · simp [Function.update_noteq hy, hy]
  · simp [Function.update_noteq hx, hx]

theorem Rules.filled_record (r : Rules) (M : Nat → Nat → Prop) (h : r.Filled M) (a b : Nat)
    (ha : a < 25) (hb : b < 25) :
    (r.record a b).Filled (fun x y => M x y ∨ (x = a ∧ y = b)) := by
  refine ⟨?_, ?_⟩
  · rintro x y (hM | ⟨rfl, rfl⟩)
    · exact h.1 x y hM
    · exact ⟨ha, hb⟩
  · intro x y hxy hne
    have hvalid : x < 25 ∧ y < 25 := by
      rcases hxy with hM | ⟨rfl, rfl⟩
      · exact h.1 x y hM
      · exact ⟨ha, hb⟩
    unfold Rules.record
    by_cases hab : a ≠ b
    · rw [if_pos hab]
      simp only [setCell_apply]
      constructor
      · by_cases e : x = a ∧ y = b
        · rw [if_pos e, e.1, e.2]
        · rw [if_neg e]
          rcases hxy with hM | e2
          · exact (h.2 x y hM hne).1
          · exact absurd e2 e
      · by_cases e : (encrypt x y).1 = (encrypt a b).1 ∧ (encrypt x y).2 = (encrypt a b).2
        · rw [if_pos e]
          have h1 := (encrypt_facts x hvalid.1 y hvalid.2 hne).2.2.2
          have h2 := (encrypt_facts a ha b hb hab).2.2.2
          rw [e.1, e.2, h2] at h1
          exact h1
        · rw [if_neg e]
          rcases hxy with hM | ⟨rfl, rfl⟩
          · exact (h.2 x y hM hne).2
          · exact absurd ⟨rfl, rfl⟩ e
    · rw [if_neg hab]
      rcases hxy with hM | ⟨rfl, rfl⟩
      · exact h.2 x y hM hne
      · exact absurd hne hab

theorem Rules.filled_row (a : Nat) (ha : a < 25) :
    ∀ (L : List Nat) (r : Rules) (M : Nat → Nat → Prop), r.Filled M → (∀ b ∈ L, b < 25) →
      (L.foldl (fun r b => r.record a b) r).Filled (fun x y => M x y ∨ (x = a ∧ y ∈ L))
  | [], r, M, h, _ => by
    simpa using h
  | b :: L, r, M, h, hL => by
    have h1 := Rules.filled_record r M h a b ha (hL b (List.mem_cons_self _ _))
    have h2 := Rules.filled_row a ha L _ _ h1 (fun c hc => hL c (List.mem_cons_of_mem _ hc))
    simp only [List.foldl_cons]
    refine ⟨fun x y hxy => h2.1 x y ?_, fun x y hxy hne => h2.2 x y ?_ hne⟩
    · rcases hxy with hM | ⟨hx, hy⟩
      · exact Or.inl (Or.inl hM)
      · rcases List.mem_cons.1 hy with e | e
        · exact Or.inl (Or.inr ⟨hx, e⟩)
        · exact Or.inr ⟨hx, e⟩
    · rcases hxy with hM | ⟨hx, hy⟩
      · exact Or.inl (Or.inl hM)
      · rcases List.mem_cons.1 hy with e | e
        · exact Or.inl (Or.inr ⟨hx, e⟩)
        · exact Or.inr ⟨hx, e⟩

theorem Rules.filled_rows (K : List Nat) (hK : ∀ b ∈ K, b < 25) :
    ∀ (L : List Nat) (r : Rules) (M : Nat → Nat → Prop), r.Filled M → (∀ a ∈ L, a < 25) →
      (L.foldl (fun r a => K.foldl (fun r b => r.record a b) r) r).Filled
        (fun x y => M x y ∨ (x ∈ L ∧ y ∈ K))
  | [], r, M, h, _ => by
    simpa using h
  | a :: L, r, M, h, hL => by
    have h1 := Rules.filled_row a (hL a (List.mem_cons_self _ _)) K r M h hK
    have h2 := Rules.filled_rows K hK L _ _ h1 (fun c hc => hL c (List.mem_cons_of_mem _ hc))
    simp only [List.foldl_cons]
    refine ⟨fun x y hxy => h2.1 x y ?_, fun x y hxy hne => h2.2 x y ?_ hne⟩
    · rcases hxy with hM | ⟨hx, hy⟩
      · exact Or.inl (Or.inl hM)
      · rcases List.mem_cons.1 hx with e | e
        · exact Or.inl (Or.inr ⟨e, hy⟩)
        · exact Or.inr ⟨e, hy⟩
    · rcases hxy with hM | ⟨hx, hy⟩
      · exact Or.inl (Or.inl hM)
      · rcases List.mem_cons.1 hx with e | e
        · exact Or.inl (Or.inr ⟨e, hy⟩)
        · exact Or.inr ⟨e, hy⟩

/-- The tables `_change` and `_rchange` of the constructed `Rules` on distinct
cells of the square. -/
theorem Rules.init_tables (a b : Nat) (ha : a < 25) (hb : b < 25) (hab : a ≠ b) :
    Rules.init.change a b = encrypt a b ∧
    Rules.init.rchange (encrypt a b).1 (encrypt a b).2 = (a, b) := by
  have hr : ∀ c ∈ List.range MATRIX_SIZE, c < 25 := fun c hc => List.mem_range.1 hc
  have h0 : ({ Rules.blank with none_list := List.range MATRIX_SIZE } : Rules).Filled
      (fun _ _ => False) := ⟨fun _ _ h => h.elim, fun _ _ h => h.elim⟩
  have h := Rules.filled_rows (List.range MATRIX_SIZE) hr (List.range MATRIX_SIZE) _ _ h0 hr
  exact h.2 a b (Or.inr ⟨List.mem_range.2 ha, List.mem_range.2 hb⟩) hab

end playfair

/-- C13: `Rules::change` is Playfair encryption on the cells of the 5x5 square.
For all cells `a ≠ b` below 25: in the same column each cell moves one row down
(cyclically), else in the same row each moves one column to the right
(cyclically), else each keeps its row and takes the column of the other; the
two result cells are cells of the square and distinct; `rchange` undoes
`change` and `change` undoes `rchange` (whose results are distinct cells of the
square as well), so `change` is a bijection on the ordered pairs of distinct
cells. -/
theorem rules_change_is_playfair (a b : Nat) (ha : a < 25) (hb : b < 25) (hab : a ≠ b) :
    ((a % 5 = b % 5 →
      (Rules.init.change a b).1 % 5 = a % 5 ∧
      (Rules.init.change a b).1 / 5 = (a / 5 + 1) % 5 ∧
      (Rules.init.change a b).2 % 5 = b % 5 ∧
      (Rules.init.change a b).2 / 5 = (b / 5 + 1) % 5) ∧
    (a % 5 ≠ b % 5 → a / 5 = b / 5 →
      (Rules.init.change a b).1 / 5 = a / 5 ∧
      (Rules.init.change a b).1 % 5 = (a % 5 + 1) % 5 ∧
      (Rules.init.change a b).2 / 5 = b / 5 ∧
      (Rules.init.change a b).2 % 5 = (b % 5 + 1) % 5) ∧
    (a % 5 ≠ b % 5 → a / 5 ≠ b / 5 →
      (Rules.init.change a b).1 / 5 = a / 5 ∧
      (Rules.init.change a b).1 % 5 = b % 5 ∧
      (Rules.init.change a b).2 / 5 = b / 5 ∧
      (Rules.init.change a b).2 % 5 = a % 5)) ∧
    ((Rules.init.change a b).1 < 25 ∧ (Rules.init.change a b).2 < 25 ∧
      (Rules.init.change a b).1 ≠ (Rules.init.change a b).2) ∧
    ((Rules.init.rchange a b).1 < 25 ∧ (Rules.init.rchange a b).2 < 25 ∧
      (Rules.init.rchange a b).1 ≠ (Rules.init.rchange a b).2) ∧
    Rules.init.rchange (Rules.init.change a b).1 (Rules.init.change a b).2 = (a, b) ∧
    Rules.init.change (Rules.init.rchange a b).1 (Rules.init.rchange a b).2 = (a, b) ∧
    (∀ c d, c < 25 → d < 25 → c ≠ d →
      Rules.init.change c d = Rules.init.change a b → c = a ∧ d = b) := by
  have hc := Rules.init_tables a b ha hb hab
  have ef := encrypt_facts a ha b hb hab
  have df := decrypt_facts a ha b hb hab
  have hd := Rules.init_tables (decrypt a b).1 (decrypt a b).2 df.1 df.2.1 df.2.2.1
  rw [df.2.2.2] at hd
  have hr : Rules.init.rchange a b = decrypt a b := hd.2
  rw [hc.1, hr]
  refine ⟨encrypt_geometry a ha b hb hab, ⟨ef.1, ef.2.1, ef.2.2.1⟩,
    ⟨df.1, df.2.1, df.2.2.1⟩, hc.2, ?_, ?_⟩
  · exact hd.1
  · intro c d hcl hdl hcd e
    rw [(Rules.init_tables c d hcl hdl hcd).1] at e
    have h1 := (encrypt_facts c hcl d hdl hcd).2.2.2
    rw [e, ef.2.2.2] at h1
    exact ⟨(Prod.mk.inj h1).1.symm, (Prod.mk.inj h1).2.symm⟩

/-- Witness for `rules_change_is_playfair`: the cells 0 and 6, on a diagonal. -/
theorem rules_change_is_playfair_witness :
    Rules.init.rchange (Rules.init.change 0 6).1 (Rules.init.change 0 6).2 = (0, 6) ∧
    Rules.init.change (Rules.init.rchange 0 6).1 (Rules.init.rchange 0 6).2 = (0, 6) :=
  ⟨(rules_change_is_playfair 0 6 (by decide) (by decide) (by decide)).2.2.2.1,
   (rules_change_is_playfair 0 6 (by decide) (by decide) (by decide)).2.2.2.2.1⟩

end PlayfairRules

section PlayfairUnits
open playfair

/-! ## Theorems: the committed units of the `Playfair` matcher -/

namespace playfair

theorem cross_equal_comm (a b : Char_Pair) : cross_equal a b = cross_equal b a := by
  unfold cross_equal
  have e1 : decide (b.2 = a.1) = decide (a.1 = b.2) := decide_eq_decide.2 eq_comm
  have e2 : decide (b.1 = a.2) = decide (a.2 = b.1) := decide_eq_decide.2 eq_comm
  rw [e1, e2, Bool.and_comm]

theorem Char_Unit.test_of_eq (u v : Char_Unit) (h : u.cipher_text = v.clear_text) :
    u.test_same_clear_cipher v = true := by
  simp [Char_Unit.test_same_clear_cipher, h]

/-- The test `compatible` does not depend on the order of the two units. -/
theorem Char_Unit.compatible_comm (u v : Char_Unit) : u.compatible v = v.compatible u := by
  unfold Char_Unit.compatible
  by_cases hA : u.clear_text = v.clear_text
  · rw [if_pos hA, if_pos hA.symm]
    by_cases hB : u.cipher_text = v.cipher_text
    · simp [hB]
    · simp [hB, Ne.symm hB]
  · rw [if_neg hA, if_neg (Ne.symm hA)]
    by_cases hB : u.cipher_text = v.cipher_text
    · rw [if_pos hB, if_pos hB.symm]
    · rw [if_neg hB, if_neg (Ne.symm hB), cross_equal_comm v.clear_text u.clear_text,
        cross_equal_comm v.cipher_text u.cipher_text]
      by_cases hC : cross_equal u.clear_text v.clear_text = true
      · rw [if_pos hC, if_pos hC]
      · rw [if_neg hC, if_neg hC]
        by_cases hD : cross_equal u.cipher_text v.cipher_text = true
        · rw [if_pos hD, if_pos hD]
        · rw [if_neg hD, if_neg hD]
          by_cases hE : u.clear_text = v.cipher_text
          · by_cases hF : v.clear_text = u.cipher_text
            · rw [if_pos hE, if_pos hF, Char_Unit.test_of_eq u v hF.symm,
                Char_Unit.test_of_eq v u hE.symm]
            · rw [if_pos hE, if_neg hF, if_pos hE]
          · by_cases hF : v.clear_text = u.cipher_text
            · rw [if_neg hE, if_pos hF, if_pos hF]
            · rw [if_neg hE, if_neg hF, if_neg hF, if_neg hE]
              by_cases hG : cross_equal u.clear_text v.cipher_text = true
              · by_cases hH : cross_equal v.clear_text u.cipher_text = true
                · rw [if_pos hG, if_pos hH]
                  have e1 : u.cipher_text = v.inverse.clear_text := by
                    simp only [cross_equal, Bool.and_eq_true, decide_eq_true_eq] at hH
                    exact Prod.ext hH.2.symm hH.1.symm
                  have e2 : v.cipher_text = u.inverse.clear_text := by
                    simp only [cross_equal, Bool.and_eq_true, decide_eq_true_eq] at hG
                    exact Prod.ext hG.2.symm hG.1.symm
                  rw [Char_Unit.test_of_eq u v.inverse e1, Char_Unit.test_of_eq v u.inverse e2]
                · rw [if_pos hG, if_neg hH, if_pos hG]
              · by_cases hH : cross_equal v.clear_text u.cipher_text = true
                · rw [if_neg hG, if_pos hH, if_pos hH]
                · rw [if_neg hG, if_neg hH, if_neg hH, if_neg hG]

theorem Char_Unit.compatible_self (u : Char_Unit) : u.compatible u = true := by
  simp [Char_Unit.compatible]

/-- An accepted push with `clear` of odd length appends the unit it checked
against every committed unit. -/
theorem Playfair.push_units (s : Playfair) (clear cipher : Str) (ch : Chr) :
    (s.push clear cipher ch).2.units = s.units ∨
    ((s.push clear cipher ch).2.units = s.units ++ [pushedUnit clear cipher ch] ∧
      allCompatible s.units (pushedUnit clear cipher ch) = true) := by
  unfold Playfair.push
  dsimp only
  split_ifs with h1 h2 h3 h4 h5
  · exact Or.inl rfl
  · exact Or.inl rfl
  · exact Or.inl rfl
  · exact Or.inr ⟨rfl, h5⟩
  · exact Or.inl rfl
  · exact Or.inl rfl

theorem Playfair.Reach.pairwise {s : Playfair} (h : Playfair.Reach s) :
    Playfair.PairwiseCompatible s.units := by
  induction h with
  | init n => intro u hu; simp [Playfair.init] at hu
  | push clear cipher ch _ ih =>
    rcases Playfair.push_units _ clear cipher ch with e | ⟨e, hc⟩
    · rw [e]; exact ih
    · rw [e]
      unfold allCompatible at hc
      rw [List.all_eq_true] at hc
      intro u hu v hv
      rcases List.mem_append.1 hu with hu | hu <;> rcases List.mem_append.1 hv with hv | hv
      · exact ih u hu v hv
      · rw [List.mem_singleton.1 hv]; exact hc u hu
      · rw [List.mem_singleton.1 hu, Char_Unit.compatible_comm]; exact hc v hv
      · rw [List.mem_singleton.1 hu, List.mem_singleton.1 hv]
        exact Char_Unit.compatible_self _
  | pop clear cipher ch _ ih =>
    unfold Playfair.pop
    split_ifs
    · intro u hu v hv
      exact ih u (List.mem_of_mem_dropLast hu) v (List.mem_of_mem_dropLast hv)
    · exact ih

theorem Playfair.push_true_odd (s : Playfair) (clear cipher : Str) (ch : Chr)
    (hodd : clear.length % 2 = 1) (h : (s.push clear cipher ch).1 = true) :
    allCompatible s.units (pushedUnit clear cipher ch) = true := by
  unfold Playfair.push at h
  dsimp only at h
  split_ifs at h
  assumption

theorem Char_Unit.compatible_conflict (w u : Char_Unit)
    (h : (w.clear_text = u.clear_text ∧ w.cipher_text ≠ u.cipher_text) ∨
      (w.cipher_text = u.cipher_text ∧ w.clear_text ≠ u.clear_text)) :
    w.compatible u = false := by
  unfold Char_Unit.compatible
  rcases h with ⟨h1, h2⟩ | ⟨h1, h2⟩
  · rw [if_pos h1]; simpa using h2
  · rw [if_neg h2, if_pos h1]

end playfair

/-- C11: in every state of the `Playfair` matcher reachable by pushes and pops,
any two committed units `u`, `v` satisfy `u.compatible(v)` and
`v.compatible(u)`; and a push that would create a unit with the plaintext pair
of a committed unit but another ciphertext pair, or with its ciphertext pair
but another plaintext pair, returns false. -/
theorem playfair_units_compatible (s : Playfair) (h : Playfair.Reach s) :
    (∀ u ∈ s.units, ∀ v ∈ s.units, u.compatible v = true ∧ v.compatible u = true) ∧
    (∀ (clear cipher : Str) (ch : Chr), clear.length % 2 = 1 →
      (∃ w ∈ s.units,
        (w.clear_text = (pushedUnit clear cipher ch).clear_text ∧
          w.cipher_text ≠ (pushedUnit clear cipher ch).cipher_text) ∨
        (w.cipher_text = (pushedUnit clear cipher ch).cipher_text ∧
          w.clear_text ≠ (pushedUnit clear cipher ch).clear_text)) →
      (s.push clear cipher ch).1 = false) := by
  refine ⟨fun u hu v hv => ⟨h.pairwise u hu v hv, h.pairwise v hv u hu⟩, ?_⟩
  rintro clear cipher ch hodd ⟨w, hw, hconf⟩
  by_contra hne
  have ht : (s.push clear cipher ch).1 = true := by simpa using hne
  have hall := Playfair.push_true_odd s clear cipher ch hodd ht
  unfold allCompatible at hall
  rw [List.all_eq_true] at hall
  have := hall w hw
  rw [Char_Unit.compatible_conflict w _ hconf] at this
  cases this

/-- Witness for `playfair_units_compatible`: after the pushes of 'a' and 'b'
over "xy" the unit (ab, xy) is committed, and the push of 'b' after "aba" over
"xyxz", which would map "ab" to "xz", is rejected. -/
theorem playfair_units_compatible_witness :
    (((Playfair.init 16).push [] [120, 121, 120, 122] 97).2.push [97] [120, 121, 120, 122]
      98).2.units = [{ clear_text := (97, 98), cipher_text := (120, 121) }] ∧
    ((((Playfair.init 16).push [] [120, 121, 120, 122] 97).2.push [97] [120, 121, 120, 122]
      98).2.push [97, 98, 97] [120, 121, 120, 122] 98).1 = false :=
  ⟨by decide,
   (playfair_units_compatible _
      (Playfair.Reach.push [97] [120, 121, 120, 122] 98
        (Playfair.Reach.push [] [120, 121, 120, 122] 97 (Playfair.Reach.init 16)))).2
      [97, 98, 97] [120, 121, 120, 122] 98 (by decide)
      ⟨{ clear_text := (97, 98), cipher_text := (120, 121) }, by decide, by decide⟩⟩

end PlayfairUnits

section PlayfairPlacement
open playfair

/-! ## Theorems: the placement search of the `Playfair` matcher -/

namespace playfair

theorem list_set_self {α : Type} (l : List α) (i : Nat) (a : α) (h : l[i]? = some a) :
    l.set i a = l := by
  apply List.ext_getElem?
  intro n
  rw [List.getElem?_set]
  by_cases e : i = n
  · subst e
    rw [if_pos rfl, if_pos (List.getElem?_eq_some_iff.1 h).1, h]
  · rw [if_neg e]

theorem Matrix.valAt_eq_some {m : Matrix} {p : Nat} {c : Chr} (h : m.valAt p = c) (hc : c ≠ 0) :
    m.val[p]? = some c := by
  unfold Matrix.valAt Str.at at h
  rw [List.getD_eq_getElem?_getD] at h
  cases hv : m.val[p]? with
  | none => rw [hv] at h; exact absurd h.symm hc
  | some x => rw [hv] at h; simp at h; rw [h]

theorem Matrix.valAt_add (m : Matrix) (p q : Nat) (ch : Chr) (hp : p < m.val.length) :
    (m.add p ch).valAt q = if q = p then ch else m.valAt q := by
  unfold Matrix.valAt Matrix.add Str.at
  simp only [List.getD_eq_getElem?_getD, List.getElem?_set]
  by_cases e : p = q
  · subst e; simp [hp]
  · simp [e, Ne.symm e]

theorem Matrix.rev_add (m : Matrix) (p : Nat) (ch c : Chr) :
    (m.add p ch).rev c = if c = ch then p else m.rev c := by
  unfold Matrix.add
  simp [Function.update_apply]

theorem Matrix.empty_lt {m : Matrix} {p : Nat} (h : m.valAt p = Matrix.EMPTY) :
    p < m.val.length :=
  (List.getElem?_eq_some_iff.1 (Matrix.valAt_eq_some h (by decide))).1

/-- Removing a letter just added to an empty cell gives the matrix back. -/
theorem Matrix.remove_add_cell (m : Matrix) (p : Nat) (ch : Chr)
    (hv : m.valAt p = Matrix.EMPTY) (hr : m.rev ch = UNSET) :
    (m.add p ch).remove p ch = m := by
  have h1 := Matrix.valAt_eq_some hv (by decide)
  cases m with
  | mk val rev =>
    simp only [Matrix.add, Matrix.remove, Matrix.mk.injEq]
    constructor
    · rw [List.set_set]; exact list_set_self _ _ _ h1
    · rw [Function.update_idem]
      simp only at hr
      rw [← hr, Function.update_eq_self]

/-- The two removals of `set_cipher` undo its two additions. -/
theorem Matrix.remove_add_two (m : Matrix) (p q : Nat) (c d : Chr)
    (hv1 : m.valAt p = Matrix.EMPTY) (hr1 : m.rev c = UNSET)
    (hv2 : m.valAt q = Matrix.EMPTY) (hr2 : m.rev d = UNSET) :
    (((m.add p c).add q d).remove p c).remove q d = m := by
  have h1 := Matrix.valAt_eq_some hv1 (by decide)
  have h2 := Matrix.valAt_eq_some hv2 (by decide)
  cases m with
  | mk val rev =>
    simp only [Matrix.add, Matrix.remove, Matrix.mk.injEq]
    simp only at h1 h2 hr1 hr2
    have hp := (List.getElem?_eq_some_iff.1 h1).1
    have hq := (List.getElem?_eq_some_iff.1 h2).1
    constructor
    · apply List.ext_getElem?
      intro n
      simp only [List.getElem?_set, List.length_set]
      by_cases e1 : q = n
      · subst e1
        rw [if_pos rfl, if_pos hq, h2]
      · rw [if_neg e1]
        by_cases e2 : p = n
        · subst e2
          rw [if_pos rfl, if_pos hp, h1]
        · rw [if_neg e2, if_neg e1, if_neg e2]
    · funext x
      simp only [Function.update_apply]
      by_cases e1 : x = d
      · rw [if_pos e1, e1, hr2]
      · rw [if_neg e1]
        by_cases e2 : x = c
        · rw [if_pos e2, e2, hr1]
        · rw [if_neg e2, if_neg e1, if_neg e2]

theorem Matrix.consistent_init : Matrix.init.Consistent := by
  refine ⟨fun ch h => absurd rfl h, ?_, by decide, rfl⟩
  intro p hp h
  exfalso
  apply h
  unfold Matrix.valAt Matrix.init Str.at
  rw [List.getD_eq_getElem?_getD, List.getElem?_replicate, if_pos (by
    unfold MATRIX_SIZE MATRIX_SIDE_SIZE; omega)]
  rfl

theorem Matrix.valAt_init (p : Nat) (hp : p < 25) : Matrix.init.valAt p = Matrix.EMPTY := by
  unfold Matrix.valAt Matrix.init Str.at
  rw [List.getD_eq_getElem?_getD, List.getElem?_replicate, if_pos (by
    unfold MATRIX_SIZE MATRIX_SIDE_SIZE; omega)]
  rfl

/-- Placing a letter that is not the blank and not yet placed in an empty cell
keeps the matrix consistent and keeps every placed letter in its cell. -/
theorem Matrix.Consistent.add {m : Matrix} (h : m.Consistent) (p : Nat) (ch : Chr)
    (hv : m.valAt p = Matrix.EMPTY) (hr : m.rev ch = UNSET) (hch : ch ≠ Matrix.EMPTY) :
    (m.add p ch).Consistent ∧ m.Extends (m.add p ch) ∧ (m.add p ch).rev ch = p ∧ p < 25 := by
  have hlen := Matrix.empty_lt hv
  have hp : p < 25 := by rw [← h.size]; exact hlen
  refine ⟨⟨?_, ?_, ?_, ?_⟩, ?_, ?_, hp⟩
  · intro c hc
    rw [Matrix.rev_add] at hc ⊢
    by_cases e : c = ch
    · rw [if_pos e, Matrix.valAt_add m p p ch hlen, if_pos rfl, e]
      exact ⟨hp, rfl⟩
    · rw [if_neg e] at hc ⊢
      obtain ⟨h1, h2⟩ := h.rev_val c hc
      refine ⟨h1, ?_⟩
      rw [Matrix.valAt_add m p _ ch hlen]
      by_cases e2 : m.rev c = p
      · exfalso
        rw [e2, hv] at h2
        rw [← h2] at hc
        exact hc h.blank
      · rw [if_neg e2]; exact h2
  · intro q hq hne
    rw [Matrix.valAt_add m p q ch hlen] at hne ⊢
    by_cases e : q = p
    · rw [if_pos e, Matrix.rev_add, if_pos rfl, e]
    · rw [if_neg e] at hne ⊢
      have h1 := h.val_rev q hq hne
      rw [Matrix.rev_add]
      by_cases e2 : m.valAt q = ch
      · exfalso
        rw [e2, hr] at h1
        unfold UNSET at h1
        omega
      · rw [if_neg e2]; exact h1
  · unfold Matrix.add
    simp only [List.length_set]
    exact h.size
  · rw [Matrix.rev_add, if_neg (Ne.symm hch)]
    exact h.blank
  · intro c hc
    rw [Matrix.rev_add]
    by_cases e : c = ch
    · exact absurd (e ▸ hr) hc
    · rw [if_neg e]
  · rw [Matrix.rev_add, if_pos rfl]

theorem Matrix.Extends.refl (m : Matrix) : m.Extends m := fun _ _ => rfl

theorem Matrix.Extends.trans {m1 m2 m3 : Matrix} (h1 : m1.Extends m2) (h2 : m2.Extends m3) :
    m1.Extends m3 := by
  intro c hc
  have e1 := h1 c hc
  rw [h2 c (by rw [e1]; exact hc), e1]

theorem Encrypts.mono {rules : Rules} {m m2 : Matrix} {u : Char_Unit}
    (h : Encrypts rules m u) (he : m.Extends m2) (hc : m2.Consistent) : Encrypts rules m2 u := by
  obtain ⟨⟨a1, _⟩, ⟨b1, _⟩, ⟨c1, _⟩, ⟨d1, _⟩, e⟩ := h
  have ea := he _ a1
  have eb := he _ b1
  have ec := he _ c1
  have ed := he _ d1
  have ka : m2.rev u.clear_text.1 ≠ UNSET := by rw [ea]; exact a1
  have kb : m2.rev u.clear_text.2 ≠ UNSET := by rw [eb]; exact b1
  have kc : m2.rev u.cipher_text.1 ≠ UNSET := by rw [ec]; exact c1
  have kd : m2.rev u.cipher_text.2 ≠ UNSET := by rw [ed]; exact d1
  refine ⟨⟨ka, (hc.rev_val _ ka).2⟩, ⟨kb, (hc.rev_val _ kb).2⟩, ⟨kc, (hc.rev_val _ kc).2⟩,
    ⟨kd, (hc.rev_val _ kd).2⟩, ?_⟩
  rw [ea, eb, ec, ed]
  exact e

theorem Placed.mono_cells {rules : Rules} {done : List Char_Unit} {m m2 : Matrix}
    (h : Placed rules done m) (he : m.Extends m2) (hc : m2.Consistent) :
    Placed rules done m2 :=
  ⟨hc, fun u hu => (h.2 u hu).mono he hc⟩

theorem set_clear_loop_safe {σ : Type} (I : σ → Prop) (P Q : Matrix → Prop) (ch : Chr)
    (f : Cont σ) (hf : Safe I Q f)
    (hstep : ∀ m p, P m → m.rev ch = UNSET → m.valAt p = Matrix.EMPTY → Q (m.add p ch)) :
    ∀ (positions : Position_List) (m : Matrix) (s : σ), P m → m.rev ch = UNSET → I s →
      (set_clear_loop ch f positions m s).2.1 = m ∧ I (set_clear_loop ch f positions m s).2.2
  | [], m, s, _, _, hs => ⟨rfl, hs⟩
  | p :: ps, m, s, hP, hr, hs => by
    unfold set_clear_loop
    by_cases hv : m.valAt p = Matrix.EMPTY
    · rw [if_pos hv]
      obtain ⟨e1, e2⟩ := hf (m.add p ch) s (hstep m p hP hr hv) hs
      have hback : (f (m.add p ch) s).2.1.remove p ch = m := by
        rw [e1]; exact Matrix.remove_add_cell m p ch hv hr
      dsimp only
      rw [hback]
      by_cases hres : (f (m.add p ch) s).1 = true
      · rw [if_pos hres]; exact ⟨rfl, e2⟩
      · rw [if_neg hres]
        exact set_clear_loop_safe I P Q ch f hf hstep ps m _ hP hr e2
    · rw [if_neg hv]
      exact set_clear_loop_safe I P Q ch f hf hstep ps m s hP hr hs

theorem set_clear_safe {σ : Type} (I : σ → Prop) (P Q : Matrix → Prop) (rules : Rules)
    (unit : Char_Unit) (even : Bool) (f : Cont σ) (hf : Safe I Q f)
    (hstep : ∀ m p, P m → m.rev (if even then unit.clear_text.1 else unit.clear_text.2) = UNSET →
      m.valAt p = Matrix.EMPTY →
      Q (m.add p (if even then unit.clear_text.1 else unit.clear_text.2)))
    (hkeep : ∀ m, P m → m.rev (if even then unit.clear_text.1 else unit.clear_text.2) ≠ UNSET →
      Q m) :
    Safe I P (set_clear rules unit even f) := by
  intro m s hP hs
  unfold set_clear
  dsimp only
  by_cases hr : m.rev (if even then unit.clear_text.1 else unit.clear_text.2) = UNSET
  · rw [if_pos hr]
    exact set_clear_loop_safe I P Q _ f hf hstep _ m s hP hr hs
  · rw [if_neg hr]
    split_ifs <;> first | exact hf m s (hkeep m hP hr) hs | exact ⟨rfl, hs⟩

theorem set_cipher_safe {σ : Type} (I : σ → Prop) (rules : Rules) (hcl : rules.Closed)
    (unit : Char_Unit) (hu : unit.Proper) (done : List Char_Unit) (f : Cont σ)
    (hf : Safe I (Placed rules (unit :: done)) f) :
    Safe I (fun m => Placed rules done m ∧ m.rev unit.clear_text.1 ≠ UNSET ∧
      m.rev unit.clear_text.2 ≠ UNSET) (set_cipher rules unit f) := by
  rintro m s ⟨hP, h1, h2⟩ hs
  obtain ⟨hc12, hw12, hc1, hc2, hw1, hw2⟩ := hu
  have hcons := hP.1
  obtain ⟨hp1, hv1⟩ := hcons.rev_val _ h1
  obtain ⟨hp2, hv2⟩ := hcons.rev_val _ h2
  have hpne : m.rev unit.clear_text.1 ≠ m.rev unit.clear_text.2 := by
    intro e
    rw [e, hv2] at hv1
    exact hc12 hv1.symm
  obtain ⟨hq1, hq2, hqne⟩ := hcl _ _ hp1 hp2 hpne
  -- the matrix on which `f` is invoked, in each of the four cases
  have finish : ∀ m2 : Matrix, m2.Consistent → m.Extends m2 →
      m2.rev unit.cipher_text.1 = (rules.change (m.rev unit.clear_text.1)
        (m.rev unit.clear_text.2)).1 →
      m2.rev unit.cipher_text.2 = (rules.change (m.rev unit.clear_text.1)
        (m.rev unit.clear_text.2)).2 →
      Placed rules (unit :: done) m2 := by
    intro m2 hc2' he e1 e2
    refine ⟨hc2', ?_⟩
    intro u hu
    rcases List.mem_cons.1 hu with rfl | hu
    · have k1 : m2.rev u.clear_text.1 ≠ UNSET := by rw [he _ h1]; exact h1
      have k2 : m2.rev u.clear_text.2 ≠ UNSET := by rw [he _ h2]; exact h2
      have k3 : m2.rev u.cipher_text.1 ≠ UNSET := by rw [e1]; unfold UNSET; omega
      have k4 : m2.rev u.cipher_text.2 ≠ UNSET := by rw [e2]; unfold UNSET; omega
      refine ⟨⟨k1, (hc2'.rev_val _ k1).2⟩, ⟨k2, (hc2'.rev_val _ k2).2⟩,
        ⟨k3, (hc2'.rev_val _ k3).2⟩, ⟨k4, (hc2'.rev_val _ k4).2⟩, ?_⟩
      rw [he _ h1, he _ h2, e1, e2]
    · exact (hP.2 u hu).mono he hc2'
  have placedOf : ∀ (q : Nat) (w : Chr), q < 25 → w ≠ Matrix.EMPTY → m.valAt q = w →
      m.rev w = q := by
    intro q w hq hw hv
    have := hcons.val_rev q hq (by rw [hv]; exact hw)
    rw [hv] at this
    exact this
  unfold set_cipher
  dsimp only
  by_cases E1 : m.valAt (rules.change (m.rev unit.clear_text.1) (m.rev unit.clear_text.2)).1
      = Matrix.EMPTY ∧ m.rev unit.cipher_text.1 = UNSET
  · by_cases E2 : m.valAt (rules.change (m.rev unit.clear_text.1) (m.rev unit.clear_text.2)).2
        = Matrix.EMPTY ∧ m.rev unit.cipher_text.2 = UNSET
    · simp only [E1.1, E1.2, E2.1, E2.2, decide_True, Bool.and_self, Bool.true_or, if_true]
      obtain ⟨a1, a2, a3, _⟩ := hcons.add _ _ E1.1 E1.2 hw1
      have hv2' : (m.add (rules.change (m.rev unit.clear_text.1) (m.rev unit.clear_text.2)).1
          unit.cipher_text.1).valAt
          (rules.change (m.rev unit.clear_text.1) (m.rev unit.clear_text.2)).2
          = Matrix.EMPTY := by
        rw [Matrix.valAt_add _ _ _ _ (Matrix.empty_lt E1.1), if_neg (Ne.symm hqne)]
        exact E2.1
      have hr2' : (m.add (rules.change (m.rev unit.clear_text.1) (m.rev unit.clear_text.2)).1
          unit.cipher_text.1).rev unit.cipher_text.2 = UNSET := by
        rw [Matrix.rev_add, if_neg (Ne.symm hw12)]
        exact E2.2
      obtain ⟨b1, b2, b3, _⟩ := a1.add _ _ hv2' hr2' hw2
      have hQ := finish _ b1 (a2.trans b2)
        (by rw [b2 _ (by rw [a3]; unfold UNSET; omega), a3]) b3
      obtain ⟨r1, r2⟩ := hf _ s hQ hs
      rw [r1]
      exact ⟨Matrix.remove_add_two m _ _ _ _ E1.1 E1.2 E2.1 E2.2, r2⟩
    · have E2' : (decide (m.valAt (rules.change (m.rev unit.clear_text.1)
          (m.rev unit.clear_text.2)).2 = Matrix.EMPTY) &&
          decide (m.rev unit.cipher_text.2 = UNSET)) = false := by
        simpa using E2
      simp only [E1.1, E1.2, E2', decide_True, Bool.and_self, Bool.true_or, if_true,
        Bool.false_or, Bool.false_eq_true, if_false]
      by_cases G2 : m.valAt (rules.change (m.rev unit.clear_text.1)
          (m.rev unit.clear_text.2)).2 = unit.cipher_text.2
      · simp only [G2, decide_True, if_true]
        obtain ⟨a1, a2, a3, _⟩ := hcons.add _ _ E1.1 E1.2 hw1
        have k := placedOf _ _ hq2 hw2 G2
        have hQ := finish _ a1 a2 a3
          (by rw [a2 _ (by rw [k]; unfold UNSET; omega), k])
        obtain ⟨r1, r2⟩ := hf _ s hQ hs
        rw [r1]
        exact ⟨Matrix.remove_add_cell m _ _ E1.1 E1.2, r2⟩
      · simp only [G2, decide_False, Bool.false_eq_true, if_false]
        first | exact ⟨rfl, hs⟩ | exact ⟨trivial, hs⟩
  · have E1' : (decide (m.valAt (rules.change (m.rev unit.clear_text.1)
        (m.rev unit.clear_text.2)).1 = Matrix.EMPTY) &&
        decide (m.rev unit.cipher_text.1 = UNSET)) = false := by
      simpa using E1
    simp only [E1', Bool.false_or, Bool.false_eq_true, if_false]
    by_cases G1 : m.valAt (rules.change (m.rev unit.clear_text.1)
        (m.rev unit.clear_text.2)).1 = unit.cipher_text.1
    · simp only [G1, decide_True, if_true]
      have k1 := placedOf _ _ hq1 hw1 G1
      by_cases E2 : m.valAt (rules.change (m.rev unit.clear_text.1)
          (m.rev unit.clear_text.2)).2 = Matrix.EMPTY ∧ m.rev unit.cipher_text.2 = UNSET
      · simp only [E2.1, E2.2, decide_True, Bool.and_self, Bool.true_or, if_true]
        obtain ⟨a1, a2, a3, _⟩ := hcons.add _ _ E2.1 E2.2 hw2
        have hQ := finish _ a1 a2
          (by rw [a2 _ (by rw [k1]; unfold UNSET; omega), k1]) a3
        obtain ⟨r1, r2⟩ := hf _ s hQ hs
        rw [r1]
        exact ⟨Matrix.remove_add_cell m _ _ E2.1 E2.2, r2⟩
      · have E2' : (decide (m.valAt (rules.change (m.rev unit.clear_text.1)
            (m.rev unit.clear_text.2)).2 = Matrix.EMPTY) &&
            decide (m.rev unit.cipher_text.2 = UNSET)) = false := by
          simpa using E2
        simp only [E2', Bool.false_or, Bool.false_eq_true, if_false]
        by_cases G2 : m.valAt (rules.change (m.rev unit.clear_text.1)
            (m.rev unit.clear_text.2)).2 = unit.cipher_text.2
        · simp only [G2, decide_True, if_true]
          have k2 := placedOf _ _ hq2 hw2 G2
          have hQ := finish m hcons (Matrix.Extends.refl m) k1 k2
          exact hf _ s hQ hs
        · simp only [G2, decide_False, Bool.false_eq_true, if_false]
          first | exact ⟨rfl, hs⟩ | exact ⟨trivial, hs⟩
    · simp only [G1, decide_False, Bool.false_eq_true, if_false]
      first | exact ⟨rfl, hs⟩ | exact ⟨trivial, hs⟩

theorem Rules.closed_init : Rules.init.Closed := by
  intro a b ha hb hab
  rw [(Rules.init_tables a b ha hb hab).1]
  obtain ⟨h1, h2, h3, _⟩ := encrypt_facts a ha b hb hab
  exact ⟨h1, h2, h3⟩

theorem placed_add {rules : Rules} {done : List Char_Unit} {m : Matrix} (h : Placed rules done m)
    (p : Nat) (ch : Chr) (hv : m.valAt p = Matrix.EMPTY) (hr : m.rev ch = UNSET)
    (hne : ch ≠ Matrix.EMPTY) :
    Placed rules done (m.add p ch) ∧ (m.add p ch).rev ch ≠ UNSET ∧ m.Extends (m.add p ch) := by
  obtain ⟨a1, a2, a3, a4⟩ := h.1.add p ch hv hr hne
  refine ⟨h.mono_cells a2 a1, ?_, a2⟩
  rw [a3]; unfold UNSET; omega

theorem _process_set_safe {σ : Type} (I : σ → Prop) (rules : Rules) (hcl : rules.Closed)
    (all : List Char_Unit) (f : Cont σ) (hf : Safe I (Placed rules all) f) :
    ∀ (rest done : List Char_Unit), (∀ u ∈ rest, u.Proper) → (∀ u ∈ all, u ∈ done ∨ u ∈ rest) →
      Safe I (Placed rules done) (_process_set rules f rest)
  | [], done, _, hall => by
    intro m s hP hs
    unfold _process_set
    refine hf m s ⟨hP.1, ?_⟩ hs
    intro u hu
    rcases hall u hu with h | h
    · exact hP.2 u h
    · cases h
  | u :: rest, done, hpr, hall => by
    have hu := hpr u (List.mem_cons_self _ _)
    have ih := _process_set_safe I rules hcl all f hf rest (u :: done)
      (fun v hv => hpr v (List.mem_cons_of_mem _ hv))
      (by
        intro v hv
        rcases hall v hv with h | h
        · exact Or.inl (List.mem_cons_of_mem _ h)
        · rcases List.mem_cons.1 h with rfl | h
          · exact Or.inl (List.mem_cons_self _ _)
          · exact Or.inr h)
    have h3 := set_cipher_safe I rules hcl u hu done _ ih
    have h2 := set_clear_safe I
      (fun m => Placed rules done m ∧ m.rev u.clear_text.1 ≠ UNSET)
      (fun m => Placed rules done m ∧ m.rev u.clear_text.1 ≠ UNSET ∧
        m.rev u.clear_text.2 ≠ UNSET) rules u false _ h3
      (by
        rintro m p ⟨hP, h1⟩ hr hv
        simp only [Bool.false_eq_true, if_false] at hr ⊢
        obtain ⟨b1, b2, b3⟩ := placed_add hP p u.clear_text.2 hv hr hu.2.2.2.1
        refine ⟨b1, ?_, b2⟩
        rw [b3 _ h1]; exact h1)
      (by
        rintro m ⟨hP, h1⟩ hr
        exact ⟨hP, h1, hr⟩)
    have h1 := set_clear_safe I (Placed rules done)
      (fun m => Placed rules done m ∧ m.rev u.clear_text.1 ≠ UNSET) rules u true _ h2
      (by
        intro m p hP hr hv
        obtain ⟨b1, b2, _⟩ := placed_add hP p u.clear_text.1 hv hr hu.2.2.1
        exact ⟨b1, b2⟩)
      (by
        intro m hP hr
        exact ⟨hP, hr⟩)
    intro m s hP hs
    unfold _process_set
    exact h1 m s hP hs

theorem process_set_safe {σ : Type} (I : σ → Prop) (units : List Char_Unit) (hne : units ≠ [])
    (hunits : ∀ u ∈ units, u.Proper) (f : Cont σ)
    (hf : Safe I (Placed Rules.init units) f) (s : σ) (hs : I s) :
    (process_set Rules.init units f Matrix.init s).2.1 = Matrix.init ∧
    I (process_set Rules.init units f Matrix.init s).2.2 := by
  obtain ⟨u, rest, rfl⟩ := List.exists_cons_of_ne_nil hne
  have hu := hunits u (List.mem_cons_self _ _)
  have hv := Matrix.valAt_init 0 (by decide)
  have hr : Matrix.init.rev u.clear_text.1 = UNSET := rfl
  have h0 : Placed Rules.init [] Matrix.init :=
    ⟨Matrix.consistent_init, fun _ h => by cases h⟩
  obtain ⟨b1, _, _⟩ := placed_add h0 0 u.clear_text.1 hv hr hu.2.2.1
  obtain ⟨r1, r2⟩ := _process_set_safe I Rules.init Rules.closed_init (u :: rest) f hf
    (u :: rest) [] hunits (fun v hv => Or.inr hv) _ s b1 hs
  unfold process_set
  dsimp only [firstLetter]
  rw [r1]
  exact ⟨Matrix.remove_add_cell _ 0 _ hv hr, r2⟩

/-- C12, amended: started on the empty matrix with a non-empty list of units
none of whose letters is the blank, and in each of which the two plaintext
letters differ and the two ciphertext letters differ, `process_set` invokes
its continuation only on matrices that encrypt every unit of the list (all
four letters placed, `change` sending the cells of the plaintext letters to
the cells of the ciphertext letters), and it leaves the matrix empty; the
continuation leaves the matrix as it found it and may answer as it likes. -/
theorem playfair_process_set_encrypts (verdict : Matrix → List Matrix → Bool)
    (units : List Char_Unit) (hne : units ≠ []) (hunits : ∀ u ∈ units, u.Proper) :
    (∀ m ∈ (process_set Rules.init units (recorder verdict) Matrix.init []).2.2,
      ∀ u ∈ units, Encrypts Rules.init m u) ∧
    (process_set Rules.init units (recorder verdict) Matrix.init []).2.1 = Matrix.init := by
  have h := process_set_safe (fun s => ∀ m ∈ s, ∀ u ∈ units, Encrypts Rules.init m u)
    units hne hunits (recorder verdict)
    (by
      intro m s hP hs
      refine ⟨rfl, ?_⟩
      intro m2 hm2
      rcases List.mem_cons.1 hm2 with rfl | hm2
      · exact hP.2
      · exact hs m2 hm2)
    [] (fun _ h => by cases h)
  exact ⟨h.2, h.1⟩

set_option maxRecDepth 1000000 in
/-- Witness for `playfair_process_set_encrypts`: on the one unit "ab" to "bc" the continuation is invoked,
and on a matrix that encrypts the unit. -/
theorem playfair_process_set_encrypts_witness :
    (process_set Rules.init [{ clear_text := (97, 98), cipher_text := (98, 99) }]
      (recorder (fun _ _ => true)) Matrix.init []).2.2.length = 1 ∧
    ∀ m ∈ (process_set Rules.init [{ clear_text := (97, 98), cipher_text := (98, 99) }]
      (recorder (fun _ _ => true)) Matrix.init []).2.2,
      ∀ u ∈ [({ clear_text := (97, 98), cipher_text := (98, 99) } : Char_Unit)],
        Encrypts Rules.init m u :=
  ⟨by decide,
   (playfair_process_set_encrypts (fun _ _ => true)
     [{ clear_text := (97, 98), cipher_text := (98, 99) }] (by decide) (by decide)).1⟩

set_option maxRecDepth 1000000 in
/-- C12, as stated, fails: in the units "ab" to "b " and "cd" to "d "
the letters of each pair differ, yet the continuation is invoked on a matrix
that does not encrypt every unit; the blank of the ciphertext is taken for an
empty cell. -/
theorem playfair_process_set_blank_unit :
    (∀ u ∈ blankUnits, u.clear_text.1 ≠ u.clear_text.2 ∧ u.cipher_text.1 ≠ u.cipher_text.2) ∧
    ∃ m ∈ (process_set Rules.init blankUnits (recorder (fun _ _ => true)) Matrix.init []).2.2,
      ∃ u ∈ blankUnits, ¬ Encrypts Rules.init m u := by
  decide

end playfair

end PlayfairPlacement

section PrefixTree

namespace dict

open Prefix_Tree

variable {α : Type}

/-- Induction over a prefix tree: a property holds for every tree if it holds
for a node whenever it holds for the nodes below it. -/
theorem Prefix_Tree.induct {motive : Prefix_Tree α → Prop}
    (h : ∀ w sym v nc, (∀ c ∈ nc, motive c) → motive (Prefix_Tree.mk w sym v nc))
    (t : Prefix_Tree α) : motive t :=
  @Prefix_Tree.rec α motive (fun l => ∀ c ∈ l, motive c)
    (fun w sym v nc ih => h w sym v nc ih)
    (fun _ hc => nomatch hc)
    (fun _ _ ih1 ih2 c hc => by
      rcases List.mem_cons.1 hc with rfl | hc
      · exact ih1
      · exact ih2 c hc)
    t

theorem Prefix_Tree.mem_nodes_list (x : Prefix_Tree α) :
    ∀ l : List (Prefix_Tree α), x ∈ nodes_list l ↔ ∃ c ∈ l, x ∈ nodes c
  | [] => by simp [nodes_list]
  | c :: rest => by
    simp [nodes_list, Prefix_Tree.mem_nodes_list x rest]

theorem Prefix_Tree.mem_nodes (x : Prefix_Tree α) (w : Nat) (sym : Chr) (v : α)
    (nc : List (Prefix_Tree α)) :
    x ∈ nodes (Prefix_Tree.mk w sym v nc) ↔
      x = Prefix_Tree.mk w sym v nc ∨ ∃ c ∈ nc, x ∈ nodes c := by
  simp [nodes, Prefix_Tree.mem_nodes_list]

theorem Prefix_Tree.self_mem_nodes (t : Prefix_Tree α) : t ∈ nodes t := by
  cases t
  simp [nodes]

theorem Prefix_Tree.calc_scores_loop_eq (cs : Nat → Nat → Int) (mh : Nat) :
    ∀ l, calc_scores_loop cs mh l = l.map (calc_scores cs mh)
  | [] => by simp [calc_scores_loop]
  | c :: rest => by
    simp [calc_scores_loop, Prefix_Tree.calc_scores_loop_eq cs mh rest]

theorem Prefix_Tree.calc_scores_unsorted_loop_eq (cs : Nat → Nat → Int) (mh : Nat) :
    ∀ l, calc_scores_unsorted_loop cs mh l = l.map (calc_scores_unsorted cs mh)
  | [] => by simp [calc_scores_unsorted_loop]
  | c :: rest => by
    simp [calc_scores_unsorted_loop, Prefix_Tree.calc_scores_unsorted_loop_eq cs mh rest]

theorem Prefix_Tree.calc_scores_mk (cs : Nat → Nat → Int) (mh w : Nat) (sym : Chr) (hits : Nat)
    (nc : List (Prefix_Tree Nat)) :
    calc_scores cs mh (Prefix_Tree.mk w sym hits nc) =
      Prefix_Tree.mk w sym
        ⟨if w ≠ NONE then cs hits mh else INF_SCORE,
         (nc.map (calc_scores cs mh)).foldl (fun m c => min m c.store.min_score)
           (if w ≠ NONE then cs hits mh else INF_SCORE)⟩
        (sort_chars (nc.map (calc_scores cs mh))) := by
  rw [calc_scores, Prefix_Tree.calc_scores_loop_eq]

theorem Prefix_Tree.calc_scores_unsorted_mk (cs : Nat → Nat → Int) (mh w : Nat) (sym : Chr)
    (hits : Nat) (nc : List (Prefix_Tree Nat)) :
    calc_scores_unsorted cs mh (Prefix_Tree.mk w sym hits nc) =
      Prefix_Tree.mk w sym
        ⟨if w ≠ NONE then cs hits mh else INF_SCORE,
         (nc.map (calc_scores_unsorted cs mh)).foldl (fun m c => min m c.store.min_score)
           (if w ≠ NONE then cs hits mh else INF_SCORE)⟩
        (nc.map (calc_scores_unsorted cs mh)) := by
  rw [calc_scores_unsorted, Prefix_Tree.calc_scores_unsorted_loop_eq]

theorem Prefix_Tree.sort_chars_perm (l : List (Prefix_Tree α)) : (sort_chars l).Perm l :=
  List.perm_insertionSort _ l

theorem Prefix_Tree.mem_sort_chars (x : Prefix_Tree α) (l : List (Prefix_Tree α)) :
    x ∈ sort_chars l ↔ x ∈ l :=
  (Prefix_Tree.sort_chars_perm l).mem_iff

/-- The running minimum of the loop of `calc_scores` is below its start and
below every value it has seen, and it is one of them. -/
theorem foldl_min_spec {β : Type} (f : β → Int) :
    ∀ (l : List β) (a : Int),
      l.foldl (fun m c => min m (f c)) a ≤ a ∧
      (∀ c ∈ l, l.foldl (fun m c => min m (f c)) a ≤ f c) ∧
      (l.foldl (fun m c => min m (f c)) a = a ∨
        ∃ c ∈ l, l.foldl (fun m c => min m (f c)) a = f c)
  | [], a => by simp
  | b :: l, a => by
    obtain ⟨h1, h2, h3⟩ := foldl_min_spec f l (min a (f b))
    simp only [List.foldl_cons]
    refine ⟨le_trans h1 (min_le_left _ _), ?_, ?_⟩
    · intro c hc
      rcases List.mem_cons.1 hc with rfl | hc
      · exact le_trans h1 (min_le_right _ _)
      · exact h2 c hc
    · rcases h3 with h3 | ⟨c, hc, h3⟩
      · rcases min_choice a (f b) with e | e
        · left; rw [h3, e]
        · right; exact ⟨b, List.mem_cons_self _ _, by rw [h3, e]⟩
      · right; exact ⟨c, List.mem_cons_of_mem _ hc, h3⟩

theorem Prefix_Tree.calc_scores_minScored (cs : Nat → Nat → Int)
    (hcs : ∀ h m, cs h m ≤ INF_SCORE) (mh : Nat) (t : Prefix_Tree Nat) :
    ∀ n ∈ nodes (calc_scores cs mh t), n.MinScored := by
  induction t using Prefix_Tree.induct with
  | h w sym hits nc ih =>
    intro n hn
    rw [Prefix_Tree.calc_scores_mk, Prefix_Tree.mem_nodes] at hn
    have hkid : ∀ c ∈ sort_chars (nc.map (calc_scores cs mh)), ∀ x ∈ nodes c, x.MinScored := by
      intro c hc x hx
      rw [Prefix_Tree.mem_sort_chars, List.mem_map] at hc
      obtain ⟨c0, hc0, rfl⟩ := hc
      exact ih c0 hc0 x hx
    rcases hn with rfl | ⟨c, hc, hn⟩
    · obtain ⟨f1, f2, f3⟩ := foldl_min_spec (fun c : Prefix_Tree Score_Values => c.store.min_score)
        (nc.map (calc_scores cs mh)) (if w ≠ NONE then cs hits mh else INF_SCORE)
      have hsc : (if w ≠ NONE then cs hits mh else INF_SCORE) ≤ INF_SCORE := by
        split_ifs
        · exact hcs _ _
        · exact le_refl _
      refine ⟨?_, ?_, ?_, ?_⟩
      · intro x hx hw
        rw [Prefix_Tree.mem_nodes] at hx
        rcases hx with rfl | ⟨c, hc, hx⟩
        · exact f1
        · have hc2 := (Prefix_Tree.mem_sort_chars c _).1 hc
          exact le_trans (f2 c hc2) ((hkid c hc c (Prefix_Tree.self_mem_nodes c)).1 x hx hw)
      · rcases f3 with f3 | ⟨c, hc, f3⟩
        · by_cases hw : w ≠ NONE
          · right
            refine ⟨_, Prefix_Tree.self_mem_nodes _, ?_, ?_⟩
            · simp [Prefix_Tree.is_word, Prefix_Tree.word, hw]
            · exact f3.symm
          · left
            exact f3.trans (if_neg hw)
        · have hc2 := (Prefix_Tree.mem_sort_chars c _).2 hc
          rcases (hkid c hc2 c (Prefix_Tree.self_mem_nodes c)).2.1 with e | ⟨x, hx, hw, e⟩
          · left
            exact f3.trans e
          · right
            refine ⟨x, ?_, hw, ?_⟩
            · rw [Prefix_Tree.mem_nodes]; exact Or.inr ⟨c, hc2, hx⟩
            · rw [e]; exact f3.symm
      · intro x hx
        rw [Prefix_Tree.mem_nodes] at hx
        rcases hx with rfl | ⟨c, hc, hx⟩
        · exact hsc
        · exact (hkid c hc c (Prefix_Tree.self_mem_nodes c)).2.2.1 x hx
      · intro hw
        have hw2 : w = NONE := by
          simpa [Prefix_Tree.is_word, Prefix_Tree.word] using hw
        simp [Prefix_Tree.score, Prefix_Tree.store, hw2]
    · exact hkid c hc n hn

/-- C14: at every node `n` of a tree scored by `calc_scores`, `_min_score` is
the minimum of `_score` over the words (terminal nodes) at and below `n`: it
is a lower bound of their scores and, if there is one, the score of one of
them; it is `INF_SCORE` if there is none; and every node that is no word has
`_score = INF_SCORE`. The function `calc_score` returns a `small_score_t`, so
its values are at most `INF_SCORE`. -/
theorem prefix_tree_min_score (calc_score : Nat → Nat → Int)
    (hcs : ∀ h m, calc_score h m ≤ INF_SCORE) (max_hits : Nat) (t : Prefix_Tree Nat) :
    ∀ n ∈ nodes (calc_scores calc_score max_hits t),
      (∀ x ∈ nodes n, x.is_word = true → n.min_score ≤ x.score) ∧
      ((∃ x ∈ nodes n, x.is_word = true) →
        ∃ x ∈ nodes n, x.is_word = true ∧ x.score = n.min_score) ∧
      ((∀ x ∈ nodes n, x.is_word = false) → n.min_score = INF_SCORE) ∧
      (n.is_word = false → n.score = INF_SCORE) := by
  intro n hn
  obtain ⟨g1, g2, g3, g4⟩ := Prefix_Tree.calc_scores_minScored calc_score hcs max_hits t n hn
  refine ⟨g1, ?_, ?_, g4⟩
  · rintro ⟨x, hx, hw⟩
    rcases g2 with e | g2
    · exact ⟨x, hx, hw, le_antisymm (by rw [e]; exact g3 x hx) (g1 x hx hw)⟩
    · exact g2
  · intro hno
    rcases g2 with e | ⟨x, hx, hw, _⟩
    · exact e
    · rw [hno x hx] at hw
      cases hw

/-- Witness for `prefix_tree_min_score`: the tree of the words "b", "a" and "ba" with 1 hit each,
scored with 0 for a word that has all the hits and 100 otherwise. -/
theorem prefix_tree_min_score_witness :
    (calc_scores (fun h m => if h = m then 0 else 100) 1
      (ofWords [[98], [97], [98, 97]])).min_score = 0 ∧
    ∀ x ∈ nodes (calc_scores (fun h m => if h = m then 0 else 100) 1
      (ofWords [[98], [97], [98, 97]])), x.is_word = true →
      (calc_scores (fun h m => if h = m then 0 else 100) 1
        (ofWords [[98], [97], [98, 97]])).min_score ≤ x.score :=
  ⟨by decide,
   (prefix_tree_min_score (fun h m => if h = m then 0 else 100)
     (fun h m => by dsimp only; split_ifs <;> decide) 1
     (ofWords [[98], [97], [98, 97]]) _ (Prefix_Tree.self_mem_nodes _)).1⟩

theorem Prefix_Tree.symbol_calc_scores (cs : Nat → Nat → Int) (mh : Nat) (t : Prefix_Tree Nat) :
    (calc_scores cs mh t).symbol = t.symbol := by
  cases t; rw [Prefix_Tree.calc_scores_mk]; rfl

theorem Prefix_Tree.symbol_calc_scores_unsorted (cs : Nat → Nat → Int) (mh : Nat)
    (t : Prefix_Tree Nat) : (calc_scores_unsorted cs mh t).symbol = t.symbol := by
  cases t; rw [Prefix_Tree.calc_scores_unsorted_mk]; rfl

theorem Prefix_Tree.distinct_mk (w : Nat) (sym : Chr) (v : α) (nc : List (Prefix_Tree α)) :
    (Prefix_Tree.mk w sym v nc).Distinct ↔
      (nc.map symbol).Nodup ∧ ∀ c ∈ nc, c.Distinct := by
  unfold Prefix_Tree.Distinct
  constructor
  · intro h
    refine ⟨h _ (Prefix_Tree.self_mem_nodes _), ?_⟩
    intro c hc n hn
    exact h n ((Prefix_Tree.mem_nodes n w sym v nc).2 (Or.inr ⟨c, hc, hn⟩))
  · rintro ⟨h1, h2⟩ n hn
    rcases (Prefix_Tree.mem_nodes n w sym v nc).1 hn with rfl | ⟨c, hc, hn⟩
    · exact h1
    · exact h2 c hc n hn

/-- In a list whose elements have distinct images under `f`, the search for the
image `a` finds the same element whatever the order of the list. -/
theorem find_perm_of_nodup {β γ : Type} [DecidableEq γ] (f : β → γ) (a : γ) {l1 l2 : List β}
    (hp : l1.Perm l2) (hn : (l1.map f).Nodup) :
    l1.find? (fun c => decide (f c = a)) = l2.find? (fun c => decide (f c = a)) := by
  have key : ∀ (l : List β) (x : β), x ∈ l → f x = a → (∀ y ∈ l, f y = a → y = x) →
      l.find? (fun c => decide (f c = a)) = some x := by
    intro l
    induction l with
    | nil => intro x hx; cases hx
    | cons b l ih =>
      intro x hx hfx huniq
      by_cases hb : f b = a
      · have := huniq b (List.mem_cons_self _ _) hb
        subst this
        simp [List.find?_cons, hb]
      · have hxl : x ∈ l := by
          rcases List.mem_cons.1 hx with rfl | h
          · exact absurd hfx hb
          · exact h
        simp only [List.find?_cons, hb, decide_False]
        exact ih x hxl hfx (fun y hy => huniq y (List.mem_cons_of_mem _ hy))
  cases h1 : l1.find? (fun c => decide (f c = a)) with
  | none =>
    symm
    rw [List.find?_eq_none] at h1 ⊢
    intro x hx
    exact h1 x (hp.mem_iff.2 hx)
  | some x =>
    have hx1 : x ∈ l1 := List.mem_of_find?_eq_some h1
    have hfx : f x = a := by simpa using List.find?_some h1
    symm
    refine key l2 x (hp.mem_iff.1 hx1) hfx ?_
    intro y hy hfy
    exact List.inj_on_of_nodup_map hn (hp.mem_iff.2 hy) hx1 (hfy.trans hfx.symm)

theorem Prefix_Tree.find_map_scored (g : Prefix_Tree Nat → Prefix_Tree Score_Values)
    (hg : ∀ c, (g c).symbol = c.symbol) (ch : Chr) (l : List (Prefix_Tree Nat)) :
    (l.map g).find? (fun c => decide (c.symbol = ch)) =
      (l.find? (fun c => decide (c.symbol = ch))).map g := by
  induction l with
  | nil => rfl
  | cons b l ih =>
    by_cases hb : b.symbol = ch
    · simp [List.find?_cons, hg, hb]
    · simp only [List.map_cons, List.find?_cons, hg, hb, decide_False]
      exact ih

theorem Prefix_Tree.map_symbol_calc_scores (cs : Nat → Nat → Int) (mh : Nat)
    (l : List (Prefix_Tree Nat)) :
    (l.map (calc_scores cs mh)).map symbol = l.map symbol := by
  rw [List.map_map]
  apply List.map_congr_left
  intro c _
  exact Prefix_Tree.symbol_calc_scores cs mh c

theorem Prefix_Tree.find_calc_scores (cs : Nat → Nat → Int) (mh : Nat) :
    ∀ (s : Str) (t : Prefix_Tree Nat), t.Distinct →
      ((calc_scores cs mh t).find s).map (fun n => (n.word, n.score)) =
        ((calc_scores_unsorted cs mh t).find s).map (fun n => (n.word, n.score))
  | [], t, _ => by
    cases t
    rw [Prefix_Tree.calc_scores_mk, Prefix_Tree.calc_scores_unsorted_mk]
    rfl
  | ch :: s, t, hd => by
    cases t with
    | mk w sym hits nc =>
      obtain ⟨hn, hc⟩ := (Prefix_Tree.distinct_mk w sym hits nc).1 hd
      rw [Prefix_Tree.calc_scores_mk, Prefix_Tree.calc_scores_unsorted_mk]
      simp only [Prefix_Tree.find, Prefix_Tree.next_char]
      rw [find_perm_of_nodup symbol ch (Prefix_Tree.sort_chars_perm _)
        (by
          rw [(Prefix_Tree.sort_chars_perm (nc.map (calc_scores cs mh))).map symbol |>.nodup_iff,
            Prefix_Tree.map_symbol_calc_scores]
          exact hn)]
      rw [Prefix_Tree.find_map_scored _ (Prefix_Tree.symbol_calc_scores cs mh),
        Prefix_Tree.find_map_scored _ (Prefix_Tree.symbol_calc_scores_unsorted cs mh)]
      cases hf : nc.find? (fun c => decide (c.symbol = ch)) with
      | none => rfl
      | some c =>
        simp only [Option.map_some']
        exact Prefix_Tree.find_calc_scores cs mh s c (hc c (List.mem_of_find?_eq_some hf))

theorem Prefix_Tree.sorted_calc_scores (cs : Nat → Nat → Int) (mh : Nat) (t : Prefix_Tree Nat) :
    t.Distinct → ∀ n ∈ nodes (calc_scores cs mh t),
      (n.next_char.map symbol).Sorted (fun a b => a < b) := by
  induction t using Prefix_Tree.induct with
  | h w sym hits nc ih =>
    intro hd n hn
    obtain ⟨hnd, hc⟩ := (Prefix_Tree.distinct_mk w sym hits nc).1 hd
    rw [Prefix_Tree.calc_scores_mk, Prefix_Tree.mem_nodes] at hn
    rcases hn with rfl | ⟨c, hcm, hn⟩
    · simp only [Prefix_Tree.next_char]
      have hperm := (Prefix_Tree.sort_chars_perm (nc.map (calc_scores cs mh))).map symbol
      have hnd2 : ((sort_chars (nc.map (calc_scores cs mh))).map symbol).Nodup := by
        rw [hperm.nodup_iff, Prefix_Tree.map_symbol_calc_scores]
        exact hnd
      have hs : (sort_chars (nc.map (calc_scores cs mh))).Sorted
          (fun a b => a.symbol ≤ b.symbol) := by
        haveI : IsTotal (Prefix_Tree Score_Values) (fun a b => a.symbol ≤ b.symbol) :=
          ⟨fun a b => le_total a.symbol b.symbol⟩
        haveI : IsTrans (Prefix_Tree Score_Values) (fun a b => a.symbol ≤ b.symbol) :=
          ⟨fun a b c h1 h2 => le_trans h1 h2⟩
        exact List.sorted_insertionSort _ _
      have hs2 : ((sort_chars (nc.map (calc_scores cs mh))).map symbol).Sorted
          (fun a b => a ≤ b) := by
        unfold List.Sorted
        rw [List.pairwise_map]
        exact hs
      exact hs2.lt_of_le hnd2
    · rw [Prefix_Tree.mem_sort_chars, List.mem_map] at hcm
      obtain ⟨c0, hc0, rfl⟩ := hcm
      exact ih c0 hc0 (hc c0 hc0) n hn

theorem Prefix_Tree.symbol_add_hits (t : Prefix_Tree Nat) (s : Str) (id h : Nat) :
    (t.add_hits s id h).symbol = t.symbol := by
  cases t with
  | mk w sym hits nc =>
    cases s with
    | nil => rfl
    | cons ch s =>
      rw [Prefix_Tree.add_hits]
      split <;> rfl

theorem Prefix_Tree.add_hits_loop_none (g : Prefix_Tree Nat → Prefix_Tree Nat) (ch : Chr) :
    ∀ l, add_hits_loop g ch l = none ↔ ∀ c ∈ l, c.symbol ≠ ch
  | [] => by simp [add_hits_loop]
  | c :: rest => by
    by_cases hc : c.symbol = ch
    · simp [add_hits_loop, hc]
    · simp [add_hits_loop, hc, Prefix_Tree.add_hits_loop_none g ch rest]

theorem Prefix_Tree.add_hits_loop_some (g : Prefix_Tree Nat → Prefix_Tree Nat) (ch : Chr) :
    ∀ l l2, add_hits_loop g ch l = some l2 →
      ∃ pre c post, l = pre ++ c :: post ∧ (∀ x ∈ pre, x.symbol ≠ ch) ∧ c.symbol = ch ∧
        l2 = pre ++ g c :: post
  | [], l2, h => by simp [add_hits_loop] at h
  | c :: rest, l2, h => by
    by_cases hc : c.symbol = ch
    · simp only [add_hits_loop, hc, if_true, Option.some.injEq] at h
      exact ⟨[], c, rest, rfl, (fun _ hx => nomatch hx), hc, h.symm⟩
    · simp only [add_hits_loop, hc, if_false, Option.map_eq_some'] at h
      obtain ⟨r, hr, rfl⟩ := h
      obtain ⟨pre, c1, post, e1, e2, e3, e4⟩ := Prefix_Tree.add_hits_loop_some g ch rest r hr
      refine ⟨c :: pre, c1, post, by rw [e1]; rfl, ?_, e3, by rw [e4]; rfl⟩
      intro x hx
      rcases List.mem_cons.1 hx with rfl | hx
      · exact hc
      · exact e2 x hx

/-- The search for a symbol in `pre ++ c :: post` when no node of `pre` has the
symbol `ch` of `c`. -/
theorem Prefix_Tree.find_split (pre post : List (Prefix_Tree α)) (c : Prefix_Tree α) (ch : Chr)
    (hpre : ∀ x ∈ pre, x.symbol ≠ c.symbol) (c2 : Prefix_Tree α) (hc2 : c2.symbol = c.symbol) :
    (pre ++ c2 :: post).find? (fun x => decide (x.symbol = ch)) =
      if ch = c.symbol then some c2
      else (pre ++ c :: post).find? (fun x => decide (x.symbol = ch)) := by
  induction pre with
  | nil =>
    by_cases h : ch = c.symbol
    · simp [List.find?_cons, h, hc2]
    · have h2 : ¬ c.symbol = ch := fun e => h e.symm
      simp [List.find?_cons, h, hc2, h2]
  | cons b pre ih =>
    have hb := hpre b (List.mem_cons_self _ _)
    have ih2 := ih (fun x hx => hpre x (List.mem_cons_of_mem _ hx))
    by_cases h : ch = c.symbol
    · have hb2 : ¬ b.symbol = ch := by rw [h]; exact hb
      simp only [List.cons_append, List.find?_cons, hb2, decide_False]
      rw [ih2, if_pos h]
    · rw [if_neg h] at ih2 ⊢
      by_cases hbc : b.symbol = ch
      · simp [List.find?_cons, hbc]
      · simp only [List.cons_append, List.find?_cons, hbc, decide_False]
        exact ih2

theorem Prefix_Tree.distinct_new (ch : Chr) : (Prefix_Tree.new ch).Distinct := by
  unfold Prefix_Tree.new
  rw [Prefix_Tree.distinct_mk]
  exact ⟨List.nodup_nil, fun _ h => nomatch h⟩

theorem Prefix_Tree.distinct_add_hits (id h : Nat) :
    ∀ (s : Str) (t : Prefix_Tree Nat), t.Distinct → (t.add_hits s id h).Distinct
  | [], t, hd => by
    cases t with
    | mk w sym hits nc =>
      rw [Prefix_Tree.add_hits]
      rw [Prefix_Tree.distinct_mk] at hd ⊢
      exact hd
  | ch :: s, t, hd => by
    cases t with
    | mk w sym hits nc =>
      obtain ⟨hn, hc⟩ := (Prefix_Tree.distinct_mk w sym hits nc).1 hd
      rw [Prefix_Tree.add_hits]
      split
      · rename_i nc2 hl
        obtain ⟨pre, c, post, e1, _, _, e4⟩ := Prefix_Tree.add_hits_loop_some _ ch nc nc2 hl
        rw [Prefix_Tree.distinct_mk]
        subst e1 e4
        refine ⟨?_, ?_⟩
        · simpa [Prefix_Tree.symbol_add_hits] using hn
        · intro x hx
          rcases List.mem_append.1 hx with hx | hx
          · exact hc x (List.mem_append_left _ hx)
          · rcases List.mem_cons.1 hx with rfl | hx
            · exact Prefix_Tree.distinct_add_hits id h s c
                (hc c (List.mem_append_right _ (List.mem_cons_self _ _)))
            · exact hc x (List.mem_append_right _ (List.mem_cons_of_mem _ hx))
      · rename_i hl
        rw [Prefix_Tree.add_hits_loop_none] at hl
        rw [Prefix_Tree.distinct_mk]
        refine ⟨?_, ?_⟩
        · refine List.Nodup.sublist ((List.take_sublist _ _).map symbol) ?_
          rw [List.map_append, List.map_singleton, Prefix_Tree.symbol_add_hits]
          refine List.Nodup.append hn (List.nodup_singleton _) ?_
          rw [List.disjoint_singleton]
          intro hmem
          obtain ⟨c, hcm, hcs⟩ := List.mem_map.1 hmem
          exact hl c hcm hcs
        · intro x hx
          rcases List.mem_append.1 (List.mem_of_mem_take hx) with hx | hx
          · exact hc x hx
          · rw [List.mem_singleton] at hx
            subst hx
            exact Prefix_Tree.distinct_add_hits id h s _ (Prefix_Tree.distinct_new ch)

theorem Prefix_Tree.Built.distinct {t : Prefix_Tree Nat} (hb : t.Built) : t.Distinct := by
  induction hb with
  | init => exact Prefix_Tree.distinct_new _
  | add_hits t s id h _ ih => exact Prefix_Tree.distinct_add_hits id h s t ih

/-- C15: after `calc_scores` has run on a prefix tree built by `add_hits`, the
symbols of the children of every node are in strictly increasing order, and
for every path `find` reaches a node in the scored tree exactly when it
reaches one in the tree scored without the sort, with the same word id and
the same score. -/
theorem prefix_tree_sorted_children (calc_score : Nat → Nat → Int) (max_hits : Nat)
    (t : Prefix_Tree Nat) (hb : t.Built) :
    (∀ n ∈ nodes (calc_scores calc_score max_hits t),
      (n.next_char.map symbol).Sorted (fun a b => a < b)) ∧
    (∀ s : Str,
      ((calc_scores calc_score max_hits t).find s).map (fun n => (n.word, n.score)) =
        ((calc_scores_unsorted calc_score max_hits t).find s).map
          (fun n => (n.word, n.score))) :=
  ⟨Prefix_Tree.sorted_calc_scores calc_score max_hits t hb.distinct,
   fun s => Prefix_Tree.find_calc_scores calc_score max_hits s t hb.distinct⟩

/-- Witness for `prefix_tree_sorted_children`: the words "b" and "a" are added in this order; after
scoring the root has the children 'a', 'b', and "b" is still found with its
id 1 and its score. -/
theorem prefix_tree_sorted_children_witness :
    ((calc_scores (fun h m => if h = m then 0 else 100) 1
      ((Prefix_Tree.init.add_hits [98] 1 1).add_hits [97] 2 1)).next_char.map symbol = [97, 98]) ∧
    ((calc_scores (fun h m => if h = m then 0 else 100) 1
      ((Prefix_Tree.init.add_hits [98] 1 1).add_hits [97] 2 1)).find [98]).map
        (fun n => (n.word, n.score)) = some (1, 0) ∧
    ((calc_scores_unsorted (fun h m => if h = m then 0 else 100) 1
      ((Prefix_Tree.init.add_hits [98] 1 1).add_hits [97] 2 1)).next_char.map symbol
        = [98, 97]) ∧
    ((calc_scores (fun h m => if h = m then 0 else 100) 1
      ((Prefix_Tree.init.add_hits [98] 1 1).add_hits [97] 2 1)).find [98]).map
        (fun n => (n.word, n.score)) =
      ((calc_scores_unsorted (fun h m => if h = m then 0 else 100) 1
        ((Prefix_Tree.init.add_hits [98] 1 1).add_hits [97] 2 1)).find [98]).map
          (fun n => (n.word, n.score)) :=
  ⟨by decide, by decide, by decide,
   (prefix_tree_sorted_children (fun h m => if h = m then 0 else 100) 1
     ((Prefix_Tree.init.add_hits [98] 1 1).add_hits [97] 2 1)
     (Prefix_Tree.Built.add_hits _ _ _ _ (Prefix_Tree.Built.add_hits _ _ _ _
       Prefix_Tree.Built.init))).2 [98]⟩

theorem Prefix_Tree.narrow_mk (w : Nat) (sym : Chr) (v : α) (nc : List (Prefix_Tree α)) :
    (Prefix_Tree.mk w sym v nc).Narrow ↔ nc.length < 31 ∧ ∀ c ∈ nc, c.Narrow := by
  unfold Prefix_Tree.Narrow
  constructor
  · intro h
    refine ⟨h _ (Prefix_Tree.self_mem_nodes _), ?_⟩
    intro c hc n hn
    exact h n ((Prefix_Tree.mem_nodes n w sym v nc).2 (Or.inr ⟨c, hc, hn⟩))
  · rintro ⟨h1, h2⟩ n hn
    rcases (Prefix_Tree.mem_nodes n w sym v nc).1 hn with rfl | ⟨c, hc, hn⟩
    · exact h1
    · exact h2 c hc n hn

theorem Prefix_Tree.narrow_new (ch : Chr) : (Prefix_Tree.new ch).Narrow := by
  unfold Prefix_Tree.new
  rw [Prefix_Tree.narrow_mk]
  exact ⟨by decide, fun _ h => nomatch h⟩

/-- The node on which `add_hits` goes on for the symbol `ch`. -/
theorem Prefix_Tree.narrow_sub_tree (t : Prefix_Tree Nat) (ht : t.Narrow) (ch : Chr) :
    ((t.find_sub_tree ch).getD (Prefix_Tree.new ch)).Narrow := by
  cases t with
  | mk w sym hits nc =>
    unfold Prefix_Tree.find_sub_tree
    simp only [Prefix_Tree.next_char]
    cases hf : nc.find? (fun c => decide (c.symbol = ch)) with
    | none => exact Prefix_Tree.narrow_new ch
    | some c =>
      exact ((Prefix_Tree.narrow_mk w sym hits nc).1 ht).2 c (List.mem_of_find?_eq_some hf)

theorem Prefix_Tree.find_cons (t : Prefix_Tree α) (ch : Chr) (s : Str) :
    t.find (ch :: s) = (t.find_sub_tree ch).bind (fun c => c.find s) := by
  unfold Prefix_Tree.find_sub_tree
  rw [Prefix_Tree.find]
  cases t.next_char.find? (fun c => decide (c.symbol = ch)) <;> rfl

theorem Prefix_Tree.find_snoc (nc : List (Prefix_Tree α)) (n : Prefix_Tree α) (ch : Chr)
    (hnc : ∀ c ∈ nc, c.symbol ≠ n.symbol) :
    (nc ++ [n]).find? (fun x => decide (x.symbol = ch)) =
      if ch = n.symbol then some n else nc.find? (fun x => decide (x.symbol = ch)) := by
  induction nc with
  | nil =>
    by_cases h : ch = n.symbol
    · simp [List.find?_cons, h]
    · have h2 : ¬ n.symbol = ch := fun e => h e.symm
      simp [List.find?_cons, h, h2]
  | cons b nc ih =>
    have hb := hnc b (List.mem_cons_self _ _)
    have ih2 := ih (fun x hx => hnc x (List.mem_cons_of_mem _ hx))
    by_cases h : ch = n.symbol
    · have hb2 : ¬ b.symbol = ch := by rw [h]; exact hb
      simp only [List.cons_append, List.find?_cons, hb2, decide_False]
      rw [ih2, if_pos h]
    · rw [if_neg h] at ih2 ⊢
      by_cases hbc : b.symbol = ch
      · simp [List.find?_cons, hbc]
      · simp only [List.cons_append, List.find?_cons, hbc, decide_False]
        exact ih2

/-- The children of the node after `add_hits` of a non-empty string, seen by
the search for a symbol: the child for the first symbol of the string is the
old one, or a new node, after `add_hits` of the rest; the others are as
before. -/
theorem Prefix_Tree.sub_tree_add_hits (t : Prefix_Tree Nat) (ht : t.next_char.length < 31)
    (ch : Chr) (r : Str) (id h : Nat) (ch2 : Chr) :
    (t.add_hits (ch :: r) id h).find_sub_tree ch2 =
      if ch2 = ch then
        some (((t.find_sub_tree ch).getD (Prefix_Tree.new ch)).add_hits r id h)
      else t.find_sub_tree ch2 := by
  cases t with
  | mk w sym hits nc =>
    simp only [Prefix_Tree.next_char] at ht
    rw [Prefix_Tree.add_hits]
    split
    · rename_i nc2 hl
      obtain ⟨pre, c, post, e1, e2, e3, e4⟩ := Prefix_Tree.add_hits_loop_some _ ch nc nc2 hl
      subst e1 e4 e3
      unfold Prefix_Tree.find_sub_tree
      simp only [Prefix_Tree.next_char]
      have hself := Prefix_Tree.find_split pre post c c.symbol e2 c rfl
      rw [if_pos rfl] at hself
      rw [Prefix_Tree.find_split pre post c ch2 e2 _ (Prefix_Tree.symbol_add_hits c r id h), hself]
      rfl
    · rename_i hl
      rw [Prefix_Tree.add_hits_loop_none] at hl
      have hk : (nc.length + 1) % SIZE_FIELD_MOD = nc.length + 1 := by
        unfold SIZE_FIELD_MOD
        exact Nat.mod_eq_of_lt (by omega)
      have hnone : nc.find? (fun c => decide (c.symbol = ch)) = none := by
        rw [List.find?_eq_none]
        intro x hx
        simpa using hl x hx
      unfold Prefix_Tree.find_sub_tree
      simp only [Prefix_Tree.next_char]
      rw [hk, List.take_of_length_le (by simp), hnone]
      rw [Prefix_Tree.find_snoc nc _ ch2
        (by rw [Prefix_Tree.symbol_add_hits]; exact hl), Prefix_Tree.symbol_add_hits]
      rfl

theorem Prefix_Tree.hits_at_new (ch : Chr) (r : Str) : (Prefix_Tree.new ch).hits_at r = 0 := by
  cases r <;> rfl

theorem Prefix_Tree.find_new (ch x : Chr) (r : Str) : (Prefix_Tree.new ch).find (x :: r) = none := by
  rfl

theorem Prefix_Tree.hits_at_cons (t : Prefix_Tree Nat) (ch : Chr) (r : Str) :
    t.hits_at (ch :: r) = ((t.find_sub_tree ch).getD (Prefix_Tree.new ch)).hits_at r := by
  unfold Prefix_Tree.hits_at
  rw [Prefix_Tree.find_cons]
  cases t.find_sub_tree ch with
  | none =>
    simp only [Option.bind, Option.getD]
    exact (Prefix_Tree.hits_at_new ch r).symm
  | some c => rfl

theorem Prefix_Tree.narrow_length (t : Prefix_Tree α) (ht : t.Narrow) :
    t.next_char.length < 31 :=
  ht t (Prefix_Tree.self_mem_nodes t)

theorem Prefix_Tree.find_add_hits_self (id h : Nat) :
    ∀ (s : Str) (t : Prefix_Tree Nat), t.Narrow →
      ∃ n, (t.add_hits s id h).find s = some n ∧ n.word = id % WORD_MOD ∧
        n.hits = (t.hits_at s + h) % U32_MOD
  | [], t, _ => by
    cases t with
    | mk w sym hits nc => exact ⟨_, rfl, rfl, rfl⟩
  | ch :: r, t, ht => by
    rw [Prefix_Tree.find_cons, Prefix_Tree.sub_tree_add_hits t (t.narrow_length ht), if_pos rfl,
      Prefix_Tree.hits_at_cons]
    exact Prefix_Tree.find_add_hits_self id h r _ (Prefix_Tree.narrow_sub_tree t ht ch)

theorem Prefix_Tree.add_hits_root (t : Prefix_Tree Nat) (ch : Chr) (r : Str) (id h : Nat) :
    (t.add_hits (ch :: r) id h).word = t.word ∧ (t.add_hits (ch :: r) id h).hits = t.hits := by
  cases t with
  | mk w sym hits nc =>
    rw [Prefix_Tree.add_hits]
    split <;> exact ⟨rfl, rfl⟩

theorem Prefix_Tree.find_add_hits_some (id h : Nat) :
    ∀ (s : Str) (t : Prefix_Tree Nat) (s2 : Str) (m : Prefix_Tree Nat), t.Narrow → s2 ≠ s →
      t.find s2 = some m →
      ∃ m2, (t.add_hits s id h).find s2 = some m2 ∧ m2.word = m.word ∧ m2.hits = m.hits
  | [], t, s2, m, _, hne, hf => by
    cases t with
    | mk w sym hits nc =>
      cases s2 with
      | nil => exact absurd rfl hne
      | cons x r2 => exact ⟨m, hf, rfl, rfl⟩
  | ch :: r, t, [], m, _, _, hf => by
    have hm : m = t := by
      cases t
      simpa [Prefix_Tree.find] using hf.symm
    subst hm
    exact ⟨_, rfl, (Prefix_Tree.add_hits_root m ch r id h).1,
      (Prefix_Tree.add_hits_root m ch r id h).2⟩
  | ch :: r, t, x :: r2, m, ht, hne, hf => by
    rw [Prefix_Tree.find_cons] at hf ⊢
    rw [Prefix_Tree.sub_tree_add_hits t (t.narrow_length ht)]
    by_cases hx : x = ch
    · subst hx
      rw [if_pos rfl]
      have hr : r2 ≠ r := fun e => hne (by rw [e])
      cases hs : t.find_sub_tree x with
      | none => rw [hs] at hf; cases hf
      | some c =>
        rw [hs] at hf
        have hc := Prefix_Tree.narrow_sub_tree t ht x
        rw [hs] at hc
        exact Prefix_Tree.find_add_hits_some id h r c r2 m hc hr hf
    · rw [if_neg hx]
      exact ⟨m, hf, rfl, rfl⟩

theorem Prefix_Tree.find_add_hits_none (id h : Nat) :
    ∀ (s : Str) (t : Prefix_Tree Nat) (s2 : Str), t.Narrow → s2 ≠ s →
      t.find s2 = none → ¬ s2 <+: s → (t.add_hits s id h).find s2 = none
  | [], t, s2, _, hne, hf, _ => by
    cases t with
    | mk w sym hits nc =>
      cases s2 with
      | nil => exact absurd rfl hne
      | cons x r2 => exact hf
  | ch :: r, t, [], _, _, _, hp => absurd List.nil_prefix hp
  | ch :: r, t, x :: r2, ht, hne, hf, hp => by
    rw [Prefix_Tree.find_cons] at hf ⊢
    rw [Prefix_Tree.sub_tree_add_hits t (t.narrow_length ht)]
    by_cases hx : x = ch
    · subst hx
      rw [if_pos rfl]
      have hr : r2 ≠ r := fun e => hne (by rw [e])
      have hp2 : ¬ r2 <+: r := fun e => hp ((List.prefix_cons_inj x).2 e)
      have hc := Prefix_Tree.narrow_sub_tree t ht x
      refine Prefix_Tree.find_add_hits_none id h r _ r2 hc hr ?_ hp2
      cases hs : t.find_sub_tree x with
      | none =>
        cases r2 with
        | nil => exact absurd List.nil_prefix hp2
        | cons y r3 => rfl
      | some c =>
        rw [hs] at hf
        exact hf
    · rw [if_neg hx]
      exact hf

/-- C16, amended: for every unscored prefix tree `t` none of whose nodes
has 31 children or more, and every `s`, `id` and `h`: after
`t.add_hits(s, id, h)`, `find(s)` is a node whose word is `id` masked to its
low 20 bits and whose hits are the hits of `t` at `s` (0 if `t` has no such
path) plus `h` in 32-bit arithmetic; and for every other string the node
found has the word and the hits it had, and a string that was not found and
is no prefix of `s` is still not found. -/
theorem prefix_tree_add_hits_find (t : Prefix_Tree Nat) (ht : t.Narrow) (s : Str) (id h : Nat) :
    (∃ n, (t.add_hits s id h).find s = some n ∧ n.word = id % WORD_MOD ∧
      n.hits = (t.hits_at s + h) % U32_MOD) ∧
    (∀ s2 : Str, s2 ≠ s →
      (∀ m, t.find s2 = some m →
        ∃ m2, (t.add_hits s id h).find s2 = some m2 ∧ m2.word = m.word ∧ m2.hits = m.hits) ∧
      (t.find s2 = none → ¬ s2 <+: s → (t.add_hits s id h).find s2 = none)) :=
  ⟨Prefix_Tree.find_add_hits_self id h s t ht,
   fun s2 hne =>
    ⟨fun m hf => Prefix_Tree.find_add_hits_some id h s t s2 m ht hne hf,
     fun hf hp => Prefix_Tree.find_add_hits_none id h s t s2 ht hne hf hp⟩⟩

/-- Witness for `prefix_tree_add_hits_find`: "ab" is added with 3 hits under the id 2^20 + 5 to the
tree of the words "a" and "b". -/
theorem prefix_tree_add_hits_find_witness :
    (ofWords [[97], [98]]).Narrow ∧
    ∃ n, ((ofWords [[97], [98]]).add_hits [97, 98] 1048581 3).find [97, 98] = some n ∧
      n.word = 5 ∧ n.hits = 3 :=
  ⟨by decide,
   (prefix_tree_add_hits_find (ofWords [[97], [98]]) (by decide) [97, 98] 1048581 3).1⟩

/-- C16, as stated, fails: the root has the 31 children 'a' to
DEL and the word "A" is added; `_size` wraps to 0, so that neither "A" nor
the word "a", found before, is found afterwards. -/
theorem prefix_tree_add_hits_size_wraps :
    ((ofWords wideWords).find [97]).map word = some 1 ∧
    (((ofWords wideWords).add_hits [65] 40 1).find [65]).isSome = false ∧
    (((ofWords wideWords).add_hits [65] 40 1).find [97]).isSome = false := by
  decide

end dict

end PrefixTree

section SearchAndQueue

namespace main_cpp

theorem wrap64_of_range (x : Int) (h : InRange64 x) : wrap64 x = x := by
  unfold InRange64 at h
  unfold wrap64
  omega

/-- C24: `Search::acceptable(probe)` is true exactly when, with
`current = _score + _score_category + max(_score_other, probe)`,
`current <= low_limit * low_score_area` if `|_clear| <= low_score_area`, and
`current <= low_limit * low_score_area + high_limit * (|_clear| - low_score_area)`
otherwise; the sums and products are exact as long as they are values of
`int64_t` and the two sizes are below `2 ^ 63`. -/
theorem search_acceptable (s : Search) (probe : Int)
    (harea : s.result.low_score_area < 2 ^ 63) (hlen : s.clear.length < 2 ^ 63)
    (h1 : InRange64 (s.score + s.score_category))
    (h2 : InRange64 (s.score + s.score_category + max s.score_other probe))
    (h3 : InRange64 (s.result.low_score_limit * s.result.low_score_area))
    (h4 : s.result.low_score_area < s.clear.length →
      InRange64 (s.result.high_score_limit *
        ((s.clear.length : Int) - s.result.low_score_area)))
    (h5 : s.result.low_score_area < s.clear.length →
      InRange64 (s.result.low_score_limit * s.result.low_score_area +
        s.result.high_score_limit * ((s.clear.length : Int) - s.result.low_score_area))) :
    s.acceptable probe ≠ 0 ↔
      if s.clear.length ≤ s.result.low_score_area then
        s.score + s.score_category + max s.score_other probe ≤
          s.result.low_score_limit * s.result.low_score_area
      else
        s.score + s.score_category + max s.score_other probe ≤
          s.result.low_score_limit * s.result.low_score_area +
            s.result.high_score_limit * ((s.clear.length : Int) - s.result.low_score_area) := by
  have e1 : wrap64 (s.score + s.score_category) = s.score + s.score_category :=
    wrap64_of_range _ h1
  have e2 : wrap64 (s.score + s.score_category + max s.score_other probe) =
      s.score + s.score_category + max s.score_other probe := wrap64_of_range _ h2
  have e0 : wrap64 (s.result.low_score_area : Int) = s.result.low_score_area :=
    wrap64_of_range _ ⟨by omega, by omega⟩
  have e3 : wrap64 (s.result.low_score_limit * s.result.low_score_area) =
      s.result.low_score_limit * s.result.low_score_area := wrap64_of_range _ h3
  unfold Search.acceptable
  simp only [e1, e2, e0, e3]
  by_cases hc : s.clear.length ≤ s.result.low_score_area
  · simp only [if_pos hc]
    split_ifs with hle
    · simp [hle]
    · simp [hle]
  · have hlt : s.result.low_score_area < s.clear.length := by omega
    have ecast : ((s.clear.length - s.result.low_score_area : Nat) : Int) =
        (s.clear.length : Int) - s.result.low_score_area := by omega
    have e6 : wrap64 ((s.clear.length - s.result.low_score_area : Nat) : Int) =
        (s.clear.length : Int) - s.result.low_score_area := by
      rw [ecast]
      exact wrap64_of_range _ ⟨by omega, by omega⟩
    have e4 := wrap64_of_range _ (h4 hlt)
    have e5 := wrap64_of_range _ (h5 hlt)
    simp only [if_neg hc, e6, e4, e5]
    split_ifs with hle
    · simp [hle]
    · simp [hle]

/-- Witness for `search_acceptable`: the limits 3/150/250, a plaintext of five
characters, the scores 700 + 50 with the probe 200 against the other-word
score 100: 950 is within 3 * 150 + 2 * 250. -/
theorem search_acceptable_witness :
    Search.acceptable
      { result := { low_score_area := 3, low_score_limit := 150, high_score_limit := 250 },
        clear := [97, 98, 99, 100, 101], score := 700, score_category := 50,
        score_other := 100 } 200 ≠ 0 :=
  (search_acceptable
    { result := { low_score_area := 3, low_score_limit := 150, high_score_limit := 250 },
      clear := [97, 98, 99, 100, 101], score := 700, score_category := 50,
      score_other := 100 } 200 (by decide) (by decide) (by decide) (by decide) (by decide)
    (fun _ => by decide) (fun _ => by decide)).2 (by decide)

theorem foldl_append_flatMap {β γ : Type} (g : β → List γ) :
    ∀ (L : List β) (acc : List γ), L.foldl (fun l ch => l ++ g ch) acc = acc ++ L.flatMap g
  | [], acc => by simp
  | b :: L, acc => by
    simp only [List.foldl_cons, List.flatMap_cons]
    rw [foldl_append_flatMap g L, List.append_assoc]

theorem Queue.add_eq : ∀ (n : Nat) (s : Str) (acc : List Str),
    Queue.add n s acc = acc ++ (Queue.sequences n).map (fun w => s ++ w)
  | 0, s, acc => by simp [Queue.add, Queue.sequences]
  | n + 1, s, acc => by
    have h : (fun (l : List Str) (ch : Chr) => Queue.add n (s ++ [ch]) l) =
        fun l ch => l ++ (Queue.sequences n).map (fun w => (s ++ [ch]) ++ w) := by
      funext l ch
      exact Queue.add_eq n (s ++ [ch]) l
    rw [Queue.add, h, foldl_append_flatMap, Queue.sequences, List.map_flatMap]
    simp only [List.map_map]
    congr 2
    funext ch
    apply List.map_congr_left
    intro w _
    simp

theorem Queue.init_list (m : Nat) : (Queue.init m).list = Queue.sequences m := by
  simp [Queue.init, Queue.add_eq]

theorem Queue.mem_sequences : ∀ (n : Nat) (w : Str),
    w ∈ Queue.sequences n ↔ w.length = n ∧ ∀ c ∈ w, c ∈ Queue.letters
  | 0, w => by
    simp only [Queue.sequences, List.mem_singleton]
    constructor
    · rintro rfl
      exact ⟨rfl, fun _ h => nomatch h⟩
    · rintro ⟨h, _⟩
      exact List.length_eq_zero.1 h
  | n + 1, w => by
    simp only [Queue.sequences, List.mem_flatMap, List.mem_map]
    constructor
    · rintro ⟨ch, hch, v, hv, rfl⟩
      obtain ⟨h1, h2⟩ := (Queue.mem_sequences n v).1 hv
      refine ⟨by simp [h1], ?_⟩
      intro c hc
      rcases List.mem_cons.1 hc with rfl | hc
      · exact hch
      · exact h2 c hc
    · rintro ⟨h1, h2⟩
      cases w with
      | nil => simp at h1
      | cons ch v =>
        refine ⟨ch, h2 ch (List.mem_cons_self _ _), v, ?_, rfl⟩
        exact (Queue.mem_sequences n v).2
          ⟨by simpa using h1, fun c hc => h2 c (List.mem_cons_of_mem _ hc)⟩

theorem Queue.letters_ranked :
    Queue.letters.Pairwise (fun a b => Queue.rank a < Queue.rank b) := by
  decide

theorem Queue.sorted_sequences : ∀ n : Nat,
    (Queue.sequences n).Pairwise (List.Lex (fun a b => Queue.rank a < Queue.rank b))
  | 0 => by simp [Queue.sequences]
  | n + 1 => by
    rw [Queue.sequences, List.pairwise_flatMap]
    refine ⟨?_, ?_⟩
    · intro ch _
      rw [List.pairwise_map]
      exact (Queue.sorted_sequences n).imp (fun h => List.Lex.cons h)
    · refine Queue.letters_ranked.imp ?_
      intro a b hab x hx y hy
      obtain ⟨v, _, rfl⟩ := List.mem_map.1 hx
      obtain ⟨u, _, rfl⟩ := List.mem_map.1 hy
      exact List.Lex.rel hab

theorem lex_rank_irrefl : ∀ w : Str, ¬ List.Lex (fun a b => Queue.rank a < Queue.rank b) w w
  | [], h => nomatch h
  | c :: w, h => by
    cases h with
    | cons h => exact lex_rank_irrefl w h
    | rel h => exact Nat.lt_irrefl _ h

theorem Queue.nodup_sequences (n : Nat) : (Queue.sequences n).Nodup := by
  unfold List.Nodup
  refine (Queue.sorted_sequences n).imp ?_
  intro a b hab e
  subst e
  exact lex_rank_irrefl a hab

theorem Queue.length_sequences : ∀ n : Nat, (Queue.sequences n).length = 25 ^ n
  | 0 => rfl
  | n + 1 => by
    rw [Queue.sequences, List.length_flatMap]
    have h : (List.length ∘ fun ch : Chr => (Queue.sequences n).map (fun w => ch :: w)) =
        fun _ => 25 ^ n := by
      funext ch
      simp [Queue.length_sequences n]
    rw [h, List.map_const', List.sum_replicate]
    have : Queue.letters.length = 25 := rfl
    rw [this, smul_eq_mul, pow_succ, Nat.mul_comm]

theorem Queue.pops_spec : ∀ (k : Nat) (q : Queue), q.pos ≤ q.list.length →
    q.list.length < SIZE_MOD →
    Queue.pops k q = { pos := min (q.pos + k) q.list.length, list := q.list }
  | 0, q, h, _ => by
    simp only [Queue.pops, Nat.add_zero]
    rw [Nat.min_eq_left h]
  | k + 1, q, h, hs => by
    rw [Queue.pops]
    by_cases hp : q.pos < q.list.length
    · have e : q.pop.2 = { pos := q.pos + 1, list := q.list } := by
        unfold Queue.pop
        rw [if_pos hp]
        simp only
        rw [Nat.mod_eq_of_lt (by omega)]
      rw [e, Queue.pops_spec k _ (by simpa using hp) (by simpa using hs)]
      simp only [Queue.mk.injEq, and_true]
      omega
    · have e : q.pop.2 = q := by
        unfold Queue.pop
        rw [if_neg hp]
      rw [e, Queue.pops_spec k q h hs]
      simp only [Queue.mk.injEq, and_true]
      omega

theorem Queue.pop_after (k : Nat) (q : Queue) (h0 : q.pos = 0) (hs : q.list.length < SIZE_MOD) :
    (Queue.pops k q).pop.1 = q.list.getD k [] := by
  rw [Queue.pops_spec k q (by omega) hs]
  unfold Queue.pop
  simp only [h0, Nat.zero_add]
  by_cases hk : k < q.list.length
  · rw [Nat.min_eq_left (by omega), if_pos hk]
  · rw [Nat.min_eq_right (by omega), if_neg (Nat.lt_irrefl _)]
    rw [List.getD_eq_getElem?_getD, List.getElem?_eq_none (by omega)]
    rfl

/-- C27: `Queue(m)` holds every sequence of `m` characters of the alphabet
"taioswcbphfmdrelngyukvqxz" exactly once, in the lexicographic order of the
alphabet, and the pop number `k + 1` returns the string at index `k` of the
list and the empty string once the list is used up; the queue has fewer than
`2 ^ 64` strings, as has every vector. -/
theorem queue_enumerates (m : Nat) (hsize : 25 ^ m < SIZE_MOD) :
    (∀ w : Str, w ∈ (Queue.init m).list ↔ w.length = m ∧ ∀ c ∈ w, c ∈ Queue.letters) ∧
    (Queue.init m).list.Nodup ∧
    (Queue.init m).list.Pairwise (List.Lex (fun a b => Queue.rank a < Queue.rank b)) ∧
    (∀ k, ((Queue.init m).pops k).pop.1 = (Queue.init m).list.getD k []) ∧
    (∀ k, (Queue.init m).list.length ≤ k → ((Queue.init m).pops k).pop.1 = []) := by
  have hl : (Queue.init m).list.length < SIZE_MOD := by
    rw [Queue.init_list, Queue.length_sequences]
    exact hsize
  have hpop : ∀ k, ((Queue.init m).pops k).pop.1 = (Queue.init m).list.getD k [] :=
    fun k => Queue.pop_after k _ rfl hl
  refine ⟨?_, ?_, ?_, hpop, ?_⟩
  · intro w
    rw [Queue.init_list]
    exact Queue.mem_sequences m w
  · rw [Queue.init_list]
    exact Queue.nodup_sequences m
  · rw [Queue.init_list]
    exact Queue.sorted_sequences m
  · intro k hk
    rw [hpop k, List.getD_eq_getElem?_getD, List.getElem?_eq_none hk]
    rfl

/-- Witness for `queue_enumerates`: the second pop of `Queue(1)` returns "a",
the string at index 1. -/
theorem queue_enumerates_witness :
    ((Queue.init 1).pops 1).pop.1 = [97] ∧
    ((Queue.init 1).pops 1).pop.1 = (Queue.init 1).list.getD 1 [] :=
  ⟨by decide, (queue_enumerates 1 (by decide)).2.2.2.1 1⟩

theorem Queue.letters_iff : ∀ c : Chr,
    c ∈ Queue.letters ↔ 97 ≤ c.val ∧ c.val ≤ 122 ∧ c.val ≠ 106 := by
  decide

/-- C28, as stated, fails: the queue of depth 2 holds 625 strings, not 676, and
"ja" is not among them: the alphabet of the queue has no 'j'. -/
theorem queue_depth_two_lacks_j :
    (Queue.init 2).list.length = 625 ∧ (Queue.init 2).list.length ≠ 676 ∧
    ([106, 97] : Str) ∉ (Queue.init 2).list := by
  rw [Queue.init_list, Queue.length_sequences, Queue.mem_sequences]
  refine ⟨by decide, by decide, ?_⟩
  rintro ⟨_, h⟩
  exact absurd (h 106 (List.mem_cons_self _ _)) (by decide)

/-- C28, amended: the queue of depth 2 holds 625 strings, and a string is in it
exactly if it has two characters, each a lowercase letter other than 'j'. -/
theorem queue_depth_two :
    (Queue.init 2).list.length = 625 ∧
    ∀ w : Str, w ∈ (Queue.init 2).list ↔
      w.length = 2 ∧ ∀ c ∈ w, 97 ≤ c.val ∧ c.val ≤ 122 ∧ c.val ≠ 106 := by
  rw [Queue.init_list, Queue.length_sequences]
  refine ⟨by decide, ?_⟩
  intro w
  rw [Queue.mem_sequences]
  constructor
  · rintro ⟨h1, h2⟩
    exact ⟨h1, fun c hc => (Queue.letters_iff c).1 (h2 c hc)⟩
  · rintro ⟨h1, h2⟩
    exact ⟨h1, fun c hc => (Queue.letters_iff c).2 (h2 c hc)⟩

/-- Witness for `queue_depth_two`: "th" is in the queue of depth 2. -/
theorem queue_depth_two_witness : ([116, 104] : Str) ∈ (Queue.init 2).list :=
  (queue_depth_two.2 [116, 104]).2 ⟨rfl, by decide⟩

end main_cpp

end SearchAndQueue

section ResultOrder

namespace main_cpp

theorem Word.lt_self (a : Word) : a.lt a = false := by
  unfold Word.lt
  simp

theorem Word.lt_iff (a b : Word) : a.lt b = true ↔
    a.id < b.id ∨ (a.id = b.id ∧ (a.score < b.score ∨ (a.score = b.score ∧
      (a.category < b.category ∨ (a.category = b.category ∧ a.other < b.other))))) := by
  unfold Word.lt
  split_ifs <;> simp <;> omega

theorem Word.lt_flip (a b : Word) (h : a.lt b = true) : b.lt a = false := by
  rw [Word.lt_iff] at h
  cases hb : b.lt a with
  | false => rfl
  | true =>
    rw [Word.lt_iff] at hb
    omega

theorem Word.lt_chain (a b c : Word) (h1 : a.lt b = true) (h2 : b.lt c = true) :
    a.lt c = true := by
  rw [Word.lt_iff] at h1 h2 ⊢
  omega

theorem Word.eq_of_unordered (a b : Word) (h1 : a.lt b = false) (h2 : b.lt a = false) : a = b := by
  have g1 : ¬ a.lt b = true := by rw [h1]; exact Bool.false_ne_true
  have g2 : ¬ b.lt a = true := by rw [h2]; exact Bool.false_ne_true
  rw [Word.lt_iff] at g1 g2
  cases a; cases b
  simp only [Word.mk.injEq] at *
  omega

theorem Word_List.lt_irrefl : ∀ x : Word_List, Word_List.lt x x = false
  | [] => rfl
  | a :: l => by
    rw [Word_List.lt, Word.lt_self]
    simp only [Bool.false_eq_true, if_false]
    exact Word_List.lt_irrefl l

theorem Word_List.lt_asymm : ∀ x y : Word_List, Word_List.lt x y = true →
    Word_List.lt y x = false
  | [], [], h => by simp [Word_List.lt] at h
  | [], _ :: _, _ => rfl
  | _ :: _, [], h => by simp [Word_List.lt] at h
  | a :: l1, b :: l2, h => by
    rw [Word_List.lt] at h ⊢
    by_cases hab : a.lt b = true
    · rw [Word.lt_flip a b hab]
      simp [hab]
    · have hab2 : a.lt b = false := by simpa using hab
      rw [hab2] at h ⊢
      simp only [Bool.false_eq_true, if_false] at h ⊢
      by_cases hba : b.lt a = true
      · rw [hba] at h
        simp at h
      · have hba2 : b.lt a = false := by simpa using hba
        rw [hba2] at h ⊢
        simp only [Bool.false_eq_true, if_false] at h ⊢
        exact Word_List.lt_asymm l1 l2 h

theorem Word_List.eq_of_not_lt : ∀ x y : Word_List, Word_List.lt x y = false →
    Word_List.lt y x = false → x = y
  | [], [], _, _ => rfl
  | [], _ :: _, h, _ => by simp [Word_List.lt] at h
  | _ :: _, [], _, h => by simp [Word_List.lt] at h
  | a :: l1, b :: l2, h1, h2 => by
    rw [Word_List.lt] at h1 h2
    by_cases hab : a.lt b = true
    · rw [hab] at h1
      simp at h1
    · have hab2 : a.lt b = false := by simpa using hab
      by_cases hba : b.lt a = true
      · rw [hba] at h2
        simp at h2
      · have hba2 : b.lt a = false := by simpa using hba
        rw [hab2, hba2] at h1 h2
        simp only [Bool.false_eq_true, if_false] at h1 h2
        rw [Word.eq_of_unordered a b hab2 hba2, Word_List.eq_of_not_lt l1 l2 h1 h2]

theorem Word_List.lt_trans : ∀ x y z : Word_List, Word_List.lt x y = true →
    Word_List.lt y z = true → Word_List.lt x z = true
  | [], [], _, h, _ => by simp [Word_List.lt] at h
  | [], _ :: _, [], _, h => by simp [Word_List.lt] at h
  | [], _ :: _, _ :: _, _, _ => rfl
  | _ :: _, [], _, h, _ => by simp [Word_List.lt] at h
  | _ :: _, _ :: _, [], _, h => by simp [Word_List.lt] at h
  | a :: l1, b :: l2, c :: l3, h1, h2 => by
    rw [Word_List.lt] at h1 h2 ⊢
    by_cases hab : a.lt b = true
    · by_cases hbc : b.lt c = true
      · rw [Word.lt_chain a b c hab hbc]
        simp
      · have hbc2 : b.lt c = false := by simpa using hbc
        rw [hbc2] at h2
        simp only [Bool.false_eq_true, if_false] at h2
        by_cases hcb : c.lt b = true
        · rw [hcb] at h2
          simp at h2
        · have hcb2 : c.lt b = false := by simpa using hcb
          have e : b = c := Word.eq_of_unordered b c hbc2 hcb2
          subst e
          rw [hab]
          simp
    · have hab2 : a.lt b = false := by simpa using hab
      rw [hab2] at h1
      simp only [Bool.false_eq_true, if_false] at h1
      by_cases hba : b.lt a = true
      · rw [hba] at h1
        simp at h1
      · have hba2 : b.lt a = false := by simpa using hba
        have e : a = b := Word.eq_of_unordered a b hab2 hba2
        subst e
        rw [hba2] at h1
        simp only [Bool.false_eq_true, if_false] at h1
        by_cases hac : a.lt c = true
        · rw [hac]
          simp
        · have hac2 : a.lt c = false := by simpa using hac
          rw [hac2] at h2 ⊢
          simp only [Bool.false_eq_true, if_false] at h2 ⊢
          by_cases hca : c.lt a = true
          · rw [hca] at h2
            simp at h2
          · have hca2 : c.lt a = false := by simpa using hca
            rw [hca2] at h2 ⊢
            simp only [Bool.false_eq_true, if_false] at h2 ⊢
            exact Word_List.lt_trans l1 l2 l3 h1 h2

theorem Word_List_Set.mem_insert (x y : Word_List) : ∀ b : Word_List_Set,
    y ∈ (Word_List_Set.insert x b).1 ↔ y = x ∨ y ∈ b
  | [] => by simp [Word_List_Set.insert]
  | z :: zs => by
    rw [Word_List_Set.insert]
    by_cases h1 : Word_List.lt x z = true
    · rw [if_pos h1]
      simp
    · rw [if_neg h1]
      by_cases h2 : Word_List.lt z x = true
      · rw [if_pos h2]
        simp only [List.mem_cons, Word_List_Set.mem_insert x y zs]
        tauto
      · rw [if_neg h2]
        have e : x = z := Word_List.eq_of_not_lt x z (by simpa using h1) (by simpa using h2)
        subst e
        simp

theorem Word_List_Set.insert_sorted (x : Word_List) : ∀ b : Word_List_Set,
    b.Pairwise (fun u v => Word_List.lt u v = true) →
    (Word_List_Set.insert x b).1.Pairwise (fun u v => Word_List.lt u v = true)
  | [], _ => by simp [Word_List_Set.insert]
  | z :: zs, hb => by
    rw [Word_List_Set.insert]
    obtain ⟨hz, hzs⟩ := List.pairwise_cons.1 hb
    by_cases h1 : Word_List.lt x z = true
    · rw [if_pos h1]
      refine List.pairwise_cons.2 ⟨?_, hb⟩
      intro v hv
      rcases List.mem_cons.1 hv with rfl | hv
      · exact h1
      · exact Word_List.lt_trans x z v h1 (hz v hv)
    · rw [if_neg h1]
      by_cases h2 : Word_List.lt z x = true
      · rw [if_pos h2]
        refine List.pairwise_cons.2 ⟨?_, Word_List_Set.insert_sorted x zs hzs⟩
        intro v hv
        rcases (Word_List_Set.mem_insert x v zs).1 hv with rfl | hv
        · exact h2
        · exact hz v hv
      · rw [if_neg h2]
        exact hb

theorem Word_List_Set.insert_of_mem (x : Word_List) : ∀ b : Word_List_Set,
    b.Pairwise (fun u v => Word_List.lt u v = true) → x ∈ b →
    Word_List_Set.insert x b = (b, false)
  | [], _, h => nomatch h
  | z :: zs, hb, hx => by
    rw [Word_List_Set.insert]
    obtain ⟨hz, hzs⟩ := List.pairwise_cons.1 hb
    rcases List.mem_cons.1 hx with rfl | hx
    · rw [Word_List.lt_irrefl]
      simp
    · have h2 := hz x hx
      have h1 := Word_List.lt_asymm z x h2
      rw [h1, h2, Word_List_Set.insert_of_mem x zs hzs hx]
      simp

theorem Word_List_Set.insert_of_not_mem (x : Word_List) : ∀ b : Word_List_Set,
    x ∉ b → (Word_List_Set.insert x b).2 = true
  | [], _ => rfl
  | z :: zs, hx => by
    rw [Word_List_Set.insert]
    by_cases h1 : Word_List.lt x z = true
    · rw [if_pos h1]
    · rw [if_neg h1]
      by_cases h2 : Word_List.lt z x = true
      · rw [if_pos h2]
        exact Word_List_Set.insert_of_not_mem x zs (fun h => hx (List.mem_cons_of_mem _ h))
      · have e : x = z := Word_List.eq_of_not_lt x z (by simpa using h1) (by simpa using h2)
        exact absurd (by rw [e]; exact List.mem_cons_self _ _) hx

theorem Result_List.bucket_of_lt (score : Int) : ∀ l : Result_List,
    (∀ kb ∈ l, score < kb.1) → Result_List.bucket score l = []
  | [], _ => rfl
  | (k, b) :: rest, h => by
    have hk : score < k := h (k, b) (List.mem_cons_self _ _)
    rw [Result_List.bucket, if_neg (by omega)]
    exact Result_List.bucket_of_lt score rest (fun kb hkb => h kb (List.mem_cons_of_mem _ hkb))

theorem Result_List.insert_bucket_other (score : Int) (words : Word_List) (k2 : Int)
    (hk : k2 ≠ score) : ∀ l : Result_List,
    Result_List.bucket k2 (Result_List.insert score words l).1 = Result_List.bucket k2 l
  | [] => by
    simp only [Result_List.insert, Result_List.bucket]
    rw [if_neg (fun e => hk e.symm)]
  | (k, b) :: rest => by
    rw [Result_List.insert]
    by_cases h1 : score < k
    · rw [if_pos h1]
      simp only [Result_List.bucket]
      rw [if_neg (fun e => hk e.symm)]
    · rw [if_neg h1]
      by_cases h2 : k < score
      · rw [if_pos h2]
        simp only [Result_List.bucket]
        rw [Result_List.insert_bucket_other score words k2 hk rest]
      · rw [if_neg h2]
        have e : k = score := by omega
        simp only [Result_List.bucket]
        rw [if_neg (by omega), if_neg (by omega)]

theorem Result_List.insert_bucket_self (score : Int) (words : Word_List) : ∀ l : Result_List,
    l.Pairwise (fun a b => a.1 < b.1) →
    Result_List.bucket score (Result_List.insert score words l).1 =
      (Word_List_Set.insert words (Result_List.bucket score l)).1
  | [], _ => by simp [Result_List.insert, Result_List.bucket]
  | (k, b) :: rest, h => by
    obtain ⟨hk, hrest⟩ := List.pairwise_cons.1 h
    rw [Result_List.insert]
    by_cases h1 : score < k
    · rw [if_pos h1]
      have e : Result_List.bucket score ((k, b) :: rest) = [] :=
        Result_List.bucket_of_lt score _ (by
          intro kb hkb
          rcases List.mem_cons.1 hkb with rfl | hkb
          · exact h1
          · exact lt_trans h1 (hk kb hkb))
      rw [e]
      simp [Result_List.bucket]
    · rw [if_neg h1]
      by_cases h2 : k < score
      · rw [if_pos h2]
        simp only [Result_List.bucket]
        rw [if_neg (by omega), if_neg (by omega)]
        exact Result_List.insert_bucket_self score words rest hrest
      · rw [if_neg h2]
        have e : k = score := by omega
        simp only [Result_List.bucket]
        rw [if_pos e, if_pos e]

theorem Result_List.insert_keys (score : Int) (words : Word_List) : ∀ (l : Result_List)
    (kb : Int × Word_List_Set), kb ∈ (Result_List.insert score words l).1 →
    kb.1 = score ∨ kb ∈ l
  | [], kb, h => by
    simp only [Result_List.insert, List.mem_singleton] at h
    left; rw [h]
  | (k, b) :: rest, kb, h => by
    rw [Result_List.insert] at h
    by_cases h1 : score < k
    · rw [if_pos h1] at h
      rcases List.mem_cons.1 h with rfl | h
      · left; rfl
      · right; exact h
    · rw [if_neg h1] at h
      by_cases h2 : k < score
      · rw [if_pos h2] at h
        rcases List.mem_cons.1 h with rfl | h
        · right; exact List.mem_cons_self _ _
        · rcases Result_List.insert_keys score words rest kb h with e | e
          · left; exact e
          · right; exact List.mem_cons_of_mem _ e
      · rw [if_neg h2] at h
        rcases List.mem_cons.1 h with rfl | h
        · left
          show k = score
          omega
        · right; exact List.mem_cons_of_mem _ h

theorem Result_List.insert_ordered (score : Int) (words : Word_List) : ∀ l : Result_List,
    l.Ordered → (Result_List.insert score words l).1.Ordered
  | [], _ => by
    refine ⟨by simp [Result_List.insert], ?_⟩
    intro kb hkb
    simp only [Result_List.insert, List.mem_singleton] at hkb
    rw [hkb]
    exact Word_List_Set.insert_sorted words [] List.Pairwise.nil
  | (k, b) :: rest, h => by
    obtain ⟨hkeys, hsets⟩ := h
    obtain ⟨hk, hrest⟩ := List.pairwise_cons.1 hkeys
    have hrestO : Result_List.Ordered rest :=
      ⟨hrest, fun kb hkb => hsets kb (List.mem_cons_of_mem _ hkb)⟩
    rw [Result_List.insert]
    by_cases h1 : score < k
    · rw [if_pos h1]
      refine ⟨List.pairwise_cons.2 ⟨?_, hkeys⟩, ?_⟩
      · intro kb hkb
        rcases List.mem_cons.1 hkb with rfl | hkb
        · exact h1
        · exact lt_trans h1 (hk kb hkb)
      · intro kb hkb
        rcases List.mem_cons.1 hkb with rfl | hkb
        · exact Word_List_Set.insert_sorted words [] List.Pairwise.nil
        · exact hsets kb hkb
    · rw [if_neg h1]
      by_cases h2 : k < score
      · rw [if_pos h2]
        obtain ⟨ih1, ih2⟩ := Result_List.insert_ordered score words rest hrestO
        refine ⟨List.pairwise_cons.2 ⟨?_, ih1⟩, ?_⟩
        · intro kb hkb
          rcases Result_List.insert_keys score words rest kb hkb with e | e
          · show k < kb.1
            rw [e]; exact h2
          · exact hk kb e
        · intro kb hkb
          rcases List.mem_cons.1 hkb with rfl | hkb
          · exact hsets _ (List.mem_cons_self _ _)
          · exact ih2 kb hkb
      · rw [if_neg h2]
        refine ⟨List.pairwise_cons.2 ⟨hk, hrest⟩, ?_⟩
        intro kb hkb
        rcases List.mem_cons.1 hkb with rfl | hkb
        · exact Word_List_Set.insert_sorted words b (hsets _ (List.mem_cons_self _ _))
        · exact hsets kb (List.mem_cons_of_mem _ hkb)

theorem Result_List.insert_present (score : Int) (words : Word_List) : ∀ l : Result_List,
    l.Ordered → words ∈ Result_List.bucket score l →
    (Result_List.insert score words l).1 = l
  | [], _, h => nomatch h
  | (k, b) :: rest, h, hm => by
    obtain ⟨hkeys, hsets⟩ := h
    obtain ⟨hk, hrest⟩ := List.pairwise_cons.1 hkeys
    rw [Result_List.insert]
    by_cases h1 : score < k
    · have e : Result_List.bucket score ((k, b) :: rest) = [] :=
        Result_List.bucket_of_lt score _ (by
          intro kb hkb
          rcases List.mem_cons.1 hkb with rfl | hkb
          · exact h1
          · exact lt_trans h1 (hk kb hkb))
      rw [e] at hm
      cases hm
    · rw [if_neg h1]
      by_cases h2 : k < score
      · rw [if_pos h2]
        rw [Result_List.bucket, if_neg (by omega)] at hm
        rw [Result_List.insert_present score words rest
          ⟨hrest, fun kb hkb => hsets kb (List.mem_cons_of_mem _ hkb)⟩ hm]
      · rw [if_neg h2]
        have e : k = score := by omega
        rw [Result_List.bucket, if_pos e] at hm
        rw [Word_List_Set.insert_of_mem words b (hsets _ (List.mem_cons_self _ _)) hm]

/-- C25: `Result::add_to_list` deduplicates. On a list with the map invariant,
which the empty list has and `add_to_list` keeps: a sequence of words already
stored under the score leaves the list unchanged; a new one is added to the
set of that score, which holds it and its former elements afterwards; the set
of every other score is unchanged; and the scores of the list increase
strictly in the order of iteration. -/
theorem result_add_dedup (list : Result_List) (h : Result_List.Ordered list) (score : Int)
    (words : Word_List) :
    (words ∈ Result_List.bucket score list → add_to_list list score words = list) ∧
    (∀ x, x ∈ Result_List.bucket score (add_to_list list score words) ↔
      x = words ∨ x ∈ Result_List.bucket score list) ∧
    (∀ k, k ≠ score →
      Result_List.bucket k (add_to_list list score words) = Result_List.bucket k list) ∧
    Result_List.Ordered (add_to_list list score words) ∧
    (add_to_list list score words).Pairwise (fun a b => a.1 < b.1) := by
  unfold add_to_list
  refine ⟨Result_List.insert_present score words list h, ?_,
    fun k hk => Result_List.insert_bucket_other score words k hk list,
    Result_List.insert_ordered score words list h,
    (Result_List.insert_ordered score words list h).1⟩
  intro x
  rw [Result_List.insert_bucket_self score words list h.1]
  exact Word_List_Set.mem_insert words x _

/-- Witness for `result_add_dedup`: on the list that holds the sequence of the
word 7 under the score 120, adding it again changes nothing, and adding the
sequence of the word 8 under the score 90 puts the new score first. -/
theorem result_add_dedup_witness :
    add_to_list (add_to_list [] 120 [⟨7, 120, 0, 0⟩]) 120 [⟨7, 120, 0, 0⟩] =
      add_to_list [] 120 [⟨7, 120, 0, 0⟩] ∧
    (add_to_list (add_to_list [] 120 [⟨7, 120, 0, 0⟩]) 90 [⟨8, 90, 0, 0⟩]).map Prod.fst
      = [90, 120] :=
  ⟨(result_add_dedup (add_to_list [] 120 [⟨7, 120, 0, 0⟩])
      (Result_List.insert_ordered 120 [⟨7, 120, 0, 0⟩] []
        ⟨List.Pairwise.nil, fun _ hkb => nomatch hkb⟩) 120 [⟨7, 120, 0, 0⟩]).1 (by decide),
   by decide⟩

end main_cpp

end ResultOrder

section ResultList

namespace main_cpp

theorem Result_List.count_zero (l : Result_List) : Result_List.count l 0 = 0 := by
  simp [Result_List.count]

theorem Result_List.count_cons (bs : Int × Word_List_Set) (l : Result_List) (k : Nat) :
    Result_List.count (bs :: l) (k + 1) = bs.2.length + Result_List.count l k := by
  simp [Result_List.count]

theorem Result_List.count_le (l : Result_List) (k : Nat) : Result_List.count l k ≤ Result_List.count l l.length := by
  induction l generalizing k with
  | nil => simp [Result_List.count]
  | cons bs l ih =>
    cases k with
    | zero => rw [Result_List.count_zero]; exact Nat.zero_le _
    | succ k =>
      rw [List.length_cons, Result_List.count_cons, Result_List.count_cons]
      exact Nat.add_le_add_left (ih k) _

theorem getLast_cons_getD (bs : Int × Word_List_Set) (l : Result_List) (r : Int) :
    (((bs :: l).getLast?).map Prod.fst).getD r = ((l.getLast?).map Prod.fst).getD bs.1 := by
  cases l with
  | nil => simp
  | cons b2 l2 =>
    rw [List.getLast?_cons_cons]
    cases h : (b2 :: l2).getLast? with
    | none => simp at h
    | some x => rfl

/-- The two counting loops, started with `p` entries counted: they pass the same
`k` entries of the map, the shortest prefix with which the count reaches
`K`. -/
theorem count_loops (K : Nat) : ∀ (l : Result_List) (p t : Nat) (r : Int),
    p + Result_List.count l l.length < SIZE_MOD →
    ∃ k, k ≤ l.length ∧
      (l.foldl (fun (st : Nat × Nat) bs =>
        ((if st.1 < K then (st.1 + bs.2.length) % SIZE_MOD else st.1),
          (st.2 + bs.2.length) % SIZE_MOD)) (p, t)).1 = p + Result_List.count l k ∧
      (l.foldl (fun (st : Nat × Int) bs =>
        if st.1 < K then ((st.1 + bs.2.length) % SIZE_MOD, bs.1) else st) (p, r)).2 =
        (((l.take k).getLast?).map Prod.fst).getD r ∧
      (∀ j, j < k → p + Result_List.count l j < K) ∧
      (k < l.length → K ≤ p + Result_List.count l k)
  | [], p, t, r, _ => ⟨0, le_refl _, by simp [Result_List.count], by simp, by simp, by simp⟩
  | bs :: l, p, t, r, hsz => by
    rw [List.length_cons, Result_List.count_cons] at hsz
    by_cases hp : p < K
    · have hmod : (p + bs.2.length) % SIZE_MOD = p + bs.2.length :=
        Nat.mod_eq_of_lt (by omega)
      obtain ⟨k, hk, c1, c2, c3, c4⟩ := count_loops K l (p + bs.2.length)
        ((t + bs.2.length) % SIZE_MOD) bs.1 (by omega)
      refine ⟨k + 1, by simpa using hk, ?_, ?_, ?_, ?_⟩
      · simp only [List.foldl_cons, if_pos hp, hmod]
        rw [c1, Result_List.count_cons]
        omega
      · simp only [List.foldl_cons, if_pos hp, hmod]
        rw [c2, List.take_succ_cons, getLast_cons_getD]
      · intro j hj
        cases j with
        | zero => rw [Result_List.count_zero]; exact hp
        | succ j =>
          rw [Result_List.count_cons]
          have := c3 j (by omega)
          omega
      · intro hlt
        rw [Result_List.count_cons]
        have := c4 (by simpa using hlt)
        omega
    · obtain ⟨k, hk, c1, c2, c3, c4⟩ := count_loops K l p
        ((t + bs.2.length) % SIZE_MOD) r (by
          have := Result_List.count_le l l.length
          omega)
      have hk0 : k = 0 := by
        by_contra hne
        have := c3 0 (by omega)
        rw [Result_List.count_zero] at this
        omega
      subst hk0
      refine ⟨0, Nat.zero_le _, ?_, ?_, ?_, ?_⟩
      · simp only [List.foldl_cons, if_neg hp]
        rw [c1, Result_List.count_zero, Result_List.count_zero]
      · simp only [List.foldl_cons, if_neg hp]
        rw [c2]
        simp
      · intro j hj
        omega
      · intro _
        rw [Result_List.count_zero]
        omega

theorem flatMap_of_count_zero : ∀ (l : Result_List) (k : Nat), Result_List.count l k = 0 →
    (l.take k).flatMap (fun bs => bs.2.map (fun wl => (bs.1, wl))) = []
  | [], k, _ => by simp
  | bs :: l, 0, _ => by simp
  | bs :: l, k + 1, h => by
    rw [Result_List.count_cons] at h
    have h1 : bs.2 = [] := List.length_eq_zero.1 (by omega)
    simp only [List.take_succ_cons, List.flatMap_cons, h1, List.map_nil, List.nil_append]
    exact flatMap_of_count_zero l k (by omega)

theorem length_flatMap_take : ∀ (l : Result_List) (k : Nat),
    ((l.take k).flatMap (fun bs => bs.2.map (fun wl => (bs.1, wl)))).length = Result_List.count l k
  | [], k => by simp [Result_List.count]
  | bs :: l, 0 => by simp [Result_List.count]
  | bs :: l, k + 1 => by
    rw [Result_List.count_cons]
    simp only [List.take_succ_cons, List.flatMap_cons, List.length_append, List.length_map]
    rw [length_flatMap_take l k]

/-- The last loop of `print_result_list` writes the elements of the entries that
the first loop has counted. -/
theorem print_entries_spec : ∀ (l : Result_List) (p k : Nat),
    p + Result_List.count l l.length < SIZE_MOD →
    print_entries (p + Result_List.count l k) p l =
      (l.take k).flatMap (fun bs => bs.2.map (fun wl => (bs.1, wl)))
  | [], p, k, _ => by simp [print_entries]
  | bs :: l, p, 0, _ => by simp [print_entries, Result_List.count_zero]
  | bs :: l, p, k + 1, hsz => by
    rw [List.length_cons, Result_List.count_cons] at hsz
    rw [Result_List.count_cons, print_entries]
    by_cases hp : p < p + (bs.2.length + Result_List.count l k)
    · rw [if_pos hp, Nat.mod_eq_of_lt (by omega)]
      have e : p + (bs.2.length + Result_List.count l k) = (p + bs.2.length) + Result_List.count l k := by omega
      rw [e, print_entries_spec l (p + bs.2.length) k (by omega)]
      simp
    · rw [if_neg hp]
      have h0 : bs.2.length + Result_List.count l k = 0 := by omega
      have h1 : bs.2 = [] := List.length_eq_zero.1 (by omega)
      simp only [List.take_succ_cons, List.flatMap_cons, h1, List.map_nil, List.nil_append]
      exact (flatMap_of_count_zero l k (by omega)).symm

/-- C26, as stated, fails: with 21 sequences under one score `print_result_list`
counts and writes 21 entries in the current top, one more than
`MAX_CURRENT_PRINT`. -/
theorem print_window_overshoots :
    (print_result_list (crowded 21) false).1 = 21 ∧
    (print_result_list (crowded 21) false).2.2.length = 21 ∧
    MAX_CURRENT_PRINT = 20 := by
  decide

/-- C26, amended: `print_result_list` counts and writes the elements of the
sets of the first `k` entries of the list, where `k` entries are the shortest
prefix that holds `MAX_CURRENT_PRINT` elements (`MAX_FINAL_PRINT` when `final`
is true) or more, and the whole list if there is no such prefix; so the number
written is below that limit before the last set of the window is added, and
may exceed it with that set. `last_printed` returns the score of the last of
the `k` entries, and 0 for the empty list. The list holds fewer than `2 ^ 64`
elements. -/
theorem print_window (list : Result_List) (final : Bool)
    (hsz : list.count list.length < SIZE_MOD) :
    ∃ k, k ≤ list.length ∧
      (print_result_list list final).1 = list.count k ∧
      (print_result_list list final).2.2 =
        (list.take k).flatMap (fun bs => bs.2.map (fun wl => (bs.1, wl))) ∧
      (print_result_list list final).2.2.length = list.count k ∧
      (∀ j, j < k → list.count j < if final then MAX_FINAL_PRINT else MAX_CURRENT_PRINT) ∧
      (k < list.length →
        (if final then MAX_FINAL_PRINT else MAX_CURRENT_PRINT) ≤ list.count k) ∧
      last_printed list final = (((list.take k).getLast?).map Prod.fst).getD 0 := by
  obtain ⟨k, hk, c1, c2, c3, c4⟩ :=
    count_loops (if final then MAX_FINAL_PRINT else MAX_CURRENT_PRINT) list 0 0 0
      (by omega)
  simp only [Nat.zero_add] at c1 c3 c4
  have hpr : (print_result_list list final).1 = list.count k := c1
  have hen : (print_result_list list final).2.2 =
      (list.take k).flatMap (fun bs => bs.2.map (fun wl => (bs.1, wl))) := by
    have e := print_entries_spec list 0 k (by omega)
    rw [Nat.zero_add] at e
    unfold print_result_list
    simp only
    unfold count_printed
    rw [c1]
    exact e
  refine ⟨k, hk, hpr, hen, ?_, c3, c4, c2⟩
  rw [hen]
  exact length_flatMap_take list k

/-- Witness for `print_window`: with 21 sequences under the score 0 the window
is the one entry of the list, and 21 entries are written. -/
theorem print_window_witness :
    ∃ k, k ≤ (crowded 21).length ∧
      (print_result_list (crowded 21) false).1 = (crowded 21).count k ∧
      (print_result_list (crowded 21) false).2.2 =
        ((crowded 21).take k).flatMap (fun bs => bs.2.map (fun wl => (bs.1, wl))) ∧
      (print_result_list (crowded 21) false).2.2.length = (crowded 21).count k ∧
      (∀ j, j < k → (crowded 21).count j <
        if false = true then MAX_FINAL_PRINT else MAX_CURRENT_PRINT) ∧
      (k < (crowded 21).length →
        (if false = true then MAX_FINAL_PRINT else MAX_CURRENT_PRINT) ≤ (crowded 21).count k) ∧
      last_printed (crowded 21) false = ((((crowded 21).take k).getLast?).map Prod.fst).getD 0 :=
  print_window (crowded 21) false (by decide)

end main_cpp

end ResultList

section NgramTree

namespace dict

open Word_Ngram_Tree

theorem Word_Ngram_Tree.map_find_update_self (g : Word_Ngram_Tree → Word_Ngram_Tree) (id : Nat) :
    ∀ l : List (Nat × Word_Ngram_Tree),
      map_find id (map_update g id l) = some (g ((map_find id l).getD init))
  | [] => by simp [map_find, map_update]
  | e :: rest => by
    by_cases he : e.1 = id
    · simp [map_find, map_update, he]
    · have ih := Word_Ngram_Tree.map_find_update_self g id rest
      unfold map_find at ih ⊢
      simp only [map_update, he, if_false, List.find?_cons, decide_False]
      exact ih

theorem Word_Ngram_Tree.map_find_update_other (g : Word_Ngram_Tree → Word_Ngram_Tree)
    (id id2 : Nat) (hne : id2 ≠ id) :
    ∀ l : List (Nat × Word_Ngram_Tree), map_find id2 (map_update g id l) = map_find id2 l
  | [] => by
    have h : ¬ id = id2 := fun e => hne e.symm
    simp [map_find, map_update, h]
  | e :: rest => by
    have ih := Word_Ngram_Tree.map_find_update_other g id id2 hne rest
    unfold map_find at ih ⊢
    by_cases he : e.1 = id
    · have h2 : ¬ e.1 = id2 := by rw [he]; exact fun e => hne e.symm
      simp only [map_update, if_pos he, List.find?_cons, h2, decide_False]
    · simp only [map_update, if_neg he, List.find?_cons]
      by_cases h2 : e.1 = id2
      · simp [h2]
      · simp only [h2, decide_False]
        exact ih

theorem Word_Ngram_Tree.find_eq (t : Word_Ngram_Tree) (id : Nat) :
    t._find id = map_find id (t.next.getD []) := by
  unfold Word_Ngram_Tree._find
  cases t.next with
  | none => rfl
  | some l => rfl

theorem Word_Ngram_Tree.next_set_next (t : Word_Ngram_Tree)
    (nx : Option (List (Nat × Word_Ngram_Tree))) : (t.set_next nx).next = nx := by
  cases t; rfl

theorem Word_Ngram_Tree.own_set_next (t : Word_Ngram_Tree)
    (nx : Option (List (Nat × Word_Ngram_Tree))) : (t.set_next nx).own = t.own := by
  cases t; rfl

theorem Word_Ngram_Tree.find_cons_ids (t : Word_Ngram_Tree) (id : Nat) (ids : List Nat) :
    t.find (id :: ids) = (t._find id).bind (fun w => w.find ids) := by
  rw [Word_Ngram_Tree.find]
  cases t._find id <;> rfl

theorem Word_Ngram_Tree.find_init (ids : List Nat) :
    (init.find ids).getD init = init := by
  cases ids <;> rfl

/-- The step of `_add` for a word that is not `NONE`: the child under the
category of the word is the old child, or a new tree, after `_add` of the
rest; the other children are as before. -/
theorem Word_Ngram_Tree.find_add_step (g : Word_Ngram_Tree → Word_Ngram_Tree)
    (t : Word_Ngram_Tree) (id id2 : Nat) :
    (t.set_next (some (map_update g id (t.next.getD []))))._find id2 =
      if id2 = id then some (g ((t._find id).getD init)) else t._find id2 := by
  rw [Word_Ngram_Tree.find_eq, Word_Ngram_Tree.next_set_next]
  simp only [Option.getD_some]
  by_cases h : id2 = id
  · subst h
    rw [if_pos rfl, Word_Ngram_Tree.map_find_update_self, Word_Ngram_Tree.find_eq]
  · rw [if_neg h, Word_Ngram_Tree.map_find_update_other g id id2 h, Word_Ngram_Tree.find_eq]

theorem Word_Ngram_Tree.add_succ (m : Word_Id_Map) (words : Word_Id_List) (h : Nat)
    (tail_original : Bool) (n : Nat) (t : Word_Ngram_Tree)
    (hw : (words.getD n ([], NONE)).2 ≠ NONE) :
    _add m words h tail_original (n + 1) t =
      t.set_next (some (map_update (_add m words h tail_original n)
        (m.category (words.getD n ([], NONE)).2) (t.next.getD []))) := by
  rw [Word_Ngram_Tree._add, if_pos hw]

/-- After `_add` at the level `n` of an n-gram whose first `n` words are not
`NONE`, the categories of these words, newest first, lead to the node in
which the newest word is counted. -/
theorem Word_Ngram_Tree.find_add_level (m : Word_Id_Map) (words : Word_Id_List) (h : Nat)
    (tail_original : Bool) :
    ∀ (n : Nat) (t : Word_Ngram_Tree), (∀ i, i < n → (words.getD i ([], NONE)).2 ≠ NONE) →
      (_add m words h tail_original n t).find
          ((words.take n).map (fun w => m.category w.2)).reverse =
        some (_add m words h tail_original 0
          ((t.find ((words.take n).map (fun w => m.category w.2)).reverse).getD init))
  | 0, t, _ => by simp [Word_Ngram_Tree.find]
  | n + 1, t, hw => by
    have hn := hw n (Nat.lt_succ_self n)
    have hlen : n < words.length := by
      by_contra hge
      rw [List.getD_eq_getElem?_getD, List.getElem?_eq_none (by omega)] at hn
      exact hn rfl
    have hctx : ((words.take (n + 1)).map (fun w => m.category w.2)).reverse =
        m.category (words.getD n ([], NONE)).2 ::
          ((words.take n).map (fun w => m.category w.2)).reverse := by
      rw [List.take_succ, List.getElem?_eq_getElem hlen, List.getD_eq_getElem words _ hlen]
      simp only [Option.toList, List.map_append, List.reverse_append, List.map_cons,
        List.map_nil, List.reverse_cons, List.reverse_nil, List.nil_append,
        List.singleton_append]
    rw [hctx, Word_Ngram_Tree.add_succ m words h tail_original n t hn,
      Word_Ngram_Tree.find_cons_ids, Word_Ngram_Tree.find_add_step, if_pos rfl,
      Word_Ngram_Tree.find_cons_ids]
    simp only [Option.some_bind]
    rw [Word_Ngram_Tree.find_add_level m words h tail_original n _
      (fun i hi => hw i (Nat.lt_succ_of_lt hi))]
    cases hf : t._find (m.category (words.getD n ([], NONE)).2) with
    | none =>
      simp only [Option.getD_none, Option.none_bind]
      rw [Word_Ngram_Tree.find_init]
    | some c => simp

/-- C21: at the innermost node, where `_add` arrives with `n = 0`, the newest
word, whose id is not `NONE`, is counted by its id, which is the category of
its id when `tail_original` is false and the id itself when it is true:
`PROPER` adds `h` to `_proper_hits`, `NUMERIC` to `_numeric_hits`, `COMMA` to
`_comma_hits`, and any other id makes the prefix tree the one after
`add_hits(surface, id, h)`; the three others of the four are unchanged,
`_total` grows by `h`, and the children and the scores are unchanged. The hit
counts are sums of `uint32_t`, `_total` is a sum of `size_t`. -/
theorem ngram_route_newest (m : Word_Id_Map) (words : Word_Id_List) (h : Nat)
    (tail_original : Bool) (t : Word_Ngram_Tree)
    (hne : (words.getLastD ([], NONE)).2 ≠ NONE) :
    (_add m words h tail_original 0 t).total = (t.total + h) % SIZE_MOD ∧
    (_add m words h tail_original 0 t).next = t.next ∧
    (_add m words h tail_original 0 t).scores = t.scores ∧
    ((if tail_original then (words.getLastD ([], NONE)).2
        else m.category (words.getLastD ([], NONE)).2) = PROPER →
      (_add m words h tail_original 0 t).proper_hits = (t.proper_hits + h) % U32_MOD ∧
      (_add m words h tail_original 0 t).numeric_hits = t.numeric_hits ∧
      (_add m words h tail_original 0 t).comma_hits = t.comma_hits ∧
      (_add m words h tail_original 0 t).tree = t.tree) ∧
    ((if tail_original then (words.getLastD ([], NONE)).2
        else m.category (words.getLastD ([], NONE)).2) = NUMERIC →
      (_add m words h tail_original 0 t).proper_hits = t.proper_hits ∧
      (_add m words h tail_original 0 t).numeric_hits = (t.numeric_hits + h) % U32_MOD ∧
      (_add m words h tail_original 0 t).comma_hits = t.comma_hits ∧
      (_add m words h tail_original 0 t).tree = t.tree) ∧
    ((if tail_original then (words.getLastD ([], NONE)).2
        else m.category (words.getLastD ([], NONE)).2) = COMMA →
      (_add m words h tail_original 0 t).proper_hits = t.proper_hits ∧
      (_add m words h tail_original 0 t).numeric_hits = t.numeric_hits ∧
      (_add m words h tail_original 0 t).comma_hits = (t.comma_hits + h) % U32_MOD ∧
      (_add m words h tail_original 0 t).tree = t.tree) ∧
    ((if tail_original then (words.getLastD ([], NONE)).2
        else m.category (words.getLastD ([], NONE)).2) ≠ PROPER →
      (if tail_original then (words.getLastD ([], NONE)).2
        else m.category (words.getLastD ([], NONE)).2) ≠ NUMERIC →
      (if tail_original then (words.getLastD ([], NONE)).2
        else m.category (words.getLastD ([], NONE)).2) ≠ COMMA →
      (_add m words h tail_original 0 t).proper_hits = t.proper_hits ∧
      (_add m words h tail_original 0 t).numeric_hits = t.numeric_hits ∧
      (_add m words h tail_original 0 t).comma_hits = t.comma_hits ∧
      (_add m words h tail_original 0 t).tree =
        t.tree.add_hits (words.getLastD ([], NONE)).1
          (if tail_original then (words.getLastD ([], NONE)).2
            else m.category (words.getLastD ([], NONE)).2) h) := by
  cases t with
  | mk nx tr tot ph nh ch ps ns cs ot =>
    simp only [Word_Ngram_Tree._add, Word_Ngram_Tree.route, if_pos hne]
    have h12 : PROPER ≠ NUMERIC := by decide
    have h13 : PROPER ≠ COMMA := by decide
    have h23 : NUMERIC ≠ COMMA := by decide
    generalize (if tail_original then (words.getLastD ([], NONE)).2
        else m.category (words.getLastD ([], NONE)).2) = idv
    by_cases e1 : idv = PROPER
    · subst e1
      simp [Word_Ngram_Tree.total, Word_Ngram_Tree.next, Word_Ngram_Tree.scores,
        Word_Ngram_Tree.proper_hits, Word_Ngram_Tree.numeric_hits,
        Word_Ngram_Tree.comma_hits, Word_Ngram_Tree.tree, h12, h13]
    · by_cases e2 : idv = NUMERIC
      · subst e2
        simp [Word_Ngram_Tree.total, Word_Ngram_Tree.next, Word_Ngram_Tree.scores,
          Word_Ngram_Tree.proper_hits, Word_Ngram_Tree.numeric_hits,
          Word_Ngram_Tree.comma_hits, Word_Ngram_Tree.tree, h12.symm, h23]
      · by_cases e3 : idv = COMMA
        · subst e3
          simp [Word_Ngram_Tree.total, Word_Ngram_Tree.next, Word_Ngram_Tree.scores,
            Word_Ngram_Tree.proper_hits, Word_Ngram_Tree.numeric_hits,
            Word_Ngram_Tree.comma_hits, Word_Ngram_Tree.tree, h13.symm, h23.symm]
        · simp [Word_Ngram_Tree.total, Word_Ngram_Tree.next, Word_Ngram_Tree.scores,
            Word_Ngram_Tree.proper_hits, Word_Ngram_Tree.numeric_hits,
            Word_Ngram_Tree.comma_hits, Word_Ngram_Tree.tree, e1, e2, e3]

/-- Witness for `ngram_route_newest`: the proper word with the id 500007 is
counted in `_proper_hits` of the empty node when its category is taken. -/
theorem ngram_route_newest_witness :
    (_add Word_Id_Map.init [([97], 500007)] 3 false 0 init).proper_hits = 3 ∧
    (_add Word_Id_Map.init [([97], 500007)] 3 false 0 init).total = 3 :=
  ⟨((ngram_route_newest Word_Id_Map.init [([97], 500007)] 3 false init
      (by decide)).2.2.2.1 (by decide)).1,
   (ngram_route_newest Word_Id_Map.init [([97], 500007)] 3 false init (by decide)).1⟩

/-- C23: after `add(words, h, tail_original)` of an n-gram without `NONE`, `find`
of the categories of the words before the newest, newest first, returns a
node, and this node is the node that `find` returned for the context before
(or `Word_Ngram_Tree()` if it returned none) after the newest word has been
counted in it. In the opposite order the lookup does not reach it in general:
after the 3-gram with the ids 5, 6, 7 is added to the empty tree, `find(5, 6)`
is null while `find(6, 5)` is not. -/
theorem ngram_context_lookup (t : Word_Ngram_Tree) (m : Word_Id_Map) (words : Word_Id_List)
    (h : Nat) (tail_original : Bool) (hne : words ≠ [])
    (hall : ∀ w ∈ words, w.2 ≠ NONE) :
    (t.add m words h tail_original).find (context m words) =
      some (_add m words h tail_original 0 ((t.find (context m words)).getD init)) ∧
    ((init.add Word_Id_Map.init [([97], 5), ([98], 6), ([99], 7)] 1 false).find [5, 6]).isSome
      = false ∧
    ((init.add Word_Id_Map.init [([97], 5), ([98], 6), ([99], 7)] 1 false).find [6, 5]).isSome
      = true := by
  refine ⟨?_, by decide, by decide⟩
  have hlen : words.length ≠ 0 := fun e => hne (List.length_eq_zero.1 e)
  unfold Word_Ngram_Tree.add Word_Ngram_Tree.context
  rw [if_neg hlen, List.dropLast_eq_take]
  refine Word_Ngram_Tree.find_add_level m words h tail_original (words.length - 1) t ?_
  intro i hi
  have hi2 : i < words.length := by omega
  rw [List.getD_eq_getElem words _ hi2]
  exact hall _ (List.getElem_mem hi2)

/-- Witness for `ngram_context_lookup`: the 2-gram "a b" with the ids 5 and 6,
added twice with 2 and 3 hits; under the context 5 the word "b" has 5 hits. -/
theorem ngram_context_lookup_witness :
    (((init.add Word_Id_Map.init [([97], 5), ([98], 6)] 2 false).add Word_Id_Map.init
      [([97], 5), ([98], 6)] 3 false).find [5]).map (fun n => n.tree.hits_at [98]) = some 5 ∧
    ((init.add Word_Id_Map.init [([97], 5), ([98], 6)] 2 false).add Word_Id_Map.init
      [([97], 5), ([98], 6)] 3 false).find (context Word_Id_Map.init [([97], 5), ([98], 6)]) =
      some (_add Word_Id_Map.init [([97], 5), ([98], 6)] 3 false 0
        (((init.add Word_Id_Map.init [([97], 5), ([98], 6)] 2 false).find
          (context Word_Id_Map.init [([97], 5), ([98], 6)])).getD init)) :=
  ⟨by decide,
   (ngram_context_lookup (init.add Word_Id_Map.init [([97], 5), ([98], 6)] 2 false)
     Word_Id_Map.init [([97], 5), ([98], 6)] 3 false (by decide) (by decide)).1⟩

theorem Word_Ngram_Tree.pads_refl (t : Word_Ngram_Tree) : Pads t t := by
  intro ctx
  refine ⟨fun n hn => ⟨n, hn, rfl⟩, ?_⟩
  intro hnone n2 hn2
  rw [hnone] at hn2
  cases hn2

theorem Word_Ngram_Tree.route_of_none (m : Word_Id_Map) (words : Word_Id_List) (h : Nat)
    (tail_original : Bool) (t : Word_Ngram_Tree)
    (hb : (words.getLastD ([], NONE)).2 = NONE) : route m words h tail_original t = t := by
  cases t
  simp only [Word_Ngram_Tree.route, hb, ne_eq, not_true_eq_false, if_false]

/-- At every level `_add` of an n-gram with a word `NONE` among the words still
to be read leaves the members of every node as they are and creates, if
anything, empty nodes. -/
theorem Word_Ngram_Tree.pads_add_level (m : Word_Id_Map) (words : Word_Id_List) (h : Nat)
    (tail_original : Bool) :
    ∀ (n : Nat) (t : Word_Ngram_Tree),
      ((∃ i, i < n ∧ (words.getD i ([], NONE)).2 = NONE) ∨
        (words.getLastD ([], NONE)).2 = NONE) →
      Pads t (_add m words h tail_original n t)
  | 0, t, hw => by
    rcases hw with ⟨i, hi, _⟩ | hb
    · omega
    · rw [Word_Ngram_Tree._add, Word_Ngram_Tree.route_of_none m words h tail_original t hb]
      exact Word_Ngram_Tree.pads_refl t
  | n + 1, t, hw => by
    by_cases hn : (words.getD n ([], NONE)).2 = NONE
    · rw [Word_Ngram_Tree._add, if_neg (by simpa using hn)]
      exact Word_Ngram_Tree.pads_refl t
    · have hw2 : (∃ i, i < n ∧ (words.getD i ([], NONE)).2 = NONE) ∨
          (words.getLastD ([], NONE)).2 = NONE := by
        rcases hw with ⟨i, hi, hnone⟩ | hb
        · left
          refine ⟨i, ?_, hnone⟩
          rcases Nat.lt_succ_iff_lt_or_eq.1 hi with h1 | h1
          · exact h1
          · subst h1; exact absurd hnone hn
        · right; exact hb
      have ih := fun c => Word_Ngram_Tree.pads_add_level m words h tail_original n c hw2
      rw [Word_Ngram_Tree.add_succ m words h tail_original n t hn]
      intro ctx
      cases ctx with
      | nil =>
        refine ⟨?_, ?_⟩
        · intro x hx
          simp only [Word_Ngram_Tree.find, Option.some.injEq] at hx
          subst hx
          exact ⟨_, rfl, Word_Ngram_Tree.own_set_next _ _⟩
        · intro hx
          simp [Word_Ngram_Tree.find] at hx
      | cons id2 rest =>
        rw [Word_Ngram_Tree.find_cons_ids, Word_Ngram_Tree.find_cons_ids,
          Word_Ngram_Tree.find_add_step]
        by_cases hid : id2 = m.category (words.getD n ([], NONE)).2
        · rw [if_pos hid, ← hid]
          simp only [Option.some_bind]
          cases hf : t._find id2 with
          | none =>
            simp only [Option.getD_none, Option.none_bind]
            refine ⟨(fun x hx => nomatch hx), ?_⟩
            intro _ n2 hn2
            cases hi : init.find rest with
            | none => exact ((ih init) rest).2 hi n2 hn2
            | some x =>
              obtain ⟨n3, e1, e2⟩ := ((ih init) rest).1 x hi
              rw [e1] at hn2
              cases hn2
              rw [e2]
              have hx := Word_Ngram_Tree.find_init rest
              rw [hi] at hx
              simp only [Option.getD_some] at hx
              rw [hx]
          | some c =>
            simp only [Option.getD_some, Option.some_bind]
            exact (ih c) rest
        · rw [if_neg hid]
          refine ⟨fun x hx => ⟨x, hx, rfl⟩, ?_⟩
          intro hnone n2 hn2
          rw [hnone] at hn2
          cases hn2

/-- C22, as stated, fails: the 2-gram of a word with the id 5 and a word with
the id `NONE`, added to the empty tree, creates the child for the context 5:
`find(5)` is null before and a node afterwards. -/
theorem ngram_none_creates_context :
    (init.find [5]).isSome = false ∧
    ((init.add Word_Id_Map.init [([97], 5), ([98], NONE)] 1 false).find [5]).isSome = true := by
  decide

/-- C22, amended: `add` of an n-gram that contains a word with the id `NONE`
changes no hit counter, no total, no score and no prefix tree: every context
that led to a node leads to a node with the same members, and a context that
led to no node leads to no node or to a node as `Word_Ngram_Tree()` makes it,
created on the way to the word `NONE`. -/
theorem ngram_none_skipped (t : Word_Ngram_Tree) (m : Word_Id_Map) (words : Word_Id_List)
    (h : Nat) (tail_original : Bool) (hnone : ∃ w ∈ words, w.2 = NONE) :
    ∀ ctx : List Nat,
      (∀ n, t.find ctx = some n →
        ∃ n2, (t.add m words h tail_original).find ctx = some n2 ∧ n2.own = n.own) ∧
      (t.find ctx = none →
        ∀ n2, (t.add m words h tail_original).find ctx = some n2 → n2.own = init.own) := by
  obtain ⟨w, hw, hw2⟩ := hnone
  have hne : words ≠ [] := List.ne_nil_of_mem hw
  have hlen : words.length ≠ 0 := fun e => hne (List.length_eq_zero.1 e)
  unfold Word_Ngram_Tree.add
  rw [if_neg hlen]
  refine Word_Ngram_Tree.pads_add_level m words h tail_original (words.length - 1) t ?_
  obtain ⟨i, hi, hget⟩ := List.getElem_of_mem hw
  by_cases hlast : i = words.length - 1
  · right
    rw [List.getLastD_eq_getLast?, List.getLast?_eq_getElem?,
      List.getElem?_eq_getElem (by omega)]
    simp only [Option.getD_some]
    subst hlast
    rw [hget]
    exact hw2
  · left
    refine ⟨i, by omega, ?_⟩
    rw [List.getD_eq_getElem words _ hi, hget]
    exact hw2

/-- Witness for `ngram_none_skipped`: in the tree that holds the word with the
id 7 the 2-gram with the ids 7 and `NONE` leaves the root as it is. -/
theorem ngram_none_skipped_witness :
    ∃ n2, ((init.add Word_Id_Map.init [([97], 7)] 4 false).add Word_Id_Map.init
        [([97], 7), ([98], NONE)] 1 false).find [] = some n2 ∧
      n2.own = (init.add Word_Id_Map.init [([97], 7)] 4 false).own :=
  (ngram_none_skipped (init.add Word_Id_Map.init [([97], 7)] 4 false) Word_Id_Map.init
    [([97], 7), ([98], NONE)] 1 false ⟨([98], NONE), by decide, rfl⟩ []).1 _ rfl

end dict

end NgramTree

section MatcherAlphabet

open simple chaotic playfair

/-- C29, as stated, fails: on the fresh `Simple` matcher the push of 'a' over a
ciphertext that is a space is accepted, and so is the push of 'a' over the
digit '1'. -/
theorem push_accepts_blank :
    (Simple.init.push [] [32] 97).1 = true ∧ (Simple.init.push [] [49] 97).1 = true := by
  decide

/-- C29, amended: no matcher tests the ciphertext character against an
alphabet. On the fresh matcher the push of any 7-bit character `ch` over any
7-bit character `w`, letter or not, is accepted by `Simple`, `Bigram` and
`Pelling(k)` with `k > 0`, and it is accepted by `Chaotic` and `Playfair`
exactly when `ch` differs from `w`. -/
theorem push_ignores_alphabet (ch w : Chr) (k mcp : Nat) (hk : 0 < k) :
    (Simple.init.push [] [w] ch).1 = true ∧
    (Bigram.init.push [] [w] ch).1 = true ∧
    ((Pelling.init k).push [] [w] ch).1 = true ∧
    ((Chaotic.init.push [] [w] ch).1 = true ↔ ch ≠ w) ∧
    (((Playfair.init mcp).push [] [w] ch).1 = true ↔ ch ≠ w) := by
  refine ⟨?_, ?_, ?_, ?_, ?_⟩
  · simp [Simple.push, Simple.init, simple.Reference.is_compatible]
  · simp [Bigram.push]
  · cases k with
    | zero => omega
    | succ k =>
      simp [Pelling.push, Pelling.init, tableAt, simple.Reference.is_compatible,
        List.replicate_succ]
  · have hw : Str.at [w] ([] : Str).length = w := rfl
    unfold Chaotic.push
    rw [hw]
    by_cases h : ch = w
    · simp [h]
    · simp [h, Chaotic.init, chaotic.Matrix.can_add, chaotic.Matrix.init,
        chaotic.Reference.is_compatible]
  · have hw : Str.at [w] ([] : Str).length = w := rfl
    unfold Playfair.push
    rw [hw]
    by_cases h : ch = w
    · simp [h]
    · simp [h]

/-- Witness for `push_ignores_alphabet`: 'a' over a space, with `Pelling(5)`. -/
theorem push_ignores_alphabet_witness :
    ((Pelling.init 5).push [] [32] 97).1 = true ∧
    (Chaotic.init.push [] [32] 97).1 = true :=
  ⟨(push_ignores_alphabet 97 32 5 20 (by decide)).2.2.1,
   (push_ignores_alphabet 97 32 5 20 (by decide)).2.2.2.1.2 (by decide)⟩

end MatcherAlphabet

section PlayfairTest
open playfair

/-! ## Theorems: `Playfair::test` and the assembly of the key square -/

namespace playfair

/-- Induction over the double loop of the constructor `Rules()`: an invariant
that each run of the loop body extends to one more pair of cells holds for all
pairs of cells at the end. -/
theorem Rules.fill_induct (Inv : Rules → (Nat → Nat → Prop) → Prop)
    (hstep : ∀ r M a b, a < 25 → b < 25 → Inv r M →
      Inv (r.record a b) (fun x y => M x y ∨ (x = a ∧ y = b)))
    (r0 : Rules) (h0 : Inv r0 (fun _ _ => False)) :
    Inv (Rules.fill r0) (fun x y => x < 25 ∧ y < 25) := by
  have row : ∀ (a : Nat), a < 25 → ∀ (L : List Nat) (r : Rules) (M : Nat → Nat → Prop),
      Inv r M → (∀ b ∈ L, b < 25) →
      Inv (L.foldl (fun r b => r.record a b) r) (fun x y => M x y ∨ (x = a ∧ y ∈ L)) := by
    intro a ha L
    induction L with
    | nil =>
      intro r M h _
      have e : (fun x y => M x y ∨ (x = a ∧ y ∈ ([] : List Nat))) = M := by
        funext x y; simp
      rw [e]; exact h
    | cons b L ih =>
      intro r M h hL
      have h1 := hstep r M a b ha (hL b (List.mem_cons_self _ _)) h
      have h2 := ih _ _ h1 (fun c hc => hL c (List.mem_cons_of_mem _ hc))
      have e : (fun x y => (M x y ∨ (x = a ∧ y = b)) ∨ (x = a ∧ y ∈ L)) =
          (fun x y => M x y ∨ (x = a ∧ y ∈ b :: L)) := by
        funext x y
        apply propext
        simp only [List.mem_cons]
        tauto
      rw [← e]
      exact h2
  have rows : ∀ (K : List Nat), (∀ b ∈ K, b < 25) → ∀ (L : List Nat) (r : Rules)
      (M : Nat → Nat → Prop), Inv r M → (∀ a ∈ L, a < 25) →
      Inv (L.foldl (fun r a => K.foldl (fun r b => r.record a b) r) r)
        (fun x y => M x y ∨ (x ∈ L ∧ y ∈ K)) := by
    intro K hK L
    induction L with
    | nil =>
      intro r M h _
      have e : (fun x y => M x y ∨ (x ∈ ([] : List Nat) ∧ y ∈ K)) = M := by
        funext x y; simp
      rw [e]; exact h
    | cons a L ih =>
      intro r M h hL
      have h1 := row a (hL a (List.mem_cons_self _ _)) K r M h hK
      have h2 := ih _ _ h1 (fun c hc => hL c (List.mem_cons_of_mem _ hc))
      have e : (fun x y => (M x y ∨ (x = a ∧ y ∈ K)) ∨ (x ∈ L ∧ y ∈ K)) =
          (fun x y => M x y ∨ (x ∈ a :: L ∧ y ∈ K)) := by
        funext x y
        apply propext
        simp only [List.mem_cons]
        tauto
      rw [← e]
      exact h2
  have hr : ∀ c ∈ List.range MATRIX_SIZE, c < 25 := fun c hc => List.mem_range.1 hc
  have h := rows (List.range MATRIX_SIZE) hr (List.range MATRIX_SIZE) r0 _ h0 hr
  have e : (fun x y => False ∨ (x ∈ List.range MATRIX_SIZE ∧ y ∈ List.range MATRIX_SIZE)) =
      (fun x y => x < 25 ∧ y < 25) := by
    funext x y
    apply propext
    simp [MATRIX_SIZE, MATRIX_SIDE_SIZE]
  rw [← e]
  exact h

theorem pushCell_apply (t : Nat → Position_List) (i v k : Nat) :
    pushCell t i v k = if k = i then t i ++ [v] else t k := by
  unfold pushCell
  by_cases h : k = i
  · subst h; simp
  · simp [Function.update_noteq h, h]

theorem mem_pushCell (t : Nat → Position_List) (i v k x : Nat) (h : x ∈ t k) :
    x ∈ pushCell t i v k := by
  rw [pushCell_apply]
  by_cases e : k = i
  · rw [if_pos e, ← e]
    exact List.mem_append_left _ h
  · rw [if_neg e]; exact h

theorem mem_pushCell_self (t : Nat → Position_List) (i v : Nat) : v ∈ pushCell t i v i := by
  rw [pushCell_apply, if_pos rfl]
  exact List.mem_append_right _ (List.mem_singleton_self v)

theorem Rules.listed_record (r : Rules) (M : Nat → Nat → Prop) (a b : Nat)
    (ha : a < 25) (hb : b < 25) (h : r.Listed M) :
    (r.record a b).Listed (fun x y => M x y ∨ (x = a ∧ y = b)) := by
  obtain ⟨hv, hl, hn⟩ := h
  have hvalid : ∀ x y, (M x y ∨ (x = a ∧ y = b)) → x < 25 ∧ y < 25 := by
    rintro x y (hM | ⟨rfl, rfl⟩)
    · exact hv x y hM
    · exact ⟨ha, hb⟩
  refine ⟨hvalid, ?_, ?_⟩
  · intro x y hxy hne
    have hxv := hvalid x y hxy
    unfold Rules.record
    by_cases hab : a ≠ b
    · rw [if_pos hab]
      simp only
      rcases hxy with hM | ⟨rfl, rfl⟩
      · obtain ⟨l1, l2, l3⟩ := hl x y hM hne
        refine ⟨mem_pushCell _ _ _ _ _ l1, mem_pushCell _ _ _ _ _ l2, ?_⟩
        rw [setCell_apply]
        by_cases e : (encrypt x y).1 = (encrypt a b).1 ∧ (encrypt x y).2 = (encrypt a b).2
        · rw [if_pos e]
          have h1 := (encrypt_facts x hxv.1 y hxv.2 hne).2.2.2
          have h2 := (encrypt_facts a ha b hb hab).2.2.2
          rw [e.1, e.2, h2] at h1
          rw [(Prod.mk.inj h1).1]
        · rw [if_neg e]
          exact l3
      · refine ⟨mem_pushCell_self _ _ _, mem_pushCell_self _ _ _, ?_⟩
        rw [setCell_apply, if_pos ⟨rfl, rfl⟩]
    · rw [if_neg hab]
      rcases hxy with hM | ⟨rfl, rfl⟩
      · exact hl x y hM hne
      · exact absurd hne hab
  · unfold Rules.record
    by_cases hab : a ≠ b
    · rw [if_pos hab]; exact hn
    · rw [if_neg hab]; exact hn

theorem mem_eraseReps_loop (x : Nat) : ∀ (l : List Nat) (a : Nat) (rs : List Nat),
    x ∈ List.eraseReps.loop a l rs ↔ x = a ∨ x ∈ l ∨ x ∈ rs := by
  intro l
  induction l with
  | nil =>
    intro a rs
    simp only [List.eraseReps.loop, List.mem_reverse, List.mem_cons, List.not_mem_nil]
    tauto
  | cons b l ih =>
    intro a rs
    unfold List.eraseReps.loop
    by_cases e : a = b
    · subst e
      simp only [beq_self_eq_true, ih, List.mem_cons]
      tauto
    · have e2 : (a == b) = false := by simpa using e
      simp only [e2, ih, List.mem_cons]
      tauto

theorem mem_make_unique (l : Position_List) (x : Nat) : x ∈ Rules.make_unique l ↔ x ∈ l := by
  unfold Rules.make_unique
  rw [← (List.perm_insertionSort (fun a b : Nat => a ≤ b) l).mem_iff]
  generalize List.insertionSort (fun a b : Nat => a ≤ b) l = k
  cases k with
  | nil => simp [List.eraseReps]
  | cons a k =>
    unfold List.eraseReps
    rw [mem_eraseReps_loop]
    simp

set_option maxRecDepth 100000 in
theorem encrypt_swap : ∀ a, a < 25 → ∀ b, b < 25 → a ≠ b →
    encrypt b a = ((encrypt a b).2, (encrypt a b).1) := by
  decide

/-- The reverse position lists of the constructed `Rules` are complete: for
cells `a ≠ b` with `change(a, b) = (na, nb)` the cell `a` is in
`_rboth_list[na][nb]`, in `_rself_list[na]`, in `_ropp_list[nb]` and in
`_none_list`. -/
theorem Rules.init_lists (a b : Nat) (ha : a < 25) (hb : b < 25) (hab : a ≠ b) :
    a ∈ Rules.init.rboth_list (encrypt a b).1 (encrypt a b).2 ∧
    a ∈ Rules.init.rself_list (encrypt a b).1 ∧
    a ∈ Rules.init.ropp_list (encrypt a b).2 ∧
    a ∈ Rules.init.none_list := by
  have h0 : ({ Rules.blank with none_list := List.range MATRIX_SIZE } : Rules).Listed
      (fun _ _ => False) := ⟨fun _ _ h => h.elim, fun _ _ h => h.elim, rfl⟩
  have h := Rules.fill_induct Rules.Listed Rules.listed_record _ h0
  obtain ⟨_, hl, hn⟩ := h
  obtain ⟨l1, _, l3⟩ := hl a b ⟨ha, hb⟩ hab
  obtain ⟨_, k2, _⟩ := hl b a ⟨hb, ha⟩ (Ne.symm hab)
  rw [encrypt_swap a ha b hb hab] at k2
  refine ⟨?_, ?_, ?_, ?_⟩
  · show a ∈ (Rules.fill _).rboth_list _ _
    rw [l3]; exact List.mem_singleton_self a
  · show a ∈ Rules.make_unique _
    rw [mem_make_unique]; exact l1
  · show a ∈ Rules.make_unique _
    rw [mem_make_unique]; exact k2
  · have hm : a ∈ List.range MATRIX_SIZE := List.mem_range.2 ha
    rw [← hn] at hm
    unfold Rules.init
    dsimp only
    exact hm

theorem shift_lt (i j p : Nat) : shift i j p < 25 := by
  unfold shift MATRIX_SIDE_SIZE
  omega

theorem shift_inj (i j p q : Nat) (hp : p < 25) (hq : q < 25)
    (h : shift i j p = shift i j q) : p = q := by
  unfold shift MATRIX_SIDE_SIZE at h
  omega

theorem shift_origin (p : Nat) (hp : p < 25) : shift (5 - p / 5) (5 - p % 5) p = 0 := by
  unfold shift MATRIX_SIDE_SIZE
  omega

theorem shift_div (i j p : Nat) : shift i j p / 5 = (p / 5 + i) % 5 := by
  unfold shift MATRIX_SIDE_SIZE
  omega

theorem shift_mod (i j p : Nat) : shift i j p % 5 = (p % 5 + j) % 5 := by
  unfold shift MATRIX_SIDE_SIZE
  omega

/-- Playfair encryption commutes with the cyclic shifts of the square. -/
theorem encrypt_shift (i j a b : Nat) (ha : a < 25) (hb : b < 25) :
    encrypt (shift i j a) (shift i j b) =
      (shift i j (encrypt a b).1, shift i j (encrypt a b).2) := by
  have e : ∀ x y : Nat, x < 5 → y < 5 → ((x + j) % 5 = (y + j) % 5 ↔ x = y) := by
    intro x y hx hy; omega
  have ma : a % 5 < 5 := Nat.mod_lt _ (by decide)
  have mb : b % 5 < 5 := Nat.mod_lt _ (by decide)
  unfold encrypt
  simp only [MATRIX_SIDE_SIZE, shift_div, shift_mod]
  by_cases h1 : a % 5 = b % 5
  · rw [if_pos h1, if_pos ((e _ _ ma mb).2 h1)]
    apply Prod.ext <;> simp only [shift, MATRIX_SIDE_SIZE] <;> omega
  · rw [if_neg h1, if_neg (fun h => h1 ((e _ _ ma mb).1 h))]
    by_cases h2 : a / 5 = b / 5
    · rw [if_pos h2, if_pos (by rw [h2])]
      apply Prod.ext <;> simp only [shift, MATRIX_SIDE_SIZE] <;> omega
    · have h3 : ¬ (a / 5 + i) % 5 = (b / 5 + i) % 5 := by omega
      rw [if_neg h2, if_neg h3]
      apply Prod.ext <;> simp only [shift, MATRIX_SIDE_SIZE] <;> omega


theorem Inside.cell {m : Matrix} {ρ : Chr → Nat} (hin : Inside m ρ) (hL : Layout ρ) (c : Chr)
    (hc : ρ c ≠ UNSET) :
    (m.rev c = UNSET → m.valAt (ρ c) = Matrix.EMPTY) ∧ (m.rev c ≠ UNSET → m.valAt (ρ c) = c) := by
  obtain ⟨hlt, hinj⟩ := hL c hc
  constructor
  · intro hr
    by_contra hne
    have h1 := hin.1.val_rev (ρ c) hlt hne
    have h2 : m.rev (m.valAt (ρ c)) ≠ UNSET := by rw [h1]; exact hc
    have h3 := hin.2 _ h2
    rw [h1] at h3
    have h4 := hinj _ h3.symm
    rw [h4] at h1
    exact hc (h1 ▸ hr)
  · intro hr
    have h1 := hin.2 c hr
    rw [← h1]
    exact (hin.1.rev_val c hr).2

theorem Inside.add_letter {m : Matrix} {ρ : Chr → Nat} (hin : Inside m ρ) (hL : Layout ρ) (c : Chr)
    (hc : ρ c ≠ UNSET) (hr : m.rev c = UNSET) (hne : c ≠ Matrix.EMPTY) :
    Inside (m.add (ρ c) c) ρ ∧ (m.add (ρ c) c).rev c ≠ UNSET ∧ m.Extends (m.add (ρ c) c) := by
  have hv := (hin.cell hL c hc).1 hr
  obtain ⟨a1, a2, a3, _⟩ := hin.1.add (ρ c) c hv hr hne
  refine ⟨⟨a1, ?_⟩, by rw [a3]; exact hc, a2⟩
  intro x hx
  rw [Matrix.rev_add] at hx ⊢
  by_cases e : x = c
  · rw [if_pos e, e]
  · rw [if_neg e] at hx ⊢
    exact hin.2 x hx

theorem Inside.of_empty (ρ : Chr → Nat) : Inside Matrix.init ρ :=
  ⟨Matrix.consistent_init, fun _ h => absurd rfl h⟩

theorem Lays.cells {ρ : Chr → Nat} {u : Char_Unit} (hL : Layout ρ) (h : Lays ρ u)
    (hne : u.clear_text.1 ≠ u.clear_text.2) :
    ρ u.clear_text.1 < 25 ∧ ρ u.clear_text.2 < 25 ∧ ρ u.clear_text.1 ≠ ρ u.clear_text.2 := by
  obtain ⟨h1, h2, _, _, _⟩ := h
  refine ⟨(hL _ h1).1, (hL _ h2).1, ?_⟩
  intro e
  exact hne ((hL _ h2).2 _ e)

theorem Inside.encrypts {m : Matrix} {ρ : Chr → Nat} (hin : Inside m ρ) (hL : Layout ρ)
    {u : Char_Unit} (h : Lays ρ u) (hne : u.clear_text.1 ≠ u.clear_text.2)
    (k1 : m.rev u.clear_text.1 ≠ UNSET) (k2 : m.rev u.clear_text.2 ≠ UNSET)
    (k3 : m.rev u.cipher_text.1 ≠ UNSET) (k4 : m.rev u.cipher_text.2 ≠ UNSET) :
    Encrypts Rules.init m u := by
  obtain ⟨c1, c2, c3⟩ := h.cells hL hne
  refine ⟨⟨k1, (hin.1.rev_val _ k1).2⟩, ⟨k2, (hin.1.rev_val _ k2).2⟩,
    ⟨k3, (hin.1.rev_val _ k3).2⟩, ⟨k4, (hin.1.rev_val _ k4).2⟩, ?_⟩
  rw [hin.2 _ k1, hin.2 _ k2, hin.2 _ k3, hin.2 _ k4, (Rules.init_tables _ _ c1 c2 c3).1]
  exact h.2.2.2.2

theorem rpositions_mem {m : Matrix} {ρ : Chr → Nat} (hin : Inside m ρ) (x y : Chr) (p : Nat)
    (h1 : p ∈ Rules.init.rboth_list (ρ x) (ρ y)) (h2 : p ∈ Rules.init.rself_list (ρ x))
    (h3 : p ∈ Rules.init.ropp_list (ρ y)) (h4 : p ∈ Rules.init.none_list) :
    p ∈ Rules.init.get_rpositions x y m := by
  unfold Rules.get_rpositions
  dsimp only
  by_cases b1 : m.rev x = UNSET
  · by_cases b2 : m.rev y = UNSET
    · simp only [b1, b2, ne_eq, not_true_eq_false, decide_False, Bool.and_self,
        Bool.false_eq_true, if_false]
      exact h4
    · simp only [b1, b2, ne_eq, not_true_eq_false, not_false_eq_true, decide_False, decide_True,
        Bool.false_and, Bool.false_eq_true, if_false, if_true]
      rw [hin.2 y b2]
      exact h3
  · by_cases b2 : m.rev y = UNSET
    · simp only [b1, b2, ne_eq, not_true_eq_false, not_false_eq_true, decide_False, decide_True,
        Bool.and_false, Bool.false_eq_true, if_false, if_true]
      rw [hin.2 x b1]
      exact h2
    · simp only [b1, b2, ne_eq, not_false_eq_true, decide_True, Bool.and_self, if_true]
      rw [hin.2 x b1, hin.2 y b2]
      exact h1

theorem Lays.positions {m : Matrix} {ρ : Chr → Nat} (hin : Inside m ρ) (hL : Layout ρ)
    {u : Char_Unit} (h : Lays ρ u) (hne : u.clear_text.1 ≠ u.clear_text.2) :
    ρ u.clear_text.1 ∈ Rules.init.get_rpositions u.cipher_text.1 u.cipher_text.2 m ∧
    ρ u.clear_text.2 ∈ Rules.init.get_rpositions u.cipher_text.2 u.cipher_text.1 m := by
  obtain ⟨c1, c2, c3⟩ := h.cells hL hne
  have e := h.2.2.2.2
  have l1 := Rules.init_lists _ _ c1 c2 c3
  have l2 := Rules.init_lists _ _ c2 c1 (Ne.symm c3)
  rw [encrypt_swap _ c1 _ c2 c3] at l2
  rw [e] at l1 l2
  exact ⟨rpositions_mem hin _ _ _ l1.1 l1.2.1 l1.2.2.1 l1.2.2.2,
    rpositions_mem hin _ _ _ l2.1 l2.2.1 l2.2.2.1 l2.2.2.2⟩

theorem set_clear_loop_hits {σ : Type} (I : σ → Prop) (Q : Matrix → Prop) (ch : Chr)
    (f : Cont σ) (hf : Safe I Q f) (m : Matrix)
    (hstep : ∀ p, m.valAt p = Matrix.EMPTY → Q (m.add p ch)) (hr : m.rev ch = UNSET)
    (p0 : Nat) (hp0 : m.valAt p0 = Matrix.EMPTY)
    (hhit : ∀ s, I s → (f (m.add p0 ch) s).1 = true) :
    ∀ (positions : Position_List) (s : σ), I s → p0 ∈ positions →
      (set_clear_loop ch f positions m s).1 = true
  | [], _, _, hmem => by cases hmem
  | p :: ps, s, hs, hmem => by
    unfold set_clear_loop
    by_cases hv : m.valAt p = Matrix.EMPTY
    · rw [if_pos hv]
      obtain ⟨e1, e2⟩ := hf (m.add p ch) s (hstep p hv) hs
      have hback : (f (m.add p ch) s).2.1.remove p ch = m := by
        rw [e1]; exact Matrix.remove_add_cell m p ch hv hr
      dsimp only
      rw [hback]
      by_cases hres : (f (m.add p ch) s).1 = true
      · rw [if_pos hres]
      · rw [if_neg hres]
        have hne : p0 ≠ p := by
          intro e
          rw [e] at hhit
          exact hres (hhit s hs)
        rcases List.mem_cons.1 hmem with h | h
        · exact absurd h hne
        · exact set_clear_loop_hits I Q ch f hf m hstep hr p0 hp0 hhit ps _ e2 h
    · rw [if_neg hv]
      have hne : p0 ≠ p := by
        intro e
        rw [e] at hp0
        exact hv hp0
      rcases List.mem_cons.1 hmem with h | h
      · exact absurd h hne
      · exact set_clear_loop_hits I Q ch f hf m hstep hr p0 hp0 hhit ps s hs h

theorem set_clear_hits {σ : Type} (P Q : Matrix → Prop) (ρ : Chr → Nat) (hL : Layout ρ)
    (unit : Char_Unit) (hu : unit.Proper) (hlay : Lays ρ unit) (even : Bool) (f : Cont σ)
    (hf : Safe (fun _ => True) Q f)
    (hstep : ∀ m p, P m → m.rev (if even then unit.clear_text.1 else unit.clear_text.2) = UNSET →
      m.valAt p = Matrix.EMPTY →
      Q (m.add p (if even then unit.clear_text.1 else unit.clear_text.2)))
    (hkeep : ∀ m, P m → m.rev (if even then unit.clear_text.1 else unit.clear_text.2) ≠ UNSET →
      Q m)
    (hhit : HitsOn ρ Q f) :
    HitsOn ρ P (set_clear Rules.init unit even f) := by
  intro m s hin hP
  obtain ⟨q1, q2⟩ := hlay.positions hin hL hu.1
  have hch : ρ (if even then unit.clear_text.1 else unit.clear_text.2) ≠ UNSET := by
    cases even
    · exact hlay.2.1
    · exact hlay.1
  have hne : (if even then unit.clear_text.1 else unit.clear_text.2) ≠ Matrix.EMPTY := by
    cases even
    · exact hu.2.2.2.1
    · exact hu.2.2.1
  have hmem : ρ (if even then unit.clear_text.1 else unit.clear_text.2) ∈
      (if even then Rules.init.get_rpositions unit.cipher_text.1 unit.cipher_text.2 m
       else Rules.init.get_rpositions unit.cipher_text.2 unit.cipher_text.1 m) := by
    cases even
    · exact q2
    · exact q1
  unfold set_clear
  dsimp only
  by_cases hr : m.rev (if even then unit.clear_text.1 else unit.clear_text.2) = UNSET
  · rw [if_pos hr]
    have hv := (hin.cell hL _ hch).1 hr
    obtain ⟨a1, _, _⟩ := hin.add_letter hL _ hch hr hne
    exact set_clear_loop_hits (fun _ => True) Q _ f hf m (fun p hv => hstep m p hP hr hv) hr
      _ hv (fun s _ => hhit _ s a1 (hstep m _ hP hr hv)) _ s trivial hmem
  · rw [if_neg hr]
    rw [← hin.2 _ hr] at hmem
    have hfind : find_position (if even then Rules.init.get_rpositions unit.cipher_text.1
        unit.cipher_text.2 m else Rules.init.get_rpositions unit.cipher_text.2
        unit.cipher_text.1 m)
        (m.rev (if even then unit.clear_text.1 else unit.clear_text.2)) = true := by
      unfold find_position
      exact decide_eq_true hmem
    rw [if_pos hfind]
    exact hhit m s hin (hkeep m hP hr)

theorem set_cipher_hits {σ : Type} (ρ : Chr → Nat) (hL : Layout ρ) (unit : Char_Unit)
    (hu : unit.Proper) (hlay : Lays ρ unit) (done : List Char_Unit) (f : Cont σ)
    (hhit : HitsOn ρ (Placed Rules.init (unit :: done)) f) :
    HitsOn ρ (fun m => Placed Rules.init done m ∧ m.rev unit.clear_text.1 ≠ UNSET ∧
      m.rev unit.clear_text.2 ≠ UNSET) (set_cipher Rules.init unit f) := by
  rintro m s hin ⟨hP, h1, h2⟩
  obtain ⟨hc12, hw12, hc1, hc2, hw1, hw2⟩ := hu
  obtain ⟨c1, c2, c3⟩ := hlay.cells hL hc12
  have hlay0 := hlay
  obtain ⟨_, _, l3, l4, le⟩ := hlay
  have hp : Rules.init.change (m.rev unit.clear_text.1) (m.rev unit.clear_text.2)
      = (ρ unit.cipher_text.1, ρ unit.cipher_text.2) := by
    rw [hin.2 _ h1, hin.2 _ h2, (Rules.init_tables _ _ c1 c2 c3).1]
    exact le
  have hqne : ρ unit.cipher_text.1 ≠ ρ unit.cipher_text.2 := by
    intro e
    exact hw12 ((hL _ l4).2 _ e)
  -- the matrix on which `f` is invoked
  have key : ∀ m2 : Matrix, Inside m2 ρ → m.Extends m2 → m2.rev unit.cipher_text.1 ≠ UNSET →
      m2.rev unit.cipher_text.2 ≠ UNSET → (f m2 s).1 = true := by
    intro m2 hin2 hext k3 k4
    apply hhit m2 s hin2
    refine ⟨hin2.1, ?_⟩
    intro v hv
    rcases List.mem_cons.1 hv with rfl | hv
    · exact hin2.encrypts hL hlay0 hc12 (by rw [hext _ h1]; exact h1)
        (by rw [hext _ h2]; exact h2) k3 k4
    · exact (hP.2 v hv).mono hext hin2.1
  unfold set_cipher
  dsimp only
  rw [hp]
  dsimp only
  by_cases E1 : m.rev unit.cipher_text.1 = UNSET
  · have v1 := (hin.cell hL _ l3).1 E1
    obtain ⟨a1, a2, a3⟩ := hin.add_letter hL _ l3 E1 hw1
    by_cases E2 : m.rev unit.cipher_text.2 = UNSET
    · have v2 := (hin.cell hL _ l4).1 E2
      simp only [E1, E2, v1, v2, decide_True, Bool.and_self, Bool.true_or, if_true]
      have E2' : (m.add (ρ unit.cipher_text.1) unit.cipher_text.1).rev unit.cipher_text.2
          = UNSET := by
        rw [Matrix.rev_add, if_neg (Ne.symm hw12)]
        exact E2
      obtain ⟨b1, b2, b3⟩ := a1.add_letter hL _ l4 E2' hw2
      exact key _ b1 (a3.trans b3) (by rw [b3 _ a2]; exact a2) b2
    · have v2 := (hin.cell hL _ l4).2 E2
      simp only [E1, E2, v1, v2, decide_True, decide_False, Bool.and_self, Bool.true_or,
        Bool.and_false, Bool.false_or, Bool.false_eq_true, if_true, if_false]
      exact key _ a1 a3 a2 (by rw [a3 _ E2]; exact E2)
  · have v1 := (hin.cell hL _ l3).2 E1
    by_cases E2 : m.rev unit.cipher_text.2 = UNSET
    · have v2 := (hin.cell hL _ l4).1 E2
      obtain ⟨a1, a2, a3⟩ := hin.add_letter hL _ l4 E2 hw2
      simp only [E1, E2, v1, v2, decide_True, decide_False, Bool.and_self, Bool.true_or,
        Bool.and_false, Bool.false_or, Bool.false_eq_true, if_true, if_false]
      exact key _ a1 a3 (by rw [a3 _ E1]; exact E1) a2
    · have v2 := (hin.cell hL _ l4).2 E2
      simp only [E1, E2, v1, v2, decide_True, decide_False, Bool.and_self, Bool.true_or,
        Bool.and_false, Bool.false_or, Bool.false_eq_true, if_true, if_false]
      exact key _ hin (Matrix.Extends.refl m) E1 E2

theorem _process_set_hits {σ : Type} (ρ : Chr → Nat) (hL : Layout ρ) (all : List Char_Unit)
    (f : Cont σ) (hf : Safe (fun _ => True) (Placed Rules.init all) f)
    (hhit : HitsOn ρ (Placed Rules.init all) f) :
    ∀ (rest done : List Char_Unit), (∀ u ∈ rest, u.Proper ∧ Lays ρ u) →
      (∀ u ∈ all, u ∈ done ∨ u ∈ rest) →
      HitsOn ρ (Placed Rules.init done) (_process_set Rules.init f rest)
  | [], done, _, hall => by
    intro m s hin hP
    unfold _process_set
    refine hhit m s hin ⟨hP.1, ?_⟩
    intro u hu
    rcases hall u hu with h | h
    · exact hP.2 u h
    · cases h
  | u :: rest, done, hpr, hall => by
    obtain ⟨hu, hlay⟩ := hpr u (List.mem_cons_self _ _)
    have hall2 : ∀ v ∈ all, v ∈ u :: done ∨ v ∈ rest := by
      intro v hv
      rcases hall v hv with h | h
      · exact Or.inl (List.mem_cons_of_mem _ h)
      · rcases List.mem_cons.1 h with rfl | h
        · exact Or.inl (List.mem_cons_self _ _)
        · exact Or.inr h
    have ihs := _process_set_safe (fun _ => True) Rules.init Rules.closed_init all f hf rest
      (u :: done) (fun v hv => (hpr v (List.mem_cons_of_mem _ hv)).1) hall2
    have ihh := _process_set_hits ρ hL all f hf hhit rest (u :: done)
      (fun v hv => hpr v (List.mem_cons_of_mem _ hv)) hall2
    have s3 := set_cipher_safe (fun _ => True) Rules.init Rules.closed_init u hu done _ ihs
    have t3 := set_cipher_hits ρ hL u hu hlay done _ ihh
    have step2 : ∀ m p, (Placed Rules.init done m ∧ m.rev u.clear_text.1 ≠ UNSET) →
        m.rev (if false = true then u.clear_text.1 else u.clear_text.2) = UNSET →
        m.valAt p = Matrix.EMPTY →
        (Placed Rules.init done (m.add p (if false = true then u.clear_text.1
            else u.clear_text.2)) ∧
          (m.add p (if false = true then u.clear_text.1 else u.clear_text.2)).rev
            u.clear_text.1 ≠ UNSET ∧
          (m.add p (if false = true then u.clear_text.1 else u.clear_text.2)).rev
            u.clear_text.2 ≠ UNSET) := by
      rintro m p ⟨hP, h1⟩ hr hv
      simp only [Bool.false_eq_true, if_false] at hr ⊢
      obtain ⟨b1, b2, b3⟩ := placed_add hP p u.clear_text.2 hv hr hu.2.2.2.1
      refine ⟨b1, ?_, b2⟩
      rw [b3 _ h1]; exact h1
    have keep2 : ∀ m, (Placed Rules.init done m ∧ m.rev u.clear_text.1 ≠ UNSET) →
        m.rev (if false = true then u.clear_text.1 else u.clear_text.2) ≠ UNSET →
        (Placed Rules.init done m ∧ m.rev u.clear_text.1 ≠ UNSET ∧
          m.rev u.clear_text.2 ≠ UNSET) := by
      rintro m ⟨hP, h1⟩ hr
      exact ⟨hP, h1, hr⟩
    have s2 := set_clear_safe (fun _ => True)
      (fun m => Placed Rules.init done m ∧ m.rev u.clear_text.1 ≠ UNSET)
      (fun m => Placed Rules.init done m ∧ m.rev u.clear_text.1 ≠ UNSET ∧
        m.rev u.clear_text.2 ≠ UNSET) Rules.init u false _ s3 step2 keep2
    have t2 := set_clear_hits
      (fun m => Placed Rules.init done m ∧ m.rev u.clear_text.1 ≠ UNSET)
      (fun m => Placed Rules.init done m ∧ m.rev u.clear_text.1 ≠ UNSET ∧
        m.rev u.clear_text.2 ≠ UNSET) ρ hL u hu hlay false _ s3 step2 keep2 t3
    have t1 := set_clear_hits (Placed Rules.init done)
      (fun m => Placed Rules.init done m ∧ m.rev u.clear_text.1 ≠ UNSET) ρ hL u hu hlay true _ s2
      (by
        intro m p hP hr hv
        obtain ⟨b1, b2, _⟩ := placed_add hP p u.clear_text.1 hv hr hu.2.2.1
        exact ⟨b1, b2⟩)
      (by
        intro m hP hr
        exact ⟨hP, hr⟩) t2
    intro m s hin hP
    unfold _process_set
    exact t1 m s hin hP

/-- Completeness of the placement search: if an assignment of cells lays every
unit of the list and gives the first plaintext letter the cell 0, and the
continuation answers `true` on the matrices inside it that encrypt the units,
then `process_set`, started on the empty matrix, answers `true`. -/
theorem process_set_hits {σ : Type} (ρ : Chr → Nat) (hL : Layout ρ) (units : List Char_Unit)
    (hunits : ∀ u ∈ units, u.Proper ∧ Lays ρ u) (h0 : ρ (firstLetter units) = 0)
    (hne : units ≠ []) (f : Cont σ)
    (hf : Safe (fun _ => True) (Placed Rules.init units) f)
    (hhit : HitsOn ρ (Placed Rules.init units) f) (s : σ) :
    (process_set Rules.init units f Matrix.init s).1 = true := by
  obtain ⟨u, rest, rfl⟩ := List.exists_cons_of_ne_nil hne
  obtain ⟨hu, hlay⟩ := hunits u (List.mem_cons_self _ _)
  have hr : Matrix.init.rev u.clear_text.1 = UNSET := rfl
  have hc : ρ u.clear_text.1 ≠ UNSET := hlay.1
  obtain ⟨a1, _, _⟩ := (Inside.of_empty ρ).add_letter hL u.clear_text.1 hc hr hu.2.2.1
  have h0' : ρ u.clear_text.1 = 0 := h0
  rw [h0'] at a1
  have h := _process_set_hits ρ hL (u :: rest) f hf hhit (u :: rest) [] hunits
    (fun v hv => Or.inr hv) _ s a1 ⟨a1.1, fun _ h => by cases h⟩
  unfold process_set
  dsimp only [firstLetter]
  exact h

/-- A consistent square that encrypts the units can be shifted cyclically so
that a given placed letter comes to lie in the cell 0. -/
theorem layout_of_square (M : Matrix) (hM : M.Consistent) (units : List Char_Unit)
    (hpr : ∀ u ∈ units, u.Proper) (henc : ∀ u ∈ units, Encrypts Rules.init M u) (a0 : Chr)
    (ha0 : M.rev a0 ≠ UNSET) :
    ∃ ρ : Chr → Nat, Layout ρ ∧ ρ a0 = 0 ∧ ∀ u ∈ units, Lays ρ u := by
  have hρ : ∀ c, M.rev c ≠ UNSET →
      (if M.rev c = UNSET then UNSET
        else shift (5 - M.rev a0 / 5) (5 - M.rev a0 % 5) (M.rev c)) =
        shift (5 - M.rev a0 / 5) (5 - M.rev a0 % 5) (M.rev c) := fun c hc => if_neg hc
  have hun : ∀ i j p, shift i j p ≠ UNSET := by
    intro i j p
    have := shift_lt i j p
    unfold UNSET
    omega
  refine ⟨fun c => if M.rev c = UNSET then UNSET
    else shift (5 - M.rev a0 / 5) (5 - M.rev a0 % 5) (M.rev c), ?_, ?_, ?_⟩
  · intro c hc
    dsimp only at hc ⊢
    by_cases e : M.rev c = UNSET
    · rw [if_pos e] at hc
      exact absurd rfl hc
    · rw [hρ c e]
      refine ⟨shift_lt _ _ _, ?_⟩
      intro d hd
      by_cases e2 : M.rev d = UNSET
      · rw [if_pos e2] at hd
        exact absurd hd.symm (hun _ _ _)
      · rw [hρ d e2] at hd
        have h1 := shift_inj _ _ _ _ (hM.rev_val d e2).1 (hM.rev_val c e).1 hd
        have h2 := (hM.rev_val d e2).2
        rw [h1, (hM.rev_val c e).2] at h2
        exact h2.symm
  · dsimp only
    rw [hρ a0 ha0]
    exact shift_origin _ (hM.rev_val a0 ha0).1
  · intro u hu
    obtain ⟨⟨a1, a2⟩, ⟨b1, b2⟩, ⟨c1, _⟩, ⟨d1, _⟩, e⟩ := henc u hu
    have hne : M.rev u.clear_text.1 ≠ M.rev u.clear_text.2 := by
      intro h
      rw [h, b2] at a2
      exact (hpr u hu).1 a2.symm
    have la := (hM.rev_val _ a1).1
    have lb := (hM.rev_val _ b1).1
    rw [(Rules.init_tables _ _ la lb hne).1] at e
    unfold Lays
    dsimp only
    rw [hρ _ a1, hρ _ b1, hρ _ c1, hρ _ d1]
    refine ⟨hun _ _ _, hun _ _ _, hun _ _ _, hun _ _ _, ?_⟩
    rw [encrypt_shift _ _ _ _ la lb, e]

theorem tracks_flagged {σ : Type} (f : Cont σ) : Tracks f (flagged f) := by
  intro m s b
  refine ⟨rfl, rfl, rfl, ?_, ?_⟩
  · intro h
    show (b || (f m s).1) = true
    rw [h]; rfl
  · intro h
    show (b || (f m s).1) = true
    rw [h]; exact Bool.or_true b

theorem Tracks.state_eq {σ : Type} {g : Cont σ} {g2 : Cont (σ × Bool)} (h : Tracks g g2)
    (m : Matrix) (s : σ) (b : Bool) :
    (g2 m (s, b)).2.2 = ((g m s).2.2, (g2 m (s, b)).2.2.2) :=
  Prod.ext (h m s b).2.2.1 rfl

theorem tracks_set_clear_loop {σ : Type} (ch : Chr) (f : Cont σ) (f2 : Cont (σ × Bool))
    (hT : Tracks f f2) :
    ∀ positions : Position_List,
      Tracks (set_clear_loop ch f positions) (set_clear_loop ch f2 positions)
  | [] => by
    intro m s b
    unfold set_clear_loop
    exact ⟨rfl, rfl, rfl, fun h => h, fun h => by cases h⟩
  | p :: ps => by
    intro m s b
    have ih := tracks_set_clear_loop ch f f2 hT ps
    unfold set_clear_loop
    by_cases hv : m.valAt p = Matrix.EMPTY
    · rw [if_pos hv, if_pos hv]
      obtain ⟨t1, t2, t3, t4, t5⟩ := hT (m.add p ch) s b
      dsimp only
      rw [t1, t2]
      by_cases hres : (f (m.add p ch) s).1 = true
      · rw [if_pos hres, if_pos hres]
        exact ⟨rfl, rfl, t3, fun _ => t5 hres, fun _ => t5 hres⟩
      · rw [if_neg hres, if_neg hres, hT.state_eq]
        obtain ⟨u1, u2, u3, u4, u5⟩ := ih ((f (m.add p ch) s).2.1.remove p ch)
          (f (m.add p ch) s).2.2 (f2 (m.add p ch) (s, b)).2.2.2
        exact ⟨u1, u2, u3, fun hb => u4 (t4 hb), u5⟩
    · rw [if_neg hv, if_neg hv]
      exact ih m s b

theorem tracks_set_clear {σ : Type} (rules : Rules) (unit : Char_Unit) (even : Bool)
    (f : Cont σ) (f2 : Cont (σ × Bool)) (hT : Tracks f f2) :
    Tracks (set_clear rules unit even f) (set_clear rules unit even f2) := by
  intro m s b
  unfold set_clear
  dsimp only
  by_cases hr : m.rev (if even then unit.clear_text.1 else unit.clear_text.2) = UNSET
  · rw [if_pos hr, if_pos hr]
    exact tracks_set_clear_loop _ f f2 hT _ m s b
  · rw [if_neg hr, if_neg hr]
    by_cases hfind : find_position (if even then rules.get_rpositions unit.cipher_text.1
        unit.cipher_text.2 m else rules.get_rpositions unit.cipher_text.2
        unit.cipher_text.1 m)
        (m.rev (if even then unit.clear_text.1 else unit.clear_text.2)) = true
    · rw [if_pos hfind, if_pos hfind]
      exact hT m s b
    · rw [if_neg hfind, if_neg hfind]
      exact ⟨rfl, rfl, rfl, fun h => h, fun h => by cases h⟩

theorem tracks_set_cipher {σ : Type} (rules : Rules) (unit : Char_Unit)
    (f : Cont σ) (f2 : Cont (σ × Bool)) (hT : Tracks f f2) :
    Tracks (set_cipher rules unit f) (set_cipher rules unit f2) := by
  intro m s b
  unfold set_cipher
  dsimp only
  split_ifs
  all_goals first
    | exact ⟨rfl, rfl, rfl, fun h => h, fun h => by cases h⟩
    | (refine ⟨(hT _ s b).1, ?_, (hT _ s b).2.2.1, (hT _ s b).2.2.2.1, (hT _ s b).2.2.2.2⟩
       rw [(hT _ s b).2.1])

theorem tracks__process_set {σ : Type} (rules : Rules) (f : Cont σ) (f2 : Cont (σ × Bool))
    (hT : Tracks f f2) :
    ∀ units : List Char_Unit, Tracks (_process_set rules f units) (_process_set rules f2 units)
  | [] => by
    intro m s b
    unfold _process_set
    exact hT m s b
  | u :: rest => by
    intro m s b
    unfold _process_set
    exact tracks_set_clear rules u true _ _
      (tracks_set_clear rules u false _ _
        (tracks_set_cipher rules u _ _ (tracks__process_set rules f f2 hT rest))) m s b

theorem tracks_process_set {σ : Type} (rules : Rules) (units : List Char_Unit) (f : Cont σ)
    (f2 : Cont (σ × Bool)) (hT : Tracks f f2) :
    Tracks (process_set rules units f) (process_set rules units f2) := by
  intro m s b
  obtain ⟨t1, t2, t3, t4, t5⟩ := tracks__process_set rules f f2 hT units
    (m.add 0 (firstLetter units)) s b
  unfold process_set
  dsimp only
  rw [t2]
  exact ⟨t1, rfl, t3, t4, t5⟩

/-- Soundness of the placement search: if `process_set`, started on the empty
matrix, answers `true`, then some consistent matrix encrypts every unit. -/
theorem process_set_sound {σ : Type} (units : List Char_Unit) (hne : units ≠ [])
    (hunits : ∀ u ∈ units, u.Proper) (f : Cont σ)
    (hf : Safe (fun _ => True) (Placed Rules.init units) f) (s : σ)
    (h : (process_set Rules.init units f Matrix.init s).1 = true) :
    ∃ m, Placed Rules.init units m := by
  have hT := tracks_process_set Rules.init units f (flagged f) (tracks_flagged f)
    Matrix.init s false
  have hS := process_set_safe (fun sb : σ × Bool => sb.2 = true → ∃ m, Placed Rules.init units m)
    units hne hunits (flagged f)
    (by
      intro m sb hP _
      refine ⟨(hf m sb.1 hP trivial).1, ?_⟩
      intro _
      exact ⟨m, hP⟩)
    (s, false) (fun h => by cases h)
  exact hS.2 (hT.2.2.2.2 h)

theorem Char_Unit.same_self (u : Char_Unit) : u.same u = true := by
  unfold Char_Unit.same
  simp

theorem Encrypts.of_same {m : Matrix} (hm : m.Consistent) {w u : Char_Unit}
    (hw : w.clear_text.1 ≠ w.clear_text.2) (h : Encrypts Rules.init m w)
    (hs : w.same u = true) : Encrypts Rules.init m u := by
  unfold Char_Unit.same cross_equal at hs
  simp only [Bool.or_eq_true, Bool.and_eq_true, decide_eq_true_eq] at hs
  rcases hs with ⟨e1, e2⟩ | ⟨⟨e1, e2⟩, e3, e4⟩
  · have e : w = u := by
      cases w; cases u
      simp only at e1 e2
      rw [e1, e2]
    rw [← e]; exact h
  · obtain ⟨⟨a1, a2⟩, ⟨b1, b2⟩, ⟨c1, c2⟩, ⟨d1, d2⟩, e⟩ := h
    have hne : m.rev w.clear_text.1 ≠ m.rev w.clear_text.2 := by
      intro h
      rw [h, b2] at a2
      exact hw a2.symm
    have la := (hm.rev_val _ a1).1
    have lb := (hm.rev_val _ b1).1
    rw [(Rules.init_tables _ _ la lb hne).1] at e
    unfold Encrypts
    rw [← e1, ← e2, ← e3, ← e4]
    refine ⟨⟨b1, b2⟩, ⟨a1, a2⟩, ⟨d1, d2⟩, ⟨c1, c2⟩, ?_⟩
    rw [(Rules.init_tables _ _ lb la (Ne.symm hne)).1, encrypt_swap _ la _ lb hne, e]

theorem Playfair.freq_inc_frame (s : Playfair) (ch : Chr) :
    (s.freq_inc ch).units = s.units ∧ (s.freq_inc ch).matrix = s.matrix ∧
    (s.freq_inc ch).matrix_creation_point = s.matrix_creation_point ∧
    (s.freq_inc ch).units_sorted = s.units_sorted :=
  ⟨rfl, rfl, rfl, rfl⟩

theorem Playfair.freq_dec_frame (s : Playfair) (ch : Chr) :
    (s.freq_dec ch).units = s.units ∧ (s.freq_dec ch).matrix = s.matrix ∧
    (s.freq_dec ch).matrix_creation_point = s.matrix_creation_point :=
  ⟨rfl, rfl, rfl⟩

theorem Playfair.set_char_set_frame (s : Playfair) (ch : Chr) :
    (s.set_char_set ch).units = s.units ∧ (s.set_char_set ch).matrix = s.matrix ∧
    (s.set_char_set ch).matrix_creation_point = s.matrix_creation_point := by
  unfold Playfair.set_char_set
  split_ifs <;> exact ⟨rfl, rfl, rfl⟩

theorem Playfair.mark_unit_frame (s : Playfair) (u : Char_Unit) :
    (s.mark_unit u).units = s.units ∧ (s.mark_unit u).matrix = s.matrix ∧
    (s.mark_unit u).matrix_creation_point = s.matrix_creation_point := by
  unfold Playfair.mark_unit
  obtain ⟨a1, a2, a3⟩ := Playfair.set_char_set_frame ((((((((s.freq_dec u.clear_text.1).freq_dec
    u.clear_text.2).freq_dec u.cipher_text.1).freq_dec u.cipher_text.2).set_char_set
    u.clear_text.1).set_char_set u.clear_text.2).set_char_set u.cipher_text.1)) u.cipher_text.2
  obtain ⟨b1, b2, b3⟩ := Playfair.set_char_set_frame ((((((s.freq_dec u.clear_text.1).freq_dec
    u.clear_text.2).freq_dec u.cipher_text.1).freq_dec u.cipher_text.2).set_char_set
    u.clear_text.1).set_char_set u.clear_text.2) u.cipher_text.1
  obtain ⟨c1, c2, c3⟩ := Playfair.set_char_set_frame (((((s.freq_dec u.clear_text.1).freq_dec
    u.clear_text.2).freq_dec u.cipher_text.1).freq_dec u.cipher_text.2).set_char_set
    u.clear_text.1) u.clear_text.2
  obtain ⟨d1, d2, d3⟩ := Playfair.set_char_set_frame ((((s.freq_dec u.clear_text.1).freq_dec
    u.clear_text.2).freq_dec u.cipher_text.1).freq_dec u.cipher_text.2) u.clear_text.1
  exact ⟨a1.trans (b1.trans (c1.trans d1)), a2.trans (b2.trans (c2.trans d2)),
    a3.trans (b3.trans (c3.trans d3))⟩

theorem Playfair.collect_units_spec : ∀ (rest : List Char_Unit) (s : Playfair),
    (s.collect_units rest).units = s.units ∧ (s.collect_units rest).matrix = s.matrix ∧
    (s.collect_units rest).matrix_creation_point = s.matrix_creation_point ∧
    (∀ w ∈ (s.collect_units rest).units_sorted, w ∈ s.units_sorted ∨ w ∈ rest) ∧
    (∀ w ∈ s.units_sorted, w ∈ (s.collect_units rest).units_sorted) ∧
    (∀ u ∈ rest, ∃ w ∈ (s.collect_units rest).units_sorted, w.same u = true)
  | [], s => by
    unfold Playfair.collect_units
    exact ⟨rfl, rfl, rfl, fun w hw => Or.inl hw, fun w hw => hw, fun u hu => by cases hu⟩
  | u :: rest, s => by
    unfold Playfair.collect_units
    by_cases h : s.units_sorted.any (fun w => w.same u) = true
    · rw [if_pos h]
      obtain ⟨a1, a2, a3, a4, a5, a6⟩ := Playfair.collect_units_spec rest s
      refine ⟨a1, a2, a3, ?_, a5, ?_⟩
      · intro w hw
        rcases a4 w hw with k | k
        · exact Or.inl k
        · exact Or.inr (List.mem_cons_of_mem _ k)
      · intro v hv
        rcases List.mem_cons.1 hv with rfl | hv
        · obtain ⟨w, hw, hs⟩ := List.any_eq_true.1 h
          exact ⟨w, a5 w hw, hs⟩
        · exact a6 v hv
    · rw [if_neg h]
      obtain ⟨a1, a2, a3, a4, a5, a6⟩ := Playfair.collect_units_spec rest
        ((((({ s with units_sorted := s.units_sorted ++ [u] } : Playfair).freq_inc
          u.clear_text.1).freq_inc u.clear_text.2).freq_inc u.cipher_text.1).freq_inc
          u.cipher_text.2)
      refine ⟨a1, a2, a3, ?_, ?_, ?_⟩
      · intro w hw
        rcases a4 w hw with k | k
        · rcases List.mem_append.1 k with k | k
          · exact Or.inl k
          · rw [List.mem_singleton.1 k]
            exact Or.inr (List.mem_cons_self _ _)
        · exact Or.inr (List.mem_cons_of_mem _ k)
      · intro w hw
        exact a5 w (List.mem_append_left _ hw)
      · intro v hv
        rcases List.mem_cons.1 hv with rfl | hv
        · exact ⟨v, a5 v (List.mem_append_right _ (List.mem_singleton_self v)), v.same_self⟩
        · exact a6 v hv

theorem swap_first_set : ∀ (xs : List Char_Unit) (j : Nat) (x y : Char_Unit),
    xs[j]? = some y → (y :: xs.set j x).Perm (x :: xs)
  | [], _, _, _, h => by cases h
  | z :: zs, 0, x, y, h => by
    simp only [List.getElem?_cons_zero, Option.some.injEq] at h
    rw [h]
    exact List.Perm.swap _ _ _
  | z :: zs, j + 1, x, y, h => by
    simp only [List.getElem?_cons_succ] at h
    have ih := swap_first_set zs j x y h
    simp only [List.set_cons_succ]
    exact (List.Perm.swap z y _).trans (((List.Perm.cons z ih)).trans (List.Perm.swap x z _))

theorem swap_first_perm (l : List Char_Unit) (j : Nat) : (Playfair.swap_first l j).Perm l := by
  cases l with
  | nil => exact List.Perm.refl _
  | cons x xs =>
    cases j with
    | zero => exact List.Perm.refl _
    | succ j =>
      cases h : xs[j]? with
      | none =>
        simp only [Playfair.swap_first, h]
        exact List.Perm.refl _
      | some y =>
        simp only [Playfair.swap_first, h]
        exact swap_first_set xs j x y h

theorem Playfair.sort_units_perm (s : Playfair) (l : List Char_Unit) : (s.sort_units l).Perm l :=
  List.perm_insertionSort _ l

theorem Playfair.order_loop_spec : ∀ (k mode : Nat) (s : Playfair) (done rest : List Char_Unit),
    (Playfair.order_loop k mode s done rest).2.Perm (done ++ rest) ∧
    (Playfair.order_loop k mode s done rest).1.units = s.units ∧
    (Playfair.order_loop k mode s done rest).1.matrix = s.matrix ∧
    (Playfair.order_loop k mode s done rest).1.matrix_creation_point = s.matrix_creation_point
  | 0, _, s, done, rest => by
    unfold Playfair.order_loop
    exact ⟨List.Perm.refl _, rfl, rfl, rfl⟩
  | k + 1, mode, s, done, rest => by
    unfold Playfair.order_loop
    cases hf : s.find_move rest 6 mode with
    | none => exact ⟨List.Perm.refl _, rfl, rfl, rfl⟩
    | some j =>
      dsimp only
      have hp := swap_first_perm rest j
      cases hsw : Playfair.swap_first rest j with
      | nil =>
        rw [hsw] at hp
        rw [hp.symm.eq_nil, List.append_nil]
        exact ⟨List.Perm.refl _, rfl, rfl, rfl⟩
      | cons y tail =>
        rw [hsw] at hp
        dsimp only
        obtain ⟨a1, a2, a3, a4⟩ := Playfair.order_loop_spec k 0 (s.mark_unit y) (done ++ [y])
          ((s.mark_unit y).sort_units tail)
        obtain ⟨b1, b2, b3⟩ := s.mark_unit_frame y
        refine ⟨?_, a2.trans b1, a3.trans b2, a4.trans b3⟩
        refine a1.trans ?_
        rw [List.append_assoc]
        refine List.Perm.append_left done ?_
        exact (List.Perm.cons y ((s.mark_unit y).sort_units_perm tail)).trans hp

/-- What `Playfair::set_clear_set` does before the first `process_set` leaves
the committed units, the matrix and the creation point as they are, and
`_units_sorted` then holds units of `_units`, with each unit of `_units` the
same as one of them. -/
theorem Playfair.prepare_units_spec (s : Playfair) :
    s.prepare_units.units = s.units ∧ s.prepare_units.matrix = s.matrix ∧
    s.prepare_units.matrix_creation_point = s.matrix_creation_point ∧
    (∀ w ∈ s.prepare_units.units_sorted, w ∈ s.units) ∧
    (∀ u ∈ s.units, ∃ w ∈ s.prepare_units.units_sorted, w.same u = true) := by
  obtain ⟨a1, a2, a3, a4, _, a6⟩ := Playfair.collect_units_spec s.units
    { s.clear_char_info with units_sorted := [] }
  obtain ⟨b1, b2, b3, b4⟩ := Playfair.order_loop_spec
    (Playfair.collect_units { s.clear_char_info with units_sorted := [] }
      s.units).units_sorted.length 4
    (Playfair.collect_units { s.clear_char_info with units_sorted := [] } s.units) []
    ((Playfair.collect_units { s.clear_char_info with units_sorted := [] } s.units).sort_units
      (Playfair.collect_units { s.clear_char_info with units_sorted := [] } s.units).units_sorted)
  rw [List.nil_append] at b1
  have hperm := b1.trans (Playfair.sort_units_perm _ _)
  unfold Playfair.prepare_units
  dsimp only
  refine ⟨b2.trans a1, b3.trans a2, b4.trans a3, ?_, ?_⟩
  · intro w hw
    rcases a4 w (hperm.mem_iff.1 hw) with k | k
    · cases k
    · exact k
  · intro u hu
    obtain ⟨w, hw, hs⟩ := a6 u hu
    exact ⟨w, hperm.mem_iff.2 hw, hs⟩

theorem last_letter_safe {τ : Type} (I : τ → Prop) (P : Matrix → Prop) (rules : Rules)
    (clear cipher : Str) : Safe I P (last_letter rules clear cipher) := by
  intro m t hP hI
  unfold last_letter
  by_cases he : clear.length % 2 = 0
  · rw [if_pos he]
    exact ⟨rfl, hI⟩
  · rw [if_neg he]
    exact set_clear_safe I P (fun _ => True) rules _ true (fun m t => (true, m, t))
      (fun m t _ hI => ⟨rfl, hI⟩) (fun _ _ _ _ _ => trivial) (fun _ _ _ => trivial) m t hP hI

theorem Playfair.matrix_eta (s : Playfair) (m : Matrix) (h : s.matrix = m) :
    { s with matrix := m } = s := by
  cases s
  simp only at h
  rw [h]

/-- The first `process_set` of `Playfair::set_clear_set` leaves the matcher and
the state of the rest of the program as they are after the preparation. -/
theorem set_clear_set_first {σ : Type} (clear cipher : Str) (s : Playfair) (x : σ)
    (hm : s.matrix = Matrix.init) (hne : s.units ≠ []) (hpr : ∀ u ∈ s.units, u.Proper) :
    run (process_set Rules.init s.prepare_units.units_sorted
        (last_letter Rules.init clear cipher)) s.prepare_units x =
      ((process_set Rules.init s.prepare_units.units_sorted
        (last_letter Rules.init clear cipher) Matrix.init (s.prepare_units, x)).1,
        s.prepare_units, x) ∧
    s.prepare_units.units_sorted ≠ [] ∧ (∀ u ∈ s.prepare_units.units_sorted, u.Proper) := by
  obtain ⟨p1, p2, p3, p4, p5⟩ := s.prepare_units_spec
  have hne2 : s.prepare_units.units_sorted ≠ [] := by
    obtain ⟨u, rest, hu⟩ := List.exists_cons_of_ne_nil hne
    obtain ⟨w, hw, _⟩ := p5 u (by rw [hu]; exact List.mem_cons_self _ _)
    exact List.ne_nil_of_mem hw
  have hpr2 : ∀ u ∈ s.prepare_units.units_sorted, u.Proper := fun u hu => hpr u (p4 u hu)
  have hmat : s.prepare_units.matrix = Matrix.init := p2.trans hm
  obtain ⟨r1, r2⟩ := process_set_safe (fun t : Playfair × σ => t = (s.prepare_units, x))
    s.prepare_units.units_sorted hne2 hpr2 (last_letter Rules.init clear cipher)
    (last_letter_safe _ _ _ _ _) (s.prepare_units, x) rfl
  refine ⟨?_, hne2, hpr2⟩
  unfold run
  dsimp only
  rw [hmat, r1, r2]
  dsimp only
  rw [Playfair.matrix_eta _ _ hmat]

theorem Solvable.of_sorted {s : Playfair} (hpr : ∀ u ∈ s.units, u.Proper) (m : Matrix)
    (h : Placed Rules.init s.prepare_units.units_sorted m) : Solvable s.units := by
  obtain ⟨_, _, _, p4, p5⟩ := s.prepare_units_spec
  refine ⟨m, h.1, ?_⟩
  intro u hu
  obtain ⟨w, hw, hs⟩ := p5 u hu
  exact (h.2 w hw).of_same h.1 (hpr w (p4 w hw)).1 hs

/-- What `Playfair::set_clear_set` does, started on the empty matrix with
proper committed units. -/
theorem set_clear_set_spec {σ : Type} (clear cipher : Str) (f : Test σ) (n : Next σ)
    (s : Playfair) (x : σ) (hm : s.matrix = Matrix.init) (hne : s.units ≠ [])
    (hpr : ∀ u ∈ s.units, u.Proper) :
    (¬ Solvable s.units →
      set_clear_set Rules.init clear cipher f n s x = (s.prepare_units, x)) ∧
    (Solvable s.units → clear.length % 2 = 0 → clear.length < s.matrix_creation_point →
      set_clear_set Rules.init clear cipher f n s x = n s.prepare_units x) ∧
    (clear.length < s.matrix_creation_point →
      set_clear_set Rules.init clear cipher f n s x = (s.prepare_units, x) ∨
      set_clear_set Rules.init clear cipher f n s x = n s.prepare_units x) := by
  obtain ⟨hrun, hne2, hpr2⟩ := set_clear_set_first clear cipher s x hm hne hpr
  obtain ⟨p1, p2, p3, p4, p5⟩ := s.prepare_units_spec
  have hfalse : (process_set Rules.init s.prepare_units.units_sorted
      (last_letter Rules.init clear cipher) Matrix.init (s.prepare_units, x)).1 = false →
      set_clear_set Rules.init clear cipher f n s x = (s.prepare_units, x) := by
    intro hv
    unfold set_clear_set
    dsimp only
    rw [hrun]
    dsimp only
    rw [if_pos hv]
  have htrue : (process_set Rules.init s.prepare_units.units_sorted
      (last_letter Rules.init clear cipher) Matrix.init (s.prepare_units, x)).1 = true →
      clear.length < s.matrix_creation_point →
      set_clear_set Rules.init clear cipher f n s x = n s.prepare_units x := by
    intro hv hlt
    unfold set_clear_set
    dsimp only
    rw [hrun]
    dsimp only
    rw [if_neg (by rw [hv]; exact Bool.noConfusion), if_pos (by rw [p3]; exact hlt)]
  refine ⟨?_, ?_, ?_⟩
  · intro hns
    apply hfalse
    by_contra hv
    rw [Bool.not_eq_false] at hv
    obtain ⟨m, hP⟩ := process_set_sound s.prepare_units.units_sorted hne2 hpr2 _
      (last_letter_safe _ _ _ _ _) _ hv
    exact hns (Solvable.of_sorted hpr m hP)
  · rintro ⟨M, hM, henc⟩ heven hlt
    apply htrue _ hlt
    obtain ⟨w, rest, hw⟩ := List.exists_cons_of_ne_nil hne2
    have hw0 : M.rev (firstLetter s.prepare_units.units_sorted) ≠ UNSET := by
      rw [hw]
      exact (henc w (p4 w (by rw [hw]; exact List.mem_cons_self _ _))).1.1
    obtain ⟨ρ, hL, h0, hlay⟩ := layout_of_square M hM s.prepare_units.units_sorted hpr2
      (fun u hu => henc u (p4 u hu)) _ hw0
    exact process_set_hits ρ hL _ (fun u hu => ⟨hpr2 u hu, hlay u hu⟩) h0 hne2 _
      (last_letter_safe _ _ _ _ _)
      (by
        intro m t _ _
        unfold last_letter
        rw [if_pos heven])
      _
  · intro hlt
    cases hv : (process_set Rules.init s.prepare_units.units_sorted
      (last_letter Rules.init clear cipher) Matrix.init (s.prepare_units, x)).1 with
    | false => exact Or.inl (hfalse hv)
    | true => exact Or.inr (htrue hv hlt)

theorem test_gate {σ : Type} (fuel : Nat) (clear cipher : Str) (next : Next σ)
    (s : Playfair) (x : σ) (hi : s.i_clear = 0) (hc : s.i_cipher = 0) :
    test Rules.init (fuel + 1) clear cipher next s x =
      if 16 ≤ clear.length ∨ (6 ≤ clear.length ∧ clear.length % 2 = 0) then
        set_clear_set Rules.init clear cipher
          (fun p y => (false, test Rules.init fuel clear cipher next p y)) next s x
      else next s x := by
  have h1 : ¬ ((s.i_cipher + 1) % SIZE_MOD * 2 % SIZE_MOD ≤ s.i_clear) := by
    rw [hi, hc]
    decide
  have h3 : ¬ (0 < s.i_clear ∧ s.i_clear < clear.length) := by
    rw [hi]
    exact fun h => absurd h.1 (Nat.lt_irrefl 0)
  rw [test, if_neg h1]
  by_cases h2 : 16 ≤ clear.length ∨ (6 ≤ clear.length ∧ clear.length % 2 = 0)
  · rw [if_pos ⟨hi, h2⟩, if_pos h2]
  · rw [if_neg (fun h => h2 h.2), if_neg h2, if_neg h3]

theorem abcdSquare_consistent : abcdSquare.Consistent := by
  have h1 := Matrix.consistent_init.add 0 97 (by decide) rfl (by decide)
  have h2 := h1.1.add 1 99 (by decide) (by decide) (by decide)
  have h3 := h2.1.add 5 100 (by decide) (by decide) (by decide)
  exact (h3.1.add 6 98 (by decide) (by decide) (by decide)).1

set_option maxRecDepth 100000 in
theorem abcdSquare_encrypts : Encrypts Rules.init abcdSquare abcd := by
  have h := (Rules.init_tables 0 6 (by decide) (by decide) (by decide)).1
  refine ⟨by decide, by decide, by decide, by decide, ?_⟩
  exact h

theorem solvable_abcd (n : Nat) : Solvable (List.replicate n abcd) :=
  ⟨abcdSquare, abcdSquare_consistent, fun u hu => by
    rw [List.eq_of_mem_replicate hu]; exact abcdSquare_encrypts⟩

theorem not_solvable_abxx (l : List Char_Unit) : ¬ Solvable (abxx :: l) := by
  rintro ⟨M, hM, henc⟩
  obtain ⟨⟨a1, a2⟩, ⟨b1, b2⟩, _, _, e⟩ := henc abxx (List.mem_cons_self _ _)
  have hne : M.rev abxx.clear_text.1 ≠ M.rev abxx.clear_text.2 := by
    intro h
    rw [h, b2] at a2
    exact absurd a2 (by decide)
  have la := (hM.rev_val _ a1).1
  have lb := (hM.rev_val _ b1).1
  rw [(Rules.init_tables _ _ la lb hne).1] at e
  have h3 := (encrypt_facts _ la _ lb hne).2.2.1
  rw [e] at h3
  exact h3 rfl

end playfair

/-- C30, amended: with `_i_clear = 0` and `_i_cipher = 0`, `Playfair::test`
(with fuel for at least one call) does what `set_clear_set` does exactly when
`|clear| >= 16`, or `|clear| >= 6` and `|clear|` is even, and for every other
length it returns what one call of `next` on the unchanged matcher returns.
When it assembles, started on the empty matrix with committed units (at least
one) in each of which the two plaintext letters differ, the two ciphertext
letters differ and no letter is the blank, then the committed units, the
matrix and the creation point are left as they are, and: if no consistent
square encrypts the committed units, `next` is not called (the result is the
prepared matcher and the unchanged state of the rest of the program); if one
does, `|clear|` is even and `|clear| < matrix_creation_point`, the result is
that of one call of `next` on the prepared matcher; and for every
`|clear| < matrix_creation_point`, even or odd, `next` is called once or not
at all. -/
theorem playfair_test_assembles {σ : Type} (fuel : Nat) (clear cipher : Str) (next : Next σ)
    (s : Playfair) (x : σ) (hi : s.i_clear = 0) (hc : s.i_cipher = 0) :
    (¬ (16 ≤ clear.length ∨ (6 ≤ clear.length ∧ clear.length % 2 = 0)) →
      test Rules.init (fuel + 1) clear cipher next s x = next s x) ∧
    ((16 ≤ clear.length ∨ (6 ≤ clear.length ∧ clear.length % 2 = 0)) →
      test Rules.init (fuel + 1) clear cipher next s x =
        set_clear_set Rules.init clear cipher
          (fun p y => (false, test Rules.init fuel clear cipher next p y)) next s x ∧
      (s.matrix = Matrix.init → s.units ≠ [] → (∀ u ∈ s.units, u.Proper) →
        (s.prepare_units.units = s.units ∧ s.prepare_units.matrix = s.matrix ∧
          s.prepare_units.matrix_creation_point = s.matrix_creation_point) ∧
        (¬ Solvable s.units →
          test Rules.init (fuel + 1) clear cipher next s x = (s.prepare_units, x)) ∧
        (Solvable s.units → clear.length % 2 = 0 → clear.length < s.matrix_creation_point →
          test Rules.init (fuel + 1) clear cipher next s x = next s.prepare_units x) ∧
        (clear.length < s.matrix_creation_point →
          test Rules.init (fuel + 1) clear cipher next s x = (s.prepare_units, x) ∨
          test Rules.init (fuel + 1) clear cipher next s x = next s.prepare_units x))) := by
  have hg := test_gate fuel clear cipher next s x hi hc
  constructor
  · intro h
    rw [hg, if_neg h]
  · intro h
    rw [if_pos h] at hg
    refine ⟨hg, ?_⟩
    intro hm hne hpr
    obtain ⟨p1, p2, p3, _, _⟩ := s.prepare_units_spec
    rw [hg]
    exact ⟨⟨p1, p2, p3⟩, set_clear_set_spec clear cipher _ next s x hm hne hpr⟩

set_option maxRecDepth 1000000 in
/-- Witness for `playfair_test_assembles`: on the plaintext "ababab" with the
ciphertext "cdcdcd" and the three committed units "ab" to "cd", which the
square with 'a', 'c', 'd', 'b' in the cells 0, 1, 5, 6 encrypts, `test` calls
the counting callback once. -/
theorem playfair_test_assembles_witness :
    (test Rules.init 1 evenClear evenCipher tally
      { Playfair.init 20 with units := List.replicate 3 abcd } 0).2 = 1 := by
  have h := ((playfair_test_assembles 0 evenClear evenCipher tally
    { Playfair.init 20 with units := List.replicate 3 abcd } 0 rfl rfl).2
    (by decide)).2 rfl (by decide) (by decide)
  rw [h.2.2.1 (solvable_abcd 3) (by decide) (by decide)]
  rfl

set_option maxRecDepth 1000000 in
/-- C30, as stated, fails in its last sentence, both ways. After the pushes of
the 17 letters "ababababababababb" against the ciphertext "cdcd..." the
matcher has `_i_clear = 0 = _i_cipher`, the creation point 20 above the 17 and
eight committed units "ab" to "cd", which a consistent square encrypts; yet
`test` calls `next` not once but never, because the last plaintext letter 'b'
cannot stand where the pair "cd" wants it. After the pushes of "ababab"
against "xxxxxx" no consistent square encrypts the three committed units "ab"
to "xx", yet `test` calls `next` once. -/
theorem playfair_test_next_miscounted :
    (16 ≤ oddClear.length ∧
      probe oddClear oddCipher = some (0, 0, List.replicate 8 abcd, 20, 0) ∧
      Solvable (List.replicate 8 abcd)) ∧
    ((6 ≤ evenClear.length ∧ evenClear.length % 2 = 0) ∧
      probe evenClear doubledCipher = some (0, 0, List.replicate 3 abxx, 20, 1) ∧
      ¬ Solvable (List.replicate 3 abxx)) :=
  ⟨⟨by decide, by decide, playfair.solvable_abcd 8⟩,
   ⟨by decide, by decide, playfair.not_solvable_abxx _⟩⟩

end PlayfairTest

section PlayfairTables
open playfair

namespace playfair

theorem sorted_eraseReps_loop : ∀ (l : List Nat) (a : Nat) (rs : List Nat),
    List.Sorted (· ≤ ·) (a :: l) → List.Sorted (· < ·) rs.reverse → (∀ x ∈ rs, x < a) →
    List.Sorted (· < ·) (List.eraseReps.loop a l rs)
  | [], a, rs, _, h2, h3 => by
    unfold List.eraseReps.loop
    rw [List.reverse_cons]
    unfold List.Sorted
    rw [List.pairwise_append]
    refine ⟨h2, List.pairwise_singleton _ _, ?_⟩
    intro x hx y hy
    rw [List.mem_singleton.1 hy]
    exact h3 x (List.mem_reverse.1 hx)
  | b :: l, a, rs, h1, h2, h3 => by
    have hab : a ≤ b := List.rel_of_sorted_cons h1 b (List.mem_cons_self _ _)
    have hs : List.Sorted (· ≤ ·) (b :: l) := List.Sorted.of_cons h1
    unfold List.eraseReps.loop
    by_cases e : a = b
    · subst e
      simp only [beq_self_eq_true]
      exact sorted_eraseReps_loop l a rs hs h2 h3
    · have e2 : (a == b) = false := by simpa using e
      simp only [e2]
      have hlt : a < b := lt_of_le_of_ne hab e
      apply sorted_eraseReps_loop l b (a :: rs) hs
      · rw [List.reverse_cons]
        unfold List.Sorted
        rw [List.pairwise_append]
        refine ⟨h2, List.pairwise_singleton _ _, ?_⟩
        intro x hx y hy
        rw [List.mem_singleton.1 hy]
        exact h3 x (List.mem_reverse.1 hx)
      · intro x hx
        rcases List.mem_cons.1 hx with rfl | hx
        · exact hlt
        · exact lt_trans (h3 x hx) hlt

/-- The list that `Rules::make_unique` leaves is strictly increasing. -/
theorem sorted_make_unique (l : Position_List) : List.Sorted (· < ·) (Rules.make_unique l) := by
  unfold Rules.make_unique
  have hs : List.Sorted (· ≤ ·) (List.insertionSort (fun a b : Nat => a ≤ b) l) :=
    List.sorted_insertionSort (fun a b : Nat => a ≤ b) l
  revert hs
  generalize List.insertionSort (fun a b : Nat => a ≤ b) l = k
  intro hs
  cases k with
  | nil => exact List.sorted_nil
  | cons a k =>
    unfold List.eraseReps
    exact sorted_eraseReps_loop k a [] hs List.sorted_nil (fun _ h => by cases h)

theorem Rules.short_record (r : Rules) (_ : Nat → Nat → Prop) (a b : Nat)
    (_ : a < 25) (_ : b < 25) (h : ∀ i j, (r.rboth_list i j).length ≤ 1) :
    ∀ i j, ((r.record a b).rboth_list i j).length ≤ 1 := by
  intro i j
  unfold Rules.record
  by_cases hab : a ≠ b
  · rw [if_pos hab]
    simp only
    rw [setCell_apply]
    split_ifs
    · exact Nat.le_refl 1
    · exact h i j
  · rw [if_neg hab]
    exact h i j

/-- Every entry of `_rboth_list` holds at most one cell. -/
theorem Rules.init_rboth_short (i j : Nat) : (Rules.init.rboth_list i j).length ≤ 1 := by
  have h := Rules.fill_induct (fun r _ => ∀ i j, (r.rboth_list i j).length ≤ 1)
    (fun r M a b ha hb h => Rules.short_record r M a b ha hb h)
    { Rules.blank with none_list := List.range MATRIX_SIZE }
    (fun _ _ => Nat.zero_le 1)
  unfold Rules.init
  dsimp only
  exact h i j

theorem sorted_of_short (l : List Nat) (h : l.length ≤ 1) : List.Sorted (· < ·) l := by
  cases l with
  | nil => exact List.sorted_nil
  | cons a k =>
    cases k with
    | nil => exact List.sorted_singleton a
    | cons b k =>
      simp only [List.length_cons] at h
      omega

theorem Rules.init_none_list : Rules.init.none_list = List.range 25 := by
  have h0 : ({ Rules.blank with none_list := List.range MATRIX_SIZE } : Rules).Listed
      (fun _ _ => False) := ⟨fun _ _ h => h.elim, fun _ _ h => h.elim, rfl⟩
  have h := (Rules.fill_induct Rules.Listed Rules.listed_record _ h0).2.2
  have hr : List.range MATRIX_SIZE = List.range 25 := by decide
  rw [← hr]
  unfold Rules.init
  dsimp only
  exact h

theorem Rules.init_rboth (a b : Nat) (ha : a < 25) (hb : b < 25) (hab : a ≠ b) :
    Rules.init.rboth_list (encrypt a b).1 (encrypt a b).2 = [a] := by
  have h0 : ({ Rules.blank with none_list := List.range MATRIX_SIZE } : Rules).Listed
      (fun _ _ => False) := ⟨fun _ _ h => h.elim, fun _ _ h => h.elim, rfl⟩
  have h := ((Rules.fill_induct Rules.Listed Rules.listed_record _ h0).2.1 a b ⟨ha, hb⟩ hab).2.2
  unfold Rules.init
  dsimp only
  exact h

/-- Every list that `Rules::get_rpositions` returns is strictly increasing. -/
theorem Rules.sorted_rpositions (ch1 ch2 : Chr) (m : Matrix) :
    List.Sorted (· < ·) (Rules.init.get_rpositions ch1 ch2 m) := by
  unfold Rules.get_rpositions
  dsimp only
  split_ifs
  · exact sorted_of_short _ (Rules.init_rboth_short _ _)
  · unfold Rules.init
    dsimp only
    exact sorted_make_unique _
  · unfold Rules.init
    dsimp only
    exact sorted_make_unique _
  · rw [Rules.init_none_list]
    exact List.sorted_lt_range 25

end playfair

/-- C31: the reverse position lists are complete. For all cells `a ≠ b` with
`change(a, b) = (na, nb)` and any matrix: if `ch1` is placed at `na` and `ch2`
at `nb`, `get_rpositions(ch1, ch2, m)` is exactly the list of `a`; if only
`ch1` is placed, at `na`, it is `_rself_list[na]` and contains `a`; if only
`ch2` is placed, at `nb`, it is `_ropp_list[nb]` and contains `a`; if neither
is placed, it is the list of all 25 cells; and every list that
`get_rpositions` returns is strictly increasing, that is sorted without
duplicates. -/
theorem rules_rpositions_complete (a b : Nat) (ha : a < 25) (hb : b < 25) (hab : a ≠ b)
    (ch1 ch2 : Chr) (m : Matrix) :
    (m.rev ch1 = (Rules.init.change a b).1 → m.rev ch2 = (Rules.init.change a b).2 →
      Rules.init.get_rpositions ch1 ch2 m = [a]) ∧
    (m.rev ch1 = (Rules.init.change a b).1 → m.rev ch2 = UNSET →
      Rules.init.get_rpositions ch1 ch2 m = Rules.init.rself_list (Rules.init.change a b).1 ∧
      a ∈ Rules.init.get_rpositions ch1 ch2 m) ∧
    (m.rev ch1 = UNSET → m.rev ch2 = (Rules.init.change a b).2 →
      Rules.init.get_rpositions ch1 ch2 m = Rules.init.ropp_list (Rules.init.change a b).2 ∧
      a ∈ Rules.init.get_rpositions ch1 ch2 m) ∧
    (m.rev ch1 = UNSET → m.rev ch2 = UNSET →
      Rules.init.get_rpositions ch1 ch2 m = List.range 25) ∧
    List.Sorted (· < ·) (Rules.init.get_rpositions ch1 ch2 m) := by
  obtain ⟨h1, h2, _, _⟩ := encrypt_facts a ha b hb hab
  obtain ⟨_, l2, l3, _⟩ := Rules.init_lists a b ha hb hab
  have n1 : (encrypt a b).1 ≠ UNSET := by unfold UNSET; omega
  have n2 : (encrypt a b).2 ≠ UNSET := by unfold UNSET; omega
  rw [(Rules.init_tables a b ha hb hab).1]
  refine ⟨?_, ?_, ?_, ?_, Rules.sorted_rpositions ch1 ch2 m⟩
  · intro e1 e2
    unfold Rules.get_rpositions
    simp only [e1, e2, n1, n2, ne_eq, not_false_eq_true, decide_True, Bool.and_self, if_true]
    exact Rules.init_rboth a b ha hb hab
  · intro e1 e2
    have e : Rules.init.get_rpositions ch1 ch2 m = Rules.init.rself_list (encrypt a b).1 := by
      unfold Rules.get_rpositions
      simp only [e1, e2, n1, ne_eq, not_false_eq_true, not_true_eq_false, decide_True,
        decide_False, Bool.and_false, Bool.false_eq_true, if_false, if_true]
    rw [e]
    exact ⟨rfl, l2⟩
  · intro e1 e2
    have e : Rules.init.get_rpositions ch1 ch2 m = Rules.init.ropp_list (encrypt a b).2 := by
      unfold Rules.get_rpositions
      simp only [e1, e2, n2, ne_eq, not_false_eq_true, not_true_eq_false, decide_True,
        decide_False, Bool.false_and, Bool.false_eq_true, if_false, if_true]
    rw [e]
    exact ⟨rfl, l3⟩
  · intro e1 e2
    unfold Rules.get_rpositions
    simp only [e1, e2, ne_eq, not_true_eq_false, decide_False, Bool.and_self,
      Bool.false_eq_true, if_false]
    exact Rules.init_none_list

set_option maxRecDepth 100000 in
/-- Witness for `rules_rpositions_complete`: for the cells 0 and 6, which
`change` sends to the cells 1 and 5, and the matrix that holds 'c' in the cell
1 and 'd' in the cell 5, `get_rpositions('c', 'd', m)` is the list of the
cell 0. -/
theorem rules_rpositions_complete_witness :
    Rules.init.get_rpositions 99 100 abcdSquare = [0] :=
  (rules_rpositions_complete 0 6 (by decide) (by decide) (by decide) 99 100 abcdSquare).1
    (by
      rw [(Rules.init_tables 0 6 (by decide) (by decide) (by decide)).1]
      decide)
    (by
      rw [(Rules.init_tables 0 6 (by decide) (by decide) (by decide)).1]
      decide)

end PlayfairTables

section PlayfairTranslation
open playfair

namespace playfair

/-- A shifted consistent square is an assignment of cells to letters that lays
every unit the square encrypts. -/
theorem Matrix.shifted_layout (M : Matrix) (hM : M.Consistent) (units : List Char_Unit)
    (hpr : ∀ u ∈ units, u.Proper) (henc : ∀ u ∈ units, Encrypts Rules.init M u)
    (dy dx : Nat) :
    Layout (M.shifted dy dx) ∧ ∀ u ∈ units, Lays (M.shifted dy dx) u := by
  have hρ : ∀ c, M.rev c ≠ UNSET → M.shifted dy dx c = shift dy dx (M.rev c) :=
    fun c hc => if_neg hc
  have hun : ∀ p, shift dy dx p ≠ UNSET := by
    intro p
    have := shift_lt dy dx p
    unfold UNSET
    omega
  constructor
  · intro c hc
    by_cases e : M.rev c = UNSET
    · exact absurd (if_pos e) hc
    · rw [hρ c e]
      refine ⟨shift_lt _ _ _, ?_⟩
      intro d hd
      by_cases e2 : M.rev d = UNSET
      · have h2 : M.shifted dy dx d = UNSET := if_pos e2
        rw [h2] at hd
        exact absurd hd.symm (hun _)
      · rw [hρ d e2] at hd
        have h1 := shift_inj _ _ _ _ (hM.rev_val d e2).1 (hM.rev_val c e).1 hd
        have h2 := (hM.rev_val d e2).2
        rw [h1, (hM.rev_val c e).2] at h2
        exact h2.symm
  · intro u hu
    obtain ⟨⟨a1, a2⟩, ⟨b1, b2⟩, ⟨c1, _⟩, ⟨d1, _⟩, e⟩ := henc u hu
    have hne : M.rev u.clear_text.1 ≠ M.rev u.clear_text.2 := by
      intro h
      rw [h, b2] at a2
      exact (hpr u hu).1 a2.symm
    have la := (hM.rev_val _ a1).1
    have lb := (hM.rev_val _ b1).1
    rw [(Rules.init_tables _ _ la lb hne).1] at e
    unfold Lays
    rw [hρ _ a1, hρ _ b1, hρ _ c1, hρ _ d1]
    refine ⟨hun _, hun _, hun _, hun _, ?_⟩
    rw [encrypt_shift _ _ _ _ la lb, e]

theorem shift_home (p : Nat) (hp : p < 25) :
    shift ((5 - p / 5) % 5) ((5 - p % 5) % 5) p = 0 := by
  unfold shift MATRIX_SIDE_SIZE
  omega

end playfair

/-- C36: `Rules::change` commutes with the cyclic translations of the 5x5 grid:
for all shifts `dy`, `dx`, with `T(cell) = ((row + dy) mod 5) * 5 +
((col + dx) mod 5)`, and all cells `a ≠ b`, `change(T(a), T(b)) = (T(na),
T(nb))` where `(na, nb) = change(a, b)`. Hence pinning the first plaintext
letter of the first unit to the cell 0 loses no key square up to translation:
for every consistent square that encrypts the units (a non-empty list, in each
unit the letters of either pair differ and none is the blank) there are shifts
`dy`, `dx` in 0..4 such that the shifted square has that letter in the cell 0
and still encrypts every unit, and `process_set`, started on the empty matrix,
answers `true` for every continuation that leaves the matrix as it found it
and answers `true` on the matrices that lie inside the shifted square and
encrypt the units. -/
theorem rules_change_translation :
    (∀ dy dx a b : Nat, a < 25 → b < 25 → a ≠ b →
      Rules.init.change (shift dy dx a) (shift dy dx b) =
        (shift dy dx (Rules.init.change a b).1, shift dy dx (Rules.init.change a b).2)) ∧
    (∀ (units : List Char_Unit) (M : Matrix), units ≠ [] → (∀ u ∈ units, u.Proper) →
      M.Consistent → (∀ u ∈ units, Encrypts Rules.init M u) →
      ∃ dy, dy < 5 ∧ ∃ dx, dx < 5 ∧
        M.shifted dy dx (firstLetter units) = 0 ∧
        Layout (M.shifted dy dx) ∧ (∀ u ∈ units, Lays (M.shifted dy dx) u) ∧
        ∀ (σ : Type) (f : Cont σ) (s : σ),
          Safe (fun _ => True) (Placed Rules.init units) f →
          HitsOn (M.shifted dy dx) (Placed Rules.init units) f →
          (process_set Rules.init units f Matrix.init s).1 = true) := by
  constructor
  · intro dy dx a b ha hb hab
    obtain ⟨h1, h2, h3, _⟩ := encrypt_facts a ha b hb hab
    have hne : shift dy dx a ≠ shift dy dx b := fun h => hab (shift_inj _ _ _ _ ha hb h)
    rw [(Rules.init_tables a b ha hb hab).1,
      (Rules.init_tables _ _ (shift_lt _ _ _) (shift_lt _ _ _) hne).1]
    exact encrypt_shift dy dx a b ha hb
  · intro units M hne hpr hM henc
    obtain ⟨w, rest, hw⟩ := List.exists_cons_of_ne_nil hne
    have hw0 : M.rev (firstLetter units) ≠ UNSET := by
      rw [hw]
      exact (henc w (by rw [hw]; exact List.mem_cons_self _ _)).1.1
    have hlt := (hM.rev_val _ hw0).1
    obtain ⟨hL, hlay⟩ := M.shifted_layout hM units hpr henc
      ((5 - M.rev (firstLetter units) / 5) % 5) ((5 - M.rev (firstLetter units) % 5) % 5)
    have h0 : M.shifted ((5 - M.rev (firstLetter units) / 5) % 5)
        ((5 - M.rev (firstLetter units) % 5) % 5) (firstLetter units) = 0 := by
      unfold Matrix.shifted
      rw [if_neg hw0]
      exact shift_home _ hlt
    refine ⟨_, Nat.mod_lt _ (by decide), _, Nat.mod_lt _ (by decide), h0, hL, hlay, ?_⟩
    intro σ f s hf hhit
    exact process_set_hits _ hL units (fun u hu => ⟨hpr u hu, hlay u hu⟩) h0 hne f hf hhit s

set_option maxRecDepth 100000 in
/-- Witness for `rules_change_translation`: the cells 0 and 6, which `change`
sends to the cells 1 and 5, moved one row down and two columns to the right
are the cells 7 and 13, which `change` sends to the cells 8 and 12, the cells 1
and 5 moved the same way. -/
theorem rules_change_translation_witness :
    Rules.init.change (shift 1 2 0) (shift 1 2 6) =
      (shift 1 2 (Rules.init.change 0 6).1, shift 1 2 (Rules.init.change 0 6).2) :=
  rules_change_translation.1 1 2 0 6 (by decide) (by decide) (by decide)

end PlayfairTranslation

section PlayfairRestore
open playfair

namespace playfair

/-- The general form of `set_cipher_safe`: the continuation is invoked on a
consistent matrix that keeps every placed letter in its cell, and the matrix
is restored. -/
theorem set_cipher_keeps {σ : Type} (I : σ → Prop) (P Q : Matrix → Prop) (rules : Rules)
    (hcl : rules.Closed) (unit : Char_Unit) (hu : unit.Proper) (f : Cont σ) (hf : Safe I Q f)
    (hstep : ∀ m m2, P m → m2.Consistent → m.Extends m2 → Q m2) :
    Safe I (fun m => P m ∧ m.Consistent ∧ m.rev unit.clear_text.1 ≠ UNSET ∧
      m.rev unit.clear_text.2 ≠ UNSET) (set_cipher rules unit f) := by
  rintro m s ⟨hP, hcons, h1, h2⟩ hs
  obtain ⟨hc12, hw12, hc1, hc2, hw1, hw2⟩ := hu
  obtain ⟨hp1, hv1⟩ := hcons.rev_val _ h1
  obtain ⟨hp2, hv2⟩ := hcons.rev_val _ h2
  have hpne : m.rev unit.clear_text.1 ≠ m.rev unit.clear_text.2 := by
    intro e
    rw [e, hv2] at hv1
    exact hc12 hv1.symm
  obtain ⟨hq1, hq2, hqne⟩ := hcl _ _ hp1 hp2 hpne
  have finish : ∀ m2 : Matrix, m2.Consistent → m.Extends m2 → Q m2 :=
    fun m2 hc he => hstep m m2 hP hc he
  unfold set_cipher
  dsimp only
  by_cases E1 : m.valAt (rules.change (m.rev unit.clear_text.1) (m.rev unit.clear_text.2)).1
      = Matrix.EMPTY ∧ m.rev unit.cipher_text.1 = UNSET
  · by_cases E2 : m.valAt (rules.change (m.rev unit.clear_text.1) (m.rev unit.clear_text.2)).2
        = Matrix.EMPTY ∧ m.rev unit.cipher_text.2 = UNSET
    · simp only [E1.1, E1.2, E2.1, E2.2, decide_True, Bool.and_self, Bool.true_or, if_true]
      obtain ⟨a1, a2, a3, _⟩ := hcons.add _ _ E1.1 E1.2 hw1
      have hv2' : (m.add (rules.change (m.rev unit.clear_text.1) (m.rev unit.clear_text.2)).1
          unit.cipher_text.1).valAt
          (rules.change (m.rev unit.clear_text.1) (m.rev unit.clear_text.2)).2
          = Matrix.EMPTY := by
        rw [Matrix.valAt_add _ _ _ _ (Matrix.empty_lt E1.1), if_neg (Ne.symm hqne)]
        exact E2.1
      have hr2' : (m.add (rules.change (m.rev unit.clear_text.1) (m.rev unit.clear_text.2)).1
          unit.cipher_text.1).rev unit.cipher_text.2 = UNSET := by
        rw [Matrix.rev_add, if_neg (Ne.symm hw12)]
        exact E2.2
      obtain ⟨b1, b2, b3, _⟩ := a1.add _ _ hv2' hr2' hw2
      have hQ := finish _ b1 (a2.trans b2)
      obtain ⟨r1, r2⟩ := hf _ s hQ hs
      rw [r1]
      exact ⟨Matrix.remove_add_two m _ _ _ _ E1.1 E1.2 E2.1 E2.2, r2⟩
    · have E2' : (decide (m.valAt (rules.change (m.rev unit.clear_text.1)
          (m.rev unit.clear_text.2)).2 = Matrix.EMPTY) &&
          decide (m.rev unit.cipher_text.2 = UNSET)) = false := by
        simpa using E2
      simp only [E1.1, E1.2, E2', decide_True, Bool.and_self, Bool.true_or, if_true,
        Bool.false_or, Bool.false_eq_true, if_false]
      by_cases G2 : m.valAt (rules.change (m.rev unit.clear_text.1)
          (m.rev unit.clear_text.2)).2 = unit.cipher_text.2
      · simp only [G2, decide_True, if_true]
        obtain ⟨a1, a2, a3, _⟩ := hcons.add _ _ E1.1 E1.2 hw1
        have hQ := finish _ a1 a2
        obtain ⟨r1, r2⟩ := hf _ s hQ hs
        rw [r1]
        exact ⟨Matrix.remove_add_cell m _ _ E1.1 E1.2, r2⟩
      · simp only [G2, decide_False, Bool.false_eq_true, if_false]
        first | exact ⟨rfl, hs⟩ | exact ⟨trivial, hs⟩
  · have E1' : (decide (m.valAt (rules.change (m.rev unit.clear_text.1)
        (m.rev unit.clear_text.2)).1 = Matrix.EMPTY) &&
        decide (m.rev unit.cipher_text.1 = UNSET)) = false := by
      simpa using E1
    simp only [E1', Bool.false_or, Bool.false_eq_true, if_false]
    by_cases G1 : m.valAt (rules.change (m.rev unit.clear_text.1)
        (m.rev unit.clear_text.2)).1 = unit.cipher_text.1
    · simp only [G1, decide_True, if_true]
      by_cases E2 : m.valAt (rules.change (m.rev unit.clear_text.1)
          (m.rev unit.clear_text.2)).2 = Matrix.EMPTY ∧ m.rev unit.cipher_text.2 = UNSET
      · simp only [E2.1, E2.2, decide_True, Bool.and_self, Bool.true_or, if_true]
        obtain ⟨a1, a2, a3, _⟩ := hcons.add _ _ E2.1 E2.2 hw2
        have hQ := finish _ a1 a2
        obtain ⟨r1, r2⟩ := hf _ s hQ hs
        rw [r1]
        exact ⟨Matrix.remove_add_cell m _ _ E2.1 E2.2, r2⟩
      · have E2' : (decide (m.valAt (rules.change (m.rev unit.clear_text.1)
            (m.rev unit.clear_text.2)).2 = Matrix.EMPTY) &&
            decide (m.rev unit.cipher_text.2 = UNSET)) = false := by
          simpa using E2
        simp only [E2', Bool.false_or, Bool.false_eq_true, if_false]
        by_cases G2 : m.valAt (rules.change (m.rev unit.clear_text.1)
            (m.rev unit.clear_text.2)).2 = unit.cipher_text.2
        · simp only [G2, decide_True, if_true]
          have hQ := finish m hcons (Matrix.Extends.refl m)
          exact hf _ s hQ hs
        · simp only [G2, decide_False, Bool.false_eq_true, if_false]
          first | exact ⟨rfl, hs⟩ | exact ⟨trivial, hs⟩
    · simp only [G1, decide_False, Bool.false_eq_true, if_false]
      first | exact ⟨rfl, hs⟩ | exact ⟨trivial, hs⟩

/-- The step of `set_clear` on matrices that are consistent and keep the
letters of `m0` in their cells. -/
theorem keeps_add (m0 m : Matrix) (p : Nat) (ch : Chr) (h : m.Consistent ∧ m0.Extends m)
    (hr : m.rev ch = UNSET) (hv : m.valAt p = Matrix.EMPTY) (hne : ch ≠ Matrix.EMPTY) :
    ((m.add p ch).Consistent ∧ m0.Extends (m.add p ch)) ∧ (m.add p ch).rev ch ≠ UNSET ∧
      m.Extends (m.add p ch) := by
  obtain ⟨a1, a2, a3, a4⟩ := h.1.add p ch hv hr hne
  refine ⟨⟨a1, h.2.trans a2⟩, ?_, a2⟩
  rw [a3]; unfold UNSET; omega

theorem set_clear_keeps {σ : Type} (I : σ → Prop) (m0 : Matrix) (rules : Rules)
    (unit : Char_Unit) (hu : unit.Proper) (even : Bool) (f : Cont σ)
    (hf : Safe I (fun m => m.Consistent ∧ m0.Extends m) f) :
    Safe I (fun m => m.Consistent ∧ m0.Extends m) (set_clear rules unit even f) := by
  have hne : (if even then unit.clear_text.1 else unit.clear_text.2) ≠ Matrix.EMPTY := by
    cases even
    · exact hu.2.2.2.1
    · exact hu.2.2.1
  exact set_clear_safe I _ _ rules unit even f hf
    (fun m p hP hr hv => (keeps_add m0 m p _ hP hr hv hne).1)
    (fun m hP _ => hP)

theorem _process_set_keeps {σ : Type} (I : σ → Prop) (m0 : Matrix) (rules : Rules)
    (hcl : rules.Closed) (f : Cont σ) (hf : Safe I (fun m => m.Consistent ∧ m0.Extends m) f) :
    ∀ rest : List Char_Unit, (∀ u ∈ rest, u.Proper) →
      Safe I (fun m => m.Consistent ∧ m0.Extends m) (_process_set rules f rest)
  | [], _ => by
    intro m s hP hs
    unfold _process_set
    exact hf m s hP hs
  | u :: rest, hpr => by
    have hu := hpr u (List.mem_cons_self _ _)
    have ih := _process_set_keeps I m0 rules hcl f hf rest
      (fun v hv => hpr v (List.mem_cons_of_mem _ hv))
    have s3 := set_cipher_keeps I (fun m => m.Consistent ∧ m0.Extends m)
      (fun m => m.Consistent ∧ m0.Extends m) rules hcl u hu _ ih
      (fun m m2 hP hc he => ⟨hc, hP.2.trans he⟩)
    have s2 := set_clear_safe I
      (fun m => (m.Consistent ∧ m0.Extends m) ∧ m.rev u.clear_text.1 ≠ UNSET)
      (fun m => (m.Consistent ∧ m0.Extends m) ∧ m.Consistent ∧
        m.rev u.clear_text.1 ≠ UNSET ∧ m.rev u.clear_text.2 ≠ UNSET) rules u false _ s3
      (by
        rintro m p ⟨hP, h1⟩ hr hv
        simp only [Bool.false_eq_true, if_false] at hr ⊢
        obtain ⟨b1, b2, b3⟩ := keeps_add m0 m p u.clear_text.2 hP hr hv hu.2.2.2.1
        refine ⟨b1, b1.1, ?_, b2⟩
        rw [b3 _ h1]; exact h1)
      (by
        rintro m ⟨hP, h1⟩ hr
        exact ⟨hP, hP.1, h1, hr⟩)
    have s1 := set_clear_safe I (fun m => m.Consistent ∧ m0.Extends m)
      (fun m => (m.Consistent ∧ m0.Extends m) ∧ m.rev u.clear_text.1 ≠ UNSET) rules u true _ s2
      (by
        intro m p hP hr hv
        obtain ⟨b1, b2, _⟩ := keeps_add m0 m p u.clear_text.1 hP hr hv hu.2.2.1
        exact ⟨b1, b2⟩)
      (by
        intro m hP hr
        exact ⟨hP, hr⟩)
    intro m s hP hs
    unfold _process_set
    exact s1 m s hP hs

theorem recorder_keeps (verdict : Matrix → List Matrix → Bool) (P : Matrix → Prop) :
    Safe (fun s : List Matrix => ∀ m ∈ s, P m) P (recorder verdict) := by
  intro m s hP hs
  refine ⟨rfl, ?_⟩
  intro m2 hm2
  rcases List.mem_cons.1 hm2 with rfl | hm2
  · exact hP
  · exact hs m2 hm2

end playfair

/-- C37, amended: the key matrix is kept consistent and restored. Let the
matrix be consistent at the call (`val` and `rev` mutually inverse, the blank
unset), and let the two plaintext letters of each unit differ, its two
ciphertext letters differ and none of its letters be the blank. Then for
`set_clear`, for `set_cipher` called with both plaintext letters placed, and
for `process_set` called on a matrix whose cell 0 is empty and in which the
first plaintext letter is not placed: every matrix on which the continuation
is invoked is consistent and has every previously placed letter in its
previous cell, and when the call returns, with either result, the matrix
equals the matrix at the call. The continuation records the matrix, leaves it
as it found it and may answer as it likes. -/
theorem playfair_matrix_restored (verdict : Matrix → List Matrix → Bool) (m : Matrix)
    (hm : m.Consistent) :
    (∀ (u : Char_Unit) (even : Bool), u.Proper →
      (∀ m2 ∈ (set_clear Rules.init u even (recorder verdict) m []).2.2,
        m2.Consistent ∧ m.Extends m2) ∧
      (set_clear Rules.init u even (recorder verdict) m []).2.1 = m) ∧
    (∀ u : Char_Unit, u.Proper → m.rev u.clear_text.1 ≠ UNSET → m.rev u.clear_text.2 ≠ UNSET →
      (∀ m2 ∈ (set_cipher Rules.init u (recorder verdict) m []).2.2,
        m2.Consistent ∧ m.Extends m2) ∧
      (set_cipher Rules.init u (recorder verdict) m []).2.1 = m) ∧
    (∀ units : List Char_Unit, units ≠ [] → (∀ u ∈ units, u.Proper) →
      m.valAt 0 = Matrix.EMPTY → m.rev (firstLetter units) = UNSET →
      (∀ m2 ∈ (process_set Rules.init units (recorder verdict) m []).2.2,
        m2.Consistent ∧ m.Extends m2) ∧
      (process_set Rules.init units (recorder verdict) m []).2.1 = m) := by
  have hrec := recorder_keeps verdict (fun m2 => m2.Consistent ∧ m.Extends m2)
  have h0 : ∀ m2 ∈ ([] : List Matrix), m2.Consistent ∧ m.Extends m2 := fun _ h => by cases h
  have hself : m.Consistent ∧ m.Extends m := ⟨hm, Matrix.Extends.refl m⟩
  refine ⟨?_, ?_, ?_⟩
  · intro u even hu
    obtain ⟨r1, r2⟩ := set_clear_keeps _ m Rules.init u hu even _ hrec m [] hself h0
    exact ⟨r2, r1⟩
  · intro u hu h1 h2
    obtain ⟨r1, r2⟩ := set_cipher_keeps _ (fun m2 => m2.Consistent ∧ m.Extends m2) _ Rules.init
      Rules.closed_init u hu _ hrec (fun m1 m2 hP hc he => ⟨hc, hP.2.trans he⟩) m []
      ⟨hself, hm, h1, h2⟩ h0
    exact ⟨r2, r1⟩
  · intro units hne hpr hv hr
    obtain ⟨u, rest, rfl⟩ := List.exists_cons_of_ne_nil hne
    have hu := hpr u (List.mem_cons_self _ _)
    have hr' : m.rev u.clear_text.1 = UNSET := hr
    obtain ⟨b1, _, _⟩ := keeps_add m m 0 u.clear_text.1 hself hr' hv hu.2.2.1
    obtain ⟨r1, r2⟩ := _process_set_keeps _ m Rules.init Rules.closed_init _ hrec (u :: rest)
      hpr _ [] b1 h0
    unfold process_set
    dsimp only [firstLetter]
    rw [r1]
    exact ⟨r2, Matrix.remove_add_cell _ 0 _ hv hr'⟩

set_option maxRecDepth 1000000 in
/-- Witness for `playfair_matrix_restored`: `process_set`, started on the empty
matrix with the one unit "ab" to "cd", invokes the continuation once, on a
consistent matrix, and leaves the matrix empty. -/
theorem playfair_matrix_restored_witness :
    (process_set Rules.init [abcd] (recorder (fun _ _ => true)) Matrix.init []).2.2.length = 1 ∧
    (∀ m2 ∈ (process_set Rules.init [abcd] (recorder (fun _ _ => true)) Matrix.init []).2.2,
      m2.Consistent ∧ Matrix.init.Extends m2) ∧
    (process_set Rules.init [abcd] (recorder (fun _ _ => true)) Matrix.init []).2.1
      = Matrix.init :=
  ⟨by decide,
   (playfair_matrix_restored (fun _ _ => true) Matrix.init Matrix.consistent_init).2.2
     [abcd] (by decide) (by decide) (by decide) rfl⟩

set_option maxRecDepth 1000000 in
/-- C37, as stated, fails in two ways. In the unit "a " to "bc" the two
plaintext letters differ and the two ciphertext letters differ, and the empty
matrix is consistent; yet `process_set` invokes its continuation on a matrix
in which the blank and 'b' both have the cell 1: the blank, taken as a
plaintext letter, was given a cell that still counts as empty. And
`process_set`, called with the unit "ab" to "cd" on the consistent matrix that
holds 'z' in the cell 0, returns with the cell 0 empty: it writes its first
letter into the cell 0 whatever the cell holds. -/
theorem playfair_matrix_blank_or_occupied :
    (blankClear.clear_text.1 ≠ blankClear.clear_text.2 ∧
      blankClear.cipher_text.1 ≠ blankClear.cipher_text.2 ∧
      ∃ m ∈ (process_set Rules.init [blankClear] (recorder (fun _ _ => true))
          Matrix.init []).2.2,
        m.rev 32 = 1 ∧ m.rev 98 = 1 ∧ m.valAt 1 = 98) ∧
    ((Matrix.init.add 0 122).Consistent ∧ (Matrix.init.add 0 122).valAt 0 = 122 ∧
      (process_set Rules.init [abcd] (recorder (fun _ _ => true))
        (Matrix.init.add 0 122) []).2.1.valAt 0 = Matrix.EMPTY) :=
  ⟨by decide,
   (Matrix.consistent_init.add 0 122 (by decide) rfl (by decide)).1, by decide, by decide⟩

end PlayfairRestore

section SquareUnits
open playfair

namespace playfair

/-- A renaming that is injective on the letters of two units does not change
the outcome of `test_same_clear_cipher`. -/
theorem Char_Unit.test_same_clear_cipher_map (g : Chr → Chr) (S : Chr → Prop)
    (hg : ∀ x y, S x → S y → (g x = g y ↔ x = y)) (u v : Char_Unit)
    (u1 : S u.clear_text.1) (u2 : S u.clear_text.2) (u3 : S u.cipher_text.1)
    (u4 : S u.cipher_text.2) (v1 : S v.clear_text.1) (v2 : S v.clear_text.2)
    (v3 : S v.cipher_text.1) (v4 : S v.cipher_text.2) :
    (u.map g).test_same_clear_cipher (v.map g) = u.test_same_clear_cipher v := by
  obtain ⟨⟨a, b⟩, ⟨c, d⟩⟩ := u
  obtain ⟨⟨a', b'⟩, ⟨c', d'⟩⟩ := v
  simp only at u1 u2 u3 u4 v1 v2 v3 v4
  simp only [Char_Unit.test_same_clear_cipher, Char_Unit.same_line, Char_Unit.inverse,
    Char_Unit.map, Prod.mk.injEq, ne_eq,
    hg a a u1 u1, hg a b u1 u2, hg a c u1 u3, hg a d u1 u4,
    hg a a' u1 v1, hg a b' u1 v2, hg a c' u1 v3, hg a d' u1 v4,
    hg b a u2 u1, hg b b u2 u2, hg b c u2 u3, hg b d u2 u4,
    hg b a' u2 v1, hg b b' u2 v2, hg b c' u2 v3, hg b d' u2 v4,
    hg c a u3 u1, hg c b u3 u2, hg c c u3 u3, hg c d u3 u4,
    hg c a' u3 v1, hg c b' u3 v2, hg c c' u3 v3, hg c d' u3 v4,
    hg d a u4 u1, hg d b u4 u2, hg d c u4 u3, hg d d u4 u4,
    hg d a' u4 v1, hg d b' u4 v2, hg d c' u4 v3, hg d d' u4 v4,
    hg a' a v1 u1, hg a' b v1 u2, hg a' c v1 u3, hg a' d v1 u4,
    hg a' a' v1 v1, hg a' b' v1 v2, hg a' c' v1 v3, hg a' d' v1 v4,
    hg b' a v2 u1, hg b' b v2 u2, hg b' c v2 u3, hg b' d v2 u4,
    hg b' a' v2 v1, hg b' b' v2 v2, hg b' c' v2 v3, hg b' d' v2 v4,
    hg c' a v3 u1, hg c' b v3 u2, hg c' c v3 u3, hg c' d v3 u4,
    hg c' a' v3 v1, hg c' b' v3 v2, hg c' c' v3 v3, hg c' d' v3 v4,
    hg d' a v4 u1, hg d' b v4 u2, hg d' c v4 u3, hg d' d v4 u4,
    hg d' a' v4 v1, hg d' b' v4 v2, hg d' c' v4 v3, hg d' d' v4 v4]

set_option maxRecDepth 1000000 in
set_option maxHeartbeats 4000000 in
set_option synthInstance.maxSize 4096 in
/-- The unit of the cells that encrypt the cells `c` and `d` passes
`test_same_clear_cipher` against the unit of `c` and `d`. -/
theorem cellUnit_chain : ∀ c, c < 25 → ∀ d, d < 25 → c ≠ d →
    (cellUnit (encrypt c d).1 (encrypt c d).2).test_same_clear_cipher (cellUnit c d) = true := by
  decide

theorem squareUnit_eq (key : Nat → Chr) (a b : Nat) (ha : a < 25) (hb : b < 25) (hab : a ≠ b) :
    squareUnit key a b = (cellUnit a b).map (fun x => key x.val) ∧
    squareUnit key a b =
      Char_Unit.mk (key a, key b) (key (encrypt a b).1, key (encrypt a b).2) := by
  obtain ⟨h1, h2, _, _⟩ := encrypt_facts a ha b hb hab
  have e : ∀ n, n < 25 → ((Fin.ofNat n : Chr)).val = n := fun n hn =>
    Nat.mod_eq_of_lt (by omega)
  unfold squareUnit cellUnit Char_Unit.map
  rw [(Rules.init_tables a b ha hb hab).1]
  dsimp only
  rw [e a ha, e b hb, e _ h1, e _ h2]
  exact ⟨rfl, rfl⟩

/-- For the units of a key square: the unit of the cells that encrypt `c` and
`d` passes `test_same_clear_cipher` against the unit of `c` and `d`. -/
theorem squareUnit_chain (key : Nat → Chr)
    (hkey : ∀ x y, x < 25 → y < 25 → key x = key y → x = y) (c d : Nat) (hc : c < 25)
    (hd : d < 25) (hcd : c ≠ d) :
    (squareUnit key (encrypt c d).1 (encrypt c d).2).test_same_clear_cipher
      (squareUnit key c d) = true := by
  obtain ⟨h1, h2, h3, _⟩ := encrypt_facts c hc d hd hcd
  obtain ⟨k1, k2, _, _⟩ := encrypt_facts _ h1 _ h2 h3
  have e : ∀ n, n < 25 → ((Fin.ofNat n : Chr)).val = n := fun n hn =>
    Nat.mod_eq_of_lt (by omega)
  rw [(squareUnit_eq key _ _ h1 h2 h3).1, (squareUnit_eq key c d hc hd hcd).1]
  rw [Char_Unit.test_same_clear_cipher_map (fun x => key x.val) (fun x => x.val < 25)
    (fun x y hx hy => ⟨fun h => Fin.ext (hkey _ _ hx hy h), fun h => by rw [h]⟩)]
  · exact cellUnit_chain c hc d hd hcd
  · show (Fin.ofNat _ : Chr).val < 25
    rw [e _ h1]; exact h1
  · show (Fin.ofNat _ : Chr).val < 25
    rw [e _ h2]; exact h2
  · show (Fin.ofNat _ : Chr).val < 25
    rw [e _ k1]; exact k1
  · show (Fin.ofNat _ : Chr).val < 25
    rw [e _ k2]; exact k2
  · show (Fin.ofNat _ : Chr).val < 25
    rw [e _ hc]; exact hc
  · show (Fin.ofNat _ : Chr).val < 25
    rw [e _ hd]; exact hd
  · show (Fin.ofNat _ : Chr).val < 25
    rw [e _ h1]; exact h1
  · show (Fin.ofNat _ : Chr).val < 25
    rw [e _ h2]; exact h2

theorem encrypt_inj (a b c d : Nat) (ha : a < 25) (hb : b < 25) (hab : a ≠ b) (hc : c < 25)
    (hd : d < 25) (hcd : c ≠ d) (h : encrypt a b = encrypt c d) : a = c ∧ b = d := by
  have e1 := (encrypt_facts a ha b hb hab).2.2.2
  have e2 := (encrypt_facts c hc d hd hcd).2.2.2
  rw [h, e2] at e1
  exact ⟨(Prod.mk.inj e1).1.symm, (Prod.mk.inj e1).2.symm⟩

theorem squareUnit_inverse (key : Nat → Chr) (a b : Nat) (ha : a < 25) (hb : b < 25)
    (hab : a ≠ b) : (squareUnit key a b).inverse = squareUnit key b a := by
  rw [(squareUnit_eq key a b ha hb hab).2, (squareUnit_eq key b a hb ha (Ne.symm hab)).2,
    encrypt_swap a ha b hb hab]
  rfl

end playfair

/-- C34: `Char_Unit::compatible` never rejects two units that come from the
same key square. For every assignment `key` of letters to the cells that gives
different cells below 25 different letters, and all cells `a ≠ b` and `c ≠ d`,
the unit that pairs the letters of `a` and `b` with the letters of the cells
`Rules::change` sends them to is compatible with the unit of `c` and `d`. -/
theorem compatible_accepts_square (key : Nat → Chr)
    (hkey : ∀ x y, x < 25 → y < 25 → key x = key y → x = y) (a b c d : Nat)
    (ha : a < 25) (hb : b < 25) (hab : a ≠ b) (hc : c < 25) (hd : d < 25) (hcd : c ≠ d) :
    (squareUnit key a b).compatible (squareUnit key c d) = true := by
  obtain ⟨a1, a2, a3, _⟩ := encrypt_facts a ha b hb hab
  obtain ⟨c1, c2, c3, _⟩ := encrypt_facts c hc d hd hcd
  have ch1 := squareUnit_chain key hkey c d hc hd hcd
  have ch2 := squareUnit_chain key hkey a b ha hb hab
  have ch3 := squareUnit_chain key hkey d c hd hc (Ne.symm hcd)
  have ch4 := squareUnit_chain key hkey b a hb ha (Ne.symm hab)
  have iv1 := squareUnit_inverse key c d hc hd hcd
  have iv2 := squareUnit_inverse key a b ha hb hab
  have sw1 := encrypt_swap a ha b hb hab
  have sw2 := encrypt_swap c hc d hd hcd
  have eu := (squareUnit_eq key a b ha hb hab).2
  have ev := (squareUnit_eq key c d hc hd hcd).2
  unfold Char_Unit.compatible
  by_cases h1 : (squareUnit key a b).clear_text = (squareUnit key c d).clear_text
  · rw [if_pos h1]
    rw [eu, ev] at h1
    simp only [Prod.mk.injEq] at h1
    have e1 := hkey _ _ ha hc h1.1
    have e2 := hkey _ _ hb hd h1.2
    subst e1; subst e2
    exact decide_eq_true rfl
  rw [if_neg h1]
  by_cases h2 : (squareUnit key a b).cipher_text = (squareUnit key c d).cipher_text
  · exfalso
    apply h1
    rw [eu, ev] at h2 ⊢
    simp only [Prod.mk.injEq] at h2 ⊢
    have e1 := hkey _ _ a1 c1 h2.1
    have e2 := hkey _ _ a2 c2 h2.2
    obtain ⟨r1, r2⟩ := encrypt_inj a b c d ha hb hab hc hd hcd (Prod.ext e1 e2)
    rw [r1, r2]
    exact ⟨rfl, rfl⟩
  rw [if_neg h2]
  by_cases h3 : cross_equal (squareUnit key a b).clear_text (squareUnit key c d).clear_text
      = true
  · rw [if_pos h3]
    rw [eu, ev] at h3 ⊢
    unfold cross_equal at h3 ⊢
    simp only [Bool.and_eq_true, decide_eq_true_eq] at h3 ⊢
    have e1 := hkey _ _ ha hd h3.1
    have e2 := hkey _ _ hb hc h3.2
    subst e1; subst e2
    rw [sw2]
    exact ⟨rfl, rfl⟩
  rw [if_neg h3]
  by_cases h4 : cross_equal (squareUnit key a b).cipher_text (squareUnit key c d).cipher_text
      = true
  · exfalso
    apply h3
    rw [eu, ev] at h4 ⊢
    unfold cross_equal at h4 ⊢
    simp only [Bool.and_eq_true, decide_eq_true_eq] at h4 ⊢
    have e1 := hkey _ _ a1 c2 h4.1
    have e2 := hkey _ _ a2 c1 h4.2
    obtain ⟨r1, r2⟩ := encrypt_inj a b d c ha hb hab hd hc (Ne.symm hcd)
      (by rw [encrypt_swap c hc d hd hcd]; exact Prod.ext e1 e2)
    rw [r1, r2]
    exact ⟨rfl, rfl⟩
  rw [if_neg h4]
  by_cases h5 : (squareUnit key a b).clear_text = (squareUnit key c d).cipher_text
  · rw [if_pos h5]
    rw [eu, ev] at h5
    simp only [Prod.mk.injEq] at h5
    have e1 := hkey _ _ ha c1 h5.1
    have e2 := hkey _ _ hb c2 h5.2
    rw [e1, e2]
    exact ch1
  rw [if_neg h5]
  by_cases h6 : (squareUnit key c d).clear_text = (squareUnit key a b).cipher_text
  · rw [if_pos h6]
    rw [eu, ev] at h6
    simp only [Prod.mk.injEq] at h6
    have e1 := hkey _ _ hc a1 h6.1
    have e2 := hkey _ _ hd a2 h6.2
    rw [e1, e2]
    exact ch2
  rw [if_neg h6]
  by_cases h7 : cross_equal (squareUnit key a b).clear_text (squareUnit key c d).cipher_text
      = true
  · rw [if_pos h7, iv1]
    rw [eu, ev] at h7
    unfold cross_equal at h7
    simp only [Bool.and_eq_true, decide_eq_true_eq] at h7
    have e1 := hkey _ _ ha c2 h7.1
    have e2 := hkey _ _ hb c1 h7.2
    have e3 : a = (encrypt d c).1 := by rw [encrypt_swap c hc d hd hcd]; exact e1
    have e4 : b = (encrypt d c).2 := by rw [encrypt_swap c hc d hd hcd]; exact e2
    rw [e3, e4]
    exact ch3
  rw [if_neg h7]
  by_cases h8 : cross_equal (squareUnit key c d).clear_text (squareUnit key a b).cipher_text
      = true
  · rw [if_pos h8, iv2]
    rw [eu, ev] at h8
    unfold cross_equal at h8
    simp only [Bool.and_eq_true, decide_eq_true_eq] at h8
    have e1 := hkey _ _ hc a2 h8.1
    have e2 := hkey _ _ hd a1 h8.2
    have e3 : c = (encrypt b a).1 := by rw [encrypt_swap a ha b hb hab]; exact e1
    have e4 : d = (encrypt b a).2 := by rw [encrypt_swap a ha b hb hab]; exact e2
    rw [e3, e4]
    exact ch4
  rw [if_neg h8]

/-- Witness for `compatible_accepts_square`: in the square that holds the
letters 'a', 'b', 'c', ... in the cells 0, 1, 2, ..., the unit of the cells 0
and 1 ("ab" to "bc") is compatible with the unit of the cells 1 and 2 ("bc" to
"cd"). -/
theorem compatible_accepts_square_witness :
    (squareUnit (fun n => Fin.ofNat (97 + n)) 0 1).compatible
      (squareUnit (fun n => Fin.ofNat (97 + n)) 1 2) = true :=
  compatible_accepts_square (fun n => Fin.ofNat (97 + n))
    (by
      intro x y hx hy h
      have h2 := congrArg Fin.val h
      simp only [Fin.ofNat] at h2
      omega)
    0 1 1 2 (by decide) (by decide) (by decide) (by decide) (by decide) (by decide)

end SquareUnits

section UnitRelation
open playfair

/-- C35, amended: `Char_Unit::compatible` is symmetric and reflexive, and
`u.same(v)` implies `u.compatible(v)` whenever neither the plaintext pair nor
the ciphertext pair of `u` is equal to its own reversal. -/
theorem char_unit_compatible_relation (u v : Char_Unit) :
    u.compatible v = v.compatible u ∧ u.compatible u = true ∧
    (u.same v = true → u.clear_text ≠ (u.clear_text.2, u.clear_text.1) →
      u.cipher_text ≠ (u.cipher_text.2, u.cipher_text.1) → u.compatible v = true) := by
  refine ⟨Char_Unit.compatible_comm u v, Char_Unit.compatible_self u, ?_⟩
  intro hs hc hw
  unfold Char_Unit.same cross_equal at hs
  simp only [Bool.or_eq_true, Bool.and_eq_true, decide_eq_true_eq] at hs
  rcases hs with ⟨e1, e2⟩ | ⟨⟨e1, e2⟩, e3, e4⟩
  · have e : u = v := by
      cases u; cases v
      simp only at e1 e2
      rw [e1, e2]
    rw [← e]
    exact Char_Unit.compatible_self u
  · have n1 : u.clear_text ≠ v.clear_text := by
      intro h
      apply hc
      rw [Prod.ext_iff]
      rw [Prod.ext_iff] at h
      exact ⟨h.1.trans e2.symm, h.2.trans e1.symm⟩
    have n2 : u.cipher_text ≠ v.cipher_text := by
      intro h
      apply hw
      rw [Prod.ext_iff]
      rw [Prod.ext_iff] at h
      exact ⟨h.1.trans e4.symm, h.2.trans e3.symm⟩
    unfold Char_Unit.compatible
    rw [if_neg n1, if_neg n2]
    have c1 : cross_equal u.clear_text v.clear_text = true := by
      unfold cross_equal
      simp only [e1, e2, decide_True, Bool.and_self]
    have c2 : cross_equal u.cipher_text v.cipher_text = true := by
      unfold cross_equal
      simp only [e3, e4, decide_True, Bool.and_self]
    rw [if_pos c1, c2]

/-- Witness for `char_unit_compatible_relation`: the unit "ab" to "cd" and its
reversal "ba" to "dc" are the same and compatible. -/
theorem char_unit_compatible_relation_witness :
    Char_Unit.same { clear_text := (97, 98), cipher_text := (99, 100) }
      { clear_text := (98, 97), cipher_text := (100, 99) } = true ∧
    Char_Unit.compatible { clear_text := (97, 98), cipher_text := (99, 100) }
      { clear_text := (98, 97), cipher_text := (100, 99) } = true :=
  ⟨by decide,
   (char_unit_compatible_relation { clear_text := (97, 98), cipher_text := (99, 100) }
     { clear_text := (98, 97), cipher_text := (100, 99) }).2.2 (by decide) (by decide)
     (by decide)⟩

/-- C35, as stated, fails in its last part: the unit "ab" to "xx" and the unit
"ba" to "xx" are the same, the plaintext pair "ab" is not its own reversal,
yet the two units are not compatible; the ciphertext pair "xx" is its own
reversal. -/
theorem char_unit_same_not_compatible :
    Char_Unit.same { clear_text := (97, 98), cipher_text := (120, 120) }
      { clear_text := (98, 97), cipher_text := (120, 120) } = true ∧
    ((97, 98) : Char_Pair) ≠ (98, 97) ∧
    Char_Unit.compatible { clear_text := (97, 98), cipher_text := (120, 120) }
      { clear_text := (98, 97), cipher_text := (120, 120) } = false := by
  decide

end UnitRelation

section PushRejected
open simple chaotic playfair

/-- C38: for each of the five matchers a push that returns false leaves the
matcher state exactly unchanged. -/
theorem push_false_unchanged :
    (∀ (s : Simple) (clear cipher : Str) (ch : Chr),
      (s.push clear cipher ch).1 = false → (s.push clear cipher ch).2 = s) ∧
    (∀ (s : Bigram) (clear cipher : Str) (ch : Chr),
      (s.push clear cipher ch).1 = false → (s.push clear cipher ch).2 = s) ∧
    (∀ (s : Pelling) (clear cipher : Str) (ch : Chr),
      (s.push clear cipher ch).1 = false → (s.push clear cipher ch).2 = s) ∧
    (∀ (s : Chaotic) (clear cipher : Str) (ch : Chr),
      (s.push clear cipher ch).1 = false → (s.push clear cipher ch).2 = s) ∧
    (∀ (s : Playfair) (clear cipher : Str) (ch : Chr),
      (s.push clear cipher ch).1 = false → (s.push clear cipher ch).2 = s) := by
  refine ⟨?_, ?_, ?_, ?_, ?_⟩
  · intro s clear cipher ch
    unfold Simple.push
    dsimp only
    split_ifs
    · intro h; exact h.elim
    · intro _; rfl
  · intro s clear cipher ch
    unfold Bigram.push
    dsimp only
    split_ifs
    · intro _; rfl
    · intro h; exact h.elim
    · intro _; rfl
  · intro s clear cipher ch
    unfold Pelling.push
    dsimp only
    split_ifs
    · intro h; exact h.elim
    · intro _; rfl
  · intro s clear cipher ch
    unfold Chaotic.push
    split_ifs
    · intro _; rfl
    · intro h; exact h.elim
    · intro _; rfl
  · intro s clear cipher ch
    unfold Playfair.push
    dsimp only
    split_ifs
    all_goals first
      | (intro _; rfl)
      | (intro h; exact h.elim)

/-- Witness for `push_false_unchanged`: on the `Simple` matcher that has bound
'a' to 'x', the push of 'a' over 'y' is rejected and leaves the matcher as it
was. -/
theorem push_false_unchanged_witness :
    ((Simple.init.push [] [120] 97).2.push [] [121] 97).1 = false ∧
    ((Simple.init.push [] [120] 97).2.push [] [121] 97).2 = (Simple.init.push [] [120] 97).2 :=
  ⟨by decide,
   push_false_unchanged.1 (Simple.init.push [] [120] 97).2 [] [121] 97 (by decide)⟩

end PushRejected

section PushPop
open simple

namespace simple

theorem Reference.alike_refl {σ : Type} (r : Reference σ) : r.Alike r := ⟨rfl, fun _ => rfl⟩

theorem Reference.Alike.compat {σ : Type} [DecidableEq σ] {r q : Reference σ} (h : r.Alike q)
    (ch : σ) : r.is_compatible ch = q.is_compatible ch := by
  unfold Reference.is_compatible
  rw [h.1]
  by_cases h0 : q.counter = 0
  · simp [h0]
  · rw [h.2 h0]

theorem Reference.Alike.inc_both {σ : Type} {r q : Reference σ} (h : r.Alike q) (ch : σ) :
    (r.inc ch).Alike (q.inc ch) := by
  unfold Reference.inc
  exact ⟨by rw [h.1], fun _ => rfl⟩

theorem Reference.alike_dec_inc {σ : Type} [DecidableEq σ] (r : Reference σ) (ch : σ)
    (hlt : r.counter < SIZE_MOD) (hc : r.is_compatible ch = true) :
    ((r.inc ch).dec).Alike r := by
  rw [Reference.dec_inc r ch hlt]
  refine ⟨rfl, ?_⟩
  intro h0
  unfold Reference.is_compatible at hc
  simp only [Bool.or_eq_true, decide_eq_true_eq] at hc
  rcases hc with hc | hc
  · exact absurd hc h0
  · exact hc

theorem Simple.Alike.push_simple {s t : Simple} (h : s.Alike t) (clear cipher : Str) (ch : Chr) :
    (s.push clear cipher ch).1 = (t.push clear cipher ch).1 ∧
    (s.push clear cipher ch).2.Alike (t.push clear cipher ch).2 := by
  have c1 := (h ch).1.compat (cipher.at clear.length)
  have c2 := (h (cipher.at clear.length)).2.compat ch
  unfold Simple.push
  dsimp only
  rw [c1, c2]
  split_ifs
  · refine ⟨rfl, ?_⟩
    intro x
    dsimp only
    constructor
    · by_cases e : x = ch
      · subst e
        rw [Function.update_same, Function.update_same]
        exact (h x).1.inc_both _
      · rw [Function.update_noteq e, Function.update_noteq e]
        exact (h x).1
    · by_cases e : x = cipher.at clear.length
      · rw [e, Function.update_same, Function.update_same]
        exact (h _).2.inc_both _
      · rw [Function.update_noteq e, Function.update_noteq e]
        exact (h x).2
  · exact ⟨rfl, h⟩

theorem Simple.Alike.results_simple : ∀ (calls : List (Str × Str × Chr)) (s t : Simple),
    s.Alike t → s.results calls = t.results calls
  | [], _, _, _ => rfl
  | c :: rest, s, t, h => by
    obtain ⟨h1, h2⟩ := h.push_simple c.1 c.2.1 c.2.2
    unfold Simple.results
    rw [h1, Simple.Alike.results_simple rest _ _ h2]

theorem Simple.alike_pop_simple (s : Simple) (clear cipher : Str) (ch : Chr)
    (hsub : (s.sub ch).counter < SIZE_MOD)
    (hinv : (s.inv (cipher.at clear.length)).counter < SIZE_MOD)
    (hpush : (s.push clear cipher ch).1 = true) :
    ((s.push clear cipher ch).2.pop clear cipher ch).Alike s := by
  have hc := (Simple.push_fst_iff s clear cipher ch).1 hpush
  have k1 : (s.sub ch).is_compatible (cipher.at clear.length) = true := by
    unfold Reference.is_compatible
    simp only [Bool.or_eq_true, decide_eq_true_eq]
    exact hc.1
  have k2 : (s.inv (cipher.at clear.length)).is_compatible ch = true := by
    unfold Reference.is_compatible
    simp only [Bool.or_eq_true, decide_eq_true_eq]
    exact hc.2
  rw [Simple.push_snd_of_true s clear cipher ch hpush]
  intro x
  unfold Simple.pop
  dsimp only
  constructor
  · by_cases e : x = ch
    · subst e
      rw [Function.update_same, Function.update_same]
      exact Reference.alike_dec_inc _ _ hsub k1
    · rw [Function.update_noteq e, Function.update_noteq e]
      exact Reference.alike_refl _
  · by_cases e : x = cipher.at clear.length
    · rw [e, Function.update_same, Function.update_same]
      exact Reference.alike_dec_inc _ _ hinv k2
    · rw [Function.update_noteq e, Function.update_noteq e]
      exact Reference.alike_refl _

theorem update2_apply {α : Type} (t : Chr → Chr → α) (i j : Chr) (v : α) (x y : Chr) :
    update2 t i j v x y = if x = i ∧ y = j then v else t x y := by
  unfold update2
  by_cases e1 : x = i
  · subst e1
    rw [Function.update_same]
    by_cases e2 : y = j
    · subst e2
      rw [Function.update_same, if_pos ⟨rfl, rfl⟩]
    · rw [Function.update_noteq e2, if_neg (fun h => e2 h.2)]
  · rw [Function.update_noteq e1, if_neg (fun h => e1 h.1)]

theorem Bigram.Alike.push_bigram {s t : Bigram} (h : s.Alike t) (clear cipher : Str) (ch : Chr) :
    (s.push clear cipher ch).1 = (t.push clear cipher ch).1 ∧
    (s.push clear cipher ch).2.Alike (t.push clear cipher ch).2 := by
  have c1 := (h clear.back ch).1.compat (cipher.at (clear.length - 1), cipher.at clear.length)
  have c2 := (h (cipher.at (clear.length - 1)) (cipher.at clear.length)).2.compat (clear.back, ch)
  unfold Bigram.push
  dsimp only
  rw [c1, c2]
  split_ifs
  · exact ⟨rfl, h⟩
  · refine ⟨rfl, ?_⟩
    intro x y
    dsimp only
    rw [update2_apply, update2_apply, update2_apply, update2_apply]
    constructor
    · split_ifs
      · exact (h _ _).1.inc_both _
      · exact (h x y).1
    · split_ifs
      · exact (h _ _).2.inc_both _
      · exact (h x y).2
  · exact ⟨rfl, h⟩

theorem Bigram.Alike.results_bigram : ∀ (calls : List (Str × Str × Chr)) (s t : Bigram),
    s.Alike t → s.results calls = t.results calls
  | [], _, _, _ => rfl
  | c :: rest, s, t, h => by
    obtain ⟨h1, h2⟩ := h.push_bigram c.1 c.2.1 c.2.2
    unfold Bigram.results
    rw [h1, Bigram.Alike.results_bigram rest _ _ h2]

theorem Bigram.alike_pop_bigram (s : Bigram) (clear cipher : Str) (ch : Chr)
    (hsub : (s.sub clear.back ch).counter < SIZE_MOD)
    (hinv : (s.inv (cipher.at (clear.length - 1)) (cipher.at clear.length)).counter < SIZE_MOD)
    (hpush : (s.push clear cipher ch).1 = true) :
    ((s.push clear cipher ch).2.pop clear cipher ch).Alike s := by
  unfold Bigram.push at hpush ⊢
  unfold Bigram.pop
  dsimp only at hpush ⊢
  by_cases hev : clear.length % 2 = 0
  · rw [if_pos hev, if_neg (by omega)]
    intro x y
    exact ⟨Reference.alike_refl _, Reference.alike_refl _⟩
  · rw [if_neg hev] at hpush ⊢
    rw [if_pos (by omega)]
    by_cases hc : ((s.sub clear.back ch).is_compatible
        (cipher.at (clear.length - 1), cipher.at clear.length) &&
        (s.inv (cipher.at (clear.length - 1)) (cipher.at clear.length)).is_compatible
          (clear.back, ch)) = true
    · rw [if_pos hc]
      rw [Bool.and_eq_true] at hc
      intro x y
      dsimp only
      constructor
      · by_cases e : x = clear.back ∧ y = ch
        · obtain ⟨rfl, rfl⟩ := e
          simp only [update2_apply, and_self, if_true]
          exact Reference.alike_dec_inc _ _ hsub hc.1
        · simp only [update2_apply, e, if_false]
          exact Reference.alike_refl _
      · by_cases e : x = cipher.at (clear.length - 1) ∧ y = cipher.at clear.length
        · obtain ⟨rfl, rfl⟩ := e
          simp only [update2_apply, and_self, if_true]
          exact Reference.alike_dec_inc _ _ hinv hc.2
        · simp only [update2_apply, e, if_false]
          exact Reference.alike_refl _
    · rw [if_neg hc] at hpush
      exact Bool.noConfusion hpush

theorem tableAt_set (l : List (Chr → Reference Chr)) (i j : Nat) (v : Chr → Reference Chr) :
    tableAt (l.set i v) j = if j = i ∧ i < l.length then v else tableAt l j := by
  unfold tableAt
  rw [List.getD_eq_getElem?_getD, List.getD_eq_getElem?_getD, List.getElem?_set]
  by_cases e : i = j
  · subst e
    by_cases hl : i < l.length
    · rw [if_pos rfl, if_pos hl, if_pos ⟨rfl, hl⟩]
      rfl
    · rw [if_pos rfl, if_neg hl, if_neg (fun h => hl h.2), List.getElem?_eq_none (by omega)]
  · rw [if_neg e, if_neg (fun h => e h.1.symm)]

theorem Pelling.Alike.push_pelling {s t : Pelling} (h : s.Alike t) (clear cipher : Str)
    (ch : Chr) :
    (s.push clear cipher ch).1 = (t.push clear cipher ch).1 ∧
    (s.push clear cipher ch).2.Alike (t.push clear cipher ch).2 := by
  obtain ⟨hc, hs, hi, he⟩ := h
  have c1 := (he (clear.length % t.count) ch).1.compat (cipher.at clear.length)
  have c2 := (he (clear.length % t.count) (cipher.at clear.length)).2.compat ch
  unfold Pelling.push
  dsimp only
  rw [hc, c1, c2]
  split_ifs
  · refine ⟨rfl, rfl, ?_, ?_, ?_⟩
    · simp only [List.length_set]; exact hs
    · simp only [List.length_set]; exact hi
    · intro j x
      dsimp only
      rw [tableAt_set, tableAt_set, tableAt_set, tableAt_set, hs, hi]
      constructor
      · by_cases e : j = clear.length % t.count ∧ clear.length % t.count < t.sub.length
        · rw [if_pos e, if_pos e]
          by_cases ex : x = ch
          · subst ex
            rw [Function.update_same, Function.update_same]
            exact (he _ _).1.inc_both _
          · rw [Function.update_noteq ex, Function.update_noteq ex]
            exact (he _ _).1
        · rw [if_neg e, if_neg e]
          exact (he j x).1
      · by_cases e : j = clear.length % t.count ∧ clear.length % t.count < t.inv.length
        · rw [if_pos e, if_pos e]
          by_cases ex : x = cipher.at clear.length
          · rw [ex, Function.update_same, Function.update_same]
            exact (he _ _).2.inc_both _
          · rw [Function.update_noteq ex, Function.update_noteq ex]
            exact (he _ _).2
        · rw [if_neg e, if_neg e]
          exact (he j x).2
  · exact ⟨rfl, hc, hs, hi, he⟩

theorem Pelling.Alike.results_pelling : ∀ (calls : List (Str × Str × Chr)) (s t : Pelling),
    s.Alike t → s.results calls = t.results calls
  | [], _, _, _ => rfl
  | c :: rest, s, t, h => by
    obtain ⟨h1, h2⟩ := h.push_pelling c.1 c.2.1 c.2.2
    unfold Pelling.results
    rw [h1, Pelling.Alike.results_pelling rest _ _ h2]

theorem Pelling.alike_pop_pelling (s : Pelling) (clear cipher : Str) (ch : Chr)
    (hsub : (tableAt s.sub (clear.length % s.count) ch).counter < SIZE_MOD)
    (hinv : (tableAt s.inv (clear.length % s.count) (cipher.at clear.length)).counter
      < SIZE_MOD)
    (hpush : (s.push clear cipher ch).1 = true) :
    ((s.push clear cipher ch).2.pop clear cipher ch).Alike s := by
  unfold Pelling.push at hpush ⊢
  dsimp only at hpush ⊢
  by_cases hc : ((tableAt s.sub (clear.length % s.count) ch).is_compatible
      (cipher.at clear.length) &&
      (tableAt s.inv (clear.length % s.count) (cipher.at clear.length)).is_compatible ch) = true
  · rw [if_pos hc]
    rw [Bool.and_eq_true] at hc
    unfold Pelling.pop
    dsimp only
    refine ⟨rfl, ?_, ?_, ?_⟩
    · simp only [List.length_set]
    · simp only [List.length_set]
    · intro j x
      simp only [tableAt_set, List.length_set]
      constructor
      · by_cases e : j = clear.length % s.count ∧ clear.length % s.count < s.sub.length
        · obtain ⟨rfl, e2⟩ := e
          simp only [e2, and_self, if_true, true_and]
          by_cases ex : x = ch
          · subst ex
            rw [Function.update_same, Function.update_same]
            exact Reference.alike_dec_inc _ _ hsub hc.1
          · rw [Function.update_noteq ex, Function.update_noteq ex]
            exact Reference.alike_refl _
        · simp only [e, if_false]
          exact Reference.alike_refl _
      · by_cases e : j = clear.length % s.count ∧ clear.length % s.count < s.inv.length
        · obtain ⟨rfl, e2⟩ := e
          simp only [e2, and_self, if_true, true_and]
          by_cases ex : x = cipher.at clear.length
          · rw [ex, Function.update_same, Function.update_same]
            exact Reference.alike_dec_inc _ _ hinv hc.2
          · rw [Function.update_noteq ex, Function.update_noteq ex]
            exact Reference.alike_refl _
        · simp only [e, if_false]
          exact Reference.alike_refl _
  · rw [if_neg hc] at hpush
    exact Bool.noConfusion hpush

end simple

/-- C39: push followed by pop is observationally the identity for `Simple`,
`Bigram` and `Pelling`. After an accepted push and its matching pop (the
counters of the two entries touched being `size_t` values) the matcher is
alike the matcher before the push: every `Reference` counter equals its value
before the push and every `Reference` whose counter is non-zero has the same
symbol as before; and matchers that are alike return the same results for
every sequence of later pushes. -/
theorem push_pop_observational :
    (∀ (s : Simple) (clear cipher : Str) (ch : Chr),
      (s.sub ch).counter < SIZE_MOD → (s.inv (cipher.at clear.length)).counter < SIZE_MOD →
      (s.push clear cipher ch).1 = true →
      ((s.push clear cipher ch).2.pop clear cipher ch).Alike s ∧
      ∀ calls, ((s.push clear cipher ch).2.pop clear cipher ch).results calls
        = s.results calls) ∧
    (∀ (s : Bigram) (clear cipher : Str) (ch : Chr),
      (s.sub clear.back ch).counter < SIZE_MOD →
      (s.inv (cipher.at (clear.length - 1)) (cipher.at clear.length)).counter < SIZE_MOD →
      (s.push clear cipher ch).1 = true →
      ((s.push clear cipher ch).2.pop clear cipher ch).Alike s ∧
      ∀ calls, ((s.push clear cipher ch).2.pop clear cipher ch).results calls
        = s.results calls) ∧
    (∀ (s : Pelling) (clear cipher : Str) (ch : Chr),
      (tableAt s.sub (clear.length % s.count) ch).counter < SIZE_MOD →
      (tableAt s.inv (clear.length % s.count) (cipher.at clear.length)).counter < SIZE_MOD →
      (s.push clear cipher ch).1 = true →
      ((s.push clear cipher ch).2.pop clear cipher ch).Alike s ∧
      ∀ calls, ((s.push clear cipher ch).2.pop clear cipher ch).results calls
        = s.results calls) := by
  refine ⟨?_, ?_, ?_⟩
  · intro s clear cipher ch h1 h2 h3
    have h := Simple.alike_pop_simple s clear cipher ch h1 h2 h3
    exact ⟨h, fun calls => Simple.Alike.results_simple calls _ _ h⟩
  · intro s clear cipher ch h1 h2 h3
    have h := Bigram.alike_pop_bigram s clear cipher ch h1 h2 h3
    exact ⟨h, fun calls => Bigram.Alike.results_bigram calls _ _ h⟩
  · intro s clear cipher ch h1 h2 h3
    have h := Pelling.alike_pop_pelling s clear cipher ch h1 h2 h3
    exact ⟨h, fun calls => Pelling.Alike.results_pelling calls _ _ h⟩

/-- Witness for `push_pop_observational`: after the push of 'a' over "b" and
its pop on the fresh `Simple` matcher, the push of 'a' over "c" and the push
of 'd' over "cb" return what they return on the fresh matcher, although the
entry of 'a' now holds the stale symbol 'b'. -/
theorem push_pop_observational_witness :
    (((Simple.init.push [] [98] 97).2.pop [] [98] 97).sub 97).symbol = 98 ∧
    ((Simple.init.push [] [98] 97).2.pop [] [98] 97).results
        [([], [99], 97), ([97], [99, 98], 100)]
      = Simple.init.results [([], [99], 97), ([97], [99, 98], 100)] :=
  ⟨by decide,
   (push_pop_observational.1 Simple.init [] [98] 97 (by decide) (by decide) (by decide)).2 _⟩

end PushPop

section Pruning
open dict dict.Prefix_Tree main_cpp

namespace main_cpp

theorem Search.acceptable_mono (s : Search) (w w2 : Int) (hle : w2 ≤ w)
    (h1 : InRange64 (s.score + s.score_category))
    (h2 : InRange64 (s.score + s.score_category + max s.score_other w))
    (h3 : InRange64 (s.score + s.score_category + max s.score_other w2))
    (h : s.acceptable w ≠ 0) : s.acceptable w2 ≠ 0 := by
  have e1 := wrap64_of_range _ h1
  have e2 := wrap64_of_range _ h2
  have e3 := wrap64_of_range _ h3
  have hm : max s.score_other w2 ≤ max s.score_other w := max_le_max (le_refl _) hle
  unfold Search.acceptable at h ⊢
  simp only [e1, e2, e3] at h ⊢
  by_cases hc : s.clear.length ≤ s.result.low_score_area
  · simp only [if_pos hc] at h ⊢
    split_ifs at h with hle1
    · rw [if_pos (by omega)]
      exact one_ne_zero
    · exact absurd rfl h
  · simp only [if_neg hc] at h ⊢
    split_ifs at h with hle1
    · rw [if_pos (by omega)]
      exact one_ne_zero
    · exact absurd rfl h

theorem InRange64.between (a x y z : Int) (hxy : x ≤ y) (hyz : y ≤ z) (hx : InRange64 (a + x))
    (hz : InRange64 (a + z)) : InRange64 (a + y) := by
  unfold InRange64 at *
  omega

end main_cpp

/-- C40: admissibility is monotone in the probe score and pruning by the
subtree minimum is safe. For a fixed search state in which the sums of
`acceptable` are values of `int64_t`: if `acceptable(w)` is true and `w2 <= w`
then `acceptable(w2)` is true; consequently, for a node `n` of a tree scored by
`calc_scores`, if `acceptable(n.min_score())` is false then
`acceptable(t.score())` is false for every word `t` at or below `n`. The
function `calc_score` returns a `small_score_t`, so its values are at most
`INF_SCORE`. -/
theorem acceptable_monotone (s : Search) (h1 : InRange64 (s.score + s.score_category)) :
    (∀ w w2 : Int, w2 ≤ w →
      InRange64 (s.score + s.score_category + max s.score_other w) →
      InRange64 (s.score + s.score_category + max s.score_other w2) →
      s.acceptable w ≠ 0 → s.acceptable w2 ≠ 0) ∧
    (∀ (calc_score : Nat → Nat → Int) (max_hits : Nat) (t : Prefix_Tree Nat),
      (∀ h m, calc_score h m ≤ INF_SCORE) →
      ∀ n ∈ nodes (calc_scores calc_score max_hits t),
        InRange64 (s.score + s.score_category + max s.score_other n.min_score) →
        InRange64 (s.score + s.score_category + max s.score_other INF_SCORE) →
        s.acceptable n.min_score = 0 →
        ∀ x ∈ nodes n, x.is_word = true → s.acceptable x.score = 0) := by
  constructor
  · intro w w2 hle h2 h3 h
    exact Search.acceptable_mono s w w2 hle h1 h2 h3 h
  · intro cs mh t hcs n hn r1 r2 hrej x hx hw
    obtain ⟨g1, _, g3, _⟩ := Prefix_Tree.calc_scores_minScored cs hcs mh t n hn
    have hle := g1 x hx hw
    have hup := g3 x hx
    have r3 : InRange64 (s.score + s.score_category + max s.score_other x.score) :=
      InRange64.between _ _ _ _ (max_le_max (le_refl _) hle) (max_le_max (le_refl _) hup) r1 r2
    by_contra hacc
    exact Search.acceptable_mono s x.score n.min_score hle h1 r3 r1 hacc hrej

/-- Witness for `acceptable_monotone`: with the limits 3/150/250, a plaintext
of five characters and the scores 700 + 50, the probe 200 is acceptable, and
so is the probe 100. -/
theorem acceptable_monotone_witness :
    Search.acceptable
      { result := { low_score_area := 3, low_score_limit := 150, high_score_limit := 250 },
        clear := [97, 98, 99, 100, 101], score := 700, score_category := 50,
        score_other := 100 } 100 ≠ 0 :=
  (acceptable_monotone
    { result := { low_score_area := 3, low_score_limit := 150, high_score_limit := 250 },
      clear := [97, 98, 99, 100, 101], score := 700, score_category := 50,
      score_other := 100 } (by decide)).1 200 100 (by decide) (by decide) (by decide)
    (by decide)

end Pruning

section BestScores
open dict main_cpp

namespace main_cpp

theorem uptoHit_of_hit (pre suf : List (Nat × Int)) (h : ∃ l ∈ pre, 0 < l.1) :
    uptoHit (pre ++ suf) = uptoHit pre := by
  have hlt : pre.findIdx (fun l => decide (0 < l.1)) < pre.length := by
    apply List.findIdx_lt_length_of_exists
    obtain ⟨l, hl, h0⟩ := h
    exact ⟨l, hl, decide_eq_true h0⟩
  unfold uptoHit
  rw [List.findIdx_append, if_pos hlt, List.take_append_of_le_length (by omega)]

theorem uptoHit_of_none (pre : List (Nat × Int)) (h : ¬ ∃ l ∈ pre, 0 < l.1) :
    uptoHit pre = pre := by
  have he : pre.findIdx (fun l => decide (0 < l.1)) = pre.length := by
    apply List.findIdx_eq_length_of_false
    intro l hl
    exact decide_eq_false (fun h0 => h ⟨l, hl, h0⟩)
  unfold uptoHit
  rw [he]
  exact List.take_of_length_le (by omega)

theorem uptoHit_snoc (pre : List (Nat × Int)) (l : Nat × Int) (h : ¬ ∃ x ∈ pre, 0 < x.1) :
    uptoHit (pre ++ [l]) = pre ++ [l] := by
  have he : pre.findIdx (fun l => decide (0 < l.1)) = pre.length := by
    apply List.findIdx_eq_length_of_false
    intro x hx
    exact decide_eq_false (fun h0 => h ⟨x, hx, h0⟩)
  unfold uptoHit
  rw [List.findIdx_append, if_neg (by omega)]
  apply List.take_of_length_le
  rw [List.length_append, List.length_singleton]
  omega

/-- The invariant of the folding for one category: after the levels `pre` the
flag tells whether one of them has hits, and the score is the maximum of the
scores of the levels up to and including the first one with hits. -/
theorem bestPair_step (pre : List (Nat × Int)) (b : Bool × Int) (l : Nat × Int)
    (h1 : b.1 = true ↔ ∃ x ∈ pre, 0 < x.1)
    (h2 : ∀ x ∈ uptoHit pre, x.2 ≤ b.2) (h3 : ∃ x ∈ uptoHit pre, x.2 = b.2) :
    ((b.1 || decide (0 < l.1)) = true ↔ ∃ x ∈ pre ++ [l], 0 < x.1) ∧
    (∀ x ∈ uptoHit (pre ++ [l]), x.2 ≤ (if b.1 then b.2 else max b.2 l.2)) ∧
    (∃ x ∈ uptoHit (pre ++ [l]), x.2 = (if b.1 then b.2 else max b.2 l.2)) := by
  refine ⟨?_, ?_⟩
  · rw [Bool.or_eq_true, h1, decide_eq_true_eq]
    constructor
    · rintro (⟨x, hx, h0⟩ | h0)
      · exact ⟨x, List.mem_append_left _ hx, h0⟩
      · exact ⟨l, List.mem_append_right _ (List.mem_singleton_self l), h0⟩
    · rintro ⟨x, hx, h0⟩
      rcases List.mem_append.1 hx with hx | hx
      · exact Or.inl ⟨x, hx, h0⟩
      · rw [List.mem_singleton.1 hx] at h0
        exact Or.inr h0
  · by_cases hb : b.1 = true
    · rw [if_pos hb, uptoHit_of_hit pre [l] (h1.1 hb)]
      exact ⟨h2, h3⟩
    · have hn : ¬ ∃ x ∈ pre, 0 < x.1 := fun h => hb (h1.2 h)
      rw [if_neg hb, uptoHit_snoc pre l hn]
      rw [uptoHit_of_none pre hn] at h2 h3
      constructor
      · intro x hx
        rcases List.mem_append.1 hx with hx | hx
        · exact le_trans (h2 x hx) (le_max_left _ _)
        · rw [List.mem_singleton.1 hx]
          exact le_max_right _ _
      · rcases max_choice b.2 l.2 with e | e
        · obtain ⟨x, hx, hxe⟩ := h3
          exact ⟨x, List.mem_append_left _ hx, by rw [e]; exact hxe⟩
        · exact ⟨l, List.mem_append_right _ (List.mem_singleton_self l), e.symm⟩

theorem bestPair_fold : ∀ (rest pre : List (Nat × Int)) (b : Bool × Int),
    (b.1 = true ↔ ∃ x ∈ pre, 0 < x.1) → (∀ x ∈ uptoHit pre, x.2 ≤ b.2) →
    (∃ x ∈ uptoHit pre, x.2 = b.2) →
    (((rest.foldl (fun b l => (b.1 || decide (0 < l.1), if b.1 then b.2 else max b.2 l.2))
        b).1 = true ↔ ∃ x ∈ pre ++ rest, 0 < x.1) ∧
      (∀ x ∈ uptoHit (pre ++ rest), x.2 ≤ (rest.foldl
        (fun b l => (b.1 || decide (0 < l.1), if b.1 then b.2 else max b.2 l.2)) b).2) ∧
      (∃ x ∈ uptoHit (pre ++ rest), x.2 = (rest.foldl
        (fun b l => (b.1 || decide (0 < l.1), if b.1 then b.2 else max b.2 l.2)) b).2))
  | [], pre, b, h1, h2, h3 => by
    rw [List.append_nil]
    exact ⟨h1, h2, h3⟩
  | l :: rest, pre, b, h1, h2, h3 => by
    obtain ⟨k1, k2, k3⟩ := bestPair_step pre b l h1 h2 h3
    have ih := bestPair_fold rest (pre ++ [l])
      (b.1 || decide (0 < l.1), if b.1 then b.2 else max b.2 l.2) k1 k2 k3
    rw [List.append_assoc, List.singleton_append] at ih
    exact ih

/-- The folding for one category: the flag tells whether some level has hits,
and the score is the maximum of the scores of the levels up to and including
the first one with hits (of all levels if none has hits). -/
theorem bestPair_spec (first : Nat × Int) (rest : List (Nat × Int)) :
    ((bestPair first rest).1 = true ↔ ∃ x ∈ first :: rest, 0 < x.1) ∧
    (∀ x ∈ uptoHit (first :: rest), x.2 ≤ (bestPair first rest).2) ∧
    (∃ x ∈ uptoHit (first :: rest), x.2 = (bestPair first rest).2) := by
  have hu : uptoHit [first] = [first] := by
    unfold uptoHit
    apply List.take_of_length_le
    rw [List.length_singleton]
    omega
  have h := bestPair_fold rest [first] (decide (0 < first.1), first.2)
    (by
      rw [decide_eq_true_eq]
      constructor
      · intro h0
        exact ⟨first, List.mem_singleton_self _, h0⟩
      · rintro ⟨x, hx, h0⟩
        rw [List.mem_singleton.1 hx] at h0
        exact h0)
    (by
      rw [hu]
      intro x hx
      rw [List.mem_singleton.1 hx])
    (by
      rw [hu]
      exact ⟨first, List.mem_singleton_self _, rfl⟩)
  rw [List.singleton_append] at h
  exact h

theorem Best_Scores.foldl_pairs : ∀ (shallower : List Word_Ngram_Tree) (b : Best_Scores),
    (shallower.foldl Best_Scores.combine b).proper =
      (shallower.map (fun t => (t.proper_hits, t.proper_score))).foldl
        (fun b l => (b.1 || decide (0 < l.1), if b.1 then b.2 else max b.2 l.2)) b.proper ∧
    (shallower.foldl Best_Scores.combine b).numeric =
      (shallower.map (fun t => (t.numeric_hits, t.numeric_score))).foldl
        (fun b l => (b.1 || decide (0 < l.1), if b.1 then b.2 else max b.2 l.2)) b.numeric ∧
    (shallower.foldl Best_Scores.combine b).comma =
      (shallower.map (fun t => (t.comma_hits, t.comma_score))).foldl
        (fun b l => (b.1 || decide (0 < l.1), if b.1 then b.2 else max b.2 l.2)) b.comma
  | [], _ => ⟨rfl, rfl, rfl⟩
  | t :: rest, b => by
    obtain ⟨h1, h2, h3⟩ := Best_Scores.foldl_pairs rest (b.combine t)
    simp only [List.foldl_cons, List.map_cons]
    exact ⟨h1, h2, h3⟩

theorem Best_Scores.fold_pairs (deepest : Word_Ngram_Tree) (shallower : List Word_Ngram_Tree) :
    (Best_Scores.fold deepest shallower).proper =
      bestPair (deepest.proper_hits, deepest.proper_score)
        (shallower.map (fun t => (t.proper_hits, t.proper_score))) ∧
    (Best_Scores.fold deepest shallower).numeric =
      bestPair (deepest.numeric_hits, deepest.numeric_score)
        (shallower.map (fun t => (t.numeric_hits, t.numeric_score))) ∧
    (Best_Scores.fold deepest shallower).comma =
      bestPair (deepest.comma_hits, deepest.comma_score)
        (shallower.map (fun t => (t.comma_hits, t.comma_score))) :=
  Best_Scores.foldl_pairs shallower (Best_Scores.init deepest)

end main_cpp

/-- C32: `Best_Scores` folded over the context levels. Starting from
`Best_Scores(t)` of the deepest level and combining with each shallower level
through `Best_Scores(prev, t)`, for each category (proper, numeric, comma) the
resulting flag is true exactly when some visited level has hits of that
category, and the resulting score is the maximum of the scores of that
category over the levels from the deepest one up to and including the first
level, going from deepest to shallowest, that has hits of the category, or
over all visited levels if none has: it is at least each of these scores and
it is one of them. -/
theorem best_scores_fold (deepest : Word_Ngram_Tree) (shallower : List Word_Ngram_Tree) :
    (((Best_Scores.fold deepest shallower).proper.1 = true ↔
        ∃ t ∈ deepest :: shallower, 0 < t.proper_hits) ∧
      (∀ x ∈ uptoHit ((deepest :: shallower).map (fun t => (t.proper_hits, t.proper_score))),
        x.2 ≤ (Best_Scores.fold deepest shallower).proper.2) ∧
      (∃ x ∈ uptoHit ((deepest :: shallower).map (fun t => (t.proper_hits, t.proper_score))),
        x.2 = (Best_Scores.fold deepest shallower).proper.2)) ∧
    (((Best_Scores.fold deepest shallower).numeric.1 = true ↔
        ∃ t ∈ deepest :: shallower, 0 < t.numeric_hits) ∧
      (∀ x ∈ uptoHit ((deepest :: shallower).map (fun t => (t.numeric_hits, t.numeric_score))),
        x.2 ≤ (Best_Scores.fold deepest shallower).numeric.2) ∧
      (∃ x ∈ uptoHit ((deepest :: shallower).map (fun t => (t.numeric_hits, t.numeric_score))),
        x.2 = (Best_Scores.fold deepest shallower).numeric.2)) ∧
    (((Best_Scores.fold deepest shallower).comma.1 = true ↔
        ∃ t ∈ deepest :: shallower, 0 < t.comma_hits) ∧
      (∀ x ∈ uptoHit ((deepest :: shallower).map (fun t => (t.comma_hits, t.comma_score))),
        x.2 ≤ (Best_Scores.fold deepest shallower).comma.2) ∧
      (∃ x ∈ uptoHit ((deepest :: shallower).map (fun t => (t.comma_hits, t.comma_score))),
        x.2 = (Best_Scores.fold deepest shallower).comma.2)) := by
  obtain ⟨e1, e2, e3⟩ := Best_Scores.fold_pairs deepest shallower
  have flag : ∀ (f : Word_Ngram_Tree → Nat) (g : Word_Ngram_Tree → Int),
      (∃ x ∈ (f deepest, g deepest) :: shallower.map (fun t => (f t, g t)), 0 < x.1) ↔
        ∃ t ∈ deepest :: shallower, 0 < f t := by
    intro f g
    constructor
    · rintro ⟨x, hx, h0⟩
      rcases List.mem_cons.1 hx with rfl | hx
      · exact ⟨deepest, List.mem_cons_self _ _, h0⟩
      · obtain ⟨t, ht, rfl⟩ := List.mem_map.1 hx
        exact ⟨t, List.mem_cons_of_mem _ ht, h0⟩
    · rintro ⟨t, ht, h0⟩
      rcases List.mem_cons.1 ht with rfl | ht
      · exact ⟨_, List.mem_cons_self _ _, h0⟩
      · exact ⟨(f t, g t), List.mem_cons_of_mem _ (List.mem_map.2 ⟨t, ht, rfl⟩), h0⟩
  rw [e1, e2, e3]
  simp only [List.map_cons]
  refine ⟨?_, ?_, ?_⟩
  · obtain ⟨h1, h2, h3⟩ := bestPair_spec (deepest.proper_hits, deepest.proper_score)
      (shallower.map (fun t => (t.proper_hits, t.proper_score)))
    exact ⟨h1.trans (flag _ _), h2, h3⟩
  · obtain ⟨h1, h2, h3⟩ := bestPair_spec (deepest.numeric_hits, deepest.numeric_score)
      (shallower.map (fun t => (t.numeric_hits, t.numeric_score)))
    exact ⟨h1.trans (flag _ _), h2, h3⟩
  · obtain ⟨h1, h2, h3⟩ := bestPair_spec (deepest.comma_hits, deepest.comma_score)
      (shallower.map (fun t => (t.comma_hits, t.comma_score)))
    exact ⟨h1.trans (flag _ _), h2, h3⟩

/-- Witness for `best_scores_fold`: the deepest level has no proper names and
the score 5, the next has 2 with the score 9, the shallowest has 1 with the
score 20: the flag is true and the score is 9, the maximum up to and
including the first level with proper names. -/
theorem best_scores_fold_witness :
    (Best_Scores.fold (properLevel 0 5) [properLevel 2 9, properLevel 1 20]).proper
      = (true, 9) ∧
    ∃ x ∈ uptoHit (((properLevel 0 5) :: [properLevel 2 9, properLevel 1 20]).map
        (fun t => (t.proper_hits, t.proper_score))),
      x.2 = (Best_Scores.fold (properLevel 0 5) [properLevel 2 9, properLevel 1 20]).proper.2 :=
  ⟨by decide,
   (best_scores_fold (properLevel 0 5) [properLevel 2 9, properLevel 1 20]).1.2.2⟩

end BestScores

section FixedPrefix
open dict main_cpp

/-- C33: `Search::push_clear` honours the fixed prefix. With `n = |_clear|`:
if `n < |clear_fixed|`, the fixed character at `n` is not the wildcard ' '
(into which `Task` turns every '_' of the command line, leaving the other
characters as they are) and `ch` differs from it, `push_clear(ch)` returns
false and leaves the matcher and `_clear` as they are, whatever the matcher
does in `push`; otherwise it returns the result of the push of the matcher and
appends `ch` to `_clear` exactly when that result is true; `pop_clear` after a
successful `push_clear` restores `_clear` and pops `ch` from the matcher. -/
theorem push_clear_honours_fixed {μ : Type} (push : μ → Str → Str → Chr → Bool × μ)
    (pop : μ → Str → Str → Chr → μ) (clear_fixed cipher : Str) (s : Clear_State μ) (ch : Chr) :
    ((Task.clear_fixed clear_fixed).length = clear_fixed.length ∧
      ∀ n, n < clear_fixed.length → (Task.clear_fixed clear_fixed).at n =
        if clear_fixed.at n = 95 then Prefix_Tree.EMPTY else clear_fixed.at n) ∧
    (s.clear.length < (Task.clear_fixed clear_fixed).length →
      (Task.clear_fixed clear_fixed).at s.clear.length ≠ Prefix_Tree.EMPTY →
      ch ≠ (Task.clear_fixed clear_fixed).at s.clear.length →
      push_clear push (Task.clear_fixed clear_fixed) cipher s ch = (false, s)) ∧
    (¬ (s.clear.length < (Task.clear_fixed clear_fixed).length ∧
        (Task.clear_fixed clear_fixed).at s.clear.length ≠ Prefix_Tree.EMPTY ∧
        ch ≠ (Task.clear_fixed clear_fixed).at s.clear.length) →
      (push_clear push (Task.clear_fixed clear_fixed) cipher s ch).1 =
        (push s.matcher s.clear cipher ch).1 ∧
      (push_clear push (Task.clear_fixed clear_fixed) cipher s ch).2.matcher =
        (push s.matcher s.clear cipher ch).2 ∧
      (push_clear push (Task.clear_fixed clear_fixed) cipher s ch).2.clear =
        if (push s.matcher s.clear cipher ch).1 then s.clear ++ [ch] else s.clear) ∧
    ((push_clear push (Task.clear_fixed clear_fixed) cipher s ch).1 = true →
      (pop_clear pop cipher
        (push_clear push (Task.clear_fixed clear_fixed) cipher s ch).2).clear = s.clear ∧
      (pop_clear pop cipher
        (push_clear push (Task.clear_fixed clear_fixed) cipher s ch).2).matcher =
        pop (push s.matcher s.clear cipher ch).2 s.clear cipher ch) := by
  refine ⟨⟨?_, ?_⟩, ?_, ?_, ?_⟩
  · unfold Task.clear_fixed
    exact List.length_map _ _
  · intro n hn
    unfold Task.clear_fixed Str.at
    rw [List.getD_eq_getElem?_getD, List.getD_eq_getElem?_getD, List.getElem?_map,
      List.getElem?_eq_getElem hn]
    rfl
  · intro h1 h2 h3
    unfold push_clear
    rw [if_pos ⟨h1, h2, h3⟩]
  · intro h
    unfold push_clear
    rw [if_neg h]
    dsimp only
    by_cases hp : (push s.matcher s.clear cipher ch).1 = true
    · rw [if_pos hp, if_pos hp]
      exact ⟨hp.symm, rfl, rfl⟩
    · rw [if_neg hp, if_neg hp]
      rw [Bool.not_eq_true] at hp
      exact ⟨hp.symm, rfl, rfl⟩
  · unfold push_clear
    by_cases h : s.clear.length < (Task.clear_fixed clear_fixed).length ∧
        (Task.clear_fixed clear_fixed).at s.clear.length ≠ Prefix_Tree.EMPTY ∧
        ch ≠ (Task.clear_fixed clear_fixed).at s.clear.length
    · rw [if_pos h]
      intro h0
      exact Bool.noConfusion h0
    · rw [if_neg h]
      dsimp only
      by_cases hp : (push s.matcher s.clear cipher ch).1 = true
      · rw [if_pos hp]
        intro _
        unfold pop_clear Str.back
        dsimp only
        rw [List.dropLast_concat, List.length_append, List.length_singleton,
          Nat.add_sub_cancel, List.getD_eq_getElem?_getD,
          List.getElem?_append_right (Nat.le_refl _), Nat.sub_self]
        exact ⟨rfl, rfl⟩
      · rw [if_neg hp]
        intro h0
        exact Bool.noConfusion h0

/-- Witness for `push_clear_honours_fixed`: with the fixed prefix "t_" of the
command line and the `Simple` matcher, the push of 'a' at the position 0 is
refused, and the state is left as it is. -/
theorem push_clear_honours_fixed_witness :
    push_clear simple.Simple.push (Task.clear_fixed [116, 95]) [120, 121]
        { matcher := simple.Simple.init, clear := [] } 97
      = (false, { matcher := simple.Simple.init, clear := [] }) :=
  (push_clear_honours_fixed simple.Simple.push simple.Simple.pop [116, 95] [120, 121]
    { matcher := simple.Simple.init, clear := [] } 97).2.1 (by decide) (by decide) (by decide)

end FixedPrefix
